import Mathlib

/-!
# MyRbTree: an intrusive red-black tree with parent pointers

Shallow embedding of `src/include/rb-tree.h`, `src/src/rb-tree.c` and
`src/src/my-rb-tree.cc`.

* A pointer `RbNode*` is an `Option Nat`: `none` is `NULL`, `some a` is the address `a`.
* The memory is a total map from addresses to `RbNode` records together with the
  `rb_node` field of the single `RbRoot` handle.
* Every function that may dereference `NULL` or fail an `assert` returns an `Option`;
  `none` is the fault.  Loops take a `fuel` argument and also return `none` when it runs out.
-/

namespace MyRbTree

/-! ## The data model (`rb-tree.h`) -/

/-- The enum `Color` of `rb-tree.h`. -/
inductive Color where
  | kBlack
  | kRed
deriving DecidableEq, Repr

/-- The struct `RbNode` of `rb-tree.h`: a colour and three pointers. -/
structure RbNode where
  color : Color
  parent : Option Nat
  left : Option Nat
  right : Option Nat
deriving DecidableEq, Repr

/-- The memory: the record stored at every address, and the `rb_node` field of the
`RbRoot` handle the functions receive. -/
structure Mem where
  node : Nat → RbNode
  rb_node : Option Nat

/-- The assignment `a->color = c`. -/
def Mem.setColor (s : Mem) (a : Nat) (c : Color) : Mem :=
  { s with node := Function.update s.node a { s.node a with color := c } }

/-- The assignment `a->parent = p`. -/
def Mem.setParent (s : Mem) (a : Nat) (p : Option Nat) : Mem :=
  { s with node := Function.update s.node a { s.node a with parent := p } }

/-- The assignment `a->left = p`. -/
def Mem.setLeft (s : Mem) (a : Nat) (p : Option Nat) : Mem :=
  { s with node := Function.update s.node a { s.node a with left := p } }

/-- The assignment `a->right = p`. -/
def Mem.setRight (s : Mem) (a : Nat) (p : Option Nat) : Mem :=
  { s with node := Function.update s.node a { s.node a with right := p } }

/-- The function `SetColor`: `node->color = color`, a fault when `node` is `NULL`. -/
def SetColor (node : Option Nat) (color : Color) (s : Mem) : Option Mem :=
  match node with
  | none => none
  | some a => some (s.setColor a color)

/-- The function `IsRed`: `node != NULL && node->color == kRed`. -/
def IsRed (s : Mem) (node : Option Nat) : Bool :=
  match node with
  | none => false
  | some a => decide ((s.node a).color = Color.kRed)

/-- The function `IsBlack`: `node == NULL || node->color == kBlack`. -/
def IsBlack (s : Mem) (node : Option Nat) : Bool :=
  match node with
  | none => true
  | some a => decide ((s.node a).color = Color.kBlack)

/-- The function `IsEmptyRbRoot`: `root->rb_node == NULL`. -/
def IsEmptyRbRoot (s : Mem) : Bool :=
  decide (s.rb_node = none)

/-! ## Structural primitives (`rb-tree.c`) -/

/-- The function `Transplant(old_node, new_node, root)`. -/
def Transplant (old_node new_node : Option Nat) (s : Mem) : Option Mem :=
  match old_node with
  | none => none
  | some o =>
    let relinked : Option Mem :=
      if old_node = s.rb_node then
        (if (s.node o).parent = none then some { s with rb_node := new_node } else none)
      else
        match (s.node o).parent with
        | none => none
        | some p =>
          if (s.node p).left = old_node then some (s.setLeft p new_node)
          else if (s.node p).right = old_node then some (s.setRight p new_node)
          else some s
    match relinked with
    | none => none
    | some s1 =>
      match new_node with
      | none => some s1
      | some n => some (s1.setParent n (s1.node o).parent)

/-- The function `RotateLeft(x, root)`. -/
def RotateLeft (x : Option Nat) (s : Mem) : Option Mem :=
  match x with
  | none => none
  | some xa =>
    match (s.node xa).right with
    | none => none
    | some ya =>
      let b := (s.node ya).left
      match Transplant (some xa) (some ya) s with
      | none => none
      | some s1 =>
        let s2 := s1.setLeft ya (some xa)
        let s3 := s2.setParent xa (some ya)
        let s4 := s3.setRight xa b
        match b with
        | none => some s4
        | some ba => some (s4.setParent ba (some xa))

/-- The function `RotateRight(x, root)`. -/
def RotateRight (x : Option Nat) (s : Mem) : Option Mem :=
  match x with
  | none => none
  | some xa =>
    match (s.node xa).left with
    | none => none
    | some ya =>
      let b := (s.node ya).right
      match Transplant (some xa) (some ya) s with
      | none => none
      | some s1 =>
        let s2 := s1.setRight ya (some xa)
        let s3 := s2.setParent xa (some ya)
        let s4 := s3.setLeft xa b
        match b with
        | none => some s4
        | some ba => some (s4.setParent ba (some xa))

/-! ## Loops -/

/-- Outcome of one pass through a loop body: go round again, or leave the loop
(the condition was false, or a `break` was executed). -/
inductive LoopStep (σ : Type) where
  | next (x : σ)
  | done (x : σ)

/-- A `while` loop: run the body until it leaves the loop; `none` when the body faults
or the fuel runs out. -/
def iterate {σ : Type} (body : σ → Option (LoopStep σ)) : Nat → σ → Option σ
  | 0, _ => none
  | fuel + 1, x =>
    match body x with
    | none => none
    | some (LoopStep.next y) => iterate body fuel y
    | some (LoopStep.done y) => some y

/-! ## Insertion (`rb-tree.c`) -/

/-- One evaluation of the loop condition of `FixupAfterInsert` followed, when it holds,
by one pass through the loop body.  The loop state is the variable `node` and the memory. -/
def FixupAfterInsertBody (st : Nat × Mem) : Option (LoopStep (Nat × Mem)) :=
  let node := st.1
  let s := st.2
  let parent := (s.node node).parent
  if IsRed s parent then
    if (s.node node).color ≠ Color.kRed then none else
    match parent with
    | none => none
    | some p =>
      match (s.node p).parent with
      | none => none
      | some g =>
        if parent = (s.node g).left then
          let uncle := (s.node g).right
          if IsRed s uncle then
            (SetColor (some g) Color.kRed s).bind fun s1 =>
            (SetColor parent Color.kBlack s1).bind fun s2 =>
            (SetColor uncle Color.kBlack s2).bind fun s3 =>
            some (LoopStep.next (g, s3))
          else if some node = (s.node p).right then
            (RotateLeft parent s).bind fun s1 =>
            (RotateRight (some g) s1).bind fun s2 =>
            (SetColor (some node) Color.kBlack s2).bind fun s3 =>
            (SetColor (some g) Color.kRed s3).bind fun s4 =>
            some (LoopStep.done (p, s4))
          else
            (RotateRight (some g) s).bind fun s2 =>
            (SetColor parent Color.kBlack s2).bind fun s3 =>
            (SetColor (some g) Color.kRed s3).bind fun s4 =>
            some (LoopStep.done (node, s4))
        else
          let uncle := (s.node g).left
          if IsRed s uncle then
            (SetColor (some g) Color.kRed s).bind fun s1 =>
            (SetColor parent Color.kBlack s1).bind fun s2 =>
            (SetColor uncle Color.kBlack s2).bind fun s3 =>
            some (LoopStep.next (g, s3))
          else if some node = (s.node p).left then
            (RotateRight parent s).bind fun s1 =>
            (RotateLeft (some g) s1).bind fun s2 =>
            (SetColor (some node) Color.kBlack s2).bind fun s3 =>
            (SetColor (some g) Color.kRed s3).bind fun s4 =>
            some (LoopStep.done (p, s4))
          else
            (RotateLeft (some g) s).bind fun s2 =>
            (SetColor parent Color.kBlack s2).bind fun s3 =>
            (SetColor (some g) Color.kRed s3).bind fun s4 =>
            some (LoopStep.done (node, s4))
  else some (LoopStep.done (node, s))

/-- The function `FixupAfterInsert(node, root)`. -/
def FixupAfterInsert (fuel : Nat) (node : Option Nat) (s : Mem) : Option Mem :=
  match node with
  | none => none
  | some n =>
    match iterate FixupAfterInsertBody fuel (n, s) with
    | none => none
    | some st => SetColor st.2.rb_node Color.kBlack st.2

/-- A pointer `RbNode**` to a link slot: the `rb_node` field of the root handle, or the
`left` or `right` field of the node at an address. -/
inductive Link where
  | root
  | left (p : Nat)
  | right (p : Nat)
deriving DecidableEq, Repr

/-- Reading through a link pointer: `*link`. -/
def Mem.load (s : Mem) : Link → Option Nat
  | Link.root => s.rb_node
  | Link.left p => (s.node p).left
  | Link.right p => (s.node p).right

/-- Writing through a link pointer: `*link = v`. -/
def Mem.store (s : Mem) (l : Link) (v : Option Nat) : Mem :=
  match l with
  | Link.root => { s with rb_node := v }
  | Link.left p => s.setLeft p v
  | Link.right p => s.setRight p v

/-- The third assertion of `InsertIntoRbTree`:
`!parent || (&parent->left == parent_link || &parent->right == parent_link)`. -/
def linkBelongsTo (parent : Option Nat) (parent_link : Link) : Bool :=
  match parent with
  | none => true
  | some p => decide (parent_link = Link.left p) || decide (parent_link = Link.right p)

/-- The function `InsertIntoRbTree(node, parent, parent_link, root)`.  A `Link` always
denotes a slot, so `parent_link != NULL` holds by construction. -/
def InsertIntoRbTree (fuel : Nat) (node parent : Option Nat) (parent_link : Link)
    (s : Mem) : Option Mem :=
  match node with
  | none => none
  | some n =>
    if s.load parent_link ≠ none then none else
    if linkBelongsTo parent parent_link = false then none else
    let s1 := (s.setRight n none).setLeft n none
    let s2 := s1.setColor n Color.kRed
    let s3 := s2.setParent n parent
    let s4 := s3.store parent_link (some n)
    FixupAfterInsert fuel (some n) s4

/-! ## Removal (`rb-tree.c`) -/

/-- The third assertion of `FixupAfterRemove`:
`node == NULL || node->parent == node_parent`. -/
def parentIs (s : Mem) (node node_parent : Option Nat) : Bool :=
  match node with
  | none => true
  | some n => decide ((s.node n).parent = node_parent)

/-- One evaluation of the loop condition of `FixupAfterRemove` followed, when it holds,
by one pass through the loop body.  The loop state is `node`, `node_parent` and the
memory. -/
def FixupAfterRemoveBody (st : Option Nat × Option Nat × Mem) :
    Option (LoopStep (Option Nat × Option Nat × Mem)) :=
  let node := st.1
  let node_parent := st.2.1
  let s := st.2.2
  if (node = none ∨ IsBlack s node = true) ∧ node ≠ s.rb_node then
    match node_parent with
    | none => none
    | some p =>
      if ¬ ((s.node p).left = node ∨ (s.node p).right = node) then none else
      if parentIs s node node_parent = false then none else
      if node = (s.node p).left then
        let sibling := (s.node p).right
        match sibling with
        | none => none
        | some sb =>
          if IsRed s sibling then
            if IsBlack s node_parent = false then none else
            (RotateLeft node_parent s).bind fun s1 =>
            (SetColor node_parent Color.kRed s1).bind fun s2 =>
            (SetColor sibling Color.kBlack s2).bind fun s3 =>
            some (LoopStep.next (node, node_parent, s3))
          else if (!IsRed s (s.node sb).left && !IsRed s (s.node sb).right) = true then
            (SetColor sibling Color.kRed s).bind fun s1 =>
            some (LoopStep.next (node_parent, (s1.node p).parent, s1))
          else if IsBlack s (s.node sb).right then
            if IsRed s (s.node sb).left = false then none else
            (SetColor sibling Color.kRed s).bind fun s1 =>
            (SetColor (s1.node sb).left Color.kBlack s1).bind fun s2 =>
            (RotateRight sibling s2).bind fun s3 =>
            some (LoopStep.next (node, node_parent, s3))
          else
            (SetColor sibling (s.node p).color s).bind fun s1 =>
            (SetColor node_parent Color.kBlack s1).bind fun s2 =>
            (SetColor (s2.node sb).right Color.kBlack s2).bind fun s3 =>
            (RotateLeft node_parent s3).bind fun s4 =>
            some (LoopStep.done (node, node_parent, s4))
      else
        let sibling := (s.node p).left
        match sibling with
        | none => none
        | some sb =>
          if IsRed s sibling then
            if IsBlack s node_parent = false then none else
            (RotateRight node_parent s).bind fun s1 =>
            (SetColor node_parent Color.kRed s1).bind fun s2 =>
            (SetColor sibling Color.kBlack s2).bind fun s3 =>
            some (LoopStep.next (node, node_parent, s3))
          else if (!IsRed s (s.node sb).left && !IsRed s (s.node sb).right) = true then
            (SetColor sibling Color.kRed s).bind fun s1 =>
            some (LoopStep.next (node_parent, (s1.node p).parent, s1))
          else if IsBlack s (s.node sb).left then
            if IsRed s (s.node sb).right = false then none else
            (SetColor sibling Color.kRed s).bind fun s1 =>
            (SetColor (s1.node sb).right Color.kBlack s1).bind fun s2 =>
            (RotateLeft sibling s2).bind fun s3 =>
            some (LoopStep.next (node, node_parent, s3))
          else
            (SetColor sibling (s.node p).color s).bind fun s1 =>
            (SetColor node_parent Color.kBlack s1).bind fun s2 =>
            (SetColor (s2.node sb).left Color.kBlack s2).bind fun s3 =>
            (RotateRight node_parent s3).bind fun s4 =>
            some (LoopStep.done (node, node_parent, s4))
  else some (LoopStep.done (node, node_parent, s))

/-- The function `FixupAfterRemove(node, node_parent, root)`. -/
def FixupAfterRemove (fuel : Nat) (node node_parent : Option Nat) (s : Mem) : Option Mem :=
  match iterate FixupAfterRemoveBody fuel (node, node_parent, s) with
  | none => none
  | some st =>
    match st.1 with
    | none => some st.2.2
    | some _ => SetColor st.1 Color.kBlack st.2.2

/-- The successor search of `RemoveFromRbTree`:
`while (successor->left != NULL) successor = successor->left;`. -/
def successorBody (s : Mem) (successor : Nat) : Option (LoopStep Nat) :=
  match (s.node successor).left with
  | none => some (LoopStep.done successor)
  | some l => some (LoopStep.next l)

/-- The last statement of `RemoveFromRbTree`: rebalance when a Black node was removed. -/
def rebalanceAfterRemove (fuel : Nat) (removed_color : Color)
    (replacement replacement_parent : Option Nat) (s : Mem) : Option Mem :=
  if removed_color = Color.kBlack then FixupAfterRemove fuel replacement replacement_parent s
  else some s

/-- The function `RemoveFromRbTree(node, root)`. -/
def RemoveFromRbTree (fuel : Nat) (node : Option Nat) (s : Mem) : Option Mem :=
  match node with
  | none => none
  | some n =>
    let replacement_parent := (s.node n).parent
    let removed_color := (s.node n).color
    if (s.node n).left = none then
      let replacement := (s.node n).right
      (Transplant node replacement s).bind fun s1 =>
      rebalanceAfterRemove fuel removed_color replacement replacement_parent s1
    else if (s.node n).right = none then
      let replacement := (s.node n).left
      (Transplant node replacement s).bind fun s1 =>
      rebalanceAfterRemove fuel removed_color replacement replacement_parent s1
    else
      match (s.node n).right with
      | none => none
      | some r =>
        (iterate (successorBody s) fuel r).bind fun y =>
        let replacement := (s.node y).right
        (if some y ≠ (s.node n).right then
            let replacement_parent := (s.node y).parent
            (Transplant (some y) replacement s).bind fun s1 =>
            let s2 := s1.setRight y (s1.node n).right
            match (s2.node n).right with
            | none => none
            | some nr => some (replacement_parent, s2.setParent nr (some y))
          else some (some y, s)).bind fun rs =>
        (Transplant node (some y) rs.2).bind fun s4 =>
        let s5 := s4.setLeft y (s4.node n).left
        match (s5.node n).left with
        | none => none
        | some nl =>
          let s6 := s5.setParent nl (some y)
          let removed_color := (s6.node y).color
          let s7 := s6.setColor y (s6.node n).color
          rebalanceAfterRemove fuel removed_color replacement rs.1 s7

/-! ## The keyed wrapper (`my-rb-tree.cc`)

A `MyData` record is identified with the address of the `RbNode` embedded in it
(`ContainerOf` is a constant offset); `value a` is the `value` field of the record whose
node is at `a`.  No function of the repository writes that field after allocation. -/

/-- The descent loop of `MyInsertIntoRbTree`; the loop state is `parent` and `link_ptr`. -/
def descendBody (value : Nat → Int) (v : Int) (s : Mem) (st : Option Nat × Link) :
    Option (LoopStep (Option Nat × Link)) :=
  match s.load st.2 with
  | none => some (LoopStep.done st)
  | some p =>
    if value p > v then some (LoopStep.next (some p, Link.left p))
    else some (LoopStep.next (some p, Link.right p))

/-- The function `MyInsertIntoRbTree(new_data, root)`. -/
def MyInsertIntoRbTree (value : Nat → Int) (fuel : Nat) (new_data : Nat) (s : Mem) :
    Option Mem :=
  match iterate (descendBody value (value new_data) s) fuel (none, Link.root) with
  | none => none
  | some st => InsertIntoRbTree fuel (some new_data) st.1 st.2 s

/-- The function `MyRemoveFromRbTree(data, root)`; `free(data)` changes nothing the
tree can reach. -/
def MyRemoveFromRbTree (fuel : Nat) (data : Nat) (s : Mem) : Option Mem :=
  RemoveFromRbTree fuel (some data) s

/-- The function `MyPrintRbTree(node)`: `assert(node != nullptr)`, then the left subtree,
the line for the node, the right subtree.  The printed text is not modelled, only whether
the call returns: `none` is the failed assertion (or the fuel ran out). -/
def MyPrintRbTree (s : Mem) : Nat → Option Nat → Option Unit
  | 0, _ => none
  | _ + 1, none => none
  | fuel + 1, some n =>
    match (if (s.node n).left ≠ none then MyPrintRbTree s fuel (s.node n).left
      else some ()) with
    | none => none
    | some _ =>
      if (s.node n).right ≠ none then MyPrintRbTree s fuel (s.node n).right else some ()

/-! ## The validator and the test driver (`my-rb-tree.cc`) -/

/-- Result of a function that may `throw`: a fault (`NULL` dereference, or the fuel ran
out), an exception, or a value. -/
inductive Checked (α : Type) where
  | fault
  | thrown
  | ok (x : α)

/-- The function `InorderTraversalChecker(node, record, cur_black_count,
black_count_record)`; the two vectors are passed in and returned.  The counter is an `int`
in the source; it never exceeds the depth of the recursion. -/
def InorderTraversalChecker (value : Nat → Int) (s : Mem) :
    Nat → Option Nat → List Int → Nat → List Nat → Checked (List Int × List Nat)
  | 0, _, _, _, _ => Checked.fault
  | fuel + 1, node, record, cur_black_count, black_count_record =>
    if (!IsRed s node && !IsBlack s node) = true then Checked.thrown else
    match node with
    | none => Checked.fault
    | some n =>
      if (IsRed s node && (IsRed s (s.node n).parent || IsRed s (s.node n).left ||
          IsRed s (s.node n).right)) = true then Checked.thrown else
      let cur := if IsBlack s node = true then cur_black_count + 1 else cur_black_count
      match (if (s.node n).left ≠ none then
          InorderTraversalChecker value s fuel (s.node n).left record cur black_count_record
        else Checked.ok (record, black_count_record)) with
      | Checked.fault => Checked.fault
      | Checked.thrown => Checked.thrown
      | Checked.ok r1 =>
        match (if (s.node n).right ≠ none then
            InorderTraversalChecker value s fuel (s.node n).right (r1.1 ++ [value n]) cur r1.2
          else Checked.ok (r1.1 ++ [value n], r1.2)) with
        | Checked.fault => Checked.fault
        | Checked.thrown => Checked.thrown
        | Checked.ok r2 =>
          if (s.node n).left = none ∧ (s.node n).right = none then
            if r2.2.length > 0 ∧ r2.2.getLast? ≠ some cur then Checked.thrown
            else Checked.ok (r2.1, r2.2 ++ [cur])
          else Checked.ok r2

/-- The function `IsLegalRbTree(root)`; `std::sort` followed by `std::equal` compares the
record with its sorted rearrangement. -/
def IsLegalRbTree (value : Nat → Int) (fuel : Nat) (s : Mem) : Option Bool :=
  if IsBlack s s.rb_node = false then some false else
  match InorderTraversalChecker value s fuel s.rb_node [] 0 [] with
  | Checked.fault => none
  | Checked.thrown => some false
  | Checked.ok r => some (decide (r.1 = r.1.insertionSort (· ≤ ·)))

/-- The insertion loop of the test drivers: `MyInsertIntoRbTree` for the records at the
given addresses, in list order. -/
def insertAll (value : Nat → Int) (fuel : Nat) : List Nat → Mem → Option Mem
  | [], s => some s
  | a :: rest, s => (MyInsertIntoRbTree value fuel a s).bind (insertAll value fuel rest)

/-- The check `!IsEmptyRbRoot(&root) && !IsLegalRbTree(&root)` of the test drivers,
negated: `some true` lets the driver go on, `some false` makes it return `false`. -/
def testerCheck (value : Nat → Int) (fuel : Nat) (s : Mem) : Option Bool :=
  if IsEmptyRbRoot s = true then some true else IsLegalRbTree value fuel s

/-- The removal loop of `RbTreeTesterWithValues` over the queue `datas`; the result is
the returned `bool` and the memory at that moment. -/
def testerRemoveLoop (value : Nat → Int) (fuel : Nat) (print_log : Bool) :
    List Nat → Mem → Option (Bool × Mem)
  | [], s => some (true, s)
  | d :: rest, s =>
    match MyRemoveFromRbTree fuel d s with
    | none => none
    | some s1 =>
      match testerCheck value fuel s1 with
      | none => none
      | some false => some (false, s1)
      | some true =>
        match (if (!IsEmptyRbRoot s1 && print_log) = true then
            MyPrintRbTree s1 fuel s1.rb_node else some ()) with
        | none => none
        | some _ => testerRemoveLoop value fuel print_log rest s1

/-- The function `RbTreeTesterWithValues(values, print_log)`.  The `i`-th record that
`malloc` returns is at address `i` and holds `values[i]`; `heap` is the uninitialised
content of the allocated records.  The result is the returned `bool` and the final memory;
`none` is an abort.  Text written to `std::cout` is not modelled. -/
def RbTreeTesterWithValues (heap : Nat → RbNode) (fuel : Nat) (values : List Int)
    (print_log : Bool) : Option (Bool × Mem) :=
  match insertAll (fun a => values.getD a 0) fuel (List.range values.length)
      { node := heap, rb_node := none } with
  | none => none
  | some s1 =>
    match testerCheck (fun a => values.getD a 0) fuel s1 with
    | none => none
    | some false => some (false, s1)
    | some true =>
      match (if print_log = true then MyPrintRbTree s1 fuel s1.rb_node else some ()) with
      | none => none
      | some _ =>
        testerRemoveLoop (fun a => values.getD a 0) fuel print_log
          (List.range values.length) s1

/-! ## Abstract trees

The shape the memory represents: a binary tree whose nodes carry a colour and the
address of the record.  `Tree.Rep` says that the records of a memory spell out a given
tree, parent pointers included. -/

/-- A binary tree of coloured addresses. -/
inductive Tree where
  | nil
  | node (c : Color) (l : Tree) (a : Nat) (r : Tree)
deriving DecidableEq, Repr

namespace Tree

/-- The pointer to the root of a tree: `NULL` for the empty tree. -/
def ptr : Tree → Option Nat
  | nil => none
  | node _ _ a _ => some a

/-- The addresses of a tree in in-order. -/
def ids : Tree → List Nat
  | nil => []
  | node _ l a r => ids l ++ a :: ids r

/-- The records of `m` at the addresses of the tree spell out the tree, the root's
`parent` field being `par`. -/
def Rep (m : Nat → RbNode) : Option Nat → Tree → Prop
  | _, nil => True
  | par, node c l a r =>
    (m a).color = c ∧ (m a).parent = par ∧ (m a).left = l.ptr ∧ (m a).right = r.ptr ∧
      Rep m (some a) l ∧ Rep m (some a) r

/-- Colour of the root, an absent tree counting as Black. -/
def rootColor : Tree → Color
  | nil => Color.kBlack
  | node c _ _ _ => c

/-- The tree with its root recoloured. -/
def setRootColor (c : Color) : Tree → Tree
  | nil => nil
  | node _ l a r => node c l a r

end Tree

/-- One step of a path from a subtree up to the root: the hole is the left child
(`L`) or the right child (`R`) of the node at `p`. -/
inductive Frame where
  | L (c : Color) (p : Nat) (r : Tree)
  | R (c : Color) (l : Tree) (p : Nat)
deriving DecidableEq, Repr

/-- A path from a hole up to the root, innermost frame first. -/
abbrev Path := List Frame

/-- The tree obtained by putting `t` into the hole of a path. -/
def plug : Path → Tree → Tree
  | [], t => t
  | Frame.L c p r :: k, t => plug k (Tree.node c t p r)
  | Frame.R c l p :: k, t => plug k (Tree.node c l p t)

/-- The pointer to the parent of the hole. -/
def cpar : Path → Option Nat
  | [] => none
  | Frame.L _ p _ :: _ => some p
  | Frame.R _ _ p :: _ => some p

/-- The addresses that precede the hole in in-order. -/
def before : Path → List Nat
  | [] => []
  | Frame.L _ _ _ :: k => before k
  | Frame.R _ l p :: k => before k ++ (l.ids ++ [p])

/-- The addresses that follow the hole in in-order. -/
def after : Path → List Nat
  | [] => []
  | Frame.L _ p r :: k => (p :: r.ids) ++ after k
  | Frame.R _ _ _ :: k => after k

/-- The root pointer of `plug k t` when `hole` is the pointer to `t`. -/
def rootPtr : Path → Option Nat → Option Nat
  | [], hole => hole
  | Frame.L _ p _ :: k, _ => rootPtr k (some p)
  | Frame.R _ _ p :: k, _ => rootPtr k (some p)

/-- The records of `m` spell out the path `k` around a hole that holds `hole`. -/
def RepCtx (m : Nat → RbNode) : Option Nat → Path → Prop
  | _, [] => True
  | hole, Frame.L c p r :: k =>
    (m p).color = c ∧ (m p).parent = cpar k ∧ (m p).left = hole ∧ (m p).right = r.ptr ∧
      Tree.Rep m (some p) r ∧ RepCtx m (some p) k
  | hole, Frame.R c l p :: k =>
    (m p).color = c ∧ (m p).parent = cpar k ∧ (m p).left = l.ptr ∧ (m p).right = hole ∧
      Tree.Rep m (some p) l ∧ RepCtx m (some p) k

/-- The memory `s` holds the tree `t`: the root handle points to its root, the records
spell it out with consistent parent pointers, and no address occurs twice. -/
def Owns (s : Mem) (t : Tree) : Prop :=
  s.rb_node = t.ptr ∧ Tree.Rep s.node none t ∧ t.ids.Nodup

/-- The memory `s` holds the tree `plug k t`, stated piecewise. -/
def OwnsAt (s : Mem) (k : Path) (t : Tree) : Prop :=
  s.rb_node = rootPtr k t.ptr ∧ RepCtx s.node t.ptr k ∧ Tree.Rep s.node (cpar k) t ∧
    (before k ++ (t.ids ++ after k)).Nodup

/-! ## The fixup loops on abstract trees

The same loops, read off the source case by case, acting on a path and the subtree at the
loop variable `node`.  The theorems below show that the functions on the memory compute
exactly these. -/

/-- Colour of the node a frame stands for. -/
def Frame.color : Frame → Color
  | Frame.L c _ _ => c
  | Frame.R c _ _ => c

/-- Address of the node a frame stands for. -/
def Frame.addr : Frame → Nat
  | Frame.L _ p _ => p
  | Frame.R _ _ p => p

/-- The frame with its node recoloured. -/
def Frame.setColor (c : Color) : Frame → Frame
  | Frame.L _ p r => Frame.L c p r
  | Frame.R _ l p => Frame.R c l p

/-- The subtree rooted at the node of a frame when `t` fills its hole. -/
def Frame.fill : Frame → Tree → Tree
  | Frame.L c p r, t => Tree.node c t p r
  | Frame.R c l p, t => Tree.node c l p t

/-- The loop condition and body of `FixupAfterInsert` on a path `k` and the subtree `t`
at `node`. -/
def insBody (st : Path × Tree) : Option (LoopStep (Path × Tree)) :=
  match st with
  | ([], t) => some (LoopStep.done ([], t))
  | (f :: k1, t) =>
    if f.color ≠ Color.kRed then some (LoopStep.done (f :: k1, t)) else
    match t with
    | Tree.nil => none
    | Tree.node c l n r =>
      if c ≠ Color.kRed then none else
      match k1 with
      | [] => none
      | Frame.L _ gp u :: k2 =>
        if u.rootColor = Color.kRed then
          some (LoopStep.next (k2, Tree.node Color.kRed
            ((f.setColor Color.kBlack).fill (Tree.node c l n r)) gp
            (u.setRootColor Color.kBlack)))
        else
          match f with
          | Frame.R pc pl p =>
            some (LoopStep.done (k2, Tree.node Color.kBlack (Tree.node pc pl p l) n
              (Tree.node Color.kRed r gp u)))
          | Frame.L _ p pr =>
            some (LoopStep.done (k2, Tree.node Color.kBlack (Tree.node c l n r) p
              (Tree.node Color.kRed pr gp u)))
      | Frame.R _ u gp :: k2 =>
        if u.rootColor = Color.kRed then
          some (LoopStep.next (k2, Tree.node Color.kRed (u.setRootColor Color.kBlack) gp
            ((f.setColor Color.kBlack).fill (Tree.node c l n r))))
        else
          match f with
          | Frame.L pc p pr =>
            some (LoopStep.done (k2, Tree.node Color.kBlack (Tree.node Color.kRed u gp l) n
              (Tree.node pc r p pr)))
          | Frame.R _ pl p =>
            some (LoopStep.done (k2, Tree.node Color.kBlack (Tree.node Color.kRed u gp pl) p
              (Tree.node c l n r)))

/-- The function `FixupAfterInsert` on abstract trees: the loop, then the root is forced
Black (a fault on the empty tree). -/
def insFixup (fuel : Nat) (k : Path) (t : Tree) : Option Tree :=
  match iterate insBody fuel (k, t) with
  | none => none
  | some st =>
    match plug st.1 st.2 with
    | Tree.nil => none
    | Tree.node _ l a r => some (Tree.node Color.kBlack l a r)

/-- The link slot the hole of a path is stored in. -/
def linkOf : Path → Link
  | [] => Link.root
  | Frame.L _ p _ :: _ => Link.left p
  | Frame.R _ _ p :: _ => Link.right p

/-- The function `InsertIntoRbTree` on abstract trees: the new Red leaf `n` is put into the
empty hole of the path `k`, then the fixup runs from it. -/
def insertAt (fuel : Nat) (k : Path) (n : Nat) : Option Tree :=
  insFixup fuel k (Tree.node Color.kRed Tree.nil n Tree.nil)

/-! ## The red-black invariants -/

namespace Tree

/-- The number of Black nodes on every path from the root to an absent child, one entry
per path, left to right. -/
def pathBlacks : Tree → List Nat
  | nil => [0]
  | node c l _ r =>
    (pathBlacks l ++ pathBlacks r).map fun x => x + (if c = Color.kBlack then 1 else 0)

/-- Invariant 4: every path from the root to an absent child passes the same number of
Black nodes. -/
def EqualBlackPaths (t : Tree) : Prop :=
  ∀ x ∈ t.pathBlacks, ∀ y ∈ t.pathBlacks, x = y

/-- Invariant 3: a Red node has no Red child (hence no Red parent either). -/
def NoRedRed : Tree → Prop
  | nil => True
  | node c l _ r =>
    (c = Color.kRed → l.rootColor = Color.kBlack ∧ r.rootColor = Color.kBlack) ∧
      NoRedRed l ∧ NoRedRed r

/-- The red-black invariants 3, 4 and 5 of the specification. -/
def IsRB (t : Tree) : Prop :=
  t.rootColor = Color.kBlack ∧ t.NoRedRed ∧ t.EqualBlackPaths

/-- The number of Black nodes on the leftmost path. -/
def bh : Tree → Nat
  | nil => 0
  | node c l _ _ => bh l + (if c = Color.kBlack then 1 else 0)

/-- Both subtrees of every node have the same black height. -/
def Bal : Tree → Prop
  | nil => True
  | node _ l _ r => bh l = bh r ∧ Bal l ∧ Bal r

/-- Number of nodes. -/
def size : Tree → Nat
  | nil => 0
  | node _ l _ r => size l + 1 + size r

/-- Number of nodes on the longest path from the root down to a leaf. -/
def height : Tree → Nat
  | nil => 0
  | node _ l _ r => max (height l) (height r) + 1

end Tree

/-- The path is that of a red-black tree around a hole that expects a subtree whose root
has colour `c` and whose black height is `m`. -/
def PathOK : Path → Color → Nat → Prop
  | [], c, _ => c = Color.kBlack
  | Frame.L pc _ s :: k, c, m =>
    (pc = Color.kRed → c = Color.kBlack ∧ s.rootColor = Color.kBlack) ∧
      s.NoRedRed ∧ s.Bal ∧ s.bh = m ∧ PathOK k pc (m + (if pc = Color.kBlack then 1 else 0))
  | Frame.R pc s _ :: k, c, m =>
    (pc = Color.kRed → c = Color.kBlack ∧ s.rootColor = Color.kBlack) ∧
      s.NoRedRed ∧ s.Bal ∧ s.bh = m ∧ PathOK k pc (m + (if pc = Color.kBlack then 1 else 0))

/-- The memory holds a red-black tree. -/
def IsRbTree (s : Mem) : Prop :=
  ∃ t, Owns s t ∧ t.IsRB

/-- The pair `(parent, parent_link)` designates an empty child slot of a node of the
tree `t` held by `s`, or the root slot of the empty tree. -/
def EmptySlot (s : Mem) (t : Tree) (parent : Option Nat) (parent_link : Link) : Prop :=
  (t = Tree.nil ∧ parent = none ∧ parent_link = Link.root) ∨
  ∃ p, p ∈ t.ids ∧ parent = some p ∧
    ((parent_link = Link.left p ∧ (s.node p).left = none) ∨
     (parent_link = Link.right p ∧ (s.node p).right = none))

/-- The loop condition and body of `FixupAfterRemove` on a path `k` (whose innermost
frame is `node_parent`) and the possibly empty subtree `t` at `node`. -/
def delBody (st : Path × Tree) : Option (LoopStep (Path × Tree)) :=
  match st with
  | ([], t) => some (LoopStep.done ([], t))
  | (f :: k1, t) =>
    if t.rootColor = Color.kRed then some (LoopStep.done (f :: k1, t)) else
    match f with
    | Frame.L pc p sib =>
      match sib with
      | Tree.nil => none
      | Tree.node sc sl y sr =>
        if sc = Color.kRed then
          if pc ≠ Color.kBlack then none
          else some (LoopStep.next (Frame.L Color.kRed p sl :: Frame.L Color.kBlack y sr :: k1, t))
        else if sl.rootColor ≠ Color.kRed ∧ sr.rootColor ≠ Color.kRed then
          some (LoopStep.next (k1, Tree.node pc t p (Tree.node Color.kRed sl y sr)))
        else if sr.rootColor = Color.kBlack then
          match sl with
          | Tree.nil => none
          | Tree.node _ sll z slr =>
            some (LoopStep.next (Frame.L pc p
              (Tree.node Color.kBlack sll z (Tree.node Color.kRed slr y sr)) :: k1, t))
        else
          match sr with
          | Tree.nil => none
          | Tree.node _ srl w srr =>
            some (LoopStep.done (Frame.L Color.kBlack p sl ::
              Frame.L pc y (Tree.node Color.kBlack srl w srr) :: k1, t))
    | Frame.R pc sib p =>
      match sib with
      | Tree.nil => none
      | Tree.node sc sl y sr =>
        if sc = Color.kRed then
          if pc ≠ Color.kBlack then none
          else some (LoopStep.next (Frame.R Color.kRed sr p :: Frame.R Color.kBlack sl y :: k1, t))
        else if sl.rootColor ≠ Color.kRed ∧ sr.rootColor ≠ Color.kRed then
          some (LoopStep.next (k1, Tree.node pc (Tree.node Color.kRed sl y sr) p t))
        else if sl.rootColor = Color.kBlack then
          match sr with
          | Tree.nil => none
          | Tree.node _ srl z srr =>
            some (LoopStep.next (Frame.R pc
              (Tree.node Color.kBlack (Tree.node Color.kRed sl y srl) z srr) p :: k1, t))
        else
          match sl with
          | Tree.nil => none
          | Tree.node _ sll w slr =>
            some (LoopStep.done (Frame.R Color.kBlack sr p ::
              Frame.R pc (Tree.node Color.kBlack sll w slr) y :: k1, t))

/-- The function `FixupAfterRemove` on abstract trees: the loop, then `node` is forced
Black when it is present. -/
def delFixup (fuel : Nat) (k : Path) (t : Tree) : Option Tree :=
  match iterate delBody fuel (k, t) with
  | none => none
  | some st => some (plug st.1 (st.2.setRootColor Color.kBlack))

/-- The leftmost node of a non-empty tree: the path from it up to the root of the tree
(pushed on `k`), its colour, its address and its right subtree. -/
def leftmost : Tree → Path → Option (Path × Color × Nat × Tree)
  | Tree.nil, _ => none
  | Tree.node c l a r, k =>
    match l with
    | Tree.nil => some (k, c, a, r)
    | Tree.node _ _ _ _ => leftmost l (Frame.L c a r :: k)

/-- The last statement of `RemoveFromRbTree` on abstract trees. -/
def delRebalance (fuel : Nat) (removed_color : Color) (k : Path) (t : Tree) : Option Tree :=
  if removed_color = Color.kBlack then delFixup fuel k t else some (plug k t)

/-- The function `RemoveFromRbTree` on abstract trees, for a node with colour `c` and
subtrees `l` and `r` that sits in the hole of the path `k`.  With two children the
successor `y` (the leftmost node of `r`) takes the place and the colour of the node, and
its right subtree takes the place of `y`. -/
def removeAt (fuel : Nat) (k : Path) (c : Color) (l r : Tree) : Option Tree :=
  match l with
  | Tree.nil => delRebalance fuel c k r
  | Tree.node _ _ _ _ =>
    match r with
    | Tree.nil => delRebalance fuel c k l
    | Tree.node _ _ _ _ =>
      match leftmost r [] with
      | none => none
      | some (kr, cy, y, yr) => delRebalance fuel cy (kr ++ Frame.R c l y :: k) yr

/-- Loop invariant of `FixupAfterRemove`: the subtree at `node` is balanced and has no
Red-Red edge below its root, and the path is that of a red-black tree around a hole that
expects one more Black node than the subtree has. -/
def DelInv (k : Path) (t : Tree) : Prop :=
  (t.setRootColor Color.kBlack).NoRedRed ∧ t.Bal ∧ PathOK k Color.kBlack (t.bh + 1)

/-- What `FixupAfterRemove` establishes when its loop is left in the state `(k, t)`: once
`node` is forced Black the whole tree satisfies the three invariants. -/
def DelGood (k : Path) (t : Tree) : Prop :=
  (plug k (t.setRootColor Color.kBlack)).rootColor = Color.kBlack ∧
    (plug k (t.setRootColor Color.kBlack)).NoRedRed ∧
    (plug k (t.setRootColor Color.kBlack)).Bal

/-! ## A small concrete memory -/

/-- A memory that holds the three-node tree with Black root `1` and Red children `0` and
`2`; every other address holds a detached record. -/
def exampleMem : Mem where
  node := fun a =>
    if a = 1 then ⟨Color.kBlack, none, some 0, some 2⟩
    else ⟨Color.kRed, some 1, none, none⟩
  rb_node := some 1

/-- The tree held by `exampleMem`. -/
def exampleTree : Tree :=
  Tree.node Color.kBlack (Tree.node Color.kRed Tree.nil 0 Tree.nil) 1
    (Tree.node Color.kRed Tree.nil 2 Tree.nil)

/-- The descent loop of `MyInsertIntoRbTree` on abstract trees: the path from the empty
slot where the key `v` belongs up to the root, starting in the subtree `t` below `k`. -/
def descend (value : Nat → Int) (v : Int) : Tree → Path → Path
  | Tree.nil, k => k
  | Tree.node c l a r, k =>
    if value a > v then descend value v l (Frame.L c a r :: k)
    else descend value v r (Frame.R c l a :: k)

/-- The function `MyInsertIntoRbTree` on abstract trees. -/
def myInsert (value : Nat → Int) (fuel : Nat) (n : Nat) (t : Tree) : Option Tree :=
  insertAt fuel (descend value (value n) t []) n

/-- The empty tree of `InitializedRbRoot`, in a memory whose records are all detached. -/
def emptyMem : Mem where
  node := fun _ => ⟨Color.kBlack, none, none, none⟩
  rb_node := none

/-- Removing the nodes at the given addresses one after the other; the result lists the
memory after each removal. -/
def removeAll (fuel : Nat) : List Nat → Mem → Option (List Mem)
  | [], _ => some []
  | a :: rest, s =>
    match RemoveFromRbTree fuel (some a) s with
    | none => none
    | some s1 => (removeAll fuel rest s1).map fun tr => s1 :: tr

/-- The memories obtained from an empty tree by a sequence of `InsertIntoRbTree` and
`RemoveFromRbTree` calls that respect the preconditions of the interface: a new node goes
into an empty slot, a removed node is linked in the tree. -/
inductive Reachable : Mem → Prop where
  | empty (s : Mem) (h : s.rb_node = none) : Reachable s
  | insert (s s1 : Mem) (t : Tree) (n : Nat) (parent : Option Nat) (parent_link : Link)
      (fuel : Nat) (hr : Reachable s) (ho : Owns s t)
      (hslot : EmptySlot s t parent parent_link) (hn : n ∉ t.ids)
      (hop : InsertIntoRbTree fuel (some n) parent parent_link s = some s1) : Reachable s1
  | remove (s s1 : Mem) (t : Tree) (n : Nat) (fuel : Nat) (hr : Reachable s) (ho : Owns s t)
      (hn : n ∈ t.ids) (hop : RemoveFromRbTree fuel (some n) s = some s1) : Reachable s1

/-- The memory after the node at address `0` has been inserted at the root slot of
`emptyMem`. -/
def singletonMem : Mem :=
  (((((emptyMem.setRight 0 none).setLeft 0 none).setColor 0 Color.kRed).setParent 0
    none).store Link.root (some 0)).setColor 0 Color.kBlack

/-! ## Pieces of the source functions named on their own -/

/-- The statements of `RemoveFromRbTree` before its last `if`: the node is spliced out.
The result is `removed_color`, `replacement`, `replacement_parent` and the memory at that
point. -/
def RemoveSplice (fuel : Nat) (node : Option Nat) (s : Mem) :
    Option (Color × Option Nat × Option Nat × Mem) :=
  match node with
  | none => none
  | some n =>
    let replacement_parent := (s.node n).parent
    let removed_color := (s.node n).color
    if (s.node n).left = none then
      let replacement := (s.node n).right
      (Transplant node replacement s).bind fun s1 =>
      some (removed_color, replacement, replacement_parent, s1)
    else if (s.node n).right = none then
      let replacement := (s.node n).left
      (Transplant node replacement s).bind fun s1 =>
      some (removed_color, replacement, replacement_parent, s1)
    else
      match (s.node n).right with
      | none => none
      | some r =>
        (iterate (successorBody s) fuel r).bind fun y =>
        let replacement := (s.node y).right
        (if some y ≠ (s.node n).right then
            let replacement_parent := (s.node y).parent
            (Transplant (some y) replacement s).bind fun s1 =>
            let s2 := s1.setRight y (s1.node n).right
            match (s2.node n).right with
            | none => none
            | some nr => some (replacement_parent, s2.setParent nr (some y))
          else some (some y, s)).bind fun rs =>
        (Transplant node (some y) rs.2).bind fun s4 =>
        let s5 := s4.setLeft y (s4.node n).left
        match (s5.node n).left with
        | none => none
        | some nl =>
          let s6 := s5.setParent nl (some y)
          let removed_color := (s6.node y).color
          let s7 := s6.setColor y (s6.node n).color
          some (removed_color, replacement, rs.1, s7)

/-- The first four statements of `InsertIntoRbTree`: the new node becomes a Red leaf
below `parent` and is stored in the link slot. -/
def linkNode (n : Nat) (parent : Option Nat) (parent_link : Link) (s : Mem) : Mem :=
  (((((s.setRight n none).setLeft n none).setColor n Color.kRed).setParent n
    parent).store parent_link (some n))

/-- The states in which a `while` loop evaluates its condition, in order. -/
def loopStates {σ : Type} (body : σ → Option (LoopStep σ)) : Nat → σ → List σ
  | 0, _ => []
  | fuel + 1, x =>
    x :: match body x with
      | some (LoopStep.next y) => loopStates body fuel y
      | _ => []

/-- The loop condition of `FixupAfterInsert`: `IsRed(parent = node->parent)`. -/
def insertLoopCond (st : Nat × Mem) : Bool :=
  IsRed st.2 (st.2.node st.1).parent

/-- The pointer `gparent = parent->parent` the body of `FixupAfterInsert` computes;
`none` also when `parent` is `NULL`. -/
def gparentOf (st : Nat × Mem) : Option Nat :=
  match (st.2.node st.1).parent with
  | none => none
  | some p => (st.2.node p).parent

/-- The loop condition of `FixupAfterRemove`:
`(node == NULL || IsBlack(node)) && node != root->rb_node`. -/
def removeLoopCond (st : Option Nat × Option Nat × Mem) : Bool :=
  decide ((st.1 = none ∨ IsBlack st.2.2 st.1 = true) ∧ st.1 ≠ st.2.2.rb_node)

/-- The pointer `sibling` the body of `FixupAfterRemove` computes: `node_parent->right`
when `node == node_parent->left`, else `node_parent->left`; `none` also when
`node_parent` is `NULL`. -/
def siblingOf (st : Option Nat × Option Nat × Mem) : Option Nat :=
  match st.2.1 with
  | none => none
  | some p =>
    if st.1 = (st.2.2.node p).left then (st.2.2.node p).right else (st.2.2.node p).left

/-- The `else if` chain of cases 2, 3 and 4 in the first branch of the body of
`FixupAfterRemove` (`node == node_parent->left`), for the sibling `node_parent->right`. -/
def removeCasesLeft (node : Option Nat) (p : Nat) (s : Mem) :
    Option (LoopStep (Option Nat × Option Nat × Mem)) :=
  match (s.node p).right with
  | none => none
  | some sb =>
    if (!IsRed s (s.node sb).left && !IsRed s (s.node sb).right) = true then
      (SetColor (some sb) Color.kRed s).bind fun s1 =>
      some (LoopStep.next (some p, (s1.node p).parent, s1))
    else if IsBlack s (s.node sb).right then
      if IsRed s (s.node sb).left = false then none else
      (SetColor (some sb) Color.kRed s).bind fun s1 =>
      (SetColor (s1.node sb).left Color.kBlack s1).bind fun s2 =>
      (RotateRight (some sb) s2).bind fun s3 =>
      some (LoopStep.next (node, some p, s3))
    else
      (SetColor (some sb) (s.node p).color s).bind fun s1 =>
      (SetColor (some p) Color.kBlack s1).bind fun s2 =>
      (SetColor (s2.node sb).right Color.kBlack s2).bind fun s3 =>
      (RotateLeft (some p) s3).bind fun s4 =>
      some (LoopStep.done (node, some p, s4))

/-- The `else if` chain of cases 2, 3 and 4 in the second branch of the body of
`FixupAfterRemove`, for the sibling `node_parent->left`. -/
def removeCasesRight (node : Option Nat) (p : Nat) (s : Mem) :
    Option (LoopStep (Option Nat × Option Nat × Mem)) :=
  match (s.node p).left with
  | none => none
  | some sb =>
    if (!IsRed s (s.node sb).left && !IsRed s (s.node sb).right) = true then
      (SetColor (some sb) Color.kRed s).bind fun s1 =>
      some (LoopStep.next (some p, (s1.node p).parent, s1))
    else if IsBlack s (s.node sb).left then
      if IsRed s (s.node sb).right = false then none else
      (SetColor (some sb) Color.kRed s).bind fun s1 =>
      (SetColor (s1.node sb).right Color.kBlack s1).bind fun s2 =>
      (RotateLeft (some sb) s2).bind fun s3 =>
      some (LoopStep.next (node, some p, s3))
    else
      (SetColor (some sb) (s.node p).color s).bind fun s1 =>
      (SetColor (some p) Color.kBlack s1).bind fun s2 =>
      (SetColor (s2.node sb).left Color.kBlack s2).bind fun s3 =>
      (RotateRight (some p) s3).bind fun s4 =>
      some (LoopStep.done (node, some p, s4))

/-- The body of the loop of `FixupAfterRemove` as the specification words it: after the
Case 1 rotation and recolouring the new sibling is derived again and one of the cases 2,
3 and 4 is applied in the same iteration.  To be compared with `FixupAfterRemoveBody`. -/
def FixupAfterRemoveBodyFallThrough (st : Option Nat × Option Nat × Mem) :
    Option (LoopStep (Option Nat × Option Nat × Mem)) :=
  let node := st.1
  let node_parent := st.2.1
  let s := st.2.2
  if (node = none ∨ IsBlack s node = true) ∧ node ≠ s.rb_node then
    match node_parent with
    | none => none
    | some p =>
      if ¬ ((s.node p).left = node ∨ (s.node p).right = node) then none else
      if parentIs s node node_parent = false then none else
      if node = (s.node p).left then
        let sibling := (s.node p).right
        match sibling with
        | none => none
        | some _ =>
          if IsRed s sibling then
            if IsBlack s node_parent = false then none else
            (RotateLeft node_parent s).bind fun s1 =>
            (SetColor node_parent Color.kRed s1).bind fun s2 =>
            (SetColor sibling Color.kBlack s2).bind fun s3 =>
            removeCasesLeft node p s3
          else removeCasesLeft node p s
      else
        let sibling := (s.node p).left
        match sibling with
        | none => none
        | some _ =>
          if IsRed s sibling then
            if IsBlack s node_parent = false then none else
            (RotateRight node_parent s).bind fun s1 =>
            (SetColor node_parent Color.kRed s1).bind fun s2 =>
            (SetColor sibling Color.kBlack s2).bind fun s3 =>
            removeCasesRight node p s3
          else removeCasesRight node p s
  else some (LoopStep.done (node, node_parent, s))

/-- The memory in which every `left` field is exchanged with the `right` field of the
same record; parents, colours and the root handle are kept. -/
def Mem.mirror (s : Mem) : Mem where
  node := fun a => ⟨(s.node a).color, (s.node a).parent, (s.node a).right, (s.node a).left⟩
  rb_node := s.rb_node

/-! ## More concrete memories -/

/-- The two-node tree with Black root at address `0` and Red right child at address `1`. -/
def twoNodeMem : Mem where
  node := fun a =>
    if a = 0 then ⟨Color.kBlack, none, none, some 1⟩
    else ⟨Color.kRed, some 0, none, none⟩
  rb_node := some 0

/-- A state of `FixupAfterRemove`: the Black root `0` has no left child (the position of
`node`, which is `NULL`) and the right child `1` of the given colour; the children of `1`
are the leaves `2` (left) and `3` (right) of the given colours, each absent for `none`. -/
def siblingMem (sc : Color) (lc rc : Option Color) : Mem where
  node := fun a =>
    if a = 0 then ⟨Color.kBlack, none, none, some 1⟩
    else if a = 1 then ⟨sc, some 0, lc.map fun _ => 2, rc.map fun _ => 3⟩
    else if a = 2 then ⟨lc.getD Color.kBlack, some 1, none, none⟩
    else ⟨rc.getD Color.kBlack, some 1, none, none⟩
  rb_node := some 0

/-- A leaf of the given colour at the address `a`, or the empty tree. -/
def leafTree (c : Option Color) (a : Nat) : Tree :=
  match c with
  | none => Tree.nil
  | some c => Tree.node c Tree.nil a Tree.nil

/-- The tree held by `siblingMem`. -/
def siblingTree (sc : Color) (lc rc : Option Color) : Tree :=
  Tree.node Color.kBlack Tree.nil 0 (Tree.node sc (leafTree lc 2) 1 (leafTree rc 3))

/-- A well-formed tree that is not a red-black tree: the Black root `1` has the Black
left child `0` and no right child. -/
def lopsidedMem : Mem where
  node := fun a =>
    if a = 1 then ⟨Color.kBlack, none, some 0, none⟩
    else ⟨Color.kBlack, some 1, none, none⟩
  rb_node := some 1

/-- The tree held by `lopsidedMem`. -/
def lopsidedTree : Tree :=
  Tree.node Color.kBlack (Tree.node Color.kBlack Tree.nil 0 Tree.nil) 1 Tree.nil

/-- A red-black tree with four nodes: the Black root `1` has the Black children `0` and
`3`, and `3` has the Red left child `2`. -/
def fourNodeMem : Mem where
  node := fun a =>
    if a = 1 then ⟨Color.kBlack, none, some 0, some 3⟩
    else if a = 0 then ⟨Color.kBlack, some 1, none, none⟩
    else if a = 3 then ⟨Color.kBlack, some 1, some 2, none⟩
    else ⟨Color.kRed, some 3, none, none⟩
  rb_node := some 1

/-- The tree held by `fourNodeMem`. -/
def fourNodeTree : Tree :=
  Tree.node Color.kBlack (Tree.node Color.kBlack Tree.nil 0 Tree.nil) 1
    (Tree.node Color.kBlack (Tree.node Color.kRed Tree.nil 2 Tree.nil) 3 Tree.nil)

/-! ## Case numbers and rotation counts of the fixup loops -/

/-- The branch the body of `FixupAfterRemove` takes in a state: `0` when the loop
condition is false (or `node_parent` or the sibling is `NULL`), otherwise the number of
the case, 1 to 4, as the comments of the source number them. -/
def removeCaseOf (st : Option Nat × Option Nat × Mem) : Nat :=
  let node := st.1
  let s := st.2.2
  if removeLoopCond st = true then
    match st.2.1 with
    | none => 0
    | some p =>
      if node = (s.node p).left then
        match (s.node p).right with
        | none => 0
        | some sb =>
          if IsRed s (some sb) then 1
          else if (!IsRed s (s.node sb).left && !IsRed s (s.node sb).right) = true then 2
          else if IsBlack s (s.node sb).right then 3
          else 4
      else
        match (s.node p).left with
        | none => 0
        | some sb =>
          if IsRed s (some sb) then 1
          else if (!IsRed s (s.node sb).left && !IsRed s (s.node sb).right) = true then 2
          else if IsBlack s (s.node sb).left then 3
          else 4
  else 0

/-- The number of calls of `RotateLeft` and `RotateRight` in one pass through the body of
`FixupAfterRemove`: one in each of the cases 1, 3 and 4, none in Case 2. -/
def removeBodyRotations (st : Option Nat × Option Nat × Mem) : Nat :=
  if removeCaseOf st = 1 ∨ removeCaseOf st = 3 ∨ removeCaseOf st = 4 then 1 else 0

/-- The number of calls of `RotateLeft` and `RotateRight` in one pass through the body of
`FixupAfterInsert`: none in Case 1 (Red uncle), two when Case 2 runs before Case 3, one
in Case 3 alone. -/
def insertBodyRotations (st : Nat × Mem) : Nat :=
  let node := st.1
  let s := st.2
  let parent := (s.node node).parent
  if IsRed s parent then
    match parent with
    | none => 0
    | some p =>
      match (s.node p).parent with
      | none => 0
      | some g =>
        if parent = (s.node g).left then
          if IsRed s (s.node g).right then 0
          else if some node = (s.node p).right then 2
          else 1
        else
          if IsRed s (s.node g).left then 0
          else if some node = (s.node p).left then 2
          else 1
  else 0

/-- The case number of `removeCaseOf` on abstract trees. -/
def delCaseOf (st : Path × Tree) : Nat :=
  match st with
  | ([], _) => 0
  | (f :: _, t) =>
    if t.rootColor = Color.kRed then 0 else
    match f with
    | Frame.L _ _ sib =>
      match sib with
      | Tree.nil => 0
      | Tree.node sc sl _ sr =>
        if sc = Color.kRed then 1
        else if sl.rootColor ≠ Color.kRed ∧ sr.rootColor ≠ Color.kRed then 2
        else if sr.rootColor = Color.kBlack then 3
        else 4
    | Frame.R _ sib _ =>
      match sib with
      | Tree.nil => 0
      | Tree.node sc sl _ sr =>
        if sc = Color.kRed then 1
        else if sl.rootColor ≠ Color.kRed ∧ sr.rootColor ≠ Color.kRed then 2
        else if sl.rootColor = Color.kBlack then 3
        else 4

/-- The rotation count of `removeBodyRotations` on abstract trees. -/
def delRotations (st : Path × Tree) : Nat :=
  if delCaseOf st = 1 ∨ delCaseOf st = 3 ∨ delCaseOf st = 4 then 1 else 0

/-! ## Parent and child links -/

/-- The records reachable from the root handle through `left` and `right` fields. -/
inductive Reach (s : Mem) : Nat → Prop where
  | root (r : Nat) (h : s.rb_node = some r) : Reach s r
  | left (p c : Nat) (hp : Reach s p) (h : (s.node p).left = some c) : Reach s c
  | right (p c : Nat) (hp : Reach s p) (h : (s.node p).right = some c) : Reach s c

/-- Parent and child links agree: the root has no parent, and every present child of a
reachable record has that record as its parent. -/
def LinkSym (s : Mem) : Prop :=
  (∀ r, s.rb_node = some r → (s.node r).parent = none) ∧
  ∀ p, Reach s p →
    (∀ c, (s.node p).left = some c → (s.node c).parent = some p) ∧
    (∀ c, (s.node p).right = some c → (s.node c).parent = some p)

/-- The colours and the `left` and `right` fields of the records of `m` spell out the
tree `t`; the `parent` fields are not looked at. -/
def Tree.Shape (m : Nat → RbNode) : Tree → Prop
  | Tree.nil => True
  | Tree.node c l a r =>
    (m a).color = c ∧ (m a).left = l.ptr ∧ (m a).right = r.ptr ∧ Tree.Shape m l ∧
      Tree.Shape m r

/-- The records reachable from the root handle form the binary tree `t`, no record
occurring twice. -/
def IsTree (s : Mem) (t : Tree) : Prop :=
  s.rb_node = t.ptr ∧ t.Shape s.node ∧ t.ids.Nodup

/-! ## Mirror images of loop states -/

/-- The loop step that carries the image of the state under `f`. -/
def LoopStep.map {σ τ : Type} (f : σ → τ) : LoopStep σ → LoopStep τ
  | LoopStep.next x => LoopStep.next (f x)
  | LoopStep.done x => LoopStep.done (f x)

/-- The mirror image of a loop state of `FixupAfterInsert`: the same `node`, the mirrored
memory. -/
def mirrorInsertState (st : Nat × Mem) : Nat × Mem :=
  (st.1, st.2.mirror)

/-- The mirror image of a loop state of `FixupAfterRemove`: the same `node` and
`node_parent`, the mirrored memory. -/
def mirrorRemoveState (st : Option Nat × Option Nat × Mem) : Option Nat × Option Nat × Mem :=
  (st.1, st.2.1, st.2.2.mirror)

/-- A well-formed tree with a Red node below a Red node: the Black root `0` has only the
right child `1`, Black, which has only the right child `3`, Red, which has only the left
child `4`, Red. -/
def chainMem : Mem where
  node := fun a =>
    if a = 0 then ⟨Color.kBlack, none, none, some 1⟩
    else if a = 1 then ⟨Color.kBlack, some 0, none, some 3⟩
    else if a = 3 then ⟨Color.kRed, some 1, some 4, none⟩
    else ⟨Color.kRed, some 3, none, none⟩
  rb_node := some 0

/-- The tree held by `chainMem`. -/
def chainTree : Tree :=
  Tree.node Color.kBlack Tree.nil 0
    (Tree.node Color.kBlack Tree.nil 1
      (Tree.node Color.kRed (Tree.node Color.kRed Tree.nil 4 Tree.nil) 3 Tree.nil))

/-- A memory that is not a tree: the record `1` is both the left and the right child of
the root `0`.  The root has no parent and the child points back to the root. -/
def sharedChildMem : Mem where
  node := fun a =>
    if a = 0 then ⟨Color.kBlack, none, some 1, some 1⟩
    else ⟨Color.kRed, some 0, none, none⟩
  rb_node := some 0

/-! # Theorems -/

/-! ## Representation lemmas -/

@[simp] theorem ptr_nil : Tree.nil.ptr = none := rfl

@[simp] theorem ptr_node (c : Color) (l : Tree) (a : Nat) (r : Tree) :
    (Tree.node c l a r).ptr = some a := rfl

@[simp] theorem ids_nil : Tree.nil.ids = [] := rfl

@[simp] theorem ids_node (c : Color) (l : Tree) (a : Nat) (r : Tree) :
    (Tree.node c l a r).ids = l.ids ++ a :: r.ids := rfl

theorem ids_plug (k : Path) (t : Tree) :
    (plug k t).ids = before k ++ (t.ids ++ after k) := by
  induction k generalizing t with
  | nil => simp [plug, before, after]
  | cons f k ih =>
    cases f <;> simp [plug, before, after, ih, Tree.ids]

theorem ptr_plug (k : Path) (t : Tree) : (plug k t).ptr = rootPtr k t.ptr := by
  induction k generalizing t with
  | nil => rfl
  | cons f k ih => cases f <;> simp [plug, rootPtr, ih]

theorem Rep_congr {m m' : Nat → RbNode} {par : Option Nat} {t : Tree}
    (h : Tree.Rep m par t) (hm : ∀ a ∈ t.ids, m' a = m a) : Tree.Rep m' par t := by
  induction t generalizing par with
  | nil => trivial
  | node c l a r ihl ihr =>
    obtain ⟨h1, h2, h3, h4, h5, h6⟩ := h
    have ha : m' a = m a := hm a (by simp [Tree.ids])
    refine ⟨by rw [ha]; exact h1, by rw [ha]; exact h2, by rw [ha]; exact h3,
      by rw [ha]; exact h4, ihl h5 ?_, ihr h6 ?_⟩
    · intro b hb; exact hm b (by simp [Tree.ids, hb])
    · intro b hb; exact hm b (by simp [Tree.ids, hb])

theorem RepCtx_congr {m m' : Nat → RbNode} {hole : Option Nat} {k : Path}
    (h : RepCtx m hole k) (hm : ∀ a ∈ before k ++ after k, m' a = m a) :
    RepCtx m' hole k := by
  induction k generalizing hole with
  | nil => trivial
  | cons f k ih =>
    cases f with
    | L c p r =>
      obtain ⟨h1, h2, h3, h4, h5, h6⟩ := h
      have hp : m' p = m p := hm p (by simp [before, after])
      refine ⟨by rw [hp]; exact h1, by rw [hp]; exact h2, by rw [hp]; exact h3,
        by rw [hp]; exact h4, Rep_congr h5 ?_, ih h6 ?_⟩
      · intro b hb; exact hm b (by simp [before, after, hb])
      · intro b hb
        apply hm b
        simp only [before, after, List.mem_append, List.mem_cons] at hb ⊢
        tauto
    | R c l p =>
      obtain ⟨h1, h2, h3, h4, h5, h6⟩ := h
      have hp : m' p = m p := hm p (by simp [before, after])
      refine ⟨by rw [hp]; exact h1, by rw [hp]; exact h2, by rw [hp]; exact h3,
        by rw [hp]; exact h4, Rep_congr h5 ?_, ih h6 ?_⟩
      · intro b hb; exact hm b (by simp [before, after, hb])
      · intro b hb
        apply hm b
        simp only [before, after, List.mem_append, List.mem_cons] at hb ⊢
        tauto

theorem Rep_plug (m : Nat → RbNode) (k : Path) (t : Tree) :
    Tree.Rep m none (plug k t) ↔ (RepCtx m t.ptr k ∧ Tree.Rep m (cpar k) t) := by
  induction k generalizing t with
  | nil => simp [plug, RepCtx, cpar]
  | cons f k ih =>
    cases f <;> simp [plug, RepCtx, cpar, ih, Tree.Rep, Tree.ptr] <;> tauto

theorem owns_plug (s : Mem) (k : Path) (t : Tree) : Owns s (plug k t) ↔ OwnsAt s k t := by
  simp only [Owns, OwnsAt, ids_plug, ptr_plug, Rep_plug, and_assoc]

@[simp] theorem setColor_node (s : Mem) (a : Nat) (c : Color) :
    (s.setColor a c).node = Function.update s.node a { s.node a with color := c } := rfl
@[simp] theorem setParent_node (s : Mem) (a : Nat) (p : Option Nat) :
    (s.setParent a p).node = Function.update s.node a { s.node a with parent := p } := rfl
@[simp] theorem setLeft_node (s : Mem) (a : Nat) (p : Option Nat) :
    (s.setLeft a p).node = Function.update s.node a { s.node a with left := p } := rfl
@[simp] theorem setRight_node (s : Mem) (a : Nat) (p : Option Nat) :
    (s.setRight a p).node = Function.update s.node a { s.node a with right := p } := rfl
@[simp] theorem setColor_root (s : Mem) (a : Nat) (c : Color) :
    (s.setColor a c).rb_node = s.rb_node := rfl
@[simp] theorem setParent_root (s : Mem) (a : Nat) (p : Option Nat) :
    (s.setParent a p).rb_node = s.rb_node := rfl
@[simp] theorem setLeft_root (s : Mem) (a : Nat) (p : Option Nat) :
    (s.setLeft a p).rb_node = s.rb_node := rfl
@[simp] theorem setRight_root (s : Mem) (a : Nat) (p : Option Nat) :
    (s.setRight a p).rb_node = s.rb_node := rfl

theorem rootPtr_cons (f : Frame) (k : Path) (h h' : Option Nat) :
    rootPtr (f :: k) h = rootPtr (f :: k) h' := by
  cases f <;> rfl

theorem rootPtr_mem (k : Path) (f : Frame) (h : Option Nat) :
    ∃ a, rootPtr (f :: k) h = some a ∧ a ∈ before (f :: k) ++ after (f :: k) := by
  induction k generalizing f h with
  | nil => cases f <;> simp [rootPtr, before, after]
  | cons g k ih =>
    obtain ⟨a, h1, h2⟩ := ih g (cpar (f :: g :: k))
    refine ⟨a, ?_, ?_⟩
    · cases f <;> simpa [rootPtr, cpar] using h1
    · cases f <;> simp only [before, after, List.mem_append, List.mem_cons] at h2 ⊢ <;> tauto

theorem ptr_mem_ids {t : Tree} {a : Nat} (h : t.ptr = some a) : a ∈ t.ids := by
  cases t with
  | nil => simp at h
  | node c l b r => simp at h; simp [h]

theorem cnt {L R : List Nat} {w : Nat} (hnd : L.Nodup) (h : w ∈ R) :
    L.count w ≤ 1 ∧ 0 < R.count w :=
  ⟨List.nodup_iff_count_le_one.mp hnd w, List.count_pos_iff.mpr h⟩

theorem cnt0 {R : List Nat} {w : Nat} (h : w ∉ R) : R.count w = 0 :=
  List.count_eq_zero.mpr h

theorem Transplant_ctx {s : Mem} {k : Path} {x : Nat} {new : Option Nat}
    (hroot : s.rb_node = rootPtr k (some x))
    (hctx : RepCtx s.node (some x) k)
    (hpar : (s.node x).parent = cpar k)
    (hx : x ∉ before k ++ after k)
    (hnd : (before k ++ after k).Nodup)
    (hnew : ∀ n, new = some n → n ∉ before k ++ after k) :
    ∃ s1, Transplant (some x) new s = some s1 ∧
      s1.rb_node = rootPtr k new ∧ RepCtx s1.node new k ∧
      (∀ a, some a ≠ cpar k → some a ≠ new → s1.node a = s.node a) ∧
      (∀ n, new = some n → s1.node n = { s.node n with parent := cpar k }) := by
  cases k with
  | nil =>
    cases new with
    | none => simp [Transplant, hroot, hpar, cpar, rootPtr, RepCtx] at *
    | some n =>
      simp [Transplant, hroot, hpar, cpar, rootPtr, RepCtx] at *
      intro a ha
      simp [Function.update, ha]
  | cons f k =>
    obtain ⟨ra, hra, hram⟩ := rootPtr_mem k f (some x)
    have hxr : some x ≠ s.rb_node := by
      rw [hroot, hra]; intro h; cases h; exact hx hram
    have hrt : ∀ h, s.rb_node = rootPtr (f :: k) h := fun h => by
      rw [hroot]; exact rootPtr_cons _ _ _ _
    have hp : ∃ p, cpar (f :: k) = some p ∧ p ∈ before (f :: k) ++ after (f :: k) ∧
        (∀ a ∈ before k ++ after k, a ≠ p) ∧
        ((s.node p).left = some x ∧ (∀ v, RepCtx (Function.update s.node p
            { s.node p with left := v }) v (f :: k)) ∨
         (s.node p).left ≠ some x ∧ (s.node p).right = some x ∧
          (∀ v, RepCtx (Function.update s.node p
            { s.node p with right := v }) v (f :: k))) := by
      cases f with
      | L c p r =>
        obtain ⟨h1, h2, h3, h4, h5, h6⟩ := hctx
        have hk : ∀ a ∈ before k ++ after k, a ≠ p := by
          rintro a ha rfl
          obtain ⟨c1, c2⟩ := cnt hnd ha
          simp only [before, after, List.count_append, List.count_cons, List.count_nil,
            beq_self_eq_true, if_true] at c1 c2
          omega
        refine ⟨p, rfl, by simp [before, after], hk, Or.inl ⟨h3, ?_⟩⟩
        intro v
        refine ⟨by simp [h1], by simp [h2], by simp, by simp [h4], Rep_congr h5 ?_,
          RepCtx_congr h6 ?_⟩
        · intro a ha
          have : a ≠ p := by
            rintro rfl
            obtain ⟨c1, c2⟩ := cnt hnd ha
            simp only [before, after, List.count_append, List.count_cons, List.count_nil,
            beq_self_eq_true, if_true] at c1 c2
            omega
          simp [Function.update, this]
        · intro a ha
          simp [Function.update, hk a ha]
      | R c l p =>
        obtain ⟨h1, h2, h3, h4, h5, h6⟩ := hctx
        have hk : ∀ a ∈ before k ++ after k, a ≠ p := by
          rintro a ha rfl
          obtain ⟨c1, c2⟩ := cnt hnd ha
          simp only [before, after, List.count_append, List.count_cons, List.count_nil,
            beq_self_eq_true, if_true] at c1 c2
          omega
        have hlx : (s.node p).left ≠ some x := by
          rw [h3]; intro h
          apply hx
          have := ptr_mem_ids h
          simp [before, after, this]
        refine ⟨p, rfl, by simp [before, after], hk, Or.inr ⟨hlx, h4, ?_⟩⟩
        intro v
        refine ⟨by simp [h1], by simp [h2], by simp [h3], by simp, Rep_congr h5 ?_,
          RepCtx_congr h6 ?_⟩
        · intro a ha
          have : a ≠ p := by
            rintro rfl
            obtain ⟨c1, c2⟩ := cnt hnd ha
            simp only [before, after, List.count_append, List.count_cons, List.count_nil,
            beq_self_eq_true, if_true] at c1 c2
            omega
          simp [Function.update, this]
        · intro a ha
          simp [Function.update, hk a ha]
    obtain ⟨p, hp1, hp2, hp3, hp4⟩ := hp
    have hxp : x ≠ p := by rintro rfl; exact hx hp2
    rw [hp1] at hpar
    have key : ∃ m1 : Option Nat → Nat → RbNode, (∀ v, RepCtx (m1 v) v (f :: k)) ∧
        (∀ v a, a ≠ p → m1 v a = s.node a) ∧
        (if (s.node p).left = some x then some (s.setLeft p new)
          else if (s.node p).right = some x then some (s.setRight p new) else some s) =
          some ⟨m1 new, s.rb_node⟩ := by
      rcases hp4 with ⟨e1, e2⟩ | ⟨e1, e2, e3⟩
      · exact ⟨_, e2, fun v a ha => by simp [Function.update, ha], by simp [e1, Mem.setLeft]⟩
      · exact ⟨_, e3, fun v a ha => by simp [Function.update, ha],
          by simp [e1, e2, Mem.setRight]⟩
    obtain ⟨m1, k1, k2, k3⟩ := key
    simp only [Transplant, hxr, hpar, if_false, k3]
    cases new with
    | none =>
      refine ⟨_, rfl, hrt _, k1 none, ?_, ?_⟩
      · intro a ha _
        have : a ≠ p := by rw [hp1] at ha; simpa using ha
        exact k2 _ _ this
      · simp
    | some n =>
      have hn := hnew n rfl
      have hnp : n ≠ p := by rintro rfl; exact hn hp2
      refine ⟨_, rfl, hrt _, ?_, ?_, ?_⟩
      · refine RepCtx_congr (k1 (some n)) ?_
        intro a ha
        have : a ≠ n := by rintro rfl; exact hn ha
        simp [Function.update, this]
      · intro a ha ha2
        have h1 : a ≠ p := by rw [hp1] at ha; simpa using ha
        have h2 : a ≠ n := by simpa using ha2
        simp [Function.update, h2, k2 _ _ h1]
      · intro n1 hn; cases hn
        simp [Function.update, k2 _ _ hnp, k2 _ _ hxp, hpar, hp1]


theorem setColor_focus {s : Mem} {k : Path} {c : Color} {l r : Tree} {x : Nat}
    (h : OwnsAt s k (Tree.node c l x r)) (c' : Color) :
    OwnsAt (s.setColor x c') k (Tree.node c' l x r) := by
  obtain ⟨h1, h2, ⟨h3, h4, h5, h6, h7, h8⟩, h9⟩ := h
  refine ⟨h1, RepCtx_congr h2 ?_, ⟨by simp, by simp [h4], by simp [h5], by simp [h6],
    Rep_congr h7 ?_, Rep_congr h8 ?_⟩, h9⟩
  all_goals
    intro a ha
    have : a ≠ x := by
      rintro rfl
      obtain ⟨c1, c2⟩ := cnt h9 ha
      simp only [ids_node, List.count_append, List.count_cons, List.count_nil,
        beq_self_eq_true, if_true] at c1 c2
      omega
    simp [Function.update, this]

theorem nodup_ctx {A T B : List Nat} (h : (A ++ (T ++ B)).Nodup) : (A ++ B).Nodup :=
  h.sublist ((List.Sublist.refl A).append (List.sublist_append_right T B))

theorem RotateLeft_focus {s : Mem} {k : Path} {cx cy : Color} {a b c : Tree} {x y : Nat}
    (h : OwnsAt s k (Tree.node cx a x (Tree.node cy b y c))) :
    ∃ s', RotateLeft (some x) s = some s' ∧
      OwnsAt s' k (Tree.node cy (Tree.node cx a x b) y c) := by
  obtain ⟨h1, h2, ⟨h3, h4, h5, h6, h7, ⟨g3, g4, g5, g6, g7, g8⟩⟩, h9⟩ := h
  have hx : x ∉ before k ++ after k := by
    intro ha
    obtain ⟨c1, c2⟩ := cnt h9 ha
    simp only [ids_node, List.count_append, List.count_cons, List.count_nil,
      beq_self_eq_true, if_true] at c1 c2
    omega
  have hy : y ∉ before k ++ after k := by
    intro ha
    obtain ⟨c1, c2⟩ := cnt h9 ha
    simp only [ids_node, List.count_append, List.count_cons, List.count_nil,
      beq_self_eq_true, if_true] at c1 c2
    omega
  have hxy : x ≠ y := by
    rintro rfl
    have c1 := List.nodup_iff_count_le_one.mp h9 x
    simp only [ids_node, List.count_append, List.count_cons, List.count_nil,
      beq_self_eq_true, if_true] at c1
    omega
  obtain ⟨s1, e1, r1, r2, r3, r4⟩ := @Transplant_ctx _ _ _ (some y) h1 h2 h4 hx (nodup_ctx h9)
    (by intro n hn; cases hn; exact hy)
  have r4 := r4 y rfl
  have hxp : some x ≠ cpar k := by
    intro e
    cases k with
    | nil => simp [cpar] at e
    | cons f k => cases f <;> simp [cpar] at e <;> subst e <;> simp [before, after] at hx
  have r5 := r3 x hxp (by simpa using hxy)
  simp only [RotateLeft, ptr_node] at h6 ⊢
  simp only [h6, e1]
  have hnd' : (before k ++ ((Tree.node cy (Tree.node cx a x b) y c).ids ++ after k)).Nodup := by
    simpa using h9
  have hcp : ∀ i, i ∉ before k ++ after k → some i ≠ cpar k := by
    intro i hi e
    apply hi
    cases k with
    | nil => simp [cpar] at e
    | cons f k => cases f <;> simp [cpar] at e <;> subst e <;> simp [before, after]
  have r6 : ∀ i, i ≠ y → i ∉ before k ++ after k → s1.node i = s.node i :=
    fun i h1 h2 => r3 i (hcp i h2) (by simpa using h1)
  cases b with
  | nil =>
    simp only [ptr_nil] at g5
    simp only [g5]
    refine ⟨_, rfl, ?_, ?_, ⟨?_, ?_, ?_, ?_, ⟨?_, ?_, ?_, ?_, ?_, ?_⟩, ?_⟩, hnd'⟩
    · simpa using r1
    · refine RepCtx_congr r2 ?_
      intro i hi
      have i1 : i ≠ x := by rintro rfl; exact hx hi
      have i2 : i ≠ y := by rintro rfl; exact hy hi
      simp [Function.update, i1, i2]
    · simp [Function.update, hxy, Ne.symm hxy, r4, g3, g5]
    · simp [Function.update, hxy, Ne.symm hxy, r4, g3]
    · simp [Function.update, hxy, Ne.symm hxy, r4, g3]
    · simp [Function.update, hxy, Ne.symm hxy, r4, g3, g6]
    · simp [Function.update, hxy, Ne.symm hxy, r5, h3, g5]
    · simp [Function.update, hxy, Ne.symm hxy, r5, h3, g5]
    · simp [Function.update, hxy, Ne.symm hxy, r5, h3, g5, h5]
    · simp [Function.update, hxy, Ne.symm hxy, r5, h3, g5]
    · refine Rep_congr h7 ?_
      intro i hi
      have i1 : i ≠ x := by
        rintro rfl
        obtain ⟨c1, c2⟩ := cnt h9 hi
        simp only [ids_node, List.count_append, List.count_cons, List.count_nil,
          beq_self_eq_true, if_true] at c1 c2
        omega
      have i2 : i ≠ y := by
        rintro rfl
        obtain ⟨c1, c2⟩ := cnt h9 hi
        simp only [ids_node, List.count_append, List.count_cons, List.count_nil,
          beq_self_eq_true, if_true] at c1 c2
        omega
      have i3 : i ∉ before k ++ after k := by
        apply List.count_eq_zero.mp
        obtain ⟨c1, c2⟩ := cnt h9 hi
        simp only [ids_node, List.count_append, List.count_cons, List.count_nil,
          beq_self_eq_true, if_true] at c1 c2 ⊢
        omega

      simp [Function.update, i1, i2, r6 i i2 i3]
    · trivial
    · refine Rep_congr g8 ?_
      intro i hi
      have i1 : i ≠ x := by
        rintro rfl
        obtain ⟨c1, c2⟩ := cnt h9 hi
        simp only [ids_node, List.count_append, List.count_cons, List.count_nil,
          beq_self_eq_true, if_true] at c1 c2
        omega
      have i2 : i ≠ y := by
        rintro rfl
        obtain ⟨c1, c2⟩ := cnt h9 hi
        simp only [ids_node, List.count_append, List.count_cons, List.count_nil,
          beq_self_eq_true, if_true] at c1 c2
        omega
      have i3 : i ∉ before k ++ after k := by
        apply List.count_eq_zero.mp
        obtain ⟨c1, c2⟩ := cnt h9 hi
        simp only [ids_node, List.count_append, List.count_cons, List.count_nil,
          beq_self_eq_true, if_true] at c1 c2 ⊢
        omega

      simp [Function.update, i1, i2, r6 i i2 i3]
  | node cb bl b0 br =>
    simp only [ptr_node] at g5
    simp only [g5]
    obtain ⟨b3, b4, b5, b6, b7, b8⟩ := g7
    have hb : b0 ≠ x ∧ b0 ≠ y ∧ b0 ∉ before k ++ after k := by
      have hi : b0 ∈ (Tree.node cb bl b0 br).ids := by simp
      refine ⟨?_, ?_, ?_⟩
      · rintro rfl
        obtain ⟨c1, c2⟩ := cnt h9 hi
        simp only [ids_node, List.count_append, List.count_cons, List.count_nil,
          beq_self_eq_true, if_true] at c1 c2
        omega
      · rintro rfl
        obtain ⟨c1, c2⟩ := cnt h9 hi
        simp only [ids_node, List.count_append, List.count_cons, List.count_nil,
          beq_self_eq_true, if_true] at c1 c2
        omega
      · apply List.count_eq_zero.mp
        obtain ⟨c1, c2⟩ := cnt h9 hi
        simp only [ids_node, List.count_append, List.count_cons, List.count_nil,
          beq_self_eq_true, if_true] at c1 c2 ⊢
        omega
    obtain ⟨hb1, hb2, hb3⟩ := hb
    have r7 := r6 b0 hb2 hb3
    refine ⟨_, rfl, ?_, ?_, ⟨?_, ?_, ?_, ?_, ⟨?_, ?_, ?_, ?_, ?_, ?_⟩, ?_⟩, hnd'⟩
    · simpa using r1
    · refine RepCtx_congr r2 ?_
      intro i hi
      have i1 : i ≠ x := by rintro rfl; exact hx hi
      have i2 : i ≠ y := by rintro rfl; exact hy hi
      have i3 : i ≠ b0 := by rintro rfl; exact hb3 hi
      simp [Function.update, i1, i2, i3]
    · simp [Function.update, hxy, Ne.symm hxy, r4, g3, g5, hb1, hb2, Ne.symm hb1, Ne.symm hb2]
    · simp [Function.update, hxy, Ne.symm hxy, r4, g3, hb1, hb2, Ne.symm hb1, Ne.symm hb2]
    · simp [Function.update, hxy, Ne.symm hxy, r4, g3, hb1, hb2, Ne.symm hb1, Ne.symm hb2]
    · simp [Function.update, hxy, Ne.symm hxy, r4, g3, g6, hb1, hb2, Ne.symm hb1, Ne.symm hb2]
    · simp [Function.update, hxy, Ne.symm hxy, r5, h3, g5, hb1, hb2, Ne.symm hb1, Ne.symm hb2]
    · simp [Function.update, hxy, Ne.symm hxy, r5, h3, g5, hb1, hb2, Ne.symm hb1, Ne.symm hb2]
    · simp [Function.update, hxy, Ne.symm hxy, r5, h3, g5, h5, hb1, hb2, Ne.symm hb1,
        Ne.symm hb2]
    · simp [Function.update, hxy, Ne.symm hxy, r5, h3, g5, hb1, hb2, Ne.symm hb1, Ne.symm hb2]
    · refine Rep_congr h7 ?_
      intro i hi
      have i1 : i ≠ x := by
        rintro rfl
        obtain ⟨c1, c2⟩ := cnt h9 hi
        simp only [ids_node, List.count_append, List.count_cons, List.count_nil,
          beq_self_eq_true, if_true] at c1 c2
        omega
      have i2 : i ≠ y := by
        rintro rfl
        obtain ⟨c1, c2⟩ := cnt h9 hi
        simp only [ids_node, List.count_append, List.count_cons, List.count_nil,
          beq_self_eq_true, if_true] at c1 c2
        omega
      have i3 : i ∉ before k ++ after k := by
        apply List.count_eq_zero.mp
        obtain ⟨c1, c2⟩ := cnt h9 hi
        simp only [ids_node, List.count_append, List.count_cons, List.count_nil,
          beq_self_eq_true, if_true] at c1 c2 ⊢
        omega
      have i4 : i ≠ b0 := by
        rintro rfl
        obtain ⟨c1, c2⟩ := cnt h9 hi
        simp only [ids_node, List.count_append, List.count_cons, List.count_nil,
          beq_self_eq_true, if_true] at c1 c2
        omega
      simp [Function.update, i1, i2, i4, r6 i i2 i3]
    · refine ⟨?_, ?_, ?_, ?_, Rep_congr b7 ?_, Rep_congr b8 ?_⟩
      · simp [Function.update, hb1, hb2, r7, b3]
      · simp [Function.update, hb1, hb2, r7, b3]
      · simp [Function.update, hb1, hb2, r7, b5]
      · simp [Function.update, hb1, hb2, r7, b6]
      · intro i hi
        have i1 : i ≠ x := by
          rintro rfl
          obtain ⟨c1, c2⟩ := cnt h9 hi
          simp only [ids_node, List.count_append, List.count_cons, List.count_nil,
            beq_self_eq_true, if_true] at c1 c2
          omega
        have i2 : i ≠ y := by
          rintro rfl
          obtain ⟨c1, c2⟩ := cnt h9 hi
          simp only [ids_node, List.count_append, List.count_cons, List.count_nil,
            beq_self_eq_true, if_true] at c1 c2
          omega
        have i3 : i ∉ before k ++ after k := by
          apply List.count_eq_zero.mp
          obtain ⟨c1, c2⟩ := cnt h9 hi
          simp only [ids_node, List.count_append, List.count_cons, List.count_nil,
            beq_self_eq_true, if_true] at c1 c2 ⊢
          omega
        have i4 : i ≠ b0 := by
          rintro rfl
          obtain ⟨c1, c2⟩ := cnt h9 hi
          simp only [ids_node, List.count_append, List.count_cons, List.count_nil,
            beq_self_eq_true, if_true] at c1 c2
          omega
        simp [Function.update, i1, i2, i4, r6 i i2 i3]
      · intro i hi
        have i1 : i ≠ x := by
          rintro rfl
          obtain ⟨c1, c2⟩ := cnt h9 hi
          simp only [ids_node, List.count_append, List.count_cons, List.count_nil,
            beq_self_eq_true, if_true] at c1 c2
          omega
        have i2 : i ≠ y := by
          rintro rfl
          obtain ⟨c1, c2⟩ := cnt h9 hi
          simp only [ids_node, List.count_append, List.count_cons, List.count_nil,
            beq_self_eq_true, if_true] at c1 c2
          omega
        have i3 : i ∉ before k ++ after k := by
          apply List.count_eq_zero.mp
          obtain ⟨c1, c2⟩ := cnt h9 hi
          simp only [ids_node, List.count_append, List.count_cons, List.count_nil,
            beq_self_eq_true, if_true] at c1 c2 ⊢
          omega
        have i4 : i ≠ b0 := by
          rintro rfl
          obtain ⟨c1, c2⟩ := cnt h9 hi
          simp only [ids_node, List.count_append, List.count_cons, List.count_nil,
            beq_self_eq_true, if_true] at c1 c2
          omega
        simp [Function.update, i1, i2, i4, r6 i i2 i3]
    · refine Rep_congr g8 ?_
      intro i hi
      have i1 : i ≠ x := by
        rintro rfl
        obtain ⟨c1, c2⟩ := cnt h9 hi
        simp only [ids_node, List.count_append, List.count_cons, List.count_nil,
          beq_self_eq_true, if_true] at c1 c2
        omega
      have i2 : i ≠ y := by
        rintro rfl
        obtain ⟨c1, c2⟩ := cnt h9 hi
        simp only [ids_node, List.count_append, List.count_cons, List.count_nil,
          beq_self_eq_true, if_true] at c1 c2
        omega
      have i3 : i ∉ before k ++ after k := by
        apply List.count_eq_zero.mp
        obtain ⟨c1, c2⟩ := cnt h9 hi
        simp only [ids_node, List.count_append, List.count_cons, List.count_nil,
          beq_self_eq_true, if_true] at c1 c2 ⊢
        omega
      have i4 : i ≠ b0 := by
        rintro rfl
        obtain ⟨c1, c2⟩ := cnt h9 hi
        simp only [ids_node, List.count_append, List.count_cons, List.count_nil,
          beq_self_eq_true, if_true] at c1 c2
        omega
      simp [Function.update, i1, i2, i4, r6 i i2 i3]

theorem RotateRight_focus {s : Mem} {k : Path} {cx cy : Color} {a b c : Tree} {x y : Nat}
    (h : OwnsAt s k (Tree.node cx (Tree.node cy a y b) x c)) :
    ∃ s', RotateRight (some x) s = some s' ∧
      OwnsAt s' k (Tree.node cy a y (Tree.node cx b x c)) := by
  obtain ⟨h1, h2, ⟨h3, h4, h5, h6, ⟨g3, g4, g5, g6, g7, g8⟩, h8⟩, h9⟩ := h
  have hx : x ∉ before k ++ after k := by
    intro ha
    obtain ⟨c1, c2⟩ := cnt h9 ha
    simp only [ids_node, List.count_append, List.count_cons, List.count_nil,
      beq_self_eq_true, if_true] at c1 c2
    omega
  have hy : y ∉ before k ++ after k := by
    intro ha
    obtain ⟨c1, c2⟩ := cnt h9 ha
    simp only [ids_node, List.count_append, List.count_cons, List.count_nil,
      beq_self_eq_true, if_true] at c1 c2
    omega
  have hxy : x ≠ y := by
    rintro rfl
    have c1 := List.nodup_iff_count_le_one.mp h9 x
    simp only [ids_node, List.count_append, List.count_cons, List.count_nil,
      beq_self_eq_true, if_true] at c1
    omega
  obtain ⟨s1, e1, r1, r2, r3, r4⟩ := @Transplant_ctx _ _ _ (some y) h1 h2 h4 hx (nodup_ctx h9)
    (by intro n hn; cases hn; exact hy)
  have r4 := r4 y rfl
  have hcp : ∀ i, i ∉ before k ++ after k → some i ≠ cpar k := by
    intro i hi e
    apply hi
    cases k with
    | nil => simp [cpar] at e
    | cons f k => cases f <;> simp [cpar] at e <;> subst e <;> simp [before, after]
  have r5 := r3 x (hcp x hx) (by simpa using hxy)
  simp only [RotateRight, ptr_node] at h5 ⊢
  simp only [h5, e1]
  have hnd' : (before k ++ ((Tree.node cy a y (Tree.node cx b x c)).ids ++ after k)).Nodup := by
    simpa using h9
  have r6 : ∀ i, i ≠ y → i ∉ before k ++ after k → s1.node i = s.node i :=
    fun i h1 h2 => r3 i (hcp i h2) (by simpa using h1)
  cases b with
  | nil =>
    simp only [ptr_nil] at g6
    simp only [g6]
    refine ⟨_, rfl, ?_, ?_, ⟨?_, ?_, ?_, ?_, ?_, ⟨?_, ?_, ?_, ?_, ?_, ?_⟩⟩, hnd'⟩
    · simpa using r1
    · refine RepCtx_congr r2 ?_
      intro i hi
      have i1 : i ≠ x := by rintro rfl; exact hx hi
      have i2 : i ≠ y := by rintro rfl; exact hy hi
      simp [Function.update, i1, i2]
    · simp [Function.update, hxy, Ne.symm hxy, r4, r5, g3, g5, g6, h3, h5, h6]
    · simp [Function.update, hxy, Ne.symm hxy, r4, r5, g3, g5, g6, h3, h5, h6]
    · simp [Function.update, hxy, Ne.symm hxy, r4, r5, g3, g5, g6, h3, h5, h6]
    · simp [Function.update, hxy, Ne.symm hxy, r4, r5, g3, g5, g6, h3, h5, h6]
    · refine Rep_congr g7 ?_
      intro i hi
      have i1 : i ≠ x := by
        rintro rfl
        obtain ⟨c1, c2⟩ := cnt h9 hi
        simp only [ids_node, List.count_append, List.count_cons, List.count_nil,
          beq_self_eq_true, if_true] at c1 c2
        omega
      have i2 : i ≠ y := by
        rintro rfl
        obtain ⟨c1, c2⟩ := cnt h9 hi
        simp only [ids_node, List.count_append, List.count_cons, List.count_nil,
          beq_self_eq_true, if_true] at c1 c2
        omega
      have i3 : i ∉ before k ++ after k := by
        apply List.count_eq_zero.mp
        obtain ⟨c1, c2⟩ := cnt h9 hi
        simp only [ids_node, List.count_append, List.count_cons, List.count_nil,
          beq_self_eq_true, if_true] at c1 c2 ⊢
        omega
      simp [Function.update, i1, i2, r6 i i2 i3]
    · simp [Function.update, hxy, Ne.symm hxy, r4, r5, g3, g5, g6, h3, h5, h6]
    · simp [Function.update, hxy, Ne.symm hxy, r4, r5, g3, g5, g6, h3, h5, h6]
    · simp [Function.update, hxy, Ne.symm hxy, r4, r5, g3, g5, g6, h3, h5, h6]
    · simp [Function.update, hxy, Ne.symm hxy, r4, r5, g3, g5, g6, h3, h5, h6]
    · trivial
    · refine Rep_congr h8 ?_
      intro i hi
      have i1 : i ≠ x := by
        rintro rfl
        obtain ⟨c1, c2⟩ := cnt h9 hi
        simp only [ids_node, List.count_append, List.count_cons, List.count_nil,
          beq_self_eq_true, if_true] at c1 c2
        omega
      have i2 : i ≠ y := by
        rintro rfl
        obtain ⟨c1, c2⟩ := cnt h9 hi
        simp only [ids_node, List.count_append, List.count_cons, List.count_nil,
          beq_self_eq_true, if_true] at c1 c2
        omega
      have i3 : i ∉ before k ++ after k := by
        apply List.count_eq_zero.mp
        obtain ⟨c1, c2⟩ := cnt h9 hi
        simp only [ids_node, List.count_append, List.count_cons, List.count_nil,
          beq_self_eq_true, if_true] at c1 c2 ⊢
        omega
      simp [Function.update, i1, i2, r6 i i2 i3]
  | node cb bl b0 br =>
    simp only [ptr_node] at g6
    simp only [g6]
    obtain ⟨b3, b4, b5, b6, b7, b8⟩ := g8
    have hb : b0 ≠ x ∧ b0 ≠ y ∧ b0 ∉ before k ++ after k := by
      have hi : b0 ∈ (Tree.node cb bl b0 br).ids := by simp
      refine ⟨?_, ?_, ?_⟩
      · rintro rfl
        obtain ⟨c1, c2⟩ := cnt h9 hi
        simp only [ids_node, List.count_append, List.count_cons, List.count_nil,
          beq_self_eq_true, if_true] at c1 c2
        omega
      · rintro rfl
        obtain ⟨c1, c2⟩ := cnt h9 hi
        simp only [ids_node, List.count_append, List.count_cons, List.count_nil,
          beq_self_eq_true, if_true] at c1 c2
        omega
      · apply List.count_eq_zero.mp
        obtain ⟨c1, c2⟩ := cnt h9 hi
        simp only [ids_node, List.count_append, List.count_cons, List.count_nil,
          beq_self_eq_true, if_true] at c1 c2 ⊢
        omega
    obtain ⟨hb1, hb2, hb3⟩ := hb
    have r7 := r6 b0 hb2 hb3
    refine ⟨_, rfl, ?_, ?_, ⟨?_, ?_, ?_, ?_, ?_, ⟨?_, ?_, ?_, ?_, ?_, ?_⟩⟩, hnd'⟩
    · simpa using r1
    · refine RepCtx_congr r2 ?_
      intro i hi
      have i1 : i ≠ x := by rintro rfl; exact hx hi
      have i2 : i ≠ y := by rintro rfl; exact hy hi
      have i3 : i ≠ b0 := by rintro rfl; exact hb3 hi
      simp [Function.update, i1, i2, i3]
    · simp [Function.update, hxy, Ne.symm hxy, r4, r5, g3, g5, g6, h3, h5, h6, hb1, hb2,
        Ne.symm hb1, Ne.symm hb2]
    · simp [Function.update, hxy, Ne.symm hxy, r4, r5, g3, g5, g6, h3, h5, h6, hb1, hb2,
        Ne.symm hb1, Ne.symm hb2]
    · simp [Function.update, hxy, Ne.symm hxy, r4, r5, g3, g5, g6, h3, h5, h6, hb1, hb2,
        Ne.symm hb1, Ne.symm hb2]
    · simp [Function.update, hxy, Ne.symm hxy, r4, r5, g3, g5, g6, h3, h5, h6, hb1, hb2,
        Ne.symm hb1, Ne.symm hb2]
    · refine Rep_congr g7 ?_
      intro i hi
      have i1 : i ≠ x := by
        rintro rfl
        obtain ⟨c1, c2⟩ := cnt h9 hi
        simp only [ids_node, List.count_append, List.count_cons, List.count_nil,
          beq_self_eq_true, if_true] at c1 c2
        omega
      have i2 : i ≠ y := by
        rintro rfl
        obtain ⟨c1, c2⟩ := cnt h9 hi
        simp only [ids_node, List.count_append, List.count_cons, List.count_nil,
          beq_self_eq_true, if_true] at c1 c2
        omega
      have i3 : i ∉ before k ++ after k := by
        apply List.count_eq_zero.mp
        obtain ⟨c1, c2⟩ := cnt h9 hi
        simp only [ids_node, List.count_append, List.count_cons, List.count_nil,
          beq_self_eq_true, if_true] at c1 c2 ⊢
        omega
      have i4 : i ≠ b0 := by
        rintro rfl
        obtain ⟨c1, c2⟩ := cnt h9 hi
        simp only [ids_node, List.count_append, List.count_cons, List.count_nil,
          beq_self_eq_true, if_true] at c1 c2
        omega
      simp [Function.update, i1, i2, i4, r6 i i2 i3]
    · simp [Function.update, hxy, Ne.symm hxy, r4, r5, g3, g5, g6, h3, h5, h6, hb1, hb2,
        Ne.symm hb1, Ne.symm hb2]
    · simp [Function.update, hxy, Ne.symm hxy, r4, r5, g3, g5, g6, h3, h5, h6, hb1, hb2,
        Ne.symm hb1, Ne.symm hb2]
    · simp [Function.update, hxy, Ne.symm hxy, r4, r5, g3, g5, g6, h3, h5, h6, hb1, hb2,
        Ne.symm hb1, Ne.symm hb2]
    · simp [Function.update, hxy, Ne.symm hxy, r4, r5, g3, g5, g6, h3, h5, h6, hb1, hb2,
        Ne.symm hb1, Ne.symm hb2]
    · refine ⟨?_, ?_, ?_, ?_, Rep_congr b7 ?_, Rep_congr b8 ?_⟩
      · simp [Function.update, hb1, hb2, r7, b3, b5, b6]
      · simp [Function.update, hb1, hb2, r7, b3, b5, b6]
      · simp [Function.update, hb1, hb2, r7, b3, b5, b6]
      · simp [Function.update, hb1, hb2, r7, b3, b5, b6]
      ·
        intro i hi
        have i1 : i ≠ x := by
          rintro rfl
          obtain ⟨c1, c2⟩ := cnt h9 hi
          simp only [ids_node, List.count_append, List.count_cons, List.count_nil,
            beq_self_eq_true, if_true] at c1 c2
          omega
        have i2 : i ≠ y := by
          rintro rfl
          obtain ⟨c1, c2⟩ := cnt h9 hi
          simp only [ids_node, List.count_append, List.count_cons, List.count_nil,
            beq_self_eq_true, if_true] at c1 c2
          omega
        have i3 : i ∉ before k ++ after k := by
          apply List.count_eq_zero.mp
          obtain ⟨c1, c2⟩ := cnt h9 hi
          simp only [ids_node, List.count_append, List.count_cons, List.count_nil,
            beq_self_eq_true, if_true] at c1 c2 ⊢
          omega
        have i4 : i ≠ b0 := by
          rintro rfl
          obtain ⟨c1, c2⟩ := cnt h9 hi
          simp only [ids_node, List.count_append, List.count_cons, List.count_nil,
            beq_self_eq_true, if_true] at c1 c2
          omega
        simp [Function.update, i1, i2, i4, r6 i i2 i3]
      ·
        intro i hi
        have i1 : i ≠ x := by
          rintro rfl
          obtain ⟨c1, c2⟩ := cnt h9 hi
          simp only [ids_node, List.count_append, List.count_cons, List.count_nil,
            beq_self_eq_true, if_true] at c1 c2
          omega
        have i2 : i ≠ y := by
          rintro rfl
          obtain ⟨c1, c2⟩ := cnt h9 hi
          simp only [ids_node, List.count_append, List.count_cons, List.count_nil,
            beq_self_eq_true, if_true] at c1 c2
          omega
        have i3 : i ∉ before k ++ after k := by
          apply List.count_eq_zero.mp
          obtain ⟨c1, c2⟩ := cnt h9 hi
          simp only [ids_node, List.count_append, List.count_cons, List.count_nil,
            beq_self_eq_true, if_true] at c1 c2 ⊢
          omega
        have i4 : i ≠ b0 := by
          rintro rfl
          obtain ⟨c1, c2⟩ := cnt h9 hi
          simp only [ids_node, List.count_append, List.count_cons, List.count_nil,
            beq_self_eq_true, if_true] at c1 c2
          omega
        simp [Function.update, i1, i2, i4, r6 i i2 i3]
    · refine Rep_congr h8 ?_
      intro i hi
      have i1 : i ≠ x := by
        rintro rfl
        obtain ⟨c1, c2⟩ := cnt h9 hi
        simp only [ids_node, List.count_append, List.count_cons, List.count_nil,
          beq_self_eq_true, if_true] at c1 c2
        omega
      have i2 : i ≠ y := by
        rintro rfl
        obtain ⟨c1, c2⟩ := cnt h9 hi
        simp only [ids_node, List.count_append, List.count_cons, List.count_nil,
          beq_self_eq_true, if_true] at c1 c2
        omega
      have i3 : i ∉ before k ++ after k := by
        apply List.count_eq_zero.mp
        obtain ⟨c1, c2⟩ := cnt h9 hi
        simp only [ids_node, List.count_append, List.count_cons, List.count_nil,
          beq_self_eq_true, if_true] at c1 c2 ⊢
        omega
      have i4 : i ≠ b0 := by
        rintro rfl
        obtain ⟨c1, c2⟩ := cnt h9 hi
        simp only [ids_node, List.count_append, List.count_cons, List.count_nil,
          beq_self_eq_true, if_true] at c1 c2
        omega
      simp [Function.update, i1, i2, i4, r6 i i2 i3]

theorem plug_cons (f : Frame) (k : Path) (t : Tree) : plug (f :: k) t = plug k (f.fill t) := by
  cases f <;> rfl

theorem read_focus {s : Mem} {k : Path} {c : Color} {l r : Tree} {x : Nat}
    (h : Owns s (plug k (Tree.node c l x r))) :
    s.node x = { color := c, parent := cpar k, left := l.ptr, right := r.ptr } := by
  rw [owns_plug] at h
  obtain ⟨_, _, ⟨h3, h4, h5, h6, _, _⟩, _⟩ := h
  cases hx : s.node x
  simp [hx] at h3 h4 h5 h6
  simp [h3, h4, h5, h6]

theorem setColor_plug {s : Mem} {k : Path} {c : Color} {l r : Tree} {x : Nat}
    (h : Owns s (plug k (Tree.node c l x r))) (c' : Color) :
    Owns (s.setColor x c') (plug k (Tree.node c' l x r)) := by
  rw [owns_plug] at h ⊢
  exact setColor_focus h c'

theorem RotateLeft_plug {s : Mem} {k : Path} {cx cy : Color} {a b c : Tree} {x y : Nat}
    (h : Owns s (plug k (Tree.node cx a x (Tree.node cy b y c)))) :
    ∃ s', RotateLeft (some x) s = some s' ∧
      Owns s' (plug k (Tree.node cy (Tree.node cx a x b) y c)) := by
  rw [owns_plug] at h
  obtain ⟨s', h1, h2⟩ := RotateLeft_focus h
  exact ⟨s', h1, (owns_plug _ _ _).mpr h2⟩

theorem RotateRight_plug {s : Mem} {k : Path} {cx cy : Color} {a b c : Tree} {x y : Nat}
    (h : Owns s (plug k (Tree.node cx (Tree.node cy a y b) x c))) :
    ∃ s', RotateRight (some x) s = some s' ∧
      Owns s' (plug k (Tree.node cy a y (Tree.node cx b x c))) := by
  rw [owns_plug] at h
  obtain ⟨s', h1, h2⟩ := RotateRight_focus h
  exact ⟨s', h1, (owns_plug _ _ _).mpr h2⟩

/-- Two subtrees of a tree without repeated addresses that sit at different places have
different root pointers, unless both are empty. -/
theorem ptr_ne_of_nodup {L : List Nat} (hnd : L.Nodup) {t : Tree} {x : Nat}
    (h : (L.count x) ≥ 1 + t.ids.count x) (hx : 1 ≤ L.count x) : t.ptr ≠ some x := by
  intro e
  have := ptr_mem_ids e
  have c1 := List.nodup_iff_count_le_one.mp hnd x
  have c2 := List.count_pos_iff.mpr this
  omega

theorem isRed_ptr {s : Mem} {par : Option Nat} {t : Tree} (h : Tree.Rep s.node par t) :
    IsRed s t.ptr = decide (t.rootColor = Color.kRed) := by
  cases t with
  | nil => simp [IsRed, Tree.rootColor]
  | node c l a r => simp [IsRed, Tree.rootColor, h.1]

theorem isBlack_ptr {s : Mem} {par : Option Nat} {t : Tree} (h : Tree.Rep s.node par t) :
    IsBlack s t.ptr = decide (t.rootColor = Color.kBlack) := by
  cases t with
  | nil => simp [IsBlack, Tree.rootColor]
  | node c l a r => simp [IsBlack, Tree.rootColor, h.1]

theorem rep_focus {s : Mem} {k : Path} {t : Tree} (h : Owns s (plug k t)) :
    Tree.Rep s.node (cpar k) t := by
  rw [owns_plug] at h
  exact h.2.2.1

theorem nodup_focus {s : Mem} {k : Path} {t : Tree} (h : Owns s (plug k t)) :
    (before k ++ (t.ids ++ after k)).Nodup := by
  rw [owns_plug] at h
  exact h.2.2.2

@[simp] theorem IsRed_some (s : Mem) (a : Nat) :
    IsRed s (some a) = decide ((s.node a).color = Color.kRed) := rfl

@[simp] theorem IsRed_none (s : Mem) : IsRed s none = false := rfl

@[simp] theorem IsBlack_some (s : Mem) (a : Nat) :
    IsBlack s (some a) = decide ((s.node a).color = Color.kBlack) := rfl

@[simp] theorem IsBlack_none (s : Mem) : IsBlack s none = true := rfl

@[simp] theorem SetColor_some (s : Mem) (a : Nat) (c : Color) :
    SetColor (some a) c s = some (s.setColor a c) := rfl

theorem insBody_refines {s : Mem} {k : Path} {t : Tree} {node : Nat}
    (h : Owns s (plug k t)) (hn : t.ptr = some node) :
    match insBody (k, t) with
    | none => True
    | some (LoopStep.next st') => ∃ s' node', FixupAfterInsertBody (node, s) =
        some (LoopStep.next (node', s')) ∧ Owns s' (plug st'.1 st'.2) ∧ st'.2.ptr = some node'
    | some (LoopStep.done st') => ∃ s' node', FixupAfterInsertBody (node, s) =
        some (LoopStep.done (node', s')) ∧ Owns s' (plug st'.1 st'.2) := by
  cases t with
  | nil => simp at hn
  | node c l n r =>
  simp only [ptr_node, Option.some.injEq] at hn
  subst hn
  have hN := read_focus h
  have hnd := nodup_focus h
  cases k with
  | nil =>
    simp only [insBody]
    exact ⟨s, n, by simp [FixupAfterInsertBody, hN, cpar], h⟩
  | cons f k1 =>
  have hstop : ∀ q, cpar (f :: k1) = some q → (s.node q).color ≠ Color.kRed →
      ∃ s' node', FixupAfterInsertBody (n, s) = some (LoopStep.done (node', s')) ∧
        Owns s' (plug (f :: k1) (Tree.node c l n r)) := by
    intro q hq hcol
    exact ⟨s, n, by simp [FixupAfterInsertBody, hN, hq, hcol], h⟩
  cases f with
  | L pc p pr =>
    have hP := read_focus (k := k1) h
    by_cases hpc : pc = Color.kRed
    swap
    · simp only [insBody, Frame.color, hpc, ne_eq, not_false_eq_true, if_true]
      exact hstop p rfl (by simp [hP, hpc])
    subst hpc
    by_cases hc : c = Color.kRed
    swap
    · simp [insBody, Frame.color, hc]
    subst hc
    cases k1 with
    | nil => simp [insBody, Frame.color]
    | cons g k2 =>
    cases g with
    | L gc gp u =>
      have hG := read_focus (k := k2) h
      have hU := isRed_ptr (rep_focus (k := Frame.R gc _ gp :: k2) (t := u) h)
      by_cases hu : u.rootColor = Color.kRed
      · cases u with
        | nil => simp [Tree.rootColor] at hu
        | node uc ul ua ur =>
        simp only [Tree.rootColor] at hu
        subst hu
        have hUa : (s.node ua).color = Color.kRed := (rep_focus (k := Frame.R gc _ gp :: k2) h).1
        simp only [insBody, Frame.color, Tree.rootColor, ne_eq, not_true_eq_false, if_false,
          if_true]
        have o1 := setColor_plug (k := k2) h Color.kRed
        have o2 := setColor_plug (k := Frame.L Color.kRed gp _ :: k2) o1 Color.kBlack
        have o3 := setColor_plug (k := Frame.R Color.kRed _ gp :: k2) o2 Color.kBlack
        refine ⟨_, gp, ?_, o3, rfl⟩
        simp [FixupAfterInsertBody, hN, hP, hG, hUa, cpar]
      · simp only [insBody, Frame.color, hu, ne_eq, not_true_eq_false, if_false]
        have hne : pr.ptr ≠ some n := by
          apply ptr_ne_of_nodup hnd
          · simp only [ids_node, before, after, List.count_append, List.count_cons,
            List.count_nil, beq_self_eq_true, if_true]
            omega
          · simp only [ids_node, before, after, List.count_append, List.count_cons,
            List.count_nil, beq_self_eq_true, if_true]
            omega
        obtain ⟨s2, e2, o2⟩ := RotateRight_plug (k := k2) h
        have o3 := setColor_plug (k := k2) o2 Color.kBlack
        have o4 := setColor_plug (k := Frame.R Color.kBlack _ p :: k2) o3 Color.kRed
        refine ⟨_, n, ?_, o4⟩
        simp [FixupAfterInsertBody, hN, hP, hG, hU, hu, cpar, Ne.symm hne, e2]
    | R gc u gp =>
      have hG := read_focus (k := k2) h
      have hU := isRed_ptr (rep_focus (k := Frame.L gc gp _ :: k2) (t := u) h)
      have hup : u.ptr ≠ some p := by
        apply ptr_ne_of_nodup hnd
        · simp only [ids_node, before, after, List.count_append, List.count_cons,
          List.count_nil, beq_self_eq_true, if_true]
          omega
        · simp only [ids_node, before, after, List.count_append, List.count_cons,
          List.count_nil, beq_self_eq_true, if_true]
          omega
      by_cases hu : u.rootColor = Color.kRed
      · cases u with
        | nil => simp [Tree.rootColor] at hu
        | node uc ul ua ur =>
        simp only [Tree.rootColor] at hu
        subst hu
        have hUa : (s.node ua).color = Color.kRed := (rep_focus (k := Frame.L gc gp _ :: k2) h).1
        simp only [insBody, Frame.color, Tree.rootColor, ne_eq, not_true_eq_false, if_false,
          if_true]
        have o1 := setColor_plug (k := k2) h Color.kRed
        have o2 := setColor_plug (k := Frame.R Color.kRed _ gp :: k2) o1 Color.kBlack
        have o3 := setColor_plug (k := Frame.L Color.kRed gp _ :: k2) o2 Color.kBlack
        refine ⟨_, gp, ?_, o3, rfl⟩
        have hup' : ¬ p = ua := fun e => hup (by simp [e])
        simp [FixupAfterInsertBody, hN, hP, hG, hUa, cpar, hup']
      · simp only [insBody, Frame.color, hu, ne_eq, not_true_eq_false, if_false]
        obtain ⟨s1, e1, o1⟩ := RotateRight_plug (k := Frame.R gc u gp :: k2) h
        obtain ⟨s2, e2, o2⟩ := RotateLeft_plug (k := k2) o1
        have o3 := setColor_plug (k := k2) o2 Color.kBlack
        have o4 := setColor_plug (k := Frame.L Color.kBlack n _ :: k2) o3 Color.kRed
        refine ⟨_, p, ?_, o4⟩
        simp [FixupAfterInsertBody, hN, hP, hG, hU, hu, cpar, Ne.symm hup, e1, e2]
  | R pc pl p =>
    have hP := read_focus (k := k1) h
    by_cases hpc : pc = Color.kRed
    swap
    · simp only [insBody, Frame.color, hpc, ne_eq, not_false_eq_true, if_true]
      exact hstop p rfl (by simp [hP, hpc])
    subst hpc
    by_cases hc : c = Color.kRed
    swap
    · simp [insBody, Frame.color, hc]
    subst hc
    cases k1 with
    | nil => simp [insBody, Frame.color]
    | cons g k2 =>
    cases g with
    | L gc gp u =>
      have hG := read_focus (k := k2) h
      have hU := isRed_ptr (rep_focus (k := Frame.R gc _ gp :: k2) (t := u) h)
      by_cases hu : u.rootColor = Color.kRed
      · cases u with
        | nil => simp [Tree.rootColor] at hu
        | node uc ul ua ur =>
        simp only [Tree.rootColor] at hu
        subst hu
        have hUa : (s.node ua).color = Color.kRed := (rep_focus (k := Frame.R gc _ gp :: k2) h).1
        simp only [insBody, Frame.color, Tree.rootColor, ne_eq, not_true_eq_false, if_false,
          if_true]
        have o1 := setColor_plug (k := k2) h Color.kRed
        have o2 := setColor_plug (k := Frame.L Color.kRed gp _ :: k2) o1 Color.kBlack
        have o3 := setColor_plug (k := Frame.R Color.kRed _ gp :: k2) o2 Color.kBlack
        refine ⟨_, gp, ?_, o3, rfl⟩
        simp [FixupAfterInsertBody, hN, hP, hG, hUa, cpar]
      · simp only [insBody, Frame.color, hu, ne_eq, not_true_eq_false, if_false]
        obtain ⟨s1, e1, o1⟩ := RotateLeft_plug (k := Frame.L gc gp u :: k2) h
        obtain ⟨s2, e2, o2⟩ := RotateRight_plug (k := k2) o1
        have o3 := setColor_plug (k := k2) o2 Color.kBlack
        have o4 := setColor_plug (k := Frame.R Color.kBlack _ n :: k2) o3 Color.kRed
        refine ⟨_, p, ?_, o4⟩
        simp [FixupAfterInsertBody, hN, hP, hG, hU, hu, cpar, e1, e2]
    | R gc u gp =>
      have hG := read_focus (k := k2) h
      have hU := isRed_ptr (rep_focus (k := Frame.L gc gp _ :: k2) (t := u) h)
      have hup : u.ptr ≠ some p := by
        apply ptr_ne_of_nodup hnd
        · simp only [ids_node, before, after, List.count_append, List.count_cons,
          List.count_nil, beq_self_eq_true, if_true]
          omega
        · simp only [ids_node, before, after, List.count_append, List.count_cons,
          List.count_nil, beq_self_eq_true, if_true]
          omega
      by_cases hu : u.rootColor = Color.kRed
      · cases u with
        | nil => simp [Tree.rootColor] at hu
        | node uc ul ua ur =>
        simp only [Tree.rootColor] at hu
        subst hu
        have hUa : (s.node ua).color = Color.kRed := (rep_focus (k := Frame.L gc gp _ :: k2) h).1
        simp only [insBody, Frame.color, Tree.rootColor, ne_eq, not_true_eq_false, if_false,
          if_true]
        have o1 := setColor_plug (k := k2) h Color.kRed
        have o2 := setColor_plug (k := Frame.R Color.kRed _ gp :: k2) o1 Color.kBlack
        have o3 := setColor_plug (k := Frame.L Color.kRed gp _ :: k2) o2 Color.kBlack
        refine ⟨_, gp, ?_, o3, rfl⟩
        have hup' : ¬ p = ua := fun e => hup (by simp [e])
        simp [FixupAfterInsertBody, hN, hP, hG, hUa, cpar, hup']
      · simp only [insBody, Frame.color, hu, ne_eq, not_true_eq_false, if_false]
        have hne : pl.ptr ≠ some n := by
          apply ptr_ne_of_nodup hnd
          · simp only [ids_node, before, after, List.count_append, List.count_cons,
            List.count_nil, beq_self_eq_true, if_true]
            omega
          · simp only [ids_node, before, after, List.count_append, List.count_cons,
            List.count_nil, beq_self_eq_true, if_true]
            omega
        obtain ⟨s2, e2, o2⟩ := RotateLeft_plug (k := k2) h
        have o3 := setColor_plug (k := k2) o2 Color.kBlack
        have o4 := setColor_plug (k := Frame.L Color.kBlack p _ :: k2) o3 Color.kRed
        refine ⟨_, n, ?_, o4⟩
        simp [FixupAfterInsertBody, hN, hP, hG, hU, hu, cpar, Ne.symm hup, Ne.symm hne, e2]

theorem iterate_sim {σ τ : Type} {body : σ → Option (LoopStep σ)}
    {abody : τ → Option (LoopStep τ)} (Rn Rd : σ → τ → Prop)
    (hstep : ∀ x a, Rn x a → match abody a with
      | none => True
      | some (LoopStep.next a') => ∃ x', body x = some (LoopStep.next x') ∧ Rn x' a'
      | some (LoopStep.done a') => ∃ x', body x = some (LoopStep.done x') ∧ Rd x' a') :
    ∀ (fuel : Nat) (x : σ) (a a' : τ), Rn x a → iterate abody fuel a = some a' →
      ∃ x', iterate body fuel x = some x' ∧ Rd x' a' := by
  intro fuel
  induction fuel with
  | zero => intro x a a' _ h; simp [iterate] at h
  | succ fuel ih =>
    intro x a a' hR h
    have hs := hstep x a hR
    simp only [iterate] at h ⊢
    cases hb : abody a with
    | none => simp [hb] at h
    | some st =>
      cases st with
      | next a1 =>
        simp only [hb] at h hs
        obtain ⟨x1, e1, r1⟩ := hs
        simp only [e1]
        exact ih x1 a1 a' r1 h
      | done a1 =>
        simp only [hb, Option.some.injEq] at h hs
        obtain ⟨x1, e1, r1⟩ := hs
        subst h
        exact ⟨x1, by simp [e1], r1⟩

theorem FixupAfterInsert_refines {s : Mem} {k : Path} {t t' : Tree} {n : Nat} {fuel : Nat}
    (h : Owns s (plug k t)) (hn : t.ptr = some n) (hf : insFixup fuel k t = some t') :
    ∃ s', FixupAfterInsert fuel (some n) s = some s' ∧ Owns s' t' := by
  simp only [insFixup] at hf
  cases hi : iterate insBody fuel (k, t) with
  | none => simp [hi] at hf
  | some st =>
    simp only [hi] at hf
    obtain ⟨x', e1, r1⟩ := iterate_sim
      (fun (x : Nat × Mem) (a : Path × Tree) => Owns x.2 (plug a.1 a.2) ∧ a.2.ptr = some x.1)
      (fun (x : Nat × Mem) (a : Path × Tree) => Owns x.2 (plug a.1 a.2))
      (by
        intro x a hR
        have := insBody_refines hR.1 hR.2
        cases hb : insBody a with
        | none => trivial
        | some st1 =>
          cases st1 with
          | next a1 =>
            simp only [hb] at this ⊢
            obtain ⟨s', node', e, o, q⟩ := this
            exact ⟨(node', s'), e, o, q⟩
          | done a1 =>
            simp only [hb] at this ⊢
            obtain ⟨s', node', e, o⟩ := this
            exact ⟨(node', s'), e, o⟩)
      fuel (n, s) (k, t) st ⟨h, hn⟩ hi
    simp only [FixupAfterInsert, e1]
    cases hp : plug st.1 st.2 with
    | nil => simp [hp] at hf
    | node c l a r =>
      simp only [hp, Option.some.injEq] at hf
      subst hf
      rw [hp] at r1
      have hr : x'.2.rb_node = some a := r1.1
      rw [hr]
      exact ⟨_, rfl, setColor_plug (k := []) r1 Color.kBlack⟩

theorem cpar_mem {k : Path} {p : Nat} (h : cpar k = some p) : p ∈ before k ++ after k := by
  cases k with
  | nil => simp [cpar] at h
  | cons f k => cases f <;> simp [cpar] at h <;> subst h <;> simp [before, after]

theorem store_ctx {s : Mem} {k : Path} {hole : Option Nat} (v : Option Nat)
    (hroot : s.rb_node = rootPtr k hole) (hctx : RepCtx s.node hole k)
    (hnd : (before k ++ after k).Nodup) :
    (s.store (linkOf k) v).rb_node = rootPtr k v ∧ RepCtx (s.store (linkOf k) v).node v k ∧
      s.load (linkOf k) = hole ∧
      (∀ a, some a ≠ cpar k → (s.store (linkOf k) v).node a = s.node a) := by
  cases k with
  | nil => simp [Mem.store, Mem.load, linkOf, rootPtr, RepCtx, hroot]
  | cons f k =>
    cases f with
    | L c p r =>
      obtain ⟨h1, h2, h3, h4, h5, h6⟩ := hctx
      have hk : ∀ a ∈ before k ++ after k, a ≠ p := by
        rintro a ha rfl
        obtain ⟨c1, c2⟩ := cnt hnd ha
        simp only [before, after, List.count_append, List.count_cons, List.count_nil,
          beq_self_eq_true, if_true] at c1 c2
        omega
      have hr : ∀ a ∈ r.ids, a ≠ p := by
        rintro a ha rfl
        obtain ⟨c1, c2⟩ := cnt hnd ha
        simp only [before, after, List.count_append, List.count_cons, List.count_nil,
          beq_self_eq_true, if_true] at c1 c2
        omega
      refine ⟨by simpa [Mem.store, linkOf, rootPtr] using hroot, ⟨?_, ?_, ?_, ?_, ?_, ?_⟩,
        by simp [Mem.load, linkOf, h3], ?_⟩
      · simp [Mem.store, linkOf, h1]
      · simp [Mem.store, linkOf, h2]
      · simp [Mem.store, linkOf]
      · simp [Mem.store, linkOf, h4]
      · refine Rep_congr h5 ?_
        intro a ha
        simp [Mem.store, linkOf, Function.update, hr a ha]
      · refine RepCtx_congr h6 ?_
        intro a ha
        simp [Mem.store, linkOf, Function.update, hk a ha]
      · intro a ha
        have : a ≠ p := by simpa [cpar] using ha
        simp [Mem.store, linkOf, Function.update, this]
    | R c l p =>
      obtain ⟨h1, h2, h3, h4, h5, h6⟩ := hctx
      have hk : ∀ a ∈ before k ++ after k, a ≠ p := by
        rintro a ha rfl
        obtain ⟨c1, c2⟩ := cnt hnd ha
        simp only [before, after, List.count_append, List.count_cons, List.count_nil,
          beq_self_eq_true, if_true] at c1 c2
        omega
      have hr : ∀ a ∈ l.ids, a ≠ p := by
        rintro a ha rfl
        obtain ⟨c1, c2⟩ := cnt hnd ha
        simp only [before, after, List.count_append, List.count_cons, List.count_nil,
          beq_self_eq_true, if_true] at c1 c2
        omega
      refine ⟨by simpa [Mem.store, linkOf, rootPtr] using hroot, ⟨?_, ?_, ?_, ?_, ?_, ?_⟩,
        by simp [Mem.load, linkOf, h4], ?_⟩
      · simp [Mem.store, linkOf, h1]
      · simp [Mem.store, linkOf, h2]
      · simp [Mem.store, linkOf, h3]
      · simp [Mem.store, linkOf]
      · refine Rep_congr h5 ?_
        intro a ha
        simp [Mem.store, linkOf, Function.update, hr a ha]
      · refine RepCtx_congr h6 ?_
        intro a ha
        simp [Mem.store, linkOf, Function.update, hk a ha]
      · intro a ha
        have : a ≠ p := by simpa [cpar] using ha
        simp [Mem.store, linkOf, Function.update, this]

theorem linkBelongsTo_linkOf (k : Path) : linkBelongsTo (cpar k) (linkOf k) = true := by
  cases k with
  | nil => rfl
  | cons f k => cases f <;> simp [linkBelongsTo, cpar, linkOf]

theorem link_refines {s : Mem} {k : Path} {n : Nat}
    (h : Owns s (plug k Tree.nil)) (hn : n ∉ (plug k Tree.nil).ids) :
    s.load (linkOf k) = none ∧
    Owns (((((s.setRight n none).setLeft n none).setColor n Color.kRed).setParent n
      (cpar k)).store (linkOf k) (some n)) (plug k (Tree.node Color.kRed Tree.nil n Tree.nil)) := by
  rw [ids_plug] at hn
  rw [owns_plug] at h ⊢
  obtain ⟨h1, h2, _, h4⟩ := h
  simp only [ids_nil, List.nil_append, ptr_nil] at hn h4 h1 h2
  have hl := (store_ctx (some n) h1 h2 h4).2.2.1
  refine ⟨hl, ?_⟩
  have hctx3 : RepCtx ((((s.setRight n none).setLeft n none).setColor n Color.kRed).setParent n
      (cpar k)).node none k := by
    refine RepCtx_congr h2 ?_
    intro a ha
    have : a ≠ n := by rintro rfl; exact hn ha
    simp [Function.update, this]
  obtain ⟨q1, q2, _, q4⟩ := store_ctx (some n)
    (s := (((s.setRight n none).setLeft n none).setColor n Color.kRed).setParent n (cpar k))
    (by simpa using h1) hctx3 h4
  have hnp : some n ≠ cpar k := fun e => hn (cpar_mem e.symm)
  have q5 := q4 n hnp
  refine ⟨by simpa using q1, by simpa using q2, ⟨?_, ?_, ?_, ?_, trivial, trivial⟩, ?_⟩
  · rw [q5]; simp
  · rw [q5]; simp
  · rw [q5]; simp
  · rw [q5]; simp
  · simp only [ids_node, ids_nil, List.nil_append]
    rw [List.nodup_iff_count_le_one] at h4 ⊢
    intro a
    have := h4 a
    have c0 := cnt0 hn
    simp only [List.count_append, List.count_cons, List.count_nil] at this c0 ⊢
    split <;> rename_i hh
    · simp only [beq_iff_eq] at hh
      subst hh
      omega
    · omega

theorem InsertIntoRbTree_refines {s : Mem} {k : Path} {n : Nat} {fuel : Nat} {t' : Tree}
    (h : Owns s (plug k Tree.nil)) (hn : n ∉ (plug k Tree.nil).ids)
    (hf : insertAt fuel k n = some t') :
    ∃ s', InsertIntoRbTree fuel (some n) (cpar k) (linkOf k) s = some s' ∧ Owns s' t' := by
  obtain ⟨hl, ho⟩ := link_refines h hn
  obtain ⟨s', e, o⟩ := FixupAfterInsert_refines ho rfl hf
  refine ⟨s', ?_, o⟩
  simp only [InsertIntoRbTree, hl, linkBelongsTo_linkOf, ne_eq, not_true_eq_false, if_false]
  simpa using e

@[simp] theorem rootColor_nil : Tree.nil.rootColor = Color.kBlack := rfl

@[simp] theorem rootColor_node (c : Color) (l : Tree) (a : Nat) (r : Tree) :
    (Tree.node c l a r).rootColor = c := rfl

@[simp] theorem bh_nil : Tree.nil.bh = 0 := rfl

@[simp] theorem bh_node (c : Color) (l : Tree) (a : Nat) (r : Tree) :
    (Tree.node c l a r).bh = l.bh + (if c = Color.kBlack then 1 else 0) := rfl

@[simp] theorem noRedRed_nil : Tree.nil.NoRedRed := trivial

@[simp] theorem noRedRed_node (c : Color) (l : Tree) (a : Nat) (r : Tree) :
    (Tree.node c l a r).NoRedRed ↔
      ((c = Color.kRed → l.rootColor = Color.kBlack ∧ r.rootColor = Color.kBlack) ∧
        l.NoRedRed ∧ r.NoRedRed) := Iff.rfl

@[simp] theorem bal_nil : Tree.nil.Bal := trivial

@[simp] theorem bal_node (c : Color) (l : Tree) (a : Nat) (r : Tree) :
    (Tree.node c l a r).Bal ↔ (l.bh = r.bh ∧ l.Bal ∧ r.Bal) := Iff.rfl

theorem bh_mem_pathBlacks (t : Tree) : t.bh ∈ t.pathBlacks := by
  induction t with
  | nil => simp [Tree.pathBlacks, Tree.bh]
  | node c l a r ihl _ =>
    simp only [Tree.pathBlacks, Tree.bh, List.mem_map, List.mem_append]
    exact ⟨l.bh, Or.inl ihl, rfl⟩

theorem pathBlacks_of_bal {t : Tree} (h : t.Bal) : ∀ x ∈ t.pathBlacks, x = t.bh := by
  induction t with
  | nil => simp [Tree.pathBlacks, Tree.bh]
  | node c l a r ihl ihr =>
    obtain ⟨h1, h2, h3⟩ := h
    simp only [Tree.pathBlacks, Tree.bh, List.mem_map, List.mem_append]
    rintro x ⟨y, hy | hy, rfl⟩
    · rw [ihl h2 y hy]
    · rw [ihr h3 y hy, h1]

theorem bal_of_equalBlackPaths {t : Tree} (h : t.EqualBlackPaths) : t.Bal := by
  induction t with
  | nil => trivial
  | node c l a r ihl ihr =>
    simp only [Tree.EqualBlackPaths, Tree.pathBlacks, List.mem_map, List.mem_append] at h
    have key : ∀ x, (x ∈ l.pathBlacks ∨ x ∈ r.pathBlacks) →
        ∀ y, (y ∈ l.pathBlacks ∨ y ∈ r.pathBlacks) → x = y := by
      intro x hx y hy
      have := h _ ⟨x, hx, rfl⟩ _ ⟨y, hy, rfl⟩
      omega
    refine ⟨key _ (Or.inl (bh_mem_pathBlacks l)) _ (Or.inr (bh_mem_pathBlacks r)), ihl ?_, ihr ?_⟩
    · intro x hx y hy; exact key x (Or.inl hx) y (Or.inl hy)
    · intro x hx y hy; exact key x (Or.inr hx) y (Or.inr hy)

theorem equalBlackPaths_iff_bal (t : Tree) : t.EqualBlackPaths ↔ t.Bal :=
  ⟨bal_of_equalBlackPaths, fun h x hx y hy => by
    rw [pathBlacks_of_bal h x hx, pathBlacks_of_bal h y hy]⟩

theorem isRB_iff (t : Tree) : t.IsRB ↔ t.rootColor = Color.kBlack ∧ t.NoRedRed ∧ t.Bal := by
  simp only [Tree.IsRB, equalBlackPaths_iff_bal]

theorem color_cases (c : Color) : c = Color.kBlack ∨ c = Color.kRed := by
  cases c <;> simp

theorem plug_rb (k : Path) (t : Tree) :
    ((plug k t).rootColor = Color.kBlack ∧ (plug k t).NoRedRed ∧ (plug k t).Bal) ↔
      (t.NoRedRed ∧ t.Bal ∧ PathOK k t.rootColor t.bh) := by
  induction k generalizing t with
  | nil => simp only [plug, PathOK]; tauto
  | cons f k ih =>
    cases f with
    | L pc p s =>
      rw [show plug (Frame.L pc p s :: k) t = plug k (Tree.node pc t p s) from rfl, ih]
      simp only [noRedRed_node, bal_node, PathOK, rootColor_node, bh_node]
      constructor
      · rintro ⟨⟨h1, h2, h3⟩, ⟨h4, h5, h6⟩, h7⟩
        exact ⟨h2, h5, h1, h3, h6, h4.symm, h7⟩
      · rintro ⟨h2, h5, h1, h3, h6, h4, h7⟩
        exact ⟨⟨h1, h2, h3⟩, ⟨h4.symm, h5, h6⟩, h7⟩
    | R pc s p =>
      rw [show plug (Frame.R pc s p :: k) t = plug k (Tree.node pc s p t) from rfl, ih]
      simp only [noRedRed_node, bal_node, PathOK, rootColor_node, bh_node]
      constructor
      · rintro ⟨⟨h1, h2, h3⟩, ⟨h4, h5, h6⟩, h7⟩
        refine ⟨h3, h6, ?_, h2, h5, h4, ?_⟩
        · intro e; exact ⟨(h1 e).2, (h1 e).1⟩
        · rw [← h4]; exact h7
      · rintro ⟨h3, h6, h1, h2, h5, h4, h7⟩
        refine ⟨⟨?_, h2, h3⟩, ⟨h4, h5, h6⟩, ?_⟩
        · intro e; exact ⟨(h1 e).2, (h1 e).1⟩
        · rw [h4]; exact h7

theorem plug_isRB (k : Path) (t : Tree) :
    (plug k t).IsRB ↔ (t.NoRedRed ∧ t.Bal ∧ PathOK k t.rootColor t.bh) := by
  rw [isRB_iff, plug_rb]

theorem PathOK_black {k : Path} {c : Color} {m : Nat} (h : PathOK k c m) :
    PathOK k Color.kBlack m := by
  cases k with
  | nil => rfl
  | cons f k =>
    cases f with
    | L pc p s => exact ⟨fun e => ⟨rfl, (h.1 e).2⟩, h.2⟩
    | R pc s p => exact ⟨fun e => ⟨rfl, (h.1 e).2⟩, h.2⟩

theorem PathOK_any {f : Frame} {k : Path} {c c' : Color} {m : Nat}
    (h : PathOK (f :: k) c m) (hf : f.color ≠ Color.kRed) : PathOK (f :: k) c' m := by
  cases f with
  | L pc p s => exact ⟨fun e => absurd e hf, h.2⟩
  | R pc s p => exact ⟨fun e => absurd e hf, h.2⟩

theorem setRootColor_ids (c : Color) (t : Tree) : (t.setRootColor c).ids = t.ids := by
  cases t <;> rfl

set_option maxHeartbeats 1000000 in
theorem insBody_inv (k : Path) (l r : Tree) (n : Nat)
    (hl : l.rootColor = Color.kBlack) (hr : r.rootColor = Color.kBlack)
    (hnl : l.NoRedRed) (hnr : r.NoRedRed) (hbal : (Tree.node Color.kRed l n r).Bal)
    (hpath : PathOK k Color.kBlack (Tree.node Color.kRed l n r).bh) :
    (∃ st, insBody (k, Tree.node Color.kRed l n r) = some (LoopStep.done st) ∧
      (plug st.1 st.2).ids = (plug k (Tree.node Color.kRed l n r)).ids ∧
      (plug st.1 st.2).NoRedRed ∧ (plug st.1 st.2).Bal) ∨
    (∃ k' l' n' r', insBody (k, Tree.node Color.kRed l n r) =
        some (LoopStep.next (k', Tree.node Color.kRed l' n' r')) ∧
      k'.length + 2 = k.length ∧
      (plug k' (Tree.node Color.kRed l' n' r')).ids = (plug k (Tree.node Color.kRed l n r)).ids ∧
      l'.rootColor = Color.kBlack ∧ r'.rootColor = Color.kBlack ∧ l'.NoRedRed ∧ r'.NoRedRed ∧
      (Tree.node Color.kRed l' n' r').Bal ∧
      PathOK k' Color.kBlack (Tree.node Color.kRed l' n' r').bh) := by
  have hT : (Tree.node Color.kRed l n r).NoRedRed := by simp [hl, hr, hnl, hnr]
  cases k with
  | nil =>
    exact Or.inl ⟨([], _), by simp [insBody], rfl, hT, hbal⟩
  | cons f k1 =>
    by_cases hf : f.color = Color.kRed
    swap
    · refine Or.inl ⟨(f :: k1, _), by simp [insBody, hf], rfl, ?_⟩
      have := (plug_rb (f :: k1) (Tree.node Color.kRed l n r)).mpr
        ⟨hT, hbal, PathOK_any hpath hf⟩
      exact this.2
    cases k1 with
    | nil =>
      exfalso
      cases f with
      | L pc p s => simp only [Frame.color] at hf; subst hf; simp [PathOK] at hpath
      | R pc s p => simp only [Frame.color] at hf; subst hf; simp [PathOK] at hpath
    | cons g k2 =>
    cases f with
    | L pc p ps =>
      simp only [Frame.color] at hf; subst hf
      cases g with
      | L gc gp u =>
        simp only [PathOK, bh_node, if_true, true_and, forall_const, reduceCtorEq,
          if_false, Nat.add_zero] at hpath
        obtain ⟨hp1, hp2, hp3, hp4, hg1, hg2, hg3, hg4, hg5⟩ := hpath
        have hgc : gc = Color.kBlack := by
          rcases color_cases gc with e | e
          · exact e
          · simp [e] at hg1
        subst hgc
        simp only [if_true] at hg5
        by_cases hu : u.rootColor = Color.kRed
        · cases u with
          | nil => simp at hu
          | node uc ul ua ur =>
          simp only [rootColor_node] at hu; subst hu
          right
          refine ⟨k2, (Tree.node Color.kBlack (Tree.node Color.kRed l n r) p ps), gp,
            (Tree.node Color.kBlack ul ua ur), ?_, by simp, ?_, rfl, rfl, ?_, ?_, ?_, ?_⟩
          · simp [insBody, Frame.color, Frame.fill, Frame.setColor, Tree.setRootColor]
          · simp [ids_plug, before, after]
          · simp_all
          · simp_all
          · simp_all
          · simp_all
        · have hub : u.rootColor = Color.kBlack := (color_cases _).resolve_right hu
          left
          refine ⟨(k2, Tree.node Color.kBlack (Tree.node Color.kRed l n r) p (Tree.node Color.kRed ps gp u)),
            by simp [insBody, Frame.color, hu],
            by simp [ids_plug, before, after], ((plug_rb k2 _).mpr ⟨?_, ?_, ?_⟩).2⟩
          · simp_all
          · simp_all
          · simp_all
      | R gc u gp =>
        simp only [PathOK, bh_node, if_true, true_and, forall_const, reduceCtorEq,
          if_false, Nat.add_zero] at hpath
        obtain ⟨hp1, hp2, hp3, hp4, hg1, hg2, hg3, hg4, hg5⟩ := hpath
        have hgc : gc = Color.kBlack := by
          rcases color_cases gc with e | e
          · exact e
          · simp [e] at hg1
        subst hgc
        simp only [if_true] at hg5
        by_cases hu : u.rootColor = Color.kRed
        · cases u with
          | nil => simp at hu
          | node uc ul ua ur =>
          simp only [rootColor_node] at hu; subst hu
          right
          refine ⟨k2, (Tree.node Color.kBlack ul ua ur), gp,
            (Tree.node Color.kBlack (Tree.node Color.kRed l n r) p ps), ?_, by simp, ?_, rfl, rfl, ?_, ?_, ?_, ?_⟩
          · simp [insBody, Frame.color, Frame.fill, Frame.setColor, Tree.setRootColor]
          · simp [ids_plug, before, after]
          · simp_all
          · simp_all
          · simp_all
          · simp_all
        · have hub : u.rootColor = Color.kBlack := (color_cases _).resolve_right hu
          left
          refine ⟨(k2, Tree.node Color.kBlack (Tree.node Color.kRed u gp l) n (Tree.node Color.kRed r p ps)),
            by simp [insBody, Frame.color, hu],
            by simp [ids_plug, before, after], ((plug_rb k2 _).mpr ⟨?_, ?_, ?_⟩).2⟩
          · simp_all
          · simp_all
          · simp_all
    | R pc ps p =>
      simp only [Frame.color] at hf; subst hf
      cases g with
      | L gc gp u =>
        simp only [PathOK, bh_node, if_true, true_and, forall_const, reduceCtorEq,
          if_false, Nat.add_zero] at hpath
        obtain ⟨hp1, hp2, hp3, hp4, hg1, hg2, hg3, hg4, hg5⟩ := hpath
        have hgc : gc = Color.kBlack := by
          rcases color_cases gc with e | e
          · exact e
          · simp [e] at hg1
        subst hgc
        simp only [if_true] at hg5
        by_cases hu : u.rootColor = Color.kRed
        · cases u with
          | nil => simp at hu
          | node uc ul ua ur =>
          simp only [rootColor_node] at hu; subst hu
          right
          refine ⟨k2, (Tree.node Color.kBlack ps p (Tree.node Color.kRed l n r)), gp,
            (Tree.node Color.kBlack ul ua ur), ?_, by simp, ?_, rfl, rfl, ?_, ?_, ?_, ?_⟩
          · simp [insBody, Frame.color, Frame.fill, Frame.setColor, Tree.setRootColor]
          · simp [ids_plug, before, after]
          · simp_all
          · simp_all
          · simp_all
          · simp_all
        · have hub : u.rootColor = Color.kBlack := (color_cases _).resolve_right hu
          left
          refine ⟨(k2, Tree.node Color.kBlack (Tree.node Color.kRed ps p l) n (Tree.node Color.kRed r gp u)),
            by simp [insBody, Frame.color, hu],
            by simp [ids_plug, before, after], ((plug_rb k2 _).mpr ⟨?_, ?_, ?_⟩).2⟩
          · simp_all
          · simp_all
          · simp_all
      | R gc u gp =>
        simp only [PathOK, bh_node, if_true, true_and, forall_const, reduceCtorEq,
          if_false, Nat.add_zero] at hpath
        obtain ⟨hp1, hp2, hp3, hp4, hg1, hg2, hg3, hg4, hg5⟩ := hpath
        have hgc : gc = Color.kBlack := by
          rcases color_cases gc with e | e
          · exact e
          · simp [e] at hg1
        subst hgc
        simp only [if_true] at hg5
        by_cases hu : u.rootColor = Color.kRed
        · cases u with
          | nil => simp at hu
          | node uc ul ua ur =>
          simp only [rootColor_node] at hu; subst hu
          right
          refine ⟨k2, (Tree.node Color.kBlack ul ua ur), gp,
            (Tree.node Color.kBlack ps p (Tree.node Color.kRed l n r)), ?_, by simp, ?_, rfl, rfl, ?_, ?_, ?_, ?_⟩
          · simp [insBody, Frame.color, Frame.fill, Frame.setColor, Tree.setRootColor]
          · simp [ids_plug, before, after]
          · simp_all
          · simp_all
          · simp_all
          · simp_all
        · have hub : u.rootColor = Color.kBlack := (color_cases _).resolve_right hu
          left
          refine ⟨(k2, Tree.node Color.kBlack (Tree.node Color.kRed u gp ps) p (Tree.node Color.kRed l n r)),
            by simp [insBody, Frame.color, hu],
            by simp [ids_plug, before, after], ((plug_rb k2 _).mpr ⟨?_, ?_, ?_⟩).2⟩
          · simp_all
          · simp_all
          · simp_all

theorem insLoop_ok : ∀ (fuel : Nat) (k : Path) (l r : Tree) (n : Nat),
    k.length < fuel → l.rootColor = Color.kBlack → r.rootColor = Color.kBlack →
    l.NoRedRed → r.NoRedRed → (Tree.node Color.kRed l n r).Bal →
    PathOK k Color.kBlack (Tree.node Color.kRed l n r).bh →
    ∃ st, iterate insBody fuel (k, Tree.node Color.kRed l n r) = some st ∧
      (plug st.1 st.2).ids = (plug k (Tree.node Color.kRed l n r)).ids ∧
      (plug st.1 st.2).NoRedRed ∧ (plug st.1 st.2).Bal := by
  intro fuel
  induction fuel with
  | zero => intro k l r n h; simp at h
  | succ fuel ih =>
    intro k l r n hfuel hl hr hnl hnr hbal hpath
    rcases insBody_inv k l r n hl hr hnl hnr hbal hpath with
      ⟨st, e, h1, h2, h3⟩ | ⟨k', l', n', r', e, hlen, h1, q1, q2, q3, q4, q5, q6⟩
    · exact ⟨st, by simp [iterate, e], h1, h2, h3⟩
    · obtain ⟨st, e', i1, i2, i3⟩ := ih k' l' r' n' (by omega) q1 q2 q3 q4 q5 q6
      exact ⟨st, by simp [iterate, e, e'], by rw [i1, h1], i2, i3⟩

theorem insertAt_ok (k : Path) (n : Nat) (fuel : Nat) (h : (plug k Tree.nil).IsRB)
    (hf : k.length < fuel) :
    ∃ t', insertAt fuel k n = some t' ∧ t'.IsRB ∧ t'.ids = before k ++ n :: after k := by
  have hp := ((plug_isRB k Tree.nil).mp h).2.2
  obtain ⟨st, e, i1, i2, i3⟩ := insLoop_ok fuel k Tree.nil Tree.nil n hf rfl rfl trivial trivial
    (by simp) (by simpa using hp)
  simp only [insertAt, insFixup, e]
  cases hp : plug st.1 st.2 with
  | nil => rw [hp] at i1; simp [ids_plug] at i1
  | node c l a r =>
    rw [hp] at i1 i2 i3
    refine ⟨_, rfl, ?_, ?_⟩
    · rw [isRB_iff]
      simp only [rootColor_node, noRedRed_node, bal_node, reduceCtorEq, false_implies,
        true_and] at i2 i3 ⊢
      exact ⟨⟨i2.2.1, i2.2.2⟩, i3⟩
    · simpa [ids_plug] using i1

theorem plug_append (k1 k2 : Path) (t : Tree) : plug (k1 ++ k2) t = plug k2 (plug k1 t) := by
  induction k1 generalizing t with
  | nil => rfl
  | cons f k1 ih => cases f <;> simp [plug, ih]

theorem mem_ids_plug {t : Tree} {p : Nat} (h : p ∈ t.ids) :
    ∃ k c l r, t = plug k (Tree.node c l p r) := by
  induction t with
  | nil => simp at h
  | node c l a r ihl ihr =>
    simp only [ids_node, List.mem_append, List.mem_cons] at h
    rcases h with h | h | h
    · obtain ⟨k, c', l', r', e⟩ := ihl h
      exact ⟨k ++ [Frame.L c a r], c', l', r', by rw [plug_append, ← e]; rfl⟩
    · subst h; exact ⟨[], c, l, r, rfl⟩
    · obtain ⟨k, c', l', r', e⟩ := ihr h
      exact ⟨k ++ [Frame.R c l a], c', l', r', by rw [plug_append, ← e]; rfl⟩

theorem height_plug (k : Path) (t : Tree) : k.length + t.height ≤ (plug k t).height := by
  induction k generalizing t with
  | nil => simp [plug]
  | cons f k ih =>
    cases f with
    | L c p r =>
      have := ih (Tree.node c t p r)
      simp only [plug, Tree.height, List.length_cons] at this ⊢
      omega
    | R c l p =>
      have := ih (Tree.node c l p t)
      simp only [plug, Tree.height, List.length_cons] at this ⊢
      omega

theorem ptr_eq_none {t : Tree} (h : t.ptr = none) : t = Tree.nil := by
  cases t with
  | nil => rfl
  | node c l a r => simp at h

theorem emptySlot_path {s : Mem} {t : Tree} {parent : Option Nat} {link : Link}
    (ho : Owns s t) (h : EmptySlot s t parent link) :
    ∃ k, t = plug k Tree.nil ∧ parent = cpar k ∧ link = linkOf k := by
  rcases h with ⟨h1, h2, h3⟩ | ⟨p, hp, h2, h3⟩
  · exact ⟨[], h1, h2, h3⟩
  · obtain ⟨k, c, l, r, e⟩ := mem_ids_plug hp
    subst e
    have hN := read_focus ho
    rcases h3 with ⟨h3, h4⟩ | ⟨h3, h4⟩
    · rw [hN] at h4
      have := ptr_eq_none h4
      subst this
      exact ⟨Frame.L c p r :: k, rfl, h2, h3⟩
    · rw [hN] at h4
      have := ptr_eq_none h4
      subst this
      exact ⟨Frame.R c l p :: k, rfl, h2, h3⟩

/-- C1: on a well-formed tree that satisfies the red-black invariants, inserting a new node
into an empty child slot (or the root slot of the empty tree) returns, given enough fuel,
and leaves a well-formed tree that again satisfies the three invariants. -/
theorem C1_insert_preserves_invariants (s : Mem) (t : Tree) (n : Nat)
    (parent : Option Nat) (parent_link : Link) (fuel : Nat)
    (hown : Owns s t) (hrb : t.IsRB) (hslot : EmptySlot s t parent parent_link)
    (hnew : n ∉ t.ids) (hfuel : t.height < fuel) :
    ∃ s' t', InsertIntoRbTree fuel (some n) parent parent_link s = some s' ∧
      Owns s' t' ∧ t'.IsRB := by
  obtain ⟨k, e, hp, hl⟩ := emptySlot_path hown hslot
  subst e hp hl
  have hk : k.length < fuel := by
    have := height_plug k Tree.nil
    omega
  obtain ⟨t', e1, h1, _⟩ := insertAt_ok k n fuel hrb hk
  obtain ⟨s', e2, h2⟩ := InsertIntoRbTree_refines hown hnew e1
  exact ⟨s', t', e2, h2, h1⟩

@[simp] theorem cpar_nil : cpar [] = none := rfl

@[simp] theorem cpar_L (c : Color) (p : Nat) (r : Tree) (k : Path) :
    cpar (Frame.L c p r :: k) = some p := rfl

@[simp] theorem cpar_R (c : Color) (l : Tree) (p : Nat) (k : Path) :
    cpar (Frame.R c l p :: k) = some p := rfl

theorem ne_of_nodup {L : List Nat} (hnd : L.Nodup) {x y : Nat} (h : x = y → 2 ≤ L.count x) :
    x ≠ y := by
  intro e
  have := h e
  have := List.nodup_iff_count_le_one.mp hnd x
  omega

theorem ptr_ne_root {s : Mem} {f : Frame} {k : Path} {t : Tree}
    (h : Owns s (plug (f :: k) t)) : t.ptr ≠ s.rb_node := by
  rw [owns_plug] at h
  obtain ⟨h1, _, _, h4⟩ := h
  obtain ⟨ra, hra, hram⟩ := rootPtr_mem k f t.ptr
  rw [h1, hra]
  intro e
  have hm := ptr_mem_ids e
  obtain ⟨c1, c2⟩ := cnt h4 hm
  have c3 := (cnt h4 hram).2
  simp only [List.count_append] at c1 c2 c3
  omega

theorem parent_check {s : Mem} {par : Option Nat} {t : Tree}
    (h : Tree.Rep s.node par t) : parentIs s t.ptr par = true := by
  cases t with
  | nil => rfl
  | node c l a r => simp [parentIs, h.2.1]

theorem loop_cond {s : Mem} {par : Option Nat} {t : Tree} (h : Tree.Rep s.node par t) :
    (t.ptr = none ∨ IsBlack s t.ptr = true) ↔ t.rootColor ≠ Color.kRed := by
  cases t with
  | nil => simp
  | node c l a r =>
    simp only [ptr_node, IsBlack_some, h.1, rootColor_node, reduceCtorEq, false_or,
      decide_eq_true_eq]
    cases c <;> simp

set_option maxHeartbeats 1600000 in
theorem delBody_refines {s : Mem} {k : Path} {t : Tree} (h : Owns s (plug k t)) :
    match delBody (k, t) with
    | none => True
    | some (LoopStep.next st') => ∃ s', FixupAfterRemoveBody (t.ptr, cpar k, s) =
        some (LoopStep.next (st'.2.ptr, cpar st'.1, s')) ∧ Owns s' (plug st'.1 st'.2)
    | some (LoopStep.done st') => ∃ s', FixupAfterRemoveBody (t.ptr, cpar k, s) =
        some (LoopStep.done (st'.2.ptr, cpar st'.1, s')) ∧ Owns s' (plug st'.1 st'.2) := by
  cases k with
  | nil =>
    simp only [delBody]
    refine ⟨s, ?_, h⟩
    have : s.rb_node = t.ptr := h.1
    simp [FixupAfterRemoveBody, this]
  | cons f k1 =>
    have hT := rep_focus h
    have hroot := ptr_ne_root h
    have hpc0 := parent_check hT
    by_cases ht : t.rootColor = Color.kRed
    · simp only [delBody, ht, if_true]
      refine ⟨s, ?_, h⟩
      have := (loop_cond hT).not.mpr (by simpa using ht)
      simp [FixupAfterRemoveBody, this]
    have hlc := (loop_cond hT).mpr ht
    cases f with
    | L pc p sib =>
      cases sib with
      | nil => simp [delBody, ht]
      | node sc sl y sr =>
      simp only [cpar_L, cpar_R] at hpc0
      have hP := read_focus (k := k1) h
      have hY := read_focus (k := Frame.R pc t p :: k1) h
      have hSl := isRed_ptr (rep_focus (k := Frame.L sc y sr :: Frame.R pc t p :: k1) (t := sl) h)
      have hSr := isRed_ptr (rep_focus (k := Frame.R sc sl y :: Frame.R pc t p :: k1) (t := sr) h)
      have hBl := isBlack_ptr (rep_focus (k := Frame.L sc y sr :: Frame.R pc t p :: k1) (t := sl) h)
      have hBr := isBlack_ptr (rep_focus (k := Frame.R sc sl y :: Frame.R pc t p :: k1) (t := sr) h)
      have hpy : p ≠ y := by
        apply ne_of_nodup (nodup_focus h)
        rintro rfl
        simp only [ids_node, before, after, List.count_append, List.count_cons, List.count_nil,
        beq_self_eq_true, if_true]
        omega
      by_cases hsc : sc = Color.kRed
      · subst hsc
        by_cases hpc : pc = Color.kBlack
        swap
        · simp [delBody, ht, hpc]
        subst hpc
        simp only [delBody, ht, if_false, if_true, ne_eq, not_true_eq_false]
        obtain ⟨s1, e1, o1⟩ := RotateLeft_plug (k := k1) h
        have o2 := setColor_plug (k := Frame.L Color.kRed y sr :: k1) o1 Color.kRed
        have o3 := setColor_plug (k := k1) o2 Color.kBlack
        refine ⟨_, ?_, o3⟩
        simp only [FixupAfterRemoveBody, hlc, hroot, ne_eq, not_false_eq_true, and_self, if_true]
        simp [hP, hY, hpc0, e1]
      have hscb : sc = Color.kBlack := (color_cases sc).resolve_right hsc
      subst hscb
      by_cases h2 : sl.rootColor ≠ Color.kRed ∧ sr.rootColor ≠ Color.kRed
      · simp only [delBody, ht, if_false, reduceCtorEq, h2, ne_eq, not_false_eq_true, and_self,
          if_true]
        have o1 := setColor_plug (k := Frame.R pc t p :: k1) h Color.kRed
        refine ⟨_, ?_, o1⟩
        simp only [FixupAfterRemoveBody, hlc, hroot, ne_eq, not_false_eq_true, and_self, if_true]
        simp [hP, hY, hSl, hSr, h2.1, h2.2, hpc0, hpy]
      by_cases h3 : sr.rootColor = Color.kBlack
      · cases sl with
        | nil => exfalso; apply h2; simp [h3]
        | node c2 sll z slr =>
        have hc2 : c2 = Color.kRed := by
          rcases color_cases c2 with e | e
          · exfalso; apply h2; simp [e, h3]
          · exact e
        subst hc2
        simp only [delBody, ht, if_false, reduceCtorEq, h2, h3, if_true]
        have o1 := setColor_plug (k := Frame.R pc t p :: k1) h Color.kRed
        have o2 := setColor_plug (k := Frame.L Color.kRed y sr :: Frame.R pc t p :: k1) o1 Color.kBlack
        obtain ⟨s3, e3, o3⟩ := RotateRight_plug (k := Frame.R pc t p :: k1) o2
        have hz := read_focus (k := Frame.L Color.kBlack y sr :: Frame.R pc t p :: k1) h
        refine ⟨_, ?_, o3⟩
        simp only [FixupAfterRemoveBody, hlc, hroot, ne_eq, not_false_eq_true, and_self, if_true]
        simp [hP, hY, hSl, hSr, hBl, hBr, h3, hpc0, hpy, hz, e3]
      · cases sr with
        | nil => simp at h3
        | node c3 srl w srr =>
        simp only [delBody, ht, if_false, reduceCtorEq, h2, h3]
        have o1 := setColor_plug (k := Frame.R pc t p :: k1) h pc
        have o2 := setColor_plug (k := k1) o1 Color.kBlack
        have o3 := setColor_plug (k := Frame.R pc sl y :: Frame.R Color.kBlack t p :: k1) o2 Color.kBlack
        obtain ⟨s4, e4, o4⟩ := RotateLeft_plug (k := k1) o3
        have hw := read_focus (k := Frame.R Color.kBlack sl y :: Frame.R pc t p :: k1) h
        simp only [rootColor_node] at h3
        have hc3 : c3 = Color.kRed := (color_cases c3).resolve_left h3
        subst hc3
        refine ⟨_, ?_, o4⟩
        simp only [FixupAfterRemoveBody, hlc, hroot, ne_eq, not_false_eq_true, and_self, if_true]
        simp [hP, hY, hSl, hSr, hBl, hBr, hpc0, hpy, Ne.symm hpy, hw, e4]
    | R pc sib p =>
      cases sib with
      | nil => simp [delBody, ht]
      | node sc sl y sr =>
      simp only [cpar_L, cpar_R] at hpc0
      have hP := read_focus (k := k1) h
      have hY := read_focus (k := Frame.L pc p t :: k1) h
      have hSl := isRed_ptr (rep_focus (k := Frame.L sc y sr :: Frame.L pc p t :: k1) (t := sl) h)
      have hSr := isRed_ptr (rep_focus (k := Frame.R sc sl y :: Frame.L pc p t :: k1) (t := sr) h)
      have hBl := isBlack_ptr (rep_focus (k := Frame.L sc y sr :: Frame.L pc p t :: k1) (t := sl) h)
      have hBr := isBlack_ptr (rep_focus (k := Frame.R sc sl y :: Frame.L pc p t :: k1) (t := sr) h)
      have hpy : p ≠ y := by
        apply ne_of_nodup (nodup_focus h)
        rintro rfl
        simp only [ids_node, before, after, List.count_append, List.count_cons, List.count_nil,
        beq_self_eq_true, if_true]
        omega
      have hside : t.ptr ≠ some y := by
        apply ptr_ne_of_nodup (nodup_focus h)
        · simp only [ids_node, before, after, List.count_append, List.count_cons, List.count_nil,
        beq_self_eq_true, if_true]
          omega
        · simp only [ids_node, before, after, List.count_append, List.count_cons, List.count_nil,
        beq_self_eq_true, if_true]
          omega
      by_cases hsc : sc = Color.kRed
      · subst hsc
        by_cases hpc : pc = Color.kBlack
        swap
        · simp [delBody, ht, hpc]
        subst hpc
        simp only [delBody, ht, if_false, if_true, ne_eq, not_true_eq_false]
        obtain ⟨s1, e1, o1⟩ := RotateRight_plug (k := k1) h
        have o2 := setColor_plug (k := Frame.R Color.kRed sl y :: k1) o1 Color.kRed
        have o3 := setColor_plug (k := k1) o2 Color.kBlack
        refine ⟨_, ?_, o3⟩
        simp only [FixupAfterRemoveBody, hlc, hroot, ne_eq, not_false_eq_true, and_self, if_true]
        simp [hP, hY, hpc0, e1, hside]
      have hscb : sc = Color.kBlack := (color_cases sc).resolve_right hsc
      subst hscb
      by_cases h2 : sl.rootColor ≠ Color.kRed ∧ sr.rootColor ≠ Color.kRed
      · simp only [delBody, ht, if_false, reduceCtorEq, h2, ne_eq, not_false_eq_true, and_self,
          if_true]
        have o1 := setColor_plug (k := Frame.L pc p t :: k1) h Color.kRed
        refine ⟨_, ?_, o1⟩
        simp only [FixupAfterRemoveBody, hlc, hroot, ne_eq, not_false_eq_true, and_self, if_true]
        simp [hP, hY, hSl, hSr, h2.1, h2.2, hpc0, hpy, hside]
      by_cases h3 : sl.rootColor = Color.kBlack
      · cases sr with
        | nil => exfalso; apply h2; simp [h3]
        | node c2 srl z srr =>
        have hc2 : c2 = Color.kRed := by
          rcases color_cases c2 with e | e
          · exfalso; apply h2; simp [e, h3]
          · exact e
        subst hc2
        simp only [delBody, ht, if_false, reduceCtorEq, h2, h3, if_true]
        have o1 := setColor_plug (k := Frame.L pc p t :: k1) h Color.kRed
        have o2 := setColor_plug (k := Frame.R Color.kRed sl y :: Frame.L pc p t :: k1) o1 Color.kBlack
        obtain ⟨s3, e3, o3⟩ := RotateLeft_plug (k := Frame.L pc p t :: k1) o2
        have hz := read_focus (k := Frame.R Color.kBlack sl y :: Frame.L pc p t :: k1) h
        refine ⟨_, ?_, o3⟩
        simp only [FixupAfterRemoveBody, hlc, hroot, ne_eq, not_false_eq_true, and_self, if_true]
        simp [hP, hY, hSl, hSr, hBl, hBr, h3, hpc0, hpy, hz, e3, hside]
      · cases sl with
        | nil => simp at h3
        | node c3 sll w slr =>
        simp only [delBody, ht, if_false, reduceCtorEq, h2, h3]
        have o1 := setColor_plug (k := Frame.L pc p t :: k1) h pc
        have o2 := setColor_plug (k := k1) o1 Color.kBlack
        have o3 := setColor_plug (k := Frame.L pc y sr :: Frame.L Color.kBlack p t :: k1) o2 Color.kBlack
        obtain ⟨s4, e4, o4⟩ := RotateRight_plug (k := k1) o3
        have hw := read_focus (k := Frame.L Color.kBlack y sr :: Frame.L pc p t :: k1) h
        simp only [rootColor_node] at h3
        have hc3 : c3 = Color.kRed := (color_cases c3).resolve_left h3
        subst hc3
        refine ⟨_, ?_, o4⟩
        simp only [FixupAfterRemoveBody, hlc, hroot, ne_eq, not_false_eq_true, and_self, if_true]
        simp [hP, hY, hSl, hSr, hBl, hBr, hpc0, hpy, Ne.symm hpy, hw, e4, hside]

theorem FixupAfterRemove_refines {s : Mem} {k : Path} {t t' : Tree} {fuel : Nat}
    (h : Owns s (plug k t)) (hf : delFixup fuel k t = some t') :
    ∃ s', FixupAfterRemove fuel t.ptr (cpar k) s = some s' ∧ Owns s' t' := by
  simp only [delFixup] at hf
  cases hi : iterate delBody fuel (k, t) with
  | none => simp [hi] at hf
  | some st =>
    simp only [hi, Option.some.injEq] at hf
    obtain ⟨x', e1, r1, r2, r3⟩ := iterate_sim
      (fun (x : Option Nat × Option Nat × Mem) (a : Path × Tree) =>
        Owns x.2.2 (plug a.1 a.2) ∧ x.1 = a.2.ptr ∧ x.2.1 = cpar a.1)
      (fun (x : Option Nat × Option Nat × Mem) (a : Path × Tree) =>
        Owns x.2.2 (plug a.1 a.2) ∧ x.1 = a.2.ptr ∧ x.2.1 = cpar a.1)
      (by
        rintro ⟨x1, x2, x3⟩ a ⟨hR1, hR2, hR3⟩
        simp only at hR1 hR2 hR3
        subst hR2 hR3
        have := delBody_refines hR1
        cases hb : delBody a with
        | none => trivial
        | some st1 =>
          cases st1 with
          | next a1 =>
            simp only [hb] at this ⊢
            obtain ⟨s', e, o⟩ := this
            exact ⟨_, e, o, rfl, rfl⟩
          | done a1 =>
            simp only [hb] at this ⊢
            obtain ⟨s', e, o⟩ := this
            exact ⟨_, e, o, rfl, rfl⟩)
      fuel (t.ptr, cpar k, s) (k, t) st ⟨h, rfl, rfl⟩ hi
    simp only [FixupAfterRemove, e1]
    subst hf
    cases hst : st.2 with
    | nil =>
      rw [hst] at r1 r2
      simp only [ptr_nil] at r2
      simp only [r2]
      exact ⟨_, rfl, r1⟩
    | node c l a r =>
      rw [hst] at r1 r2
      simp only [ptr_node] at r2
      simp only [r2]
      exact ⟨_, rfl, setColor_plug r1 Color.kBlack⟩

theorem Transplant_sub {s : Mem} {k : Path} {c : Color} {l r t0 : Tree} {x : Nat}
    (h : OwnsAt s k (Tree.node c l x r)) (ht0 : t0 = l ∨ t0 = r) :
    ∃ s1, Transplant (some x) t0.ptr s = some s1 ∧ OwnsAt s1 k t0 ∧
      (∀ a, a ∉ before k ++ (t0.ids ++ after k) → s1.node a = s.node a) := by
  obtain ⟨h1, h2, ⟨h3, h4, h5, h6, h7, h8⟩, h9⟩ := h
  have hsub : ∀ a, t0.ids.count a ≤ l.ids.count a + r.ids.count a := by
    intro a
    rcases ht0 with e | e <;> subst e <;> omega
  have hrep : Tree.Rep s.node (some x) t0 := by
    rcases ht0 with e | e <;> subst e <;> assumption
  have hx : x ∉ before k ++ after k := by
    intro ha
    obtain ⟨c1, c2⟩ := cnt h9 ha
    simp only [ids_node, List.count_append, List.count_cons, List.count_nil,
      beq_self_eq_true, if_true] at c1 c2
    omega
  have hnew : ∀ n, t0.ptr = some n → n ∉ before k ++ after k := by
    intro n hn ha
    have hm := ptr_mem_ids hn
    obtain ⟨c1, c2⟩ := cnt h9 ha
    have c3 := (cnt h9 hm).2
    have := hsub n
    simp only [ids_node, List.count_append, List.count_cons, List.count_nil] at c1 c2
    omega
  obtain ⟨s1, e1, r1, r2, r3, r4⟩ := @Transplant_ctx _ _ _ (t0.ptr) h1 h2 h4 hx (nodup_ctx h9) hnew
  have hnd : (before k ++ (t0.ids ++ after k)).Nodup := by
    rw [List.nodup_iff_count_le_one] at h9 ⊢
    intro a
    have := h9 a
    have := hsub a
    simp only [ids_node, List.count_append, List.count_cons, List.count_nil] at *
    omega
  refine ⟨s1, e1, ⟨r1, r2, ?_, hnd⟩, ?_⟩
  · cases t0 with
    | nil => trivial
    | node c0 l0 a0 r0 =>
      have q := r4 a0 rfl
      obtain ⟨b3, b4, b5, b6, b7, b8⟩ := hrep
      have ha0 : a0 ∉ before k ++ after k := hnew a0 rfl
      refine ⟨by rw [q]; exact b3, by rw [q], by rw [q]; exact b5, by rw [q]; exact b6,
        Rep_congr b7 ?_, Rep_congr b8 ?_⟩
      all_goals
        intro i hi
        have i1 : i ≠ a0 := by
          rintro rfl
          obtain ⟨c1, c2⟩ := cnt hnd hi
          simp only [ids_node, List.count_append, List.count_cons, List.count_nil,
            beq_self_eq_true, if_true] at c1 c2
          omega
        have i2 : i ∉ before k ++ after k := by
          apply List.count_eq_zero.mp
          obtain ⟨c1, c2⟩ := cnt hnd hi
          simp only [ids_node, List.count_append, List.count_cons, List.count_nil,
            beq_self_eq_true, if_true] at c1 c2 ⊢
          omega
        exact r3 i (fun e => i2 (cpar_mem e.symm)) (by simpa using i1)
  · intro a ha
    apply r3 a
    · intro e
      apply ha
      have := cpar_mem e.symm
      simp only [List.mem_append] at this ⊢
      tauto
    · intro e
      apply ha
      have := ptr_mem_ids e.symm
      simp only [List.mem_append] at this ⊢
      tauto

theorem before_append (k1 k2 : Path) : before (k1 ++ k2) = before k2 ++ before k1 := by
  induction k1 with
  | nil => simp [before]
  | cons f k1 ih => cases f <;> simp [before, ih]

theorem after_append (k1 k2 : Path) : after (k1 ++ k2) = after k1 ++ after k2 := by
  induction k1 with
  | nil => simp [after]
  | cons f k1 ih => cases f <;> simp [after, ih]

theorem leftmost_spec : ∀ (r : Tree) (k0 k' : Path) (cy : Color) (y : Nat) (yr : Tree),
    leftmost r k0 = some (k', cy, y, yr) →
    ∃ kr, k' = kr ++ k0 ∧ plug kr (Tree.node cy Tree.nil y yr) = r ∧ before kr = [] ∧
      kr.length < r.height := by
  intro r
  induction r with
  | nil => intro k0 k' cy y yr h; simp [leftmost] at h
  | node c l a r ihl _ =>
    intro k0 k' cy y yr h
    cases l with
    | nil =>
      simp only [leftmost, Option.some.injEq, Prod.mk.injEq] at h
      obtain ⟨rfl, rfl, rfl, rfl⟩ := h
      exact ⟨[], rfl, rfl, rfl, by simp [Tree.height]⟩
    | node c1 l1 a1 r1 =>
      simp only [leftmost] at h
      obtain ⟨kr, e1, e2, e3, e4⟩ := ihl _ _ _ _ _ h
      refine ⟨kr ++ [Frame.L c a r], by simp [e1], ?_, ?_, ?_⟩
      · rw [plug_append, e2]; rfl
      · simp [before_append, e3, before]
      · simp only [List.length_append, List.length_singleton, Tree.height] at e4 ⊢
        omega

theorem leftmost_some (c : Color) (l : Tree) (a : Nat) (r : Tree) (k0 : Path) :
    ∃ q, leftmost (Tree.node c l a r) k0 = some q := by
  induction l generalizing c a r k0 with
  | nil => exact ⟨_, rfl⟩
  | node c1 l1 a1 r1 ih _ =>
    simp only [leftmost]
    exact ih _ _ _ _

theorem successor_loop {s : Mem} :
    ∀ (kr : Path) (K : Path) (cy : Color) (y : Nat) (yr : Tree) (fuel : Nat),
    before kr = [] → kr.length < fuel →
    Owns s (plug (kr ++ K) (Tree.node cy Tree.nil y yr)) →
    ∀ a, (plug kr (Tree.node cy Tree.nil y yr)).ptr = some a →
    iterate (successorBody s) fuel a = some y := by
  intro kr
  induction kr using List.reverseRecOn with
  | nil =>
    intro K cy y yr fuel _ hf h a ha
    simp only [plug, ptr_node, Option.some.injEq] at ha
    subst ha
    have hN := read_focus h
    cases fuel with
    | zero => simp at hf
    | succ fuel => simp [iterate, successorBody, hN]
  | append_singleton kr f ih =>
    intro K cy y yr fuel hb hf h a ha
    rw [before_append] at hb
    cases f with
    | R c l p => simp [before] at hb
    | L c p r =>
      simp only [before, List.nil_append] at hb
      rw [plug_append] at ha
      simp only [plug, ptr_node, Option.some.injEq] at ha
      subst ha
      rw [List.append_assoc] at h
      have h' : Owns s (plug K (Tree.node c (plug kr (Tree.node cy Tree.nil y yr)) p r)) := by
        rw [plug_append] at h; exact h
      have hN := read_focus h'
      cases fuel with
      | zero => simp at hf
      | succ fuel =>
        simp only [List.length_append, List.length_singleton] at hf
        cases hq : (plug kr (Tree.node cy Tree.nil y yr)).ptr with
        | none =>
          have := ptr_eq_none hq
          have h2 := congrArg Tree.ids this
          simp [ids_plug] at h2
        | some a' =>
          have := ih (Frame.L c p r :: K) cy y yr fuel hb (by omega) h a' hq
          simp [iterate, successorBody, hN, hq, this]

theorem replace_node {s : Mem} {k : Path} {c cl : Color} {ll lr R' : Tree} {n y l0 : Nat}
    (hroot : s.rb_node = rootPtr k (some n)) (hctx : RepCtx s.node (some n) k)
    (hn : s.node n = { color := c, parent := cpar k, left := some l0, right := (s.node n).right })
    (hL : Tree.Rep s.node (some n) (Tree.node cl ll l0 lr))
    (hR : Tree.Rep s.node (some y) R') (hyr : (s.node y).right = R'.ptr)
    (hnd : (before k ++ (((Tree.node cl ll l0 lr).ids ++ n :: y :: R'.ids) ++ after k)).Nodup) :
    ∃ s4, Transplant (some n) (some y) s = some s4 ∧ s4.node n = s.node n ∧
      (s4.node y).color = (s.node y).color ∧
      Owns (((s4.setLeft y (some l0)).setParent l0 (some y)).setColor y c)
        (plug k (Tree.node c (Tree.node cl ll l0 lr) y R')) := by
  have hx : n ∉ before k ++ after k := by
    apply List.count_eq_zero.mp
    have c1 := List.nodup_iff_count_le_one.mp hnd n
    simp only [ids_node, List.count_append, List.count_cons, List.count_nil,
      beq_self_eq_true, if_true] at c1 ⊢
    omega
  have hy : y ∉ before k ++ after k := by
    apply List.count_eq_zero.mp
    have c1 := List.nodup_iff_count_le_one.mp hnd y
    simp only [ids_node, List.count_append, List.count_cons, List.count_nil,
      beq_self_eq_true, if_true] at c1 ⊢
    omega
  have hl0 : l0 ∉ before k ++ after k := by
    apply List.count_eq_zero.mp
    have c1 := List.nodup_iff_count_le_one.mp hnd l0
    simp only [ids_node, List.count_append, List.count_cons, List.count_nil,
      beq_self_eq_true, if_true] at c1 ⊢
    omega
  have hny : n ≠ y := by
    rintro rfl
    have c1 := List.nodup_iff_count_le_one.mp hnd n
    simp only [ids_node, List.count_append, List.count_cons, List.count_nil,
      beq_self_eq_true, if_true] at c1
    omega
  have hnl : n ≠ l0 := by
    rintro rfl
    have c1 := List.nodup_iff_count_le_one.mp hnd n
    simp only [ids_node, List.count_append, List.count_cons, List.count_nil,
      beq_self_eq_true, if_true] at c1
    omega
  have hyl : y ≠ l0 := by
    rintro rfl
    have c1 := List.nodup_iff_count_le_one.mp hnd y
    simp only [ids_node, List.count_append, List.count_cons, List.count_nil,
      beq_self_eq_true, if_true] at c1
    omega
  have hctxnd : (before k ++ after k).Nodup := by
    have := hnd
    rw [List.nodup_iff_count_le_one] at this ⊢
    intro a
    have := this a
    simp only [List.count_append] at this ⊢
    omega
  have hpar : (s.node n).parent = cpar k := by rw [hn]
  obtain ⟨s4, e4, r1, r2, r3, r4⟩ := @Transplant_ctx _ _ _ (some y) hroot hctx hpar hx hctxnd
    (by intro m hm; cases hm; exact hy)
  have r4 := r4 y rfl
  have hcp : ∀ i, i ∉ before k ++ after k → some i ≠ cpar k :=
    fun i hi e => hi (cpar_mem e.symm)
  have r6 : ∀ i, i ≠ y → i ∉ before k ++ after k → s4.node i = s.node i :=
    fun i h1 h2 => r3 i (hcp i h2) (by simpa using h1)
  have r5 := r6 n hny hx
  have r7 := r6 l0 (Ne.symm hyl) hl0
  obtain ⟨b3, b4, b5, b6, b7, b8⟩ := hL
  refine ⟨s4, e4, r5, by rw [r4], ?_⟩
  rw [owns_plug]
  refine ⟨by simpa using r1, ?_, ⟨?_, ?_, ?_, ?_, ⟨?_, ?_, ?_, ?_, Rep_congr b7 ?_, Rep_congr b8 ?_⟩,
    Rep_congr hR ?_⟩, ?_⟩
  · refine RepCtx_congr r2 ?_
    intro i hi
    have i1 : i ≠ y := by rintro rfl; exact hy hi
    have i2 : i ≠ l0 := by rintro rfl; exact hl0 hi
    simp [Function.update, i1, i2]
  · simp [Function.update, hyl, Ne.symm hyl]
  · simp [Function.update, hyl, Ne.symm hyl, r4]
  · simp [Function.update, hyl, Ne.symm hyl]
  · simp [Function.update, hyl, Ne.symm hyl, r4, hyr]
  · simp [Function.update, hyl, Ne.symm hyl, r7, b3]
  · simp [Function.update, hyl, Ne.symm hyl]
  · simp [Function.update, hyl, Ne.symm hyl, r7, b5]
  · simp [Function.update, hyl, Ne.symm hyl, r7, b6]
  ·
    intro i hi
    have i1 : i ≠ y := by
      rintro rfl
      obtain ⟨c1, c2⟩ := cnt hnd hi
      simp only [ids_node, List.count_append, List.count_cons, List.count_nil,
        beq_self_eq_true, if_true] at c1 c2
      omega
    have i2 : i ≠ l0 := by
      rintro rfl
      obtain ⟨c1, c2⟩ := cnt hnd hi
      simp only [ids_node, List.count_append, List.count_cons, List.count_nil,
        beq_self_eq_true, if_true] at c1 c2
      omega
    have i3 : i ∉ before k ++ after k := by
      apply List.count_eq_zero.mp
      obtain ⟨c1, c2⟩ := cnt hnd hi
      simp only [ids_node, List.count_append, List.count_cons, List.count_nil,
        beq_self_eq_true, if_true] at c1 c2 ⊢
      omega
    simp [Function.update, i1, i2, r6 i i1 i3]
  ·
    intro i hi
    have i1 : i ≠ y := by
      rintro rfl
      obtain ⟨c1, c2⟩ := cnt hnd hi
      simp only [ids_node, List.count_append, List.count_cons, List.count_nil,
        beq_self_eq_true, if_true] at c1 c2
      omega
    have i2 : i ≠ l0 := by
      rintro rfl
      obtain ⟨c1, c2⟩ := cnt hnd hi
      simp only [ids_node, List.count_append, List.count_cons, List.count_nil,
        beq_self_eq_true, if_true] at c1 c2
      omega
    have i3 : i ∉ before k ++ after k := by
      apply List.count_eq_zero.mp
      obtain ⟨c1, c2⟩ := cnt hnd hi
      simp only [ids_node, List.count_append, List.count_cons, List.count_nil,
        beq_self_eq_true, if_true] at c1 c2 ⊢
      omega
    simp [Function.update, i1, i2, r6 i i1 i3]
  ·
    intro i hi
    have i1 : i ≠ y := by
      rintro rfl
      obtain ⟨c1, c2⟩ := cnt hnd hi
      simp only [ids_node, List.count_append, List.count_cons, List.count_nil,
        beq_self_eq_true, if_true] at c1 c2
      omega
    have i2 : i ≠ l0 := by
      rintro rfl
      obtain ⟨c1, c2⟩ := cnt hnd hi
      simp only [ids_node, List.count_append, List.count_cons, List.count_nil,
        beq_self_eq_true, if_true] at c1 c2
      omega
    have i3 : i ∉ before k ++ after k := by
      apply List.count_eq_zero.mp
      obtain ⟨c1, c2⟩ := cnt hnd hi
      simp only [ids_node, List.count_append, List.count_cons, List.count_nil,
        beq_self_eq_true, if_true] at c1 c2 ⊢
      omega
    simp [Function.update, i1, i2, r6 i i1 i3]
  · rw [List.nodup_iff_count_le_one] at hnd ⊢
    intro a
    have := hnd a
    simp only [ids_node, List.count_append, List.count_cons, List.count_nil] at this ⊢
    omega

theorem plug_cons_ne_nil (f : Frame) (k : Path) (t : Tree) : plug (f :: k) t ≠ Tree.nil := by
  intro e
  have := congrArg Tree.ptr e
  rw [ptr_plug] at this
  obtain ⟨a, ha, _⟩ := rootPtr_mem k f t.ptr
  rw [ha] at this
  simp at this

theorem detach_succ {s : Mem} {k kr : Path} {c cl cy : Color} {ll lr yr : Tree}
    {n l0 y : Nat} (hkr : kr ≠ [])
    (h : Owns s (plug (kr ++ Frame.R c (Tree.node cl ll l0 lr) n :: k)
      (Tree.node cy Tree.nil y yr))) :
    ∃ s1 r0, Transplant (some y) yr.ptr s = some s1 ∧ (plug kr yr).ptr = some r0 ∧
      (plug kr (Tree.node cy Tree.nil y yr)).ptr = some r0 ∧ r0 ≠ y ∧
      s1.node n = s.node n ∧ s1.node y = s.node y ∧
      ((s1.setRight y (some r0)).setParent r0 (some y)).rb_node = rootPtr k (some n) ∧
      RepCtx ((s1.setRight y (some r0)).setParent r0 (some y)).node (some n) k ∧
      ((s1.setRight y (some r0)).setParent r0 (some y)).node n = s.node n ∧
      Tree.Rep ((s1.setRight y (some r0)).setParent r0 (some y)).node (some n)
        (Tree.node cl ll l0 lr) ∧
      Tree.Rep ((s1.setRight y (some r0)).setParent r0 (some y)).node (some y) (plug kr yr) ∧
      (((s1.setRight y (some r0)).setParent r0 (some y)).node y).right = (plug kr yr).ptr ∧
      (((s1.setRight y (some r0)).setParent r0 (some y)).node y).color = cy ∧
      (before k ++ (((Tree.node cl ll l0 lr).ids ++ n :: y :: (plug kr yr).ids) ++
        after k)).Nodup := by
  have hY := read_focus h
  have hnd0 := nodup_focus h
  obtain ⟨s1, e1, o1, fr⟩ := @Transplant_sub _ _ _ _ _ yr _ ((owns_plug _ _ _).mp h) (Or.inr rfl)
  have o1' : Owns s1 (plug k (Tree.node c (Tree.node cl ll l0 lr) n (plug kr yr))) := by
    have := (owns_plug _ _ _).mpr o1
    rw [plug_append] at this
    exact this
  have hN1 := read_focus o1'
  have h' : Owns s (plug k (Tree.node c (Tree.node cl ll l0 lr) n
      (plug kr (Tree.node cy Tree.nil y yr)))) := by
    rw [plug_append] at h; exact h
  have hN := read_focus h'
  have hnd1 : (before k ++ (((Tree.node cl ll l0 lr).ids ++ n :: y :: (plug kr yr).ids) ++
      after k)).Nodup := by
    rw [List.nodup_iff_count_le_one] at hnd0 ⊢
    intro a
    have := hnd0 a
    simp only [ids_node, ids_nil, ids_plug, before_append, after_append, before, after,
      List.count_append, List.count_cons, List.count_nil, beq_self_eq_true, if_true] at this ⊢
    omega
  obtain ⟨f, kr', rfl⟩ := List.exists_cons_of_ne_nil hkr
  obtain ⟨r0, hr0, hr0m⟩ := rootPtr_mem kr' f yr.ptr
  have hp1 : (plug (f :: kr') yr).ptr = some r0 := by rw [ptr_plug]; exact hr0
  have hp2 : (plug (f :: kr') (Tree.node cy Tree.nil y yr)).ptr = some r0 := by
    rw [ptr_plug, rootPtr_cons f kr' _ yr.ptr]; exact hr0
  have hr0y : r0 ≠ y := by
    rintro rfl
    have hm := ptr_mem_ids hp1
    obtain ⟨c1, c2⟩ := cnt hnd1 hm
    simp only [ids_node, ids_nil, ids_plug, before_append, after_append, before, after,
      List.count_append, List.count_cons, List.count_nil, beq_self_eq_true, if_true] at c1 c2
    omega
  have hyn : y ≠ n := by
    rintro rfl
    have c1 := List.nodup_iff_count_le_one.mp hnd1 y
    simp only [ids_node, ids_nil, ids_plug, before_append, after_append, before, after,
      List.count_append, List.count_cons, List.count_nil, beq_self_eq_true, if_true] at c1
    omega
  have hr0n : r0 ≠ n := by
    rintro rfl
    have hm := ptr_mem_ids hp1
    obtain ⟨c1, c2⟩ := cnt hnd1 hm
    simp only [ids_node, ids_nil, ids_plug, before_append, after_append, before, after,
      List.count_append, List.count_cons, List.count_nil, beq_self_eq_true, if_true] at c1 c2
    omega
  have hs1y : s1.node y = s.node y := by
    apply fr
    apply List.count_eq_zero.mp
    have c1 := List.nodup_iff_count_le_one.mp hnd0 y
    simp only [ids_node, ids_nil, ids_plug, before_append, after_append, before, after,
      List.count_append, List.count_cons, List.count_nil, beq_self_eq_true, if_true] at c1 ⊢
    omega
  have hs1n : s1.node n = s.node n := by
    rw [hN1, hN, hp1, hp2]
  obtain ⟨q1, q2, ⟨q3, q4, q5, q6, q7, q8⟩, q9⟩ := (owns_plug _ _ _).mp o1'
  refine ⟨s1, r0, e1, hp1, hp2, hr0y, hs1n, hs1y, by simpa using q1, ?_, ?_, ?_, ?_, ?_, ?_,
    hnd1⟩
  · refine RepCtx_congr q2 ?_
    intro i hi
    have i1 : i ≠ y := by
      rintro rfl
      obtain ⟨c1, c2⟩ := cnt hnd1 hi
      simp only [ids_node, ids_nil, ids_plug, before_append, after_append, before, after,
      List.count_append, List.count_cons, List.count_nil, beq_self_eq_true, if_true] at c1 c2
      omega
    have i2 : i ≠ r0 := by
      rintro rfl
      have hm := ptr_mem_ids hp1
      obtain ⟨c1, c2⟩ := cnt hnd1 hi
      have c3 := (cnt hnd1 hm).2
      simp only [ids_node, ids_nil, ids_plug, before_append, after_append, before, after,
      List.count_append, List.count_cons, List.count_nil, beq_self_eq_true, if_true] at c1 c2 c3
      omega
    simp [Function.update, i1, i2]
  · simp [Function.update, Ne.symm hyn, Ne.symm hr0n, hs1n]
  · refine Rep_congr q7 ?_
    intro i hi
    have i1 : i ≠ y := by
      rintro rfl
      obtain ⟨c1, c2⟩ := cnt hnd1 hi
      simp only [ids_node, ids_nil, ids_plug, before_append, after_append, before, after,
      List.count_append, List.count_cons, List.count_nil, beq_self_eq_true, if_true] at c1 c2
      omega
    have i2 : i ≠ r0 := by
      rintro rfl
      have hm := ptr_mem_ids hp1
      obtain ⟨c1, c2⟩ := cnt hnd1 hi
      have c3 := (cnt hnd1 hm).2
      simp only [ids_node, ids_nil, ids_plug, before_append, after_append, before, after,
      List.count_append, List.count_cons, List.count_nil, beq_self_eq_true, if_true] at c1 c2 c3
      omega
    simp [Function.update, i1, i2]
  · cases hR : plug (f :: kr') yr with
    | nil => exact absurd hR (plug_cons_ne_nil _ _ _)
    | node cr rl r1 rr =>
      rw [hR] at q8 hp1 hnd1
      simp only [ptr_node, Option.some.injEq] at hp1
      subst hp1
      obtain ⟨b3, b4, b5, b6, b7, b8⟩ := q8
      refine ⟨?_, ?_, ?_, ?_, Rep_congr b7 ?_, Rep_congr b8 ?_⟩
      · simp [Function.update, hr0y, b3]
      · simp [Function.update, hr0y]
      · simp [Function.update, hr0y, b5]
      · simp [Function.update, hr0y, b6]
      all_goals
        intro i hi
        have i1 : i ≠ y := by
          rintro rfl
          obtain ⟨c1, c2⟩ := cnt hnd1 hi
          simp only [ids_node, ids_nil, ids_plug, before_append, after_append, before, after,
      List.count_append, List.count_cons, List.count_nil, beq_self_eq_true, if_true] at c1 c2
          omega
        have i2 : i ≠ r1 := by
          rintro rfl
          obtain ⟨c1, c2⟩ := cnt hnd1 hi
          simp only [ids_node, ids_nil, ids_plug, before_append, after_append, before, after,
      List.count_append, List.count_cons, List.count_nil, beq_self_eq_true, if_true] at c1 c2
          omega
        simp [Function.update, i1, i2]
  · simp [Function.update, hr0y, Ne.symm hr0y, hp1]
  · simp [Function.update, hr0y, Ne.symm hr0y, hs1y, hY]

theorem rebalance_refines {s : Mem} {k : Path} {t t' : Tree} {fuel : Nat} {rc : Color}
    (h : Owns s (plug k t)) (hf : delRebalance fuel rc k t = some t') :
    ∃ s', rebalanceAfterRemove fuel rc t.ptr (cpar k) s = some s' ∧ Owns s' t' := by
  simp only [delRebalance] at hf
  by_cases hrc : rc = Color.kBlack
  · simp only [hrc, if_true] at hf
    simpa [rebalanceAfterRemove, hrc] using FixupAfterRemove_refines h hf
  · simp only [hrc, if_false, Option.some.injEq] at hf
    subst hf
    exact ⟨s, by simp [rebalanceAfterRemove, hrc], h⟩

theorem RemoveFromRbTree_refines {s : Mem} {k : Path} {c : Color} {l r t' : Tree} {n : Nat}
    {fuel : Nat} (h : Owns s (plug k (Tree.node c l n r))) (hfuel : r.height ≤ fuel)
    (hf : removeAt fuel k c l r = some t') :
    ∃ s', RemoveFromRbTree fuel (some n) s = some s' ∧ Owns s' t' := by
  have hN := read_focus h
  have hA := (owns_plug _ _ _).mp h
  cases l with
  | nil =>
    simp only [removeAt] at hf
    obtain ⟨s1, e1, o1, _⟩ := @Transplant_sub _ _ _ _ _ r _ hA (Or.inr rfl)
    obtain ⟨s', e2, o2⟩ := rebalance_refines ((owns_plug _ _ _).mpr o1) hf
    exact ⟨s', by simp [RemoveFromRbTree, hN, e1, e2], o2⟩
  | node cl ll l0 lr =>
    cases r with
    | nil =>
      simp only [removeAt] at hf
      obtain ⟨s1, e1, o1, _⟩ := @Transplant_sub _ _ _ _ _ (Tree.node cl ll l0 lr) _ hA (Or.inl rfl)
      obtain ⟨s', e2, o2⟩ := rebalance_refines ((owns_plug _ _ _).mpr o1) hf
      refine ⟨s', ?_, o2⟩
      simp only [ptr_node] at e1 e2
      simp [RemoveFromRbTree, hN, e1, e2]
    | node cr rl r0 rr =>
      simp only [removeAt] at hf
      cases hlm : leftmost (Tree.node cr rl r0 rr) [] with
      | none => simp [hlm] at hf
      | some q =>
        obtain ⟨kr, cy, y, yr⟩ := q
        simp only [hlm] at hf
        obtain ⟨kr1, e0, hplug, hbk, hlen⟩ := leftmost_spec _ _ _ _ _ _ hlm
        simp only [List.append_nil] at e0
        subst kr1
        have hK : Owns s (plug (kr ++ Frame.R c (Tree.node cl ll l0 lr) n :: k)
            (Tree.node cy Tree.nil y yr)) := by
          rw [plug_append, hplug]; exact h
        have hloop := successor_loop (s := s) kr _ cy y yr fuel hbk (by omega) hK r0
          (by rw [hplug]; rfl)
        have hY := read_focus hK
        by_cases hkr : kr = []
        · subst hkr
          simp only [plug, Tree.node.injEq] at hplug
          obtain ⟨rfl, rfl, rfl, rfl⟩ := hplug
          obtain ⟨h1, h2, ⟨h3, h4, h5, h6, h7, h8⟩, h9⟩ := hA
          obtain ⟨s4, e4, r5, r6, o7⟩ := @replace_node s k c _ _ _ yr n y _ (by simpa using h1) (by simpa using h2)
            (by rw [hN]; rfl) h7 h8.2.2.2.2.2 (by rw [hY])
            (by
              rw [List.nodup_iff_count_le_one] at h9 ⊢
              intro a
              have := h9 a
              simp only [ids_node, ids_nil, List.count_append, List.count_cons,
                List.count_nil] at this ⊢
              omega)
          obtain ⟨s', e2, o2⟩ := rebalance_refines (k := Frame.R c _ y :: k) o7 hf
          refine ⟨s', ?_, o2⟩
          have hnr : n ≠ y := by
            apply ne_of_nodup h9
            rintro rfl
            simp only [ids_node, List.count_append, List.count_cons, List.count_nil,
              beq_self_eq_true, if_true]
            omega
          have hnl : n ≠ l0 := by
            apply ne_of_nodup h9
            rintro rfl
            simp only [ids_node, List.count_append, List.count_cons, List.count_nil,
              beq_self_eq_true, if_true]
            omega
          have hrl : y ≠ l0 := by
            apply ne_of_nodup h9
            rintro rfl
            simp only [ids_node, List.count_append, List.count_cons, List.count_nil,
              beq_self_eq_true, if_true]
            omega
          simp only [cpar_R] at e2
          simp only [RemoveFromRbTree, iterate]
          simp [hN, hloop, hY, e4, Function.update, hnr, hnl, hrl, Ne.symm hrl, r5, r6, e2]
        · obtain ⟨s1, r1, e1, hp1, hp2, hr1y, hs1n, hs1y, q1, q2, q3, q4, q5, q6, q7, q8⟩ :=
            detach_succ hkr hK
          rw [hplug] at hp2
          simp only [ptr_node, Option.some.injEq] at hp2
          subst hp2
          obtain ⟨s4, e4, r5, r6, o7⟩ := @replace_node _ _ c _ _ _ (plug kr yr) n y _ q1 q2 (by rw [q3, hN]; rfl) q4 q5 q6 q8
          have o7' : Owns (((s4.setLeft y (some l0)).setParent l0 (some y)).setColor y c)
              (plug (kr ++ Frame.R c (Tree.node cl ll l0 lr) y :: k) yr) := by
            rw [plug_append]; exact o7
          obtain ⟨s', e2, o2⟩ := rebalance_refines o7' hf
          obtain ⟨f, kr', rfl⟩ := List.exists_cons_of_ne_nil hkr
          have hcp : cpar (f :: kr' ++ Frame.R c (Tree.node cl ll l0 lr) y :: k) =
              cpar (f :: kr' ++ Frame.R c (Tree.node cl ll l0 lr) n :: k) := by
            cases f <;> rfl
          rw [hcp] at e2
          refine ⟨s', ?_, o2⟩
          have hny : n ≠ y := by
            apply ne_of_nodup q8
            rintro rfl
            simp only [ids_node, List.count_append, List.count_cons, List.count_nil,
              beq_self_eq_true, if_true]
            omega
          have hnl : n ≠ l0 := by
            apply ne_of_nodup q8
            rintro rfl
            simp only [ids_node, List.count_append, List.count_cons, List.count_nil,
              beq_self_eq_true, if_true]
            omega
          have hyl : y ≠ l0 := by
            apply ne_of_nodup q8
            rintro rfl
            simp only [ids_node, List.count_append, List.count_cons, List.count_nil,
              beq_self_eq_true, if_true]
            omega
          have h4n : s4.node n = s.node n := r5.trans q3
          have h4y : (s4.node y).color = cy := r6.trans q7
          have hsn : (Function.update s1.node y
              { color := (s1.node y).color, parent := (s1.node y).parent,
                left := (s1.node y).left, right := some r0 } n) = s.node n := by
            simp [Function.update, hny, hs1n]
          simp only [RemoveFromRbTree]
          simp [hN, hloop, hY, e1, hs1n, Ne.symm hr1y, hsn, e4, h4n, h4y, Function.update,
            hny, hnl, hyl, Ne.symm hyl, Ne.symm hny]
          exact e2

@[simp] theorem setRootColor_nil (c : Color) : Tree.nil.setRootColor c = Tree.nil := rfl

@[simp] theorem setRootColor_node (c c' : Color) (l : Tree) (a : Nat) (r : Tree) :
    (Tree.node c' l a r).setRootColor c = Tree.node c l a r := rfl

theorem noRedRed_blacken {t : Tree} (h : t.NoRedRed) :
    (t.setRootColor Color.kBlack).NoRedRed := by
  cases t with
  | nil => trivial
  | node c l a r => simp_all

theorem blacken_of_black {t : Tree} (h : t.rootColor ≠ Color.kRed) :
    t.setRootColor Color.kBlack = t := by
  cases t with
  | nil => rfl
  | node c l a r =>
    rcases color_cases c with e | e
    · subst e; rfl
    · simp [e] at h

theorem bh_blacken_red {t : Tree} (h : t.rootColor = Color.kRed) :
    (t.setRootColor Color.kBlack).bh = t.bh + 1 := by
  cases t with
  | nil => simp at h
  | node c l a r => simp at h; subst h; simp

theorem rootColor_blacken (t : Tree) : (t.setRootColor Color.kBlack).rootColor = Color.kBlack := by
  cases t <;> rfl

theorem bal_blacken {t : Tree} (h : t.Bal) : (t.setRootColor Color.kBlack).Bal := by
  cases t with
  | nil => trivial
  | node c l a r => simpa using h

/-- Leaving the loop because `node` is Red or is the root establishes the invariants. -/
theorem delGood_exit {k : Path} {t : Tree} (h : DelInv k t)
    (hx : t.rootColor = Color.kRed ∨ k = []) : DelGood k t := by
  obtain ⟨h1, h2, h3⟩ := h
  rcases hx with hx | hx
  · exact (plug_rb k _).mpr ⟨h1, bal_blacken h2, by
      rw [rootColor_blacken, bh_blacken_red hx]; exact h3⟩
  · subst hx
    exact ⟨rootColor_blacken t, h1, bal_blacken h2⟩

set_option maxHeartbeats 1600000 in
theorem delBody_inv (k : Path) (t : Tree) (h : DelInv k t) :
    (∃ st, delBody (k, t) = some (LoopStep.done st) ∧ DelGood st.1 st.2 ∧
      (plug st.1 st.2).ids = (plug k t).ids) ∨
    (∃ k' t', delBody (k, t) = some (LoopStep.next (k', t')) ∧
      (plug k' t').ids = (plug k t).ids ∧
      ∃ st, delBody (k', t') = some (LoopStep.done st) ∧ DelGood st.1 st.2 ∧
        (plug st.1 st.2).ids = (plug k' t').ids) ∨
    (∃ k' t', delBody (k, t) = some (LoopStep.next (k', t')) ∧
      (plug k' t').ids = (plug k t).ids ∧ DelInv k' t' ∧ k'.length < k.length ∧
      ∃ f k1, k = f :: k1 ∧ f.color = Color.kBlack) ∨
    (∃ k' t', delBody (k, t) = some (LoopStep.next (k', t')) ∧
      (plug k' t').ids = (plug k t).ids ∧ DelInv k' t' ∧ t'.rootColor ≠ Color.kRed ∧
      (∃ f k1, k' = f :: k1 ∧ f.color = Color.kRed ∧ k'.length = k.length + 1) ∧
      ∃ f k1, k = f :: k1 ∧ f.color = Color.kBlack) := by
  cases k with
  | nil => exact Or.inl ⟨([], t), rfl, delGood_exit h (Or.inr rfl), rfl⟩
  | cons f k1 =>
    by_cases ht : t.rootColor = Color.kRed
    · exact Or.inl ⟨(f :: k1, t), by simp [delBody, ht], delGood_exit h (Or.inl ht), rfl⟩
    obtain ⟨h1, h2, h3⟩ := h
    cases f with
    | L pc p sib =>
      simp only [PathOK] at h3
      obtain ⟨g1, g2, g3, g4, g5⟩ := h3
      cases sib with
      | nil => simp at g4
      | node sc sl y sr =>
      simp only [noRedRed_node, bal_node, bh_node, rootColor_node] at g1 g2 g3 g4
      obtain ⟨g2a, g2b, g2c⟩ := g2
      obtain ⟨g3a, g3b, g3c⟩ := g3
      by_cases hsc : sc = Color.kRed
      · -- Case 1
        subst hsc
        have hpc : pc = Color.kBlack := by
          rcases color_cases pc with e | e
          · exact e
          · simp [e] at g1
        subst hpc
        simp only [reduceCtorEq, if_false, if_true, Nat.add_zero, forall_const] at g2a g4 g5
        right; right; right
        refine ⟨Frame.L Color.kRed p sl :: Frame.L Color.kBlack y sr :: k1, t, by simp [delBody, ht], by simp [ids_plug, before, after],
          ⟨h1, h2, ?_⟩, ht, ⟨_, _, rfl, rfl, by simp⟩, ⟨_, _, rfl, rfl⟩⟩
        simp only [PathOK, reduceCtorEq, if_false, if_true, Nat.add_zero, forall_const,
          false_implies, true_and]
        exact ⟨g2a.1, g2b, g3b, by omega, g2c, g3c, by omega, g5⟩
      have hscb : sc = Color.kBlack := (color_cases sc).resolve_right hsc
      subst hscb
      simp only [reduceCtorEq, if_true, false_implies] at g4
      by_cases hc2 : sl.rootColor ≠ Color.kRed ∧ sr.rootColor ≠ Color.kRed
      · -- Case 2
        have e2 : delBody (Frame.L pc p (Tree.node Color.kBlack sl y sr) :: k1, t) =
            some (LoopStep.next (k1, Tree.node pc t p (Tree.node Color.kRed sl y sr))) := by
          simp [delBody, ht, hc2]
        have hids : (plug k1 (Tree.node pc t p (Tree.node Color.kRed sl y sr))).ids =
            (plug (Frame.L pc p (Tree.node Color.kBlack sl y sr) :: k1) t).ids := by
          simp [ids_plug, before, after]
        have hbal : (Tree.node pc t p (Tree.node Color.kRed sl y sr)).Bal := by
          simp only [bal_node, bh_node, reduceCtorEq, if_false, Nat.add_zero]
          exact ⟨by omega, h2, g3a, g3b, g3c⟩
        have hnrr : ((Tree.node pc t p (Tree.node Color.kRed sl y sr)).setRootColor Color.kBlack).NoRedRed := by
          have := noRedRed_blacken (t := t)
          simp only [setRootColor_node, noRedRed_node, reduceCtorEq, false_implies, true_and,
            forall_const]
          rw [blacken_of_black ht] at h1
          have c1 := (color_cases sl.rootColor).resolve_right hc2.1
          have c2 := (color_cases sr.rootColor).resolve_right hc2.2
          exact ⟨h1, ⟨c1, c2⟩, g2b, g2c⟩
        have hbh : (Tree.node pc t p (Tree.node Color.kRed sl y sr)).bh + 1 = t.bh + 1 + (if pc = Color.kBlack then 1 else 0) := by
          simp only [bh_node]
          omega
        rcases color_cases pc with e | e
        · right; right; left
          refine ⟨k1, _, e2, hids, ⟨hnrr, hbal, ?_⟩, by simp, ⟨_, _, rfl, e⟩⟩
          rw [hbh]
          rw [e] at g5
          simpa [e] using g5
        · right; left
          refine ⟨k1, _, e2, hids, ?_⟩
          have hgood : DelGood k1 (Tree.node pc t p (Tree.node Color.kRed sl y sr)) := by
            apply delGood_exit ⟨hnrr, hbal, ?_⟩ (Or.inl (by simp [e]))
            rw [hbh]
            exact PathOK_black g5
          cases k1 with
          | nil => exact ⟨([], _), rfl, hgood, rfl⟩
          | cons f2 k2 => exact ⟨(f2 :: k2, _), by simp [delBody, e], hgood, rfl⟩
      by_cases hc3 : sr.rootColor = Color.kBlack
      · -- Case 3
        cases sl with
        | nil => exfalso; apply hc2; simp [hc3]
        | node c2 sll z slr =>
        have hc2' : c2 = Color.kRed := by
          rcases color_cases c2 with e | e
          · exfalso; apply hc2; simp [e, hc3]
          · exact e
        subst hc2'
        simp only [noRedRed_node, bal_node, bh_node, rootColor_node, reduceCtorEq, if_false,
          Nat.add_zero, forall_const] at g2b g2c g3a g3b g3c g4
        right; left
        refine ⟨Frame.L pc p (Tree.node Color.kBlack sll z (Tree.node Color.kRed slr y sr)) :: k1, t,
          by simp [delBody, ht, hc3], by simp [ids_plug, before, after],
          (Frame.L Color.kBlack p sll :: Frame.L pc z (Tree.node Color.kBlack slr y sr) :: k1, t), by simp [delBody, ht], ?_, by simp [ids_plug, before, after]⟩
        simp only [DelGood]
        rw [blacken_of_black ht] at h1 ⊢
        refine (plug_rb _ _).mpr ⟨h1, h2, ?_⟩
        rw [(color_cases t.rootColor).resolve_right ht]
        simp only [PathOK, noRedRed_node, bal_node, bh_node, rootColor_node, reduceCtorEq,
          if_false, if_true, Nat.add_zero, forall_const, false_implies, true_and]
        repeat' apply And.intro
        all_goals first | exact g5 | omega | tauto
      · -- Case 4
        cases sr with
        | nil => simp at hc3
        | node c3 srl w srr =>
        simp only [rootColor_node] at hc3
        have hc3' : c3 = Color.kRed := (color_cases c3).resolve_left hc3
        subst hc3'
        simp only [noRedRed_node, bal_node, bh_node, rootColor_node, reduceCtorEq, if_false,
          Nat.add_zero, forall_const] at g2b g2c g3a g3b g3c g4
        left
        refine ⟨(Frame.L Color.kBlack p sl :: Frame.L pc y (Tree.node Color.kBlack srl w srr) :: k1, t),
          by simp [delBody, ht, hc3], ?_, by simp [ids_plug, before, after]⟩
        simp only [DelGood]
        rw [blacken_of_black ht] at h1 ⊢
        refine (plug_rb _ _).mpr ⟨h1, h2, ?_⟩
        rw [(color_cases t.rootColor).resolve_right ht]
        simp only [PathOK, noRedRed_node, bal_node, bh_node, rootColor_node, reduceCtorEq,
          if_false, if_true, Nat.add_zero, forall_const, false_implies, true_and]
        repeat' apply And.intro
        all_goals first | exact g5 | omega | tauto
    | R pc sib p =>
      simp only [PathOK] at h3
      obtain ⟨g1, g2, g3, g4, g5⟩ := h3
      cases sib with
      | nil => simp at g4
      | node sc sl y sr =>
      simp only [noRedRed_node, bal_node, bh_node, rootColor_node] at g1 g2 g3 g4
      obtain ⟨g2a, g2b, g2c⟩ := g2
      obtain ⟨g3a, g3b, g3c⟩ := g3
      by_cases hsc : sc = Color.kRed
      · -- Case 1
        subst hsc
        have hpc : pc = Color.kBlack := by
          rcases color_cases pc with e | e
          · exact e
          · simp [e] at g1
        subst hpc
        simp only [reduceCtorEq, if_false, if_true, Nat.add_zero, forall_const] at g2a g4 g5
        right; right; right
        refine ⟨Frame.R Color.kRed sr p :: Frame.R Color.kBlack sl y :: k1, t, by simp [delBody, ht], by simp [ids_plug, before, after],
          ⟨h1, h2, ?_⟩, ht, ⟨_, _, rfl, rfl, by simp⟩, ⟨_, _, rfl, rfl⟩⟩
        simp only [PathOK, reduceCtorEq, if_false, if_true, Nat.add_zero, forall_const,
          false_implies, true_and]
        exact ⟨g2a.2, g2c, g3c, by omega, g2b, g3b, by omega, g5⟩
      have hscb : sc = Color.kBlack := (color_cases sc).resolve_right hsc
      subst hscb
      simp only [reduceCtorEq, if_true, false_implies] at g4
      by_cases hc2 : sl.rootColor ≠ Color.kRed ∧ sr.rootColor ≠ Color.kRed
      · -- Case 2
        have e2 : delBody (Frame.R pc (Tree.node Color.kBlack sl y sr) p :: k1, t) =
            some (LoopStep.next (k1, Tree.node pc (Tree.node Color.kRed sl y sr) p t)) := by
          simp [delBody, ht, hc2]
        have hids : (plug k1 (Tree.node pc (Tree.node Color.kRed sl y sr) p t)).ids =
            (plug (Frame.R pc (Tree.node Color.kBlack sl y sr) p :: k1) t).ids := by
          simp [ids_plug, before, after]
        have hbal : (Tree.node pc (Tree.node Color.kRed sl y sr) p t).Bal := by
          simp only [bal_node, bh_node, reduceCtorEq, if_false, Nat.add_zero]
          exact ⟨by omega, ⟨g3a, g3b, g3c⟩, h2⟩
        have hnrr : ((Tree.node pc (Tree.node Color.kRed sl y sr) p t).setRootColor Color.kBlack).NoRedRed := by
          have := noRedRed_blacken (t := t)
          simp only [setRootColor_node, noRedRed_node, reduceCtorEq, false_implies, true_and,
            forall_const]
          rw [blacken_of_black ht] at h1
          have c1 := (color_cases sl.rootColor).resolve_right hc2.1
          have c2 := (color_cases sr.rootColor).resolve_right hc2.2
          exact ⟨⟨⟨c1, c2⟩, g2b, g2c⟩, h1⟩
        have hbh : (Tree.node pc (Tree.node Color.kRed sl y sr) p t).bh + 1 = t.bh + 1 + (if pc = Color.kBlack then 1 else 0) := by
          simp only [bh_node]
          simp only [reduceCtorEq, if_false]; omega
        rcases color_cases pc with e | e
        · right; right; left
          refine ⟨k1, _, e2, hids, ⟨hnrr, hbal, ?_⟩, by simp, ⟨_, _, rfl, e⟩⟩
          rw [hbh]
          rw [e] at g5
          simpa [e] using g5
        · right; left
          refine ⟨k1, _, e2, hids, ?_⟩
          have hgood : DelGood k1 (Tree.node pc (Tree.node Color.kRed sl y sr) p t) := by
            apply delGood_exit ⟨hnrr, hbal, ?_⟩ (Or.inl (by simp [e]))
            rw [hbh]
            exact PathOK_black g5
          cases k1 with
          | nil => exact ⟨([], _), rfl, hgood, rfl⟩
          | cons f2 k2 => exact ⟨(f2 :: k2, _), by simp [delBody, e], hgood, rfl⟩
      by_cases hc3 : sl.rootColor = Color.kBlack
      · -- Case 3
        cases sr with
        | nil => exfalso; apply hc2; simp [hc3]
        | node c2 srl z srr =>
        have hc2' : c2 = Color.kRed := by
          rcases color_cases c2 with e | e
          · exfalso; apply hc2; simp [e, hc3]
          · exact e
        subst hc2'
        simp only [noRedRed_node, bal_node, bh_node, rootColor_node, reduceCtorEq, if_false,
          Nat.add_zero, forall_const] at g2b g2c g3a g3b g3c g4
        right; left
        refine ⟨Frame.R pc (Tree.node Color.kBlack (Tree.node Color.kRed sl y srl) z srr) p :: k1, t,
          by simp [delBody, ht, hc3], by simp [ids_plug, before, after],
          (Frame.R Color.kBlack srr p :: Frame.R pc (Tree.node Color.kBlack sl y srl) z :: k1, t), by simp [delBody, ht], ?_, by simp [ids_plug, before, after]⟩
        simp only [DelGood]
        rw [blacken_of_black ht] at h1 ⊢
        refine (plug_rb _ _).mpr ⟨h1, h2, ?_⟩
        rw [(color_cases t.rootColor).resolve_right ht]
        simp only [PathOK, noRedRed_node, bal_node, bh_node, rootColor_node, reduceCtorEq,
          if_false, if_true, Nat.add_zero, forall_const, false_implies, true_and]
        repeat' apply And.intro
        all_goals first | exact g5 | omega | tauto
      · -- Case 4
        cases sl with
        | nil => simp at hc3
        | node c3 sll w slr =>
        simp only [rootColor_node] at hc3
        have hc3' : c3 = Color.kRed := (color_cases c3).resolve_left hc3
        subst hc3'
        simp only [noRedRed_node, bal_node, bh_node, rootColor_node, reduceCtorEq, if_false,
          Nat.add_zero, forall_const] at g2b g2c g3a g3b g3c g4
        left
        refine ⟨(Frame.R Color.kBlack sr p :: Frame.R pc (Tree.node Color.kBlack sll w slr) y :: k1, t),
          by simp [delBody, ht, hc3], ?_, by simp [ids_plug, before, after]⟩
        simp only [DelGood]
        rw [blacken_of_black ht] at h1 ⊢
        refine (plug_rb _ _).mpr ⟨h1, h2, ?_⟩
        rw [(color_cases t.rootColor).resolve_right ht]
        simp only [PathOK, noRedRed_node, bal_node, bh_node, rootColor_node, reduceCtorEq,
          if_false, if_true, Nat.add_zero, forall_const, false_implies, true_and]
        repeat' apply And.intro
        all_goals first | exact g5 | omega | tauto

theorem delLoop_ok : ∀ (fuel : Nat) (k : Path) (t : Tree), DelInv k t → k.length + 3 ≤ fuel →
    ∃ st, iterate delBody fuel (k, t) = some st ∧ DelGood st.1 st.2 ∧
      (plug st.1 st.2).ids = (plug k t).ids := by
  intro fuel
  induction fuel with
  | zero => intro k t _ h; omega
  | succ fuel ih =>
    intro k t hinv hfuel
    obtain ⟨fuel', rfl⟩ : ∃ f', fuel = f' + 1 := ⟨fuel - 1, by omega⟩
    rcases delBody_inv k t hinv with ⟨st, e, g, i⟩ | ⟨k', t', e, i, st, e', g, i'⟩ |
        ⟨k', t', e, i, hinv', hlen, _⟩ | ⟨k', t', e, i, hinv', ht', ⟨f, k1, rfl, hf, hlen⟩, _⟩
    · exact ⟨st, by simp [iterate, e], g, i⟩
    · exact ⟨st, by simp [iterate, e, e'], g, by rw [i', i]⟩
    · obtain ⟨st, e', g, i'⟩ := ih k' t' hinv' (by omega)
      exact ⟨st, by rw [iterate, e]; exact e', g, by rw [i', i]⟩
    · rcases delBody_inv _ t' hinv' with ⟨st, e', g, i'⟩ | ⟨k2, t2, e', i', st, e2, g, i2⟩ |
        ⟨_, _, _, _, _, _, f', k1', hk, hf'⟩ | ⟨_, _, _, _, _, _, _, f', k1', hk, hf'⟩
      · exact ⟨st, by simp [iterate, e, e'], g, by rw [i', i]⟩
      · obtain ⟨fuel2, rfl⟩ : ∃ f', fuel' = f' + 1 := ⟨fuel' - 1, by
          simp only [List.length_cons] at hlen hfuel; omega⟩
        exact ⟨st, by simp [iterate, e, e', e2], g, by rw [i2, i', i]⟩
      · simp only [List.cons.injEq] at hk
        rw [hk.1, hf'] at hf
        simp at hf
      · simp only [List.cons.injEq] at hk
        rw [hk.1, hf'] at hf
        simp at hf

theorem delFixup_ok (fuel : Nat) (k : Path) (t : Tree) (h : DelInv k t)
    (hfuel : k.length + 3 ≤ fuel) :
    ∃ t', delFixup fuel k t = some t' ∧ t'.IsRB ∧ t'.ids = (plug k t).ids := by
  obtain ⟨st, e, g, i⟩ := delLoop_ok fuel k t h hfuel
  refine ⟨_, by simp [delFixup, e], (isRB_iff _).mpr g, ?_⟩
  rw [← i, ids_plug, ids_plug, setRootColor_ids]

theorem PathOK_congr_append (kr K K' : Path) (h : ∀ c m, PathOK K c m ↔ PathOK K' c m)
    (c : Color) (m : Nat) : PathOK (kr ++ K) c m ↔ PathOK (kr ++ K') c m := by
  induction kr generalizing c m with
  | nil => exact h c m
  | cons f kr ih =>
    cases f with
    | L pc p s =>
      show (_ ∧ _ ∧ _ ∧ _ ∧ PathOK (kr ++ K) _ _) ↔ (_ ∧ _ ∧ _ ∧ _ ∧ PathOK (kr ++ K') _ _)
      rw [ih]
    | R pc s p =>
      show (_ ∧ _ ∧ _ ∧ _ ∧ PathOK (kr ++ K) _ _) ↔ (_ ∧ _ ∧ _ ∧ _ ∧ PathOK (kr ++ K') _ _)
      rw [ih]

/-- Removing a node that has no left child. -/
theorem delRebalance_ok_left (fuel : Nat) (K : Path) (c0 : Color) (a : Nat) (t0 : Tree)
    (h : (plug K (Tree.node c0 Tree.nil a t0)).IsRB) (hfuel : K.length + 3 ≤ fuel) :
    ∃ t', delRebalance fuel c0 K t0 = some t' ∧ t'.IsRB ∧ t'.ids = (plug K t0).ids := by
  obtain ⟨h1, h2, h3⟩ := (plug_isRB _ _).mp h
  simp only [noRedRed_node, bal_node, bh_node, rootColor_node, bh_nil, rootColor_nil,
    true_and] at h1 h2 h3
  rcases color_cases c0 with e | e
  · subst e
    simp only [if_true] at h3
    simpa [delRebalance] using delFixup_ok fuel K t0
      ⟨noRedRed_blacken h1.2.2, h2.2.2, by rw [← h2.1]; exact PathOK_black h3⟩ hfuel
  · subst e
    simp only [reduceCtorEq, if_false, Nat.add_zero, forall_const] at h1 h3
    refine ⟨_, by simp [delRebalance], (plug_isRB _ _).mpr ⟨h1.2.2, h2.2.2, ?_⟩, rfl⟩
    rw [h1.1, ← h2.1]
    exact PathOK_black h3

/-- Removing a node that has no right child. -/
theorem delRebalance_ok_right (fuel : Nat) (K : Path) (c0 : Color) (a : Nat) (t0 : Tree)
    (h : (plug K (Tree.node c0 t0 a Tree.nil)).IsRB) (hfuel : K.length + 3 ≤ fuel) :
    ∃ t', delRebalance fuel c0 K t0 = some t' ∧ t'.IsRB ∧ t'.ids = (plug K t0).ids := by
  obtain ⟨h1, h2, h3⟩ := (plug_isRB _ _).mp h
  simp only [noRedRed_node, bal_node, bh_node, rootColor_node, bh_nil, rootColor_nil,
    and_true] at h1 h2 h3
  rcases color_cases c0 with e | e
  · subst e
    simp only [if_true] at h3
    simpa [delRebalance] using delFixup_ok fuel K t0
      ⟨noRedRed_blacken h1.2.1, h2.2.1, PathOK_black h3⟩ hfuel
  · subst e
    simp only [reduceCtorEq, if_false, Nat.add_zero, forall_const] at h1 h3
    refine ⟨_, by simp [delRebalance], (plug_isRB _ _).mpr ⟨h1.2.1, h2.2.1, ?_⟩, rfl⟩
    rw [h1.1]
    exact PathOK_black h3

theorem removeAt_ok (fuel : Nat) (k : Path) (c : Color) (l r : Tree) (n : Nat)
    (h : (plug k (Tree.node c l n r)).IsRB)
    (hfuel : (plug k (Tree.node c l n r)).height + 3 ≤ fuel) :
    ∃ t', removeAt fuel k c l r = some t' ∧ t'.IsRB ∧
      t'.ids = before k ++ (l.ids ++ r.ids ++ after k) := by
  have hh := height_plug k (Tree.node c l n r)
  cases l with
  | nil =>
    obtain ⟨t', e, g, i⟩ := delRebalance_ok_left fuel k c n r h (by omega)
    exact ⟨t', by simpa [removeAt] using e, g, by simp [i, ids_plug]⟩
  | node cl ll l0 lr =>
    cases r with
    | nil =>
      obtain ⟨t', e, g, i⟩ := delRebalance_ok_right fuel k c n _ h (by omega)
      exact ⟨t', by simpa [removeAt] using e, g, by simp [i, ids_plug]⟩
    | node cr rl r0 rr =>
      obtain ⟨⟨kr0, cy, y, yr⟩, hlm⟩ := leftmost_some cr rl r0 rr []
      obtain ⟨kr, e0, hplug, hbk, hlen⟩ := leftmost_spec _ _ _ _ _ _ hlm
      simp only [List.append_nil] at e0
      subst kr
      simp only [removeAt, hlm]
      have h' : (plug (kr0 ++ Frame.R c (Tree.node cl ll l0 lr) y :: k)
          (Tree.node cy Tree.nil y yr)).IsRB := by
        have : (plug (kr0 ++ Frame.R c (Tree.node cl ll l0 lr) n :: k)
            (Tree.node cy Tree.nil y yr)).IsRB := by
          rw [plug_append, hplug]; exact h
        rw [plug_isRB] at this ⊢
        refine ⟨this.1, this.2.1, ?_⟩
        exact (PathOK_congr_append kr0 (Frame.R c (Tree.node cl ll l0 lr) n :: k)
          (Frame.R c (Tree.node cl ll l0 lr) y :: k) (fun c m => Iff.rfl) _ _).mp this.2.2
      have hK : (kr0 ++ Frame.R c (Tree.node cl ll l0 lr) y :: k).length + 3 ≤ fuel := by
        simp only [List.length_append, List.length_cons]
        simp only [Tree.height] at hh hlen
        omega
      obtain ⟨t', e, g, i⟩ := delRebalance_ok_left fuel _ cy y yr h' hK
      refine ⟨t', e, g, ?_⟩
      rw [i, ← hplug]
      simp [ids_plug, before_append, after_append, before, after, hbk]

theorem exampleMem_owns : Owns exampleMem exampleTree := by
  refine ⟨rfl, ?_, by decide⟩
  simp [exampleTree, exampleMem, Tree.Rep]

theorem exampleTree_isRB : exampleTree.IsRB := by
  rw [isRB_iff]
  simp [exampleTree]

theorem height_sub_le (k : Path) (t : Tree) : t.height ≤ (plug k t).height := by
  have := height_plug k t
  omega

theorem remove_ok (s : Mem) (t : Tree) (n : Nat) (fuel : Nat) (hown : Owns s t)
    (hrb : t.IsRB) (hn : n ∈ t.ids) (hfuel : t.height + 3 ≤ fuel) :
    ∃ s' t', RemoveFromRbTree fuel (some n) s = some s' ∧ Owns s' t' ∧ t'.IsRB ∧
      ∃ pre post, t.ids = pre ++ n :: post ∧ t'.ids = pre ++ post := by
  obtain ⟨k, c, l, r, rfl⟩ := mem_ids_plug hn
  obtain ⟨t', e, g, i⟩ := removeAt_ok fuel k c l r n hrb hfuel
  have hr : r.height ≤ fuel := by
    have h1 := height_sub_le k (Tree.node c l n r)
    simp only [Tree.height] at h1 hfuel
    omega
  obtain ⟨s', e', o⟩ := RemoveFromRbTree_refines hown hr e
  exact ⟨s', t', e', o, g, before k ++ l.ids, r.ids ++ after k, by simp [ids_plug],
    by simp [i]⟩

theorem erase_mid {pre post : List Nat} {n : Nat} (h : (pre ++ n :: post).Nodup) :
    (pre ++ n :: post).erase n = pre ++ post := by
  have hn : n ∉ pre := by
    intro hm
    have c1 := List.nodup_iff_count_le_one.mp h n
    have c2 := List.count_pos_iff.mpr hm
    simp only [List.count_append, List.count_cons, beq_self_eq_true, if_true] at c1
    omega
  rw [List.erase_append_right _ hn, List.erase_cons_head]

theorem not_mem_mid {pre post : List Nat} {n : Nat} (h : (pre ++ n :: post).Nodup) :
    n ∉ pre ++ post := by
  intro hm
  have c1 := List.nodup_iff_count_le_one.mp h n
  have c2 := List.count_pos_iff.mpr hm
  simp only [List.count_append, List.count_cons, beq_self_eq_true, if_true] at c1 c2
  omega

/-- C2: on a well-formed tree that satisfies the red-black invariants, removing a node
linked in it returns, given enough fuel, and leaves a well-formed tree that is empty or
again satisfies the three invariants (the empty tree satisfies them too). -/
theorem C2_remove_preserves_invariants (s : Mem) (t : Tree) (n : Nat) (fuel : Nat)
    (hown : Owns s t) (hrb : t.IsRB) (hn : n ∈ t.ids) (hfuel : t.height + 3 ≤ fuel) :
    ∃ s' t', RemoveFromRbTree fuel (some n) s = some s' ∧ Owns s' t' ∧
      (IsEmptyRbRoot s' = true ∨ t'.IsRB) := by
  obtain ⟨s', t', e, o, g, _⟩ := remove_ok s t n fuel hown hrb hn hfuel
  exact ⟨s', t', e, o, Or.inr g⟩

theorem C2_remove_preserves_invariants_witness :
    Owns exampleMem exampleTree ∧ exampleTree.IsRB ∧ 1 ∈ exampleTree.ids ∧
      exampleTree.height + 3 ≤ 5 ∧
      ∃ s' t', RemoveFromRbTree 5 (some 1) exampleMem = some s' ∧ Owns s' t' ∧
        (IsEmptyRbRoot s' = true ∨ t'.IsRB) :=
  ⟨exampleMem_owns, exampleTree_isRB, by decide, by decide,
    C2_remove_preserves_invariants exampleMem exampleTree 1 5 exampleMem_owns exampleTree_isRB
      (by decide) (by decide)⟩

/-- C4: removing a node `n` linked in a valid red-black tree leaves the in-order sequence of
nodes with `n` deleted: `n` is no longer in the tree, every other node keeps its place, and
a sorted key sequence stays sorted. -/
theorem C4_remove_inorder (value : Nat → Int) (s : Mem) (t : Tree) (n : Nat) (fuel : Nat)
    (hown : Owns s t) (hrb : t.IsRB) (hn : n ∈ t.ids) (hfuel : t.height + 3 ≤ fuel) :
    ∃ s' t', RemoveFromRbTree fuel (some n) s = some s' ∧ Owns s' t' ∧
      t'.ids = t.ids.erase n ∧ n ∉ t'.ids ∧
      ((t.ids.map value).Sorted (· ≤ ·) → (t'.ids.map value).Sorted (· ≤ ·)) := by
  obtain ⟨s', t', e, o, _, pre, post, i1, i2⟩ := remove_ok s t n fuel hown hrb hn hfuel
  have hnd : (pre ++ n :: post).Nodup := i1 ▸ hown.2.2
  refine ⟨s', t', e, o, ?_, ?_, ?_⟩
  · rw [i1, i2, erase_mid hnd]
  · rw [i2]; exact not_mem_mid hnd
  · intro hs
    rw [i1] at hs
    rw [i2]
    exact List.Pairwise.sublist (List.Sublist.map value
      ((List.Sublist.refl pre).append (List.sublist_cons_self n post))) hs

theorem C4_remove_inorder_witness :
    Owns exampleMem exampleTree ∧ exampleTree.IsRB ∧ 1 ∈ exampleTree.ids ∧
      exampleTree.height + 3 ≤ 5 ∧
      ∃ s' t', RemoveFromRbTree 5 (some 1) exampleMem = some s' ∧ Owns s' t' ∧
        t'.ids = exampleTree.ids.erase 1 ∧ 1 ∉ t'.ids ∧
        ((exampleTree.ids.map Int.ofNat).Sorted (· ≤ ·) →
          (t'.ids.map Int.ofNat).Sorted (· ≤ ·)) :=
  ⟨exampleMem_owns, exampleTree_isRB, by decide, by decide,
    C4_remove_inorder Int.ofNat exampleMem exampleTree 1 5 exampleMem_owns
      exampleTree_isRB (by decide) (by decide)⟩

/-- C7: on a well-formed tree, `RotateLeft(x)` for a node `x` whose right child is present,
and `RotateRight(x)` for a node `x` whose left child is present, return and leave the
in-order node sequence of the whole tree unchanged; the subtree that was rooted at `x` is
afterwards rooted at the former child of `x` and has the same in-order sequence. -/
theorem C7_rotation_preserves_inorder (s : Mem) (t : Tree) (x : Nat)
    (hown : Owns s t) (hx : x ∈ t.ids) :
    ((s.node x).right ≠ none →
      ∃ s' t', RotateLeft (some x) s = some s' ∧ Owns s' t' ∧ t'.ids = t.ids ∧
        ∃ k sub sub', t = plug k sub ∧ t' = plug k sub' ∧ sub.ptr = some x ∧
          sub'.ptr = (s.node x).right ∧ sub'.ids = sub.ids) ∧
    ((s.node x).left ≠ none →
      ∃ s' t', RotateRight (some x) s = some s' ∧ Owns s' t' ∧ t'.ids = t.ids ∧
        ∃ k sub sub', t = plug k sub ∧ t' = plug k sub' ∧ sub.ptr = some x ∧
          sub'.ptr = (s.node x).left ∧ sub'.ids = sub.ids) := by
  obtain ⟨k, c, l, r, rfl⟩ := mem_ids_plug hx
  have hN := read_focus hown
  constructor
  · intro hr
    cases r with
    | nil => simp [hN] at hr
    | node cy b y cc =>
      obtain ⟨s', e, o⟩ := RotateLeft_plug hown
      exact ⟨s', _, e, o, by simp [ids_plug], k, _, _, rfl, rfl, rfl, by simp [hN], by simp⟩
  · intro hl
    cases l with
    | nil => simp [hN] at hl
    | node cy a y b =>
      obtain ⟨s', e, o⟩ := RotateRight_plug hown
      exact ⟨s', _, e, o, by simp [ids_plug], k, _, _, rfl, rfl, rfl, by simp [hN], by simp⟩

theorem C7_rotation_preserves_inorder_witness :
    Owns exampleMem exampleTree ∧ 1 ∈ exampleTree.ids ∧
    (((exampleMem.node 1).right ≠ none →
      ∃ s' t', RotateLeft (some 1) exampleMem = some s' ∧ Owns s' t' ∧
        t'.ids = exampleTree.ids ∧
        ∃ k sub sub', exampleTree = plug k sub ∧ t' = plug k sub' ∧ sub.ptr = some 1 ∧
          sub'.ptr = (exampleMem.node 1).right ∧ sub'.ids = sub.ids) ∧
    ((exampleMem.node 1).left ≠ none →
      ∃ s' t', RotateRight (some 1) exampleMem = some s' ∧ Owns s' t' ∧
        t'.ids = exampleTree.ids ∧
        ∃ k sub sub', exampleTree = plug k sub ∧ t' = plug k sub' ∧ sub.ptr = some 1 ∧
          sub'.ptr = (exampleMem.node 1).left ∧ sub'.ids = sub.ids)) :=
  ⟨exampleMem_owns, by decide,
    C7_rotation_preserves_inorder exampleMem exampleTree 1 exampleMem_owns (by decide)⟩

theorem C1_insert_preserves_invariants_witness :
    Owns exampleMem exampleTree ∧ exampleTree.IsRB ∧
      EmptySlot exampleMem exampleTree (some 2) (Link.right 2) ∧ 3 ∉ exampleTree.ids ∧
      exampleTree.height < 3 ∧
      ∃ s' t', InsertIntoRbTree 3 (some 3) (some 2) (Link.right 2) exampleMem = some s' ∧
        Owns s' t' ∧ t'.IsRB :=
  have hslot : EmptySlot exampleMem exampleTree (some 2) (Link.right 2) :=
    Or.inr ⟨2, by decide, rfl, Or.inr ⟨rfl, rfl⟩⟩
  ⟨exampleMem_owns, exampleTree_isRB, hslot, by decide, by decide,
    C1_insert_preserves_invariants exampleMem exampleTree 3 (some 2) (Link.right 2) 3
      exampleMem_owns exampleTree_isRB hslot (by decide) (by decide)⟩

theorem plug_descend (value : Nat → Int) (v : Int) (t : Tree) (k : Path) :
    plug (descend value v t k) Tree.nil = plug k t := by
  induction t generalizing k with
  | nil => rfl
  | node c l a r ihl ihr =>
    simp only [descend]
    split
    · rw [ihl]; rfl
    · rw [ihr]; rfl

theorem load_linkOf {s : Mem} {k : Path} {t : Tree} (h : Owns s (plug k t)) :
    s.load (linkOf k) = t.ptr := by
  obtain ⟨h1, h2, _, h4⟩ := (owns_plug _ _ _).mp h
  exact (store_ctx none h1 h2 (nodup_ctx h4)).2.2.1

theorem descend_loop {s : Mem} (value : Nat → Int) (v : Int) :
    ∀ (t : Tree) (k : Path) (fuel : Nat), Owns s (plug k t) → t.height < fuel →
      iterate (descendBody value v s) fuel (cpar k, linkOf k) =
        some (cpar (descend value v t k), linkOf (descend value v t k)) := by
  intro t
  induction t with
  | nil =>
    intro k fuel h hf
    obtain ⟨fuel, rfl⟩ : ∃ f, fuel = f + 1 := ⟨fuel - 1, by omega⟩
    have hl := load_linkOf h
    simp [iterate, descendBody, hl, descend]
  | node c l a r ihl ihr =>
    intro k fuel h hf
    obtain ⟨fuel, rfl⟩ : ∃ f, fuel = f + 1 := ⟨fuel - 1, by omega⟩
    have hl := load_linkOf h
    simp only [Tree.height] at hf
    simp only [iterate, descendBody, hl, ptr_node, descend]
    by_cases hv : value a > v
    · simp only [hv, if_true]
      exact ihl (Frame.L c a r :: k) fuel h (by omega)
    · simp only [hv, if_false]
      exact ihr (Frame.R c l a :: k) fuel h (by omega)

theorem descend_length (value : Nat → Int) (v : Int) (t : Tree) (k : Path) :
    (descend value v t k).length ≤ k.length + t.height := by
  induction t generalizing k with
  | nil => simp [descend]
  | node c l a r ihl ihr =>
    simp only [descend, Tree.height]
    split
    · have := ihl (Frame.L c a r :: k); simp only [List.length_cons] at this; omega
    · have := ihr (Frame.R c l a :: k); simp only [List.length_cons] at this; omega

theorem myInsert_refines {s : Mem} {value : Nat → Int} {t t' : Tree} {n fuel : Nat}
    (h : Owns s t) (hn : n ∉ t.ids) (hfuel : t.height < fuel)
    (hf : myInsert value fuel n t = some t') :
    ∃ s', MyInsertIntoRbTree value fuel n s = some s' ∧ Owns s' t' := by
  have hd := descend_loop (s := s) value (value n) t [] fuel h hfuel
  have hp := plug_descend value (value n) t []
  rw [show plug [] t = t from rfl] at hp
  rw [← hp] at h hn
  obtain ⟨s', e, o⟩ := InsertIntoRbTree_refines h hn hf
  refine ⟨s', ?_, o⟩
  simp only [linkOf, cpar_nil] at hd
  simp only [MyInsertIntoRbTree, hd]
  exact e

theorem descend_order (value : Nat → Int) (v : Int) :
    ∀ (t : Tree) (k : Path), ((plug k t).ids.map value).Sorted (· ≤ ·) →
      (∀ a ∈ before k, value a ≤ v) → (∀ a ∈ after k, v < value a) →
      (∀ a ∈ before (descend value v t k), value a ≤ v) ∧
        (∀ a ∈ after (descend value v t k), v < value a) := by
  intro t
  induction t with
  | nil => intro k _ h1 h2; exact ⟨h1, h2⟩
  | node c l a r ihl ihr =>
    intro k hs h1 h2
    simp only [descend]
    have hs' := hs
    simp only [ids_plug, ids_node, List.map_append, List.map_cons, List.Sorted,
      List.pairwise_append, List.pairwise_cons, List.mem_append, List.mem_cons,
      List.mem_map, forall_exists_index, and_imp, forall_apply_eq_imp_iff₂] at hs'
    by_cases hv : value a > v
    · simp only [hv, if_true]
      apply ihl (Frame.L c a r :: k) hs
      · simpa [before] using h1
      · intro x hx
        simp only [after, List.cons_append, List.mem_cons, List.mem_append] at hx
        rcases hx with rfl | hx | hx
        · exact hv
        · have := hs'.2.1.1.2.1.1 x hx
          omega
        · exact h2 x hx
    · simp only [hv, if_false]
      apply ihr (Frame.R c l a :: k) hs
      · intro x hx
        simp only [before, List.mem_append, List.mem_singleton] at hx
        rcases hx with hx | hx | rfl
        · exact h1 x hx
        · have := hs'.2.1.1.2.2 x hx (value a) (Or.inl rfl)
          omega
        · omega
      · simpa [after] using h2

theorem myInsert_ok (value : Nat → Int) (s : Mem) (t : Tree) (n : Nat) (fuel : Nat)
    (hown : Owns s t) (hrb : t.IsRB) (hs : (t.ids.map value).Sorted (· ≤ ·))
    (hn : n ∉ t.ids) (hfuel : t.height < fuel) :
    ∃ s' t', MyInsertIntoRbTree value fuel n s = some s' ∧ Owns s' t' ∧ t'.IsRB ∧
      ∃ pre post, t.ids = pre ++ post ∧ t'.ids = pre ++ n :: post ∧
        (∀ a ∈ pre, value a ≤ value n) ∧ (∀ a ∈ post, value n < value a) := by
  have hp := plug_descend value (value n) t []
  rw [show plug [] t = t from rfl] at hp
  have hlen := descend_length value (value n) t []
  simp only [List.length_nil, Nat.zero_add] at hlen
  obtain ⟨t', e, g, i⟩ := insertAt_ok (descend value (value n) t []) n fuel
    (by rw [hp]; exact hrb) (by omega)
  obtain ⟨s', e', o⟩ := myInsert_refines hown hn hfuel e
  obtain ⟨o1, o2⟩ := descend_order value (value n) t [] hs (by simp [before]) (by simp [after])
  refine ⟨s', t', e', o, g, _, _, ?_, i, o1, o2⟩
  have := congrArg Tree.ids hp
  rw [ids_plug] at this
  simpa using this.symm

theorem sorted_insert_mid {pre post : List Int} {v : Int}
    (hs : (pre ++ post).Sorted (· ≤ ·)) (h1 : ∀ x ∈ pre, x ≤ v) (h2 : ∀ x ∈ post, v < x) :
    (pre ++ v :: post).Sorted (· ≤ ·) := by
  simp only [List.Sorted, List.pairwise_append, List.pairwise_cons, List.mem_cons] at hs ⊢
  refine ⟨hs.1, ⟨fun x hx => le_of_lt (h2 x hx), hs.2.1⟩, ?_⟩
  rintro a ha b (rfl | hb)
  · exact h1 a ha
  · exact hs.2.2 a ha b hb

/-- C3: on a valid red-black tree whose in-order key sequence is sorted,
`MyInsertIntoRbTree` returns, given enough fuel, and the new in-order key sequence is the
old one with the new key `v` put after every key `≤ v` and before every key `> v`; it is
sorted and a permutation of the old keys plus `v`. -/
theorem C3_myInsert_inorder (value : Nat → Int) (s : Mem) (t : Tree) (n : Nat) (fuel : Nat)
    (hown : Owns s t) (hrb : t.IsRB) (hs : (t.ids.map value).Sorted (· ≤ ·))
    (hn : n ∉ t.ids) (hfuel : t.height < fuel) :
    ∃ s' t' pre post, MyInsertIntoRbTree value fuel n s = some s' ∧ Owns s' t' ∧
      t.ids.map value = pre ++ post ∧ t'.ids.map value = pre ++ value n :: post ∧
      (∀ x ∈ pre, x ≤ value n) ∧ (∀ x ∈ post, value n < x) ∧
      (t'.ids.map value).Sorted (· ≤ ·) ∧
      (t'.ids.map value).Perm (value n :: t.ids.map value) := by
  obtain ⟨s', t', e, o, _, pre, post, i1, i2, b1, b2⟩ :=
    myInsert_ok value s t n fuel hown hrb hs hn hfuel
  have k1 : ∀ x ∈ pre.map value, x ≤ value n := by
    intro x hx
    obtain ⟨a, ha, rfl⟩ := List.mem_map.mp hx
    exact b1 a ha
  have k2 : ∀ x ∈ post.map value, value n < x := by
    intro x hx
    obtain ⟨a, ha, rfl⟩ := List.mem_map.mp hx
    exact b2 a ha
  refine ⟨s', t', pre.map value, post.map value, e, o, by simp [i1], by simp [i2], k1, k2,
    ?_, ?_⟩
  · rw [i2, List.map_append, List.map_cons]
    apply sorted_insert_mid _ k1 k2
    rw [← List.map_append, ← i1]
    exact hs
  · rw [i1, i2, List.map_append, List.map_cons, List.map_append]
    exact List.perm_middle

theorem C3_myInsert_inorder_witness :
    Owns exampleMem exampleTree ∧ exampleTree.IsRB ∧
      (exampleTree.ids.map Int.ofNat).Sorted (· ≤ ·) ∧ 3 ∉ exampleTree.ids ∧
      exampleTree.height < 3 ∧
      ∃ s' t' pre post, MyInsertIntoRbTree Int.ofNat 3 3 exampleMem = some s' ∧ Owns s' t' ∧
        exampleTree.ids.map Int.ofNat = pre ++ post ∧
        t'.ids.map Int.ofNat = pre ++ Int.ofNat 3 :: post ∧
        (∀ x ∈ pre, x ≤ Int.ofNat 3) ∧ (∀ x ∈ post, Int.ofNat 3 < x) ∧
        (t'.ids.map Int.ofNat).Sorted (· ≤ ·) ∧
        (t'.ids.map Int.ofNat).Perm (Int.ofNat 3 :: exampleTree.ids.map Int.ofNat) :=
  ⟨exampleMem_owns, exampleTree_isRB, by decide, by decide, by decide,
    C3_myInsert_inorder Int.ofNat exampleMem exampleTree 3 3 exampleMem_owns exampleTree_isRB
      (by decide) (by decide) (by decide)⟩

theorem owns_empty {s : Mem} (h : s.rb_node = none) : Owns s Tree.nil :=
  ⟨h, trivial, List.nodup_nil⟩

/-- C9 (Scenario A): inserting the keys 10, 20, 30 in that order into an empty tree with
`MyInsertIntoRbTree` yields root 20 (Black, no parent) with Red leaf children 10 and 30
whose parent is 20; each path from the root to an absent child has exactly one Black
node. -/
theorem C9_scenario_insert_10_20_30 (value : Nat → Int) (s0 : Mem) (a b c : Nat)
    (fuel : Nat) (h0 : s0.rb_node = none) (hab : a ≠ b) (hac : a ≠ c) (hbc : b ≠ c)
    (va : value a = 10) (vb : value b = 20) (vc : value c = 30) (hfuel : 3 ≤ fuel) :
    ∃ s1 s2 s3, MyInsertIntoRbTree value fuel a s0 = some s1 ∧
      MyInsertIntoRbTree value fuel b s1 = some s2 ∧
      MyInsertIntoRbTree value fuel c s2 = some s3 ∧
      s3.rb_node = some b ∧
      s3.node b = ⟨Color.kBlack, none, some a, some c⟩ ∧
      s3.node a = ⟨Color.kRed, some b, none, none⟩ ∧
      s3.node c = ⟨Color.kRed, some b, none, none⟩ ∧
      Owns s3 (Tree.node Color.kBlack (Tree.node Color.kRed Tree.nil a Tree.nil) b
        (Tree.node Color.kRed Tree.nil c Tree.nil)) ∧
      (Tree.node Color.kBlack (Tree.node Color.kRed Tree.nil a Tree.nil) b
        (Tree.node Color.kRed Tree.nil c Tree.nil)).pathBlacks = [1, 1, 1, 1] := by
  obtain ⟨f, rfl⟩ : ∃ f, fuel = f + 3 := ⟨fuel - 3, by omega⟩
  obtain ⟨s1, e1, o1⟩ := @myInsert_refines _ value _ (Tree.node Color.kBlack Tree.nil a Tree.nil) a (f + 3) (owns_empty h0) (by simp)
    (by simp [Tree.height])
    (by simp [myInsert, descend, insertAt, insFixup, iterate, insBody, plug])
  obtain ⟨s2, e2, o2⟩ := @myInsert_refines _ value _ (Tree.node Color.kBlack Tree.nil a (Tree.node Color.kRed Tree.nil b Tree.nil)) b (f + 3) o1
    (by simp [Ne.symm hab]) (by simp [Tree.height])
    (by simp [myInsert, descend, insertAt, insFixup, iterate, insBody, plug, va, vb,
      Frame.color])
  obtain ⟨s3, e3, o3⟩ := @myInsert_refines _ value _ (Tree.node Color.kBlack (Tree.node Color.kRed Tree.nil a Tree.nil) b (Tree.node Color.kRed Tree.nil c Tree.nil)) c (f + 3) o2
    (by simp [Ne.symm hac, Ne.symm hbc]) (by simp [Tree.height])
    (by simp [myInsert, descend, insertAt, insFixup, iterate, insBody, plug, va, vb, vc,
      Frame.color])
  refine ⟨s1, s2, s3, e1, e2, e3, o3.1, ?_, ?_, ?_, o3, by simp [Tree.pathBlacks]⟩
  · exact read_focus (k := []) o3
  · exact read_focus (k := [Frame.L Color.kBlack b _]) o3
  · exact read_focus (k := [Frame.R Color.kBlack _ b]) o3

theorem C9_scenario_insert_10_20_30_witness :
    emptyMem.rb_node = none ∧ (0 : Nat) ≠ 1 ∧ (0 : Nat) ≠ 2 ∧ (1 : Nat) ≠ 2 ∧
    10 * (Int.ofNat 0 + 1) = 10 ∧ 10 * (Int.ofNat 1 + 1) = 20 ∧
    10 * (Int.ofNat 2 + 1) = 30 ∧ 3 ≤ 3 ∧
    ∃ s1 s2 s3,
      MyInsertIntoRbTree (fun x => 10 * (Int.ofNat x + 1)) 3 0 emptyMem = some s1 ∧
      MyInsertIntoRbTree (fun x => 10 * (Int.ofNat x + 1)) 3 1 s1 = some s2 ∧
      MyInsertIntoRbTree (fun x => 10 * (Int.ofNat x + 1)) 3 2 s2 = some s3 ∧
      s3.rb_node = some 1 ∧
      s3.node 1 = ⟨Color.kBlack, none, some 0, some 2⟩ ∧
      s3.node 0 = ⟨Color.kRed, some 1, none, none⟩ ∧
      s3.node 2 = ⟨Color.kRed, some 1, none, none⟩ ∧
      Owns s3 (Tree.node Color.kBlack (Tree.node Color.kRed Tree.nil 0 Tree.nil) 1
        (Tree.node Color.kRed Tree.nil 2 Tree.nil)) ∧
      (Tree.node Color.kBlack (Tree.node Color.kRed Tree.nil 0 Tree.nil) 1
        (Tree.node Color.kRed Tree.nil 2 Tree.nil)).pathBlacks = [1, 1, 1, 1] :=
  ⟨rfl, by decide, by decide, by decide, by decide, by decide, by decide, by decide,
    C9_scenario_insert_10_20_30 (fun x => 10 * (Int.ofNat x + 1)) emptyMem 0 1 2 3 rfl
      (by decide) (by decide) (by decide) (by decide) (by decide) (by decide) (by decide)⟩

theorem iterate_mono {σ : Type} {body : σ → Option (LoopStep σ)} :
    ∀ (f f' : Nat) (x y : σ), iterate body f x = some y → f ≤ f' →
      iterate body f' x = some y := by
  intro f
  induction f with
  | zero => intro f' x y h; simp [iterate] at h
  | succ f ih =>
    intro f' x y h hle
    obtain ⟨g, rfl⟩ : ∃ g, f' = g + 1 := ⟨f' - 1, by omega⟩
    simp only [iterate] at h ⊢
    cases hb : body x with
    | none => simp [hb] at h
    | some st =>
      cases st with
      | next x1 =>
        simp only [hb] at h ⊢
        exact ih g x1 y h (by omega)
      | done x1 =>
        simp only [hb] at h ⊢
        exact h

theorem FixupAfterInsert_mono {f f' : Nat} {node : Option Nat} {s s' : Mem}
    (h : FixupAfterInsert f node s = some s') (hle : f ≤ f') :
    FixupAfterInsert f' node s = some s' := by
  cases node with
  | none => simp [FixupAfterInsert] at h
  | some n =>
    simp only [FixupAfterInsert] at h ⊢
    cases hi : iterate FixupAfterInsertBody f (n, s) with
    | none => simp [hi] at h
    | some st =>
      rw [iterate_mono f f' _ _ hi hle]
      simpa [hi] using h

theorem InsertIntoRbTree_mono {f f' : Nat} {node parent : Option Nat} {link : Link}
    {s s' : Mem} (h : InsertIntoRbTree f node parent link s = some s') (hle : f ≤ f') :
    InsertIntoRbTree f' node parent link s = some s' := by
  cases node with
  | none => simp [InsertIntoRbTree] at h
  | some n =>
    simp only [InsertIntoRbTree] at h ⊢
    split at h
    · simp at h
    · rename_i h1
      split at h
      · simp at h
      · rename_i h2
        simp only [h1, h2, if_false]
        exact FixupAfterInsert_mono h hle

theorem FixupAfterRemove_mono {f f' : Nat} {node np : Option Nat} {s s' : Mem}
    (h : FixupAfterRemove f node np s = some s') (hle : f ≤ f') :
    FixupAfterRemove f' node np s = some s' := by
  simp only [FixupAfterRemove] at h ⊢
  cases hi : iterate FixupAfterRemoveBody f (node, np, s) with
  | none => simp [hi] at h
  | some st =>
    rw [iterate_mono f f' _ _ hi hle]
    simpa [hi] using h

theorem rebalanceAfterRemove_mono {f f' : Nat} {c : Color} {node np : Option Nat}
    {s s' : Mem} (h : rebalanceAfterRemove f c node np s = some s') (hle : f ≤ f') :
    rebalanceAfterRemove f' c node np s = some s' := by
  simp only [rebalanceAfterRemove] at h ⊢
  split
  · rename_i hc
    simp only [hc, if_true] at h
    exact FixupAfterRemove_mono h hle
  · rename_i hc
    simpa [hc] using h

theorem RemoveFromRbTree_mono {f f' : Nat} {node : Option Nat} {s s' : Mem}
    (h : RemoveFromRbTree f node s = some s') (hle : f ≤ f') :
    RemoveFromRbTree f' node s = some s' := by
  cases node with
  | none => simp [RemoveFromRbTree] at h
  | some n =>
    simp only [RemoveFromRbTree] at h ⊢
    split
    · rename_i h1
      simp only [h1, if_true, Option.bind_eq_some] at h ⊢
      obtain ⟨s1, e1, e2⟩ := h
      exact ⟨s1, e1, rebalanceAfterRemove_mono e2 hle⟩
    · rename_i h1
      split
      · rename_i h2
        simp only [h1, h2, if_true, if_false, Option.bind_eq_some] at h ⊢
        obtain ⟨s1, e1, e2⟩ := h
        exact ⟨s1, e1, rebalanceAfterRemove_mono e2 hle⟩
      · rename_i h2
        simp only [h1, h2, if_false] at h
        cases hr : (s.node n).right with
        | none => exact absurd hr h2
        | some r =>
          simp only [hr, Option.bind_eq_some] at h ⊢
          obtain ⟨y, e1, rs, e2, s4, e3, e4⟩ := h
          refine ⟨y, iterate_mono f f' _ _ e1 hle, rs, e2, s4, e3, ?_⟩
          cases hnl : ((s4.setLeft y (s4.node n).left).node n).left with
          | none => rw [hnl] at e4; exact Option.noConfusion e4
          | some nl =>
            simp only [hnl] at e4 ⊢
            exact rebalanceAfterRemove_mono e4 hle

theorem rep_unique {m : Nat → RbNode} : ∀ (t t' : Tree) (par par' : Option Nat),
    Tree.Rep m par t → Tree.Rep m par' t' → t.ptr = t'.ptr → t = t' := by
  intro t
  induction t with
  | nil =>
    intro t' par par' _ _ h
    exact (ptr_eq_none h.symm).symm
  | node c l a r ihl ihr =>
    intro t' par par' h h' hp
    cases t' with
    | nil => simp at hp
    | node c' l' a' r' =>
      simp only [ptr_node, Option.some.injEq] at hp
      subst hp
      obtain ⟨h1, _, h3, h4, h5, h6⟩ := h
      obtain ⟨g1, _, g3, g4, g5, g6⟩ := h'
      have e1 : l = l' := ihl l' _ _ h5 g5 (by rw [← h3, ← g3])
      have e2 : r = r' := ihr r' _ _ h6 g6 (by rw [← h4, ← g4])
      rw [← h1, ← g1, e1, e2]

theorem owns_unique {s : Mem} {t t' : Tree} (h : Owns s t) (h' : Owns s t') : t = t' :=
  rep_unique t t' none none h.2.1 h'.2.1 (by rw [← h.1, ← h'.1])

theorem insert_ok (s : Mem) (t : Tree) (n : Nat) (parent : Option Nat) (parent_link : Link)
    (fuel : Nat) (hown : Owns s t) (hrb : t.IsRB) (hslot : EmptySlot s t parent parent_link)
    (hnew : n ∉ t.ids) (hfuel : t.height < fuel) :
    ∃ s' t', InsertIntoRbTree fuel (some n) parent parent_link s = some s' ∧
      Owns s' t' ∧ t'.IsRB ∧ t'.ids.Perm (n :: t.ids) := by
  obtain ⟨k, e, hp, hl⟩ := emptySlot_path hown hslot
  subst e hp hl
  have hk : k.length < fuel := by
    have := height_plug k Tree.nil
    omega
  obtain ⟨t', e1, h1, i⟩ := insertAt_ok k n fuel hrb hk
  obtain ⟨s', e2, h2⟩ := InsertIntoRbTree_refines hown hnew e1
  refine ⟨s', t', e2, h2, h1, ?_⟩
  rw [i, ids_plug]
  simp

theorem rb_height_le (t : Tree) (h1 : t.NoRedRed) (h2 : t.Bal) :
    t.height ≤ 2 * t.bh + (if t.rootColor = Color.kRed then 1 else 0) := by
  induction t with
  | nil => simp [Tree.height]
  | node c l a r ihl ihr =>
    simp only [noRedRed_node, bal_node] at h1 h2
    have il := ihl h1.2.1 h2.2.1
    have ir := ihr h1.2.2 h2.2.2
    simp only [Tree.height, bh_node, rootColor_node]
    rcases color_cases c with e | e
    · subst e
      simp only [reduceCtorEq, if_false, if_true]
      have : max l.height r.height ≤ 2 * l.bh + 1 := by
        apply max_le
        · split at il <;> omega
        · split at ir <;> omega
      omega
    · subst e
      obtain ⟨c1, c2⟩ := h1.1 rfl
      simp only [c1, c2, reduceCtorEq, if_false, if_true, Nat.add_zero] at il ir ⊢
      have : max l.height r.height ≤ 2 * l.bh := max_le il (by omega)
      omega

theorem rb_size_ge (t : Tree) (h2 : t.Bal) : 2 ^ t.bh ≤ t.size + 1 := by
  induction t with
  | nil => simp [Tree.size]
  | node c l a r ihl ihr =>
    simp only [bal_node] at h2
    have il := ihl h2.2.1
    have ir := ihr h2.2.2
    rw [← h2.1] at ir
    simp only [Tree.size, bh_node]
    split
    · rw [pow_succ]; omega
    · simp only [Nat.add_zero]; omega

theorem rb_bound (t : Tree) (h : t.IsRB) :
    2 ^ t.height ≤ (t.size + 1) ^ 2 ∧ t.height ≤ 2 * Nat.log 2 (t.size + 1) := by
  obtain ⟨h0, h1, h2⟩ := (isRB_iff t).mp h
  have hh := rb_height_le t h1 h2
  simp only [h0, reduceCtorEq, if_false, Nat.add_zero] at hh
  have hs := rb_size_ge t h2
  constructor
  · calc 2 ^ t.height ≤ 2 ^ (2 * t.bh) := Nat.pow_le_pow_right (by decide) hh
      _ = (2 ^ t.bh) ^ 2 := by rw [Nat.mul_comm, pow_mul]
      _ ≤ (t.size + 1) ^ 2 := Nat.pow_le_pow_left hs 2
  · have : t.bh ≤ Nat.log 2 (t.size + 1) := Nat.le_log_of_pow_le (by decide) hs
    omega

theorem reachable_rb {s : Mem} (h : Reachable s) : ∃ t, Owns s t ∧ t.IsRB := by
  induction h with
  | empty s h => exact ⟨Tree.nil, owns_empty h, by rw [isRB_iff]; simp⟩
  | insert s s1 t n parent link fuel _ ho hslot hn hop ih =>
    obtain ⟨t0, o0, g0⟩ := ih
    have := owns_unique ho o0
    subst this
    obtain ⟨s', t', e, o, g, _⟩ := insert_ok s t n parent link (max fuel (t.height + 1)) ho g0
      hslot hn (by omega)
    have := InsertIntoRbTree_mono hop (Nat.le_max_left fuel (t.height + 1))
    rw [this] at e
    cases e
    exact ⟨t', o, g⟩
  | remove s s1 t n fuel _ ho hn hop ih =>
    obtain ⟨t0, o0, g0⟩ := ih
    have := owns_unique ho o0
    subst this
    obtain ⟨s', t', e, o, g, _⟩ := remove_ok s t n (max fuel (t.height + 3)) ho g0 hn (by omega)
    have := RemoveFromRbTree_mono hop (Nat.le_max_left fuel (t.height + 3))
    rw [this] at e
    cases e
    exact ⟨t', o, g⟩

/-- C6: every tree obtained from the empty tree by `InsertIntoRbTree` and
`RemoveFromRbTree` calls has, with `n` nodes and height `h` (nodes on the longest downward
path), `2 ^ h ≤ (n + 1) ^ 2` and `h ≤ 2 * log2 (n + 1)`. -/
theorem C6_height_bound (s : Mem) (t : Tree) (hr : Reachable s) (ho : Owns s t) :
    2 ^ t.height ≤ (t.size + 1) ^ 2 ∧ t.height ≤ 2 * Nat.log 2 (t.size + 1) := by
  obtain ⟨t0, o0, g0⟩ := reachable_rb hr
  have := owns_unique ho o0
  subst this
  exact rb_bound t g0

theorem singletonMem_reachable : Reachable singletonMem :=
  Reachable.insert emptyMem singletonMem Tree.nil 0 none Link.root 1
    (Reachable.empty emptyMem rfl) (owns_empty rfl) (Or.inl ⟨rfl, rfl, rfl⟩) (by simp) rfl

theorem singletonMem_owns :
    Owns singletonMem (Tree.node Color.kBlack Tree.nil 0 Tree.nil) := by
  refine ⟨rfl, ?_, by simp⟩
  simp [Tree.Rep, singletonMem, emptyMem, Mem.store]

theorem C6_height_bound_witness :
    Reachable singletonMem ∧ Owns singletonMem (Tree.node Color.kBlack Tree.nil 0 Tree.nil) ∧
      2 ^ (Tree.node Color.kBlack Tree.nil 0 Tree.nil).height ≤
        ((Tree.node Color.kBlack Tree.nil 0 Tree.nil).size + 1) ^ 2 ∧
      (Tree.node Color.kBlack Tree.nil 0 Tree.nil).height ≤
        2 * Nat.log 2 ((Tree.node Color.kBlack Tree.nil 0 Tree.nil).size + 1) :=
  ⟨singletonMem_reachable, singletonMem_owns,
    C6_height_bound singletonMem _ singletonMem_reachable singletonMem_owns⟩

theorem size_eq_length (t : Tree) : t.size = t.ids.length := by
  induction t with
  | nil => rfl
  | node c l a r ihl ihr => simp [Tree.size, ihl, ihr]; omega

theorem height_le_size (t : Tree) : t.height ≤ t.size := by
  induction t with
  | nil => simp [Tree.height]
  | node c l a r ihl ihr =>
    simp only [Tree.height, Tree.size]
    have : max l.height r.height ≤ l.size + r.size := max_le (by omega) (by omega)
    omega

theorem height_le_length (t : Tree) : t.height ≤ t.ids.length := by
  rw [← size_eq_length]
  exact height_le_size t

theorem isEmpty_iff {s : Mem} {t : Tree} (h : Owns s t) :
    IsEmptyRbRoot s = true ↔ t.ids = [] := by
  have h1 := h.1
  cases t with
  | nil => simp [IsEmptyRbRoot, h1]
  | node c l a r => simp [IsEmptyRbRoot, h1]

theorem insertAll_ok (value : Nat → Int) (fuel : Nat) :
    ∀ (addrs : List Nat) (s : Mem) (t : Tree), Owns s t → t.IsRB →
      (t.ids.map value).Sorted (· ≤ ·) → (∀ a ∈ addrs, a ∉ t.ids) → addrs.Nodup →
      t.ids.length + addrs.length < fuel + 1 →
      ∃ s1 t1, insertAll value fuel addrs s = some s1 ∧ Owns s1 t1 ∧ t1.IsRB ∧
        (t1.ids.map value).Sorted (· ≤ ·) ∧ t1.ids.Perm (t.ids ++ addrs) := by
  intro addrs
  induction addrs with
  | nil =>
    intro s t ho hrb hs _ _ _
    exact ⟨s, t, rfl, ho, hrb, hs, by simp⟩
  | cons a rest ih =>
    intro s t ho hrb hs hfresh hnd hfuel
    have hlen := height_le_length t
    simp only [List.length_cons] at hfuel
    obtain ⟨s', t', e, o, g, pre, post, i1, i2, b1, b2⟩ :=
      myInsert_ok value s t a fuel ho hrb hs (hfresh a (by simp)) (by omega)
    have hp : t'.ids.Perm (a :: t.ids) := by
      rw [i1, i2]
      exact List.perm_middle
    have hs' : (t'.ids.map value).Sorted (· ≤ ·) := by
      rw [i2, List.map_append, List.map_cons]
      apply sorted_insert_mid
      · rw [← List.map_append, ← i1]
        exact hs
      · intro x hx
        obtain ⟨y, hy, rfl⟩ := List.mem_map.mp hx
        exact b1 y hy
      · intro x hx
        obtain ⟨y, hy, rfl⟩ := List.mem_map.mp hx
        exact b2 y hy
    have hnd' := List.nodup_cons.mp hnd
    have hfresh' : ∀ b ∈ rest, b ∉ t'.ids := by
      intro b hb hb'
      rcases List.mem_cons.mp (hp.mem_iff.mp hb') with e | e
      · subst e
        exact hnd'.1 hb
      · exact hfresh b (by simp [hb]) e
    have hl : t'.ids.length = t.ids.length + 1 := by
      rw [hp.length_eq]
      rfl
    obtain ⟨s1, t1, e1, o1, g1, q1, p1⟩ := ih s' t' o g hs' hfresh' hnd'.2 (by omega)
    refine ⟨s1, t1, ?_, o1, g1, q1, ?_⟩
    · simp only [insertAll, e, Option.some_bind, e1]
    · refine p1.trans ?_
      refine (List.Perm.append_right rest hp).trans ?_
      simp only [List.cons_append]
      exact List.perm_middle.symm

theorem removeAll_ok (fuel : Nat) :
    ∀ (order : List Nat) (s : Mem) (t : Tree), Owns s t → t.IsRB → order.Perm t.ids →
      order.length + 3 ≤ fuel →
      ∃ trace, removeAll fuel order s = some trace ∧ trace.length = order.length ∧
        ∀ i (h : i < trace.length),
          IsEmptyRbRoot (trace.get ⟨i, h⟩) = decide (i + 1 = order.length) := by
  intro order
  induction order with
  | nil =>
    intro s t _ _ _ _
    exact ⟨[], rfl, rfl, fun i h => absurd h (by simp)⟩
  | cons a rest ih =>
    intro s t ho hrb hp hfuel
    have hlen := height_le_length t
    have hl := hp.length_eq
    simp only [List.length_cons] at hfuel hl
    obtain ⟨s', t', e, o, g, pre, post, i1, i2⟩ :=
      remove_ok s t a fuel ho hrb (hp.mem_iff.mp (by simp)) (by omega)
    have hp' : rest.Perm t'.ids := by
      rw [i1] at hp
      rw [i2]
      exact List.Perm.cons_inv (hp.trans List.perm_middle)
    obtain ⟨trace, e1, l1, q1⟩ := ih s' t' o g hp' (by omega)
    refine ⟨s' :: trace, ?_, by simp [l1], ?_⟩
    · simp only [removeAll, e, e1, Option.map_some']
    · intro i h
      cases i with
      | zero =>
        have h1 := isEmpty_iff o
        have h2 : t'.ids = [] ↔ rest = [] := by
          constructor
          · intro h
            rw [h] at hp'
            exact List.Perm.eq_nil hp'
          · intro h
            rw [h] at hp'
            exact List.Perm.nil_eq hp' ▸ rfl
        simp only [List.get_eq_getElem, List.getElem_cons_zero, List.length_cons]
        rw [Bool.eq_iff_iff, h1, h2]
        simp
      | succ j =>
        have := q1 j (by simpa using h)
        simp only [List.get_eq_getElem, List.getElem_cons_succ, List.length_cons] at this ⊢
        rw [this]
        simp

/-- C5: `IsEmptyRbRoot` is true exactly when the tree the handle owns has no node; and
after any list of distinct nodes has been inserted into an empty tree with
`MyInsertIntoRbTree`, removing all of them with `RemoveFromRbTree` in any order succeeds,
`IsEmptyRbRoot` is false after every removal that leaves a node and true after the last
one. -/
theorem C5_empty_iff_all_removed (value : Nat → Int) (s0 : Mem) (addrs order : List Nat)
    (fuel : Nat) (h0 : s0.rb_node = none) (hd : addrs.Nodup) (hperm : order.Perm addrs)
    (hfuel : addrs.length + 3 ≤ fuel) :
    (∀ s t, Owns s t → (IsEmptyRbRoot s = true ↔ t.ids = [])) ∧
      IsEmptyRbRoot s0 = true ∧
      ∃ s1 trace, insertAll value fuel addrs s0 = some s1 ∧
        removeAll fuel order s1 = some trace ∧ trace.length = order.length ∧
        ∀ i (h : i < trace.length),
          IsEmptyRbRoot (trace.get ⟨i, h⟩) = decide (i + 1 = order.length) := by
  refine ⟨fun s t h => isEmpty_iff h, by simp [IsEmptyRbRoot, h0], ?_⟩
  obtain ⟨s1, t1, e1, o1, g1, _, p1⟩ := insertAll_ok value fuel addrs s0 Tree.nil
    (owns_empty h0) (by rw [isRB_iff]; simp) (by simp) (by simp) hd (by simp; omega)
  simp only [ids_nil, List.nil_append] at p1
  obtain ⟨trace, e2, l2, q2⟩ := removeAll_ok fuel order s1 t1 o1 g1 (hperm.trans p1.symm)
    (by rw [hperm.length_eq]; exact hfuel)
  exact ⟨s1, trace, e1, e2, l2, q2⟩

theorem C5_empty_iff_all_removed_witness :
    emptyMem.rb_node = none ∧ [0, 1, 2].Nodup ∧ [1, 2, 0].Perm [0, 1, 2] ∧
      [0, 1, 2].length + 3 ≤ 6 ∧
      ((∀ s t, Owns s t → (IsEmptyRbRoot s = true ↔ t.ids = [])) ∧
      IsEmptyRbRoot emptyMem = true ∧
      ∃ s1 trace, insertAll Int.ofNat 6 [0, 1, 2] emptyMem = some s1 ∧
        removeAll 6 [1, 2, 0] s1 = some trace ∧ trace.length = [1, 2, 0].length ∧
        ∀ i (h : i < trace.length),
          IsEmptyRbRoot (trace.get ⟨i, h⟩) = decide (i + 1 = [1, 2, 0].length)) :=
  ⟨rfl, by decide, by decide, by decide,
    C5_empty_iff_all_removed Int.ofNat emptyMem [0, 1, 2] [1, 2, 0] 6 rfl (by decide)
      (by decide) (by decide)⟩

theorem checker_ok (value : Nat → Int) (s : Mem) :
    ∀ (t : Tree) (fuel : Nat) (par : Option Nat) (record : List Int) (cur : Nat)
      (bcr : List Nat), t ≠ Tree.nil → Tree.Rep s.node par t → t.NoRedRed → t.Bal →
      (t.rootColor = Color.kRed → IsRed s par = false) → t.height ≤ fuel →
      (∀ x ∈ bcr, x = cur + t.bh) →
      ∃ bcr', InorderTraversalChecker value s fuel t.ptr record cur bcr =
          Checked.ok (record ++ t.ids.map value, bcr') ∧ ∀ x ∈ bcr', x = cur + t.bh := by
  intro t
  induction t with
  | nil => intro _ _ _ _ _ h; exact absurd rfl h
  | node c l a r ihl ihr =>
    intro fuel par record cur bcr _ hrep hnr hbal hpar hfuel hbcr
    obtain ⟨f, rfl⟩ : ∃ f, fuel = f + 1 := ⟨fuel - 1, by simp [Tree.height] at hfuel; omega⟩
    obtain ⟨h1, h2, h3, h4, h5, h6⟩ := hrep
    simp only [noRedRed_node, bal_node] at hnr hbal
    simp only [Tree.height] at hfuel
    have hfl : l.height ≤ f := by have := le_max_left l.height r.height; omega
    have hfr : r.height ≤ f := by have := le_max_right l.height r.height; omega
    have cl : IsRed s l.ptr = decide (l.rootColor = Color.kRed) := isRed_ptr h5
    have cr : IsRed s r.ptr = decide (r.rootColor = Color.kRed) := isRed_ptr h6
    have hcur : (if IsBlack s (some a) = true then cur + 1 else cur) =
        cur + (if c = Color.kBlack then 1 else 0) := by
      simp only [IsBlack_some, h1, decide_eq_true_eq]
      split <;> rfl
    have hguard : (IsRed s (some a) && (IsRed s (s.node a).parent || IsRed s (s.node a).left ||
          IsRed s (s.node a).right)) = false := by
      rcases color_cases c with e | e
      · simp [h1, e]
      · obtain ⟨c1, c2⟩ := hnr.1 e
        simp [h1, h2, h3, h4, cl, cr, c1, c2, hpar (by simpa using e)]
    have hfirst : (!IsRed s (some a) && !IsBlack s (some a)) = false := by
      rcases color_cases c with e | e <;> simp [h1, e]
    -- the left subtree
    have hL : ∃ b1, (if (s.node a).left ≠ none then
          InorderTraversalChecker value s f (s.node a).left record
            (cur + (if c = Color.kBlack then 1 else 0)) bcr
        else Checked.ok (record, bcr)) = Checked.ok (record ++ l.ids.map value, b1) ∧
        (∀ x ∈ b1, x = cur + (l.bh + (if c = Color.kBlack then 1 else 0))) ∧
        (l = Tree.nil → b1 = bcr) := by
      cases hl : l with
      | nil =>
        subst hl
        refine ⟨bcr, by simp [h3], ?_, fun _ => rfl⟩
        simpa using hbcr
      | node c' l' a' r' =>
        rw [← hl]
        obtain ⟨b1, e1, q1⟩ := ihl f (some a) record (cur + (if c = Color.kBlack then 1 else 0))
          bcr (by rw [hl]; simp) h5 hnr.2.1 hbal.2.1
          (by
            intro hc
            rcases color_cases c with e | e
            · simp [h1, e]
            · exact absurd hc (by rw [(hnr.1 e).1]; simp))
          hfl
          (by intro x hx; rw [hbcr x hx]; simp only [bh_node]; omega)
        refine ⟨b1, ?_, ?_, ?_⟩
        · rw [h3, if_pos (by rw [hl]; simp), e1]
        · intro x hx; rw [q1 x hx]; omega
        · intro h; rw [h] at hl; cases hl
    obtain ⟨b1, e1, q1, n1⟩ := hL
    have hR : ∃ b2, (if (s.node a).right ≠ none then
          InorderTraversalChecker value s f (s.node a).right
            ((record ++ l.ids.map value) ++ [value a])
            (cur + (if c = Color.kBlack then 1 else 0)) b1
        else Checked.ok ((record ++ l.ids.map value) ++ [value a], b1)) =
          Checked.ok (record ++ (Tree.node c l a r).ids.map value, b2) ∧
        (∀ x ∈ b2, x = cur + (l.bh + (if c = Color.kBlack then 1 else 0))) ∧
        (r = Tree.nil → b2 = b1) := by
      cases hr : r with
      | nil =>
        subst hr
        refine ⟨b1, by simp [h4], q1, fun _ => rfl⟩
      | node c' l' a' r' =>
        rw [← hr]
        obtain ⟨b2, e2, q2⟩ := ihr f (some a) ((record ++ l.ids.map value) ++ [value a])
          (cur + (if c = Color.kBlack then 1 else 0))
          b1 (by rw [hr]; simp) h6 hnr.2.2 hbal.2.2
          (by
            intro hc
            rcases color_cases c with e | e
            · simp [h1, e]
            · exact absurd hc (by rw [(hnr.1 e).2]; simp))
          hfr
          (by intro x hx; rw [q1 x hx, hbal.1]; omega)
        refine ⟨b2, ?_, ?_, ?_⟩
        · rw [h4, if_pos (by rw [hr]; simp), e2]
          simp
        · intro x hx; rw [q2 x hx, hbal.1]; omega
        · intro h; rw [h] at hr; cases hr
    obtain ⟨b2, e2, q2, n2⟩ := hR
    simp only [ptr_node, InorderTraversalChecker, hfirst, hguard, hcur, e1, e2, bh_node,
      Bool.false_eq_true, if_false]
    by_cases hleaf : (s.node a).left = none ∧ (s.node a).right = none
    · rw [if_pos hleaf]
      have hl0 : l = Tree.nil := ptr_eq_none (by rw [← h3]; exact hleaf.1)
      have hthrow : ¬ (b2.length > 0 ∧
          b2.getLast? ≠ some (cur + (if c = Color.kBlack then 1 else 0))) := by
        rintro ⟨_, hne⟩
        apply hne
        cases hg : b2.getLast? with
        | none =>
          rw [List.getLast?_eq_none_iff] at hg
          subst hg
          simp at *
        | some y =>
          have := q2 y (List.mem_of_getLast?_eq_some hg)
          rw [this, hl0]
          simp
      rw [if_neg hthrow]
      refine ⟨_, rfl, ?_⟩
      intro x hx
      rcases List.mem_append.mp hx with h | h
      · exact q2 x h
      · simp only [List.mem_singleton] at h
        rw [h, hl0]
        simp
    · rw [if_neg hleaf]
      exact ⟨b2, rfl, q2⟩

theorem legal_ok (value : Nat → Int) (s : Mem) (t : Tree) (fuel : Nat) (ho : Owns s t)
    (hrb : t.IsRB) (hs : (t.ids.map value).Sorted (· ≤ ·)) (hne : t ≠ Tree.nil)
    (hfuel : t.height ≤ fuel) : IsLegalRbTree value fuel s = some true := by
  obtain ⟨h0, h1, h2⟩ := (isRB_iff t).mp hrb
  obtain ⟨b, e, _⟩ := checker_ok value s t fuel none [] 0 [] hne ho.2.1 h1 h2
    (fun _ => rfl) hfuel (by simp)
  have hb : IsBlack s t.ptr = true := by
    rw [isBlack_ptr ho.2.1]
    simpa using h0
  simp only [IsLegalRbTree, ho.1, hb, Bool.true_eq_false, if_false, e, List.nil_append]
  simp only [Option.some.injEq, decide_eq_true_eq]
  exact (List.Sorted.insertionSort_eq hs).symm

theorem testerCheck_ok (value : Nat → Int) (s : Mem) (t : Tree) (fuel : Nat) (ho : Owns s t)
    (hrb : t.IsRB) (hs : (t.ids.map value).Sorted (· ≤ ·)) (hfuel : t.height ≤ fuel) :
    testerCheck value fuel s = some true := by
  unfold testerCheck
  split
  · rfl
  · rename_i h
    apply legal_ok value s t fuel ho hrb hs _ hfuel
    intro e
    subst e
    exact h ((isEmpty_iff ho).mpr rfl)

theorem print_ok (s : Mem) : ∀ (t : Tree) (fuel : Nat) (par : Option Nat),
    t ≠ Tree.nil → Tree.Rep s.node par t → t.height ≤ fuel →
    MyPrintRbTree s fuel t.ptr = some () := by
  intro t
  induction t with
  | nil => intro _ _ h; exact absurd rfl h
  | node c l a r ihl ihr =>
    intro fuel par _ hrep hfuel
    obtain ⟨f, rfl⟩ : ∃ f, fuel = f + 1 := ⟨fuel - 1, by simp [Tree.height] at hfuel; omega⟩
    obtain ⟨h1, h2, h3, h4, h5, h6⟩ := hrep
    simp only [Tree.height] at hfuel
    have hfl : l.height ≤ f := by have := le_max_left l.height r.height; omega
    have hfr : r.height ≤ f := by have := le_max_right l.height r.height; omega
    have el : (if (s.node a).left ≠ none then MyPrintRbTree s f (s.node a).left
        else some ()) = some () := by
      by_cases hl : l = Tree.nil
      · subst hl
        simp [h3]
      · have hne : (s.node a).left ≠ none := by
          rw [h3]
          exact fun e => hl (ptr_eq_none e)
        rw [if_pos hne, h3]
        exact ihl f (some a) hl h5 hfl
    have er : (if (s.node a).right ≠ none then MyPrintRbTree s f (s.node a).right
        else some ()) = some () := by
      by_cases hr : r = Tree.nil
      · subst hr
        simp [h4]
      · have hne : (s.node a).right ≠ none := by
          rw [h4]
          exact fun e => hr (ptr_eq_none e)
        rw [if_pos hne, h4]
        exact ihr f (some a) hr h6 hfr
    simp only [ptr_node, MyPrintRbTree, el, er]

theorem print_root_ok {s : Mem} {t : Tree} {fuel : Nat} (ho : Owns s t)
    (hne : IsEmptyRbRoot s = false) (hfuel : t.height ≤ fuel) :
    MyPrintRbTree s fuel s.rb_node = some () := by
  rw [ho.1]
  apply print_ok s t fuel none _ ho.2.1 hfuel
  rintro rfl
  have := (isEmpty_iff ho).mpr rfl
  rw [this] at hne
  cases hne

theorem print_null (s : Mem) (fuel : Nat) : MyPrintRbTree s fuel none = none := by
  cases fuel <;> rfl

/-- The removal loop of the driver on a red-black tree with sorted keys: every removal
returns, `IsLegalRbTree` returns `true` after every removal that leaves a node, the tree
is empty after the last removal, and the loop returns `true` with the last memory. -/
theorem testerRemoveLoop_trace (value : Nat → Int) (fuel : Nat) (print_log : Bool) :
    ∀ (order : List Nat) (s : Mem) (t : Tree), Owns s t → t.IsRB →
      (t.ids.map value).Sorted (· ≤ ·) → order.Perm t.ids → order.length + 3 ≤ fuel →
      ∃ mems, removeAll fuel order s = some mems ∧ mems.length = order.length ∧
        (∀ i s', mems[i]? = some s' →
          (i + 1 < order.length →
            IsEmptyRbRoot s' = false ∧ IsLegalRbTree value fuel s' = some true) ∧
          (i + 1 = order.length → IsEmptyRbRoot s' = true)) ∧
        IsEmptyRbRoot ((s :: mems).getLast (List.cons_ne_nil s mems)) = true ∧
        testerRemoveLoop value fuel print_log order s =
          some (true, (s :: mems).getLast (List.cons_ne_nil s mems)) := by
  intro order
  induction order with
  | nil =>
    intro s t ho _ _ hp _
    refine ⟨[], rfl, rfl, by simp, ?_, rfl⟩
    exact (isEmpty_iff ho).mpr (List.Perm.nil_eq hp ▸ rfl)
  | cons a rest ih =>
    intro s t ho hrb hs hp hfuel
    have hlen := height_le_length t
    have hl := hp.length_eq
    simp only [List.length_cons] at hfuel hl
    obtain ⟨s', t', e, o, g, pre, post, i1, i2⟩ :=
      remove_ok s t a fuel ho hrb (hp.mem_iff.mp (by simp)) (by omega)
    have hp' : rest.Perm t'.ids := by
      rw [i1] at hp
      rw [i2]
      exact List.Perm.cons_inv (hp.trans List.perm_middle)
    have hs' : (t'.ids.map value).Sorted (· ≤ ·) := by
      refine List.Pairwise.sublist ?_ hs
      rw [i1, i2]
      exact List.Sublist.map value
        (List.Sublist.append (List.Sublist.refl pre) (List.sublist_cons_self a post))
    have hlen' := height_le_length t'
    have hl' := hp'.length_eq
    have hc := testerCheck_ok value s' t' fuel o g hs' (by omega)
    obtain ⟨trace, e1, l1, q1, q2, e2⟩ := ih s' t' o g hs' hp' (by omega)
    have hemp : IsEmptyRbRoot s' = decide (rest.length = 0) := by
      rw [Bool.eq_iff_iff, isEmpty_iff o, decide_eq_true_iff, ← List.length_eq_zero, ← hl']
    have hpr : (if (!IsEmptyRbRoot s' && print_log) = true then
        MyPrintRbTree s' fuel s'.rb_node else some ()) = some () := by
      split
      · rename_i hcnd
        simp only [Bool.and_eq_true, Bool.not_eq_true'] at hcnd
        exact print_root_ok o hcnd.1 (by omega)
      · rfl
    refine ⟨s' :: trace, ?_, by simp [l1], ?_, ?_, ?_⟩
    · simp only [removeAll, e, e1, Option.map_some']
    · intro i s'' hi
      cases i with
      | zero =>
        simp only [List.getElem?_cons_zero, Option.some.injEq] at hi
        subst hi
        simp only [List.length_cons]
        constructor
        · intro hlt
          have hz : ¬ rest.length = 0 := by omega
          have hne : IsEmptyRbRoot s' = false := by simp [hemp, hz]
          refine ⟨hne, legal_ok value s' t' fuel o g hs' ?_ (by omega)⟩
          rintro rfl
          rw [(isEmpty_iff o).mpr rfl] at hne
          cases hne
        · intro heq
          have hz : rest.length = 0 := by omega
          simp [hemp, hz]
      | succ j =>
        simp only [List.getElem?_cons_succ] at hi
        have := q1 j s'' hi
        simp only [List.length_cons]
        exact ⟨fun h => this.1 (by omega), fun h => this.2 (by omega)⟩
    · rw [List.getLast_cons (List.cons_ne_nil s' trace)]
      exact q2
    · simp only [testerRemoveLoop, MyRemoveFromRbTree, e, hc, hpr, e2]
      rw [List.getLast_cons (List.cons_ne_nil s' trace)]

/-- C8: for every list of integers, inserting the values in list order into an empty tree
with `MyInsertIntoRbTree` and then removing the records in insertion order with
`MyRemoveFromRbTree` (`removeAll` lists the memory after each removal), every call
returns, `IsLegalRbTree` returns `true` after the insertions when the list is not empty
and after every removal that leaves the tree non-empty, and the tree is empty after the
last removal.  `RbTreeTesterWithValues(values, print_log)` returns `true`, in the memory
the last removal leaves, when the list is not empty or `print_log` is `false`; for the
empty list with `print_log` set it aborts, in the `MyPrintRbTree(root.rb_node)` that
follows the insertions. -/
theorem C8_tester_verdict (heap : Nat → RbNode) (values : List Int) (fuel : Nat)
    (print_log : Bool) (hfuel : values.length + 3 ≤ fuel) :
    ∃ s1 mems,
      insertAll (fun a => values.getD a 0) fuel (List.range values.length) ⟨heap, none⟩ =
        some s1 ∧
      removeAll fuel (List.range values.length) s1 = some mems ∧
      mems.length = values.length ∧
      (values ≠ [] → IsEmptyRbRoot s1 = false ∧
        IsLegalRbTree (fun a => values.getD a 0) fuel s1 = some true) ∧
      (∀ i s', mems[i]? = some s' →
        (i + 1 < values.length → IsEmptyRbRoot s' = false ∧
          IsLegalRbTree (fun a => values.getD a 0) fuel s' = some true) ∧
        (i + 1 = values.length → IsEmptyRbRoot s' = true)) ∧
      IsEmptyRbRoot ((s1 :: mems).getLast (List.cons_ne_nil s1 mems)) = true ∧
      (values ≠ [] ∨ print_log = false →
        RbTreeTesterWithValues heap fuel values print_log =
          some (true, (s1 :: mems).getLast (List.cons_ne_nil s1 mems))) ∧
      (values = [] → print_log = true →
        RbTreeTesterWithValues heap fuel values print_log = none) := by
  obtain ⟨s1, t1, e1, o1, g1, q1, p1⟩ := insertAll_ok (fun a => values.getD a 0) fuel
    (List.range values.length) ⟨heap, none⟩ Tree.nil
    (owns_empty rfl) (by rw [isRB_iff]; simp) (by simp) (by simp) (List.nodup_range _)
    (by simp; omega)
  simp only [ids_nil, List.nil_append] at p1
  have hlen := height_le_length t1
  have hl := p1.length_eq
  simp only [List.length_range] at hl
  have hc := testerCheck_ok (fun a => values.getD a 0) s1 t1 fuel o1 g1 q1 (by omega)
  obtain ⟨mems, e2, l2, q2, q3, e3⟩ := testerRemoveLoop_trace (fun a => values.getD a 0)
    fuel print_log (List.range values.length) s1 t1 o1 g1 q1 p1.symm (by simp; omega)
  simp only [List.length_range] at l2 q2
  have hemp : values ≠ [] → IsEmptyRbRoot s1 = false := by
    intro hne
    rw [Bool.eq_false_iff]
    intro h
    have h0 := (isEmpty_iff o1).mp h
    rw [h0] at hl
    exact hne (List.length_eq_zero.mp hl.symm)
  refine ⟨s1, mems, e1, e2, l2, ?_, q2, q3, ?_, ?_⟩
  · intro hne
    refine ⟨hemp hne, legal_ok _ s1 t1 fuel o1 g1 q1 ?_ (by omega)⟩
    rintro rfl
    have := hemp hne
    rw [(isEmpty_iff o1).mpr rfl] at this
    cases this
  · intro hcase
    have hpr : (if print_log = true then MyPrintRbTree s1 fuel s1.rb_node else some ()) =
        some () := by
      split
      · rename_i hp
        rcases hcase with hne | hf
        · exact print_root_ok o1 (hemp hne) (by omega)
        · rw [hf] at hp
          cases hp
      · rfl
    simp only [RbTreeTesterWithValues, e1, hc, hpr, e3]
  · rintro rfl rfl
    simp [RbTreeTesterWithValues, insertAll, testerCheck, IsEmptyRbRoot, print_null]

theorem C8_tester_verdict_witness :
    ([5, 3, 8, 3, 1] : List Int).length + 3 ≤ 8 ∧
    ∃ s1 mems s,
      insertAll (fun a => ([5, 3, 8, 3, 1] : List Int).getD a 0) 8 [0, 1, 2, 3, 4]
        ⟨emptyMem.node, none⟩ = some s1 ∧
      IsLegalRbTree (fun a => ([5, 3, 8, 3, 1] : List Int).getD a 0) 8 s1 = some true ∧
      removeAll 8 [0, 1, 2, 3, 4] s1 = some mems ∧ mems.length = 5 ∧
      (∀ i s', mems[i]? = some s' → i + 1 < 5 →
        IsLegalRbTree (fun a => ([5, 3, 8, 3, 1] : List Int).getD a 0) 8 s' = some true) ∧
      RbTreeTesterWithValues emptyMem.node 8 [5, 3, 8, 3, 1] true = some (true, s) ∧
      IsEmptyRbRoot s = true := by
  obtain ⟨s1, mems, h1, h2, h3, h4, h5, h6, h7, _⟩ :=
    C8_tester_verdict emptyMem.node [5, 3, 8, 3, 1] 8 true (by decide)
  exact ⟨by decide, s1, mems, _, h1, (h4 (by decide)).2, h2, h3,
    fun i s' hi hlt => ((h5 i s' hi).1 hlt).2, h7 (Or.inl (by decide)), h6⟩

theorem node_eta (r : RbNode) (c : Color) (p l q : Option Nat) (h1 : r.color = c)
    (h2 : r.parent = p) (h3 : r.left = l) (h4 : r.right = q) : r = ⟨c, p, l, q⟩ := by
  cases r
  simp_all

/-- C11: removing the root of the two-node tree with Black root 5 and Red right child 8
with `RemoveFromRbTree` leaves the tree whose root is the node 8, coloured Black, with no
parent and no children. -/
theorem C11_remove_root_of_two (value : Nat → Int) (s : Mem) (a b : Nat) (fuel : Nat)
    (hab : a ≠ b) (_va : value a = 5) (vb : value b = 8) (hroot : s.rb_node = some a)
    (ha : s.node a = ⟨Color.kBlack, none, none, some b⟩)
    (hb : s.node b = ⟨Color.kRed, some a, none, none⟩) (hfuel : 1 ≤ fuel) :
    ∃ s' r, RemoveFromRbTree fuel (some a) s = some s' ∧ s'.rb_node = some r ∧
      value r = 8 ∧ r = b ∧ s'.node r = ⟨Color.kBlack, none, none, none⟩ ∧
      Owns s' (Tree.node Color.kBlack Tree.nil b Tree.nil) := by
  obtain ⟨f, rfl⟩ : ∃ f, fuel = f + 1 := ⟨fuel - 1, by omega⟩
  have ho : Owns s (plug [] (Tree.node Color.kBlack Tree.nil a
      (Tree.node Color.kRed Tree.nil b Tree.nil))) := by
    refine ⟨by simp [plug, hroot], ?_, by simp [plug, hab]⟩
    simp [plug, Tree.Rep, ha, hb]
  obtain ⟨s', e, o⟩ := @RemoveFromRbTree_refines s [] Color.kBlack Tree.nil
    (Tree.node Color.kRed Tree.nil b Tree.nil) (Tree.node Color.kBlack Tree.nil b Tree.nil)
    a (f + 1) ho (by simp [Tree.height])
    (by simp [removeAt, delRebalance, delFixup, iterate, delBody, plug, Tree.setRootColor])
  obtain ⟨o1, ⟨o2, o3, o4, o5, _, _⟩, _⟩ := o
  refine ⟨s', b, e, by simpa using o1, vb, rfl, ?_, ⟨o1, ⟨o2, o3, o4, o5, trivial, trivial⟩,
    by simp⟩⟩
  exact node_eta _ _ _ _ _ o2 o3 (by simpa using o4) (by simpa using o5)

theorem C11_remove_root_of_two_witness :
    (0 : Nat) ≠ 1 ∧ ∃ s' r, RemoveFromRbTree 1 (some 0) twoNodeMem = some s' ∧
      s'.rb_node = some r ∧ (fun x => 3 * Int.ofNat x + 5) r = 8 ∧ r = 1 ∧
      s'.node r = ⟨Color.kBlack, none, none, none⟩ ∧
      Owns s' (Tree.node Color.kBlack Tree.nil 1 Tree.nil) :=
  ⟨by decide, C11_remove_root_of_two (fun x => 3 * Int.ofNat x + 5) twoNodeMem 0 1 1
    (by decide) (by decide) (by decide) rfl rfl rfl (by decide)⟩

theorem rbnode_ext (r q : RbNode) (h1 : r.color = q.color) (h2 : r.parent = q.parent)
    (h3 : r.left = q.left) (h4 : r.right = q.right) : r = q := by
  cases r; cases q; simp_all

/-- The memory `Transplant` leaves: the slot of `old` is overwritten, then the parent
field of `new`. -/
theorem Transplant_exact {s : Mem} {t : Tree} {o : Nat} (new : Option Nat)
    (hown : Owns s t) (ho : o ∈ t.ids) :
    ∃ lk, (lk = Link.root ∧ s.rb_node = some o ∧ (s.node o).parent = none ∨
        ∃ p, p ≠ o ∧ s.rb_node ≠ some o ∧ (s.node o).parent = some p ∧
          (lk = Link.left p ∧ (s.node p).left = some o ∧ (s.node p).right ≠ some o ∨
           lk = Link.right p ∧ (s.node p).right = some o ∧ (s.node p).left ≠ some o)) ∧
      Transplant (some o) new s = some (match new with
        | none => s.store lk none
        | some n => (s.store lk (some n)).setParent n (s.node o).parent) := by
  obtain ⟨k, c, l, r, rfl⟩ := mem_ids_plug ho
  have hN := read_focus hown
  cases k with
  | nil =>
    have hr : s.rb_node = some o := hown.1
    simp only [cpar_nil] at hN
    refine ⟨Link.root, Or.inl ⟨rfl, hr, by rw [hN]⟩, ?_⟩
    cases new <;> simp [Transplant, hr, hN, Mem.store, Mem.setParent]
  | cons f k1 =>
    have hroot := ptr_ne_root hown
    simp only [ptr_node] at hroot
    have hnd := nodup_focus hown
    cases f with
    | L pc p sib =>
      simp only [cpar_L] at hN
      have hP := read_focus (k := k1) hown
      have hpo : p ≠ o := by
        apply ne_of_nodup hnd
        rintro rfl
        simp only [ids_node, before, after, List.count_append, List.count_cons,
          List.count_nil, beq_self_eq_true, if_true]
        omega
      have hsib : sib.ptr ≠ some o := by
        intro e
        obtain ⟨c1, c2⟩ := cnt hnd (ptr_mem_ids e)
        simp only [ids_node, before, after, List.count_append, List.count_cons,
          List.count_nil, beq_self_eq_true, if_true] at c1 c2
        omega
      refine ⟨Link.left p, Or.inr ⟨p, hpo, Ne.symm hroot, by rw [hN],
        Or.inl ⟨rfl, by rw [hP]; rfl, by rw [hP]; exact hsib⟩⟩, ?_⟩
      cases new <;>
        simp [Transplant, hroot, hN, hP, Mem.store, Mem.setParent, Mem.setLeft,
          Function.update, hpo, Ne.symm hpo]
    | R pc sib p =>
      simp only [cpar_R] at hN
      have hP := read_focus (k := k1) hown
      have hpo : p ≠ o := by
        apply ne_of_nodup hnd
        rintro rfl
        simp only [ids_node, before, after, List.count_append, List.count_cons,
          List.count_nil, beq_self_eq_true, if_true]
        omega
      have hsib : sib.ptr ≠ some o := by
        intro e
        obtain ⟨c1, c2⟩ := cnt hnd (ptr_mem_ids e)
        simp only [ids_node, before, after, List.count_append, List.count_cons,
          List.count_nil, beq_self_eq_true, if_true] at c1 c2
        omega
      refine ⟨Link.right p, Or.inr ⟨p, hpo, Ne.symm hroot, by rw [hN],
        Or.inr ⟨rfl, by rw [hP]; rfl, by rw [hP]; exact hsib⟩⟩, ?_⟩
      cases new <;>
        simp [Transplant, hroot, hN, hP, Mem.store, Mem.setParent, Mem.setRight,
          Function.update, hpo, Ne.symm hpo, hsib]

/-- C13, amended: on a well-formed tree, `Transplant(old, new, root)` for a node `old` of
the tree and any `new` returns; the slot that held `old` (the root handle, or the `left`
or `right` field of the parent of `old`) holds `new`, `new->parent` is `old->parent` when
`new` is present, and no other field of any record changes: the record of `old` is as
before, the `left`, `right` and colour of `new` are as before when `new` is not the
parent of `old`, and every other record is as before apart from the slot.  When `new` is
the parent of `old`, the slot is a child field of `new` itself, so it holds `new`, and
the other child field and the colour of `new` are as before. -/
theorem C13_transplant_frame (s : Mem) (t : Tree) (o : Nat) (new : Option Nat)
    (hown : Owns s t) (ho : o ∈ t.ids) :
    ∃ s', Transplant (some o) new s = some s' ∧
      (s.rb_node = some o ∨ ∃ p, (s.node o).parent = some p ∧
        ((s.node p).left = some o ∨ (s.node p).right = some o)) ∧
      (s.rb_node = some o → s'.rb_node = new) ∧
      (∀ p, (s.node o).parent = some p → (s.node p).left = some o →
        (s'.node p).left = new) ∧
      (∀ p, (s.node o).parent = some p → (s.node p).right = some o →
        (s'.node p).right = new) ∧
      (∀ n, new = some n → (s'.node n).parent = (s.node o).parent) ∧
      (s.rb_node ≠ some o → s'.rb_node = s.rb_node) ∧
      (∀ a, (s'.node a).color = (s.node a).color) ∧
      (∀ a, new ≠ some a → (s'.node a).parent = (s.node a).parent) ∧
      (∀ a, ¬ ((s.node o).parent = some a ∧ (s.node a).left = some o) →
        (s'.node a).left = (s.node a).left) ∧
      (∀ a, ¬ ((s.node o).parent = some a ∧ (s.node a).right = some o) →
        (s'.node a).right = (s.node a).right) ∧
      s'.node o = s.node o ∧
      (∀ n, new = some n → (s.node o).parent ≠ some n →
        (s'.node n).left = (s.node n).left ∧ (s'.node n).right = (s.node n).right ∧
          (s'.node n).color = (s.node n).color) ∧
      (∀ a, new ≠ some a → (s.node o).parent ≠ some a → s'.node a = s.node a) := by
  obtain ⟨lk, hlk, e⟩ := Transplant_exact new hown ho
  refine ⟨_, e, ?_⟩
  clear e hown ho
  rcases hlk with ⟨rfl, h1, h2⟩ | ⟨p, hpo, hr, hp, ⟨rfl, h1, h2⟩ | ⟨rfl, h1, h2⟩⟩ <;>
    cases new <;>
    simp only [Mem.store, Mem.setParent, Mem.setLeft, Mem.setRight, Function.update_apply] <;>
    refine ⟨?_, ?_, ?_, ?_, ?_, ?_, ?_, ?_, ?_, ?_, ?_, ?_, ?_⟩
  all_goals first
    | (intros; simp_all; done)
    | (intros; split_ifs <;> simp_all; done)
    | (apply rbnode_ext <;> simp_all; done)
    | (apply rbnode_ext <;> split_ifs <;> simp_all)

theorem C13_transplant_frame_witness :
    Owns exampleMem exampleTree ∧ 0 ∈ exampleTree.ids ∧
      ∃ s', Transplant (some 0) (some 2) exampleMem = some s' ∧
        (s'.node 1).left = some 2 ∧ (s'.node 2).parent = (exampleMem.node 0).parent ∧
        s'.node 0 = exampleMem.node 0 ∧ (s'.node 1).right = (exampleMem.node 1).right := by
  obtain ⟨s', e, _, _, h3, _, h5, _, _, _, _, h10, h11, _, _⟩ :=
    C13_transplant_frame exampleMem exampleTree 0 (some 2) exampleMem_owns (by decide)
  exact ⟨exampleMem_owns, by decide, s', e, h3 1 rfl rfl, h5 2 rfl,
    h11, h10 1 (by decide)⟩

/-- C13 as worded fails when `new` is the parent of `old`: in the three-node tree with
root `1` and children `0` and `2`, `Transplant(0, 1, root)` returns, and the `left` field
of `new` = `1`, which held `0`, holds `1` afterwards (it is the slot that held `old`), and
the `parent` field of `new` is `1` as well; so the `left` field of `new` is not as
before. -/
theorem C13_counterexample :
    Owns exampleMem exampleTree ∧ 0 ∈ exampleTree.ids ∧
    (exampleMem.node 0).parent = some 1 ∧ (exampleMem.node 1).left = some 0 ∧
    ∃ s', Transplant (some 0) (some 1) exampleMem = some s' ∧
      (s'.node 1).left = some 1 ∧ (s'.node 1).parent = some 1 ∧
      (s'.node 1).left ≠ (exampleMem.node 1).left :=
  ⟨exampleMem_owns, by decide, rfl, rfl, _, rfl, rfl, rfl, by decide⟩

theorem mem_ext (s q : Mem) (h1 : ∀ a, s.node a = q.node a) (h2 : s.rb_node = q.rb_node) :
    s = q := by
  cases s; cases q
  simp only [Mem.mk.injEq]
  exact ⟨funext h1, h2⟩

theorem mirror_mirror (s : Mem) : s.mirror.mirror = s := by
  apply mem_ext <;> simp [Mem.mirror]

theorem mirror_setLeft (s : Mem) (a : Nat) (v : Option Nat) :
    (s.setLeft a v).mirror = s.mirror.setRight a v := by
  apply mem_ext
  · intro b
    by_cases h : b = a <;> simp [Mem.mirror, Mem.setLeft, Mem.setRight, Function.update_apply, h]
  · rfl

theorem mirror_setRight (s : Mem) (a : Nat) (v : Option Nat) :
    (s.setRight a v).mirror = s.mirror.setLeft a v := by
  apply mem_ext
  · intro b
    by_cases h : b = a <;> simp [Mem.mirror, Mem.setLeft, Mem.setRight, Function.update_apply, h]
  · rfl

theorem mirror_setParent (s : Mem) (a : Nat) (v : Option Nat) :
    (s.setParent a v).mirror = s.mirror.setParent a v := by
  apply mem_ext
  · intro b
    by_cases h : b = a <;> simp [Mem.mirror, Mem.setParent, Function.update_apply, h]
  · rfl

theorem mirror_store (s : Mem) (lk : Link) (v : Option Nat) :
    (s.store lk v).mirror = s.mirror.store
      (match lk with
        | Link.root => Link.root
        | Link.left p => Link.right p
        | Link.right p => Link.left p) v := by
  cases lk
  · rfl
  · exact mirror_setLeft s _ v
  · exact mirror_setRight s _ v

/-- `Transplant` commutes with the mirror image on a well-formed tree. -/
theorem Transplant_mirror {s : Mem} {t : Tree} {o : Nat} (new : Option Nat)
    (hown : Owns s t) (ho : o ∈ t.ids) :
    Transplant (some o) new s.mirror = (Transplant (some o) new s).map Mem.mirror := by
  obtain ⟨lk, hlk, e⟩ := Transplant_exact new hown ho
  rw [e]
  rcases hlk with ⟨rfl, h1, h2⟩ | ⟨p, hpo, hr, hp, ⟨rfl, h1, h2⟩ | ⟨rfl, h1, h2⟩⟩
  · cases new with
    | none => simp [Transplant, Mem.mirror, h1, h2, Mem.store]
    | some n =>
      simp only [Option.map_some', mirror_setParent, mirror_store]
      simp [Transplant, Mem.mirror, h1, h2, Mem.store]
  · cases new with
    | none =>
      simp only [Option.map_some', mirror_store]
      simp [Transplant, Mem.mirror, hr, Ne.symm hr, hp, h1, h2, Mem.store]
    | some n =>
      simp only [Option.map_some', mirror_setParent, mirror_store]
      simp [Transplant, Mem.mirror, hr, Ne.symm hr, hp, h1, h2, Mem.store, Mem.setRight,
        Function.update_apply, Ne.symm hpo]
  · cases new with
    | none =>
      simp only [Option.map_some', mirror_store]
      simp [Transplant, Mem.mirror, hr, Ne.symm hr, hp, h1, h2, Mem.store]
    | some n =>
      simp only [Option.map_some', mirror_setParent, mirror_store]
      simp [Transplant, Mem.mirror, hr, Ne.symm hr, hp, h1, h2, Mem.store, Mem.setLeft,
        Function.update_apply, Ne.symm hpo]

theorem mirror_node_left (s : Mem) (a : Nat) : (s.mirror.node a).left = (s.node a).right := rfl

theorem mirror_node_right (s : Mem) (a : Nat) : (s.mirror.node a).right = (s.node a).left := rfl

theorem RotateLeft_mirror {s : Mem} {t : Tree} {x : Nat} (hown : Owns s t) (hx : x ∈ t.ids) :
    RotateLeft (some x) s.mirror = (RotateRight (some x) s).map Mem.mirror := by
  simp only [RotateLeft, RotateRight, mirror_node_left, mirror_node_right]
  cases hl : (s.node x).left with
  | none => rfl
  | some y =>
    simp only [Transplant_mirror (some y) hown hx]
    cases hT : Transplant (some x) (some y) s with
    | none => rfl
    | some s1 =>
      simp only [Option.map_some']
      cases hb : (s.node y).right with
      | none =>
        simp only [Option.map_some', mirror_setLeft, mirror_setRight, mirror_setParent]
      | some b =>
        simp only [Option.map_some', mirror_setLeft, mirror_setRight, mirror_setParent]

theorem RotateRight_mirror {s : Mem} {t : Tree} {x : Nat} (hown : Owns s t) (hx : x ∈ t.ids) :
    RotateRight (some x) s.mirror = (RotateLeft (some x) s).map Mem.mirror := by
  simp only [RotateLeft, RotateRight, mirror_node_left, mirror_node_right]
  cases hl : (s.node x).right with
  | none => rfl
  | some y =>
    simp only [Transplant_mirror (some y) hown hx]
    cases hT : Transplant (some x) (some y) s with
    | none => rfl
    | some s1 =>
      simp only [Option.map_some']
      cases hb : (s.node y).left with
      | none =>
        simp only [Option.map_some', mirror_setLeft, mirror_setRight, mirror_setParent]
      | some b =>
        simp only [Option.map_some', mirror_setLeft, mirror_setRight, mirror_setParent]

/-- C14: on a well-formed tree, `RotateRight(x)` for a node `x` whose left child is present
returns, and its result is the mirror image of the result of `RotateLeft(x)` on the mirror
image of the memory, where the mirror image exchanges the `left` and `right` fields of
every record and keeps parents and colours. -/
theorem C14_rotateRight_is_mirror (s : Mem) (t : Tree) (x : Nat) (hown : Owns s t)
    (hx : x ∈ t.ids) (hl : (s.node x).left ≠ none) :
    ∃ s', RotateRight (some x) s = some s' ∧
      (RotateLeft (some x) s.mirror).map Mem.mirror = some s' ∧
      RotateLeft (some x) s.mirror = some s'.mirror := by
  obtain ⟨k, c, l, r, rfl⟩ := mem_ids_plug hx
  have hN := read_focus hown
  cases l with
  | nil => simp [hN] at hl
  | node cy a y b =>
    obtain ⟨s', e, _⟩ := RotateRight_plug hown
    have hm := RotateLeft_mirror hown hx
    rw [e] at hm
    refine ⟨s', e, ?_, hm⟩
    rw [hm]
    simp [mirror_mirror]

theorem C14_rotateRight_is_mirror_witness :
    Owns exampleMem exampleTree ∧ 1 ∈ exampleTree.ids ∧ (exampleMem.node 1).left ≠ none ∧
      ∃ s', RotateRight (some 1) exampleMem = some s' ∧
        (RotateLeft (some 1) exampleMem.mirror).map Mem.mirror = some s' ∧
        RotateLeft (some 1) exampleMem.mirror = some s'.mirror :=
  ⟨exampleMem_owns, by decide, by decide,
    C14_rotateRight_is_mirror exampleMem exampleTree 1 exampleMem_owns (by decide)
      (by decide)⟩

theorem body_eq_casesLeft {node : Option Nat} {p b : Nat} {s : Mem}
    (hc : (node = none ∨ IsBlack s node = true) ∧ node ≠ s.rb_node)
    (ha1 : (s.node p).left = node) (ha2 : parentIs s node (some p) = true)
    (hsb : (s.node p).right = some b) (hblk : IsRed s (some b) = false) :
    FixupAfterRemoveBody (node, some p, s) = removeCasesLeft node p s := by
  simp only [IsRed_some] at hblk
  simp only [FixupAfterRemoveBody, hc.1, hc.2, ne_eq, not_false_eq_true, and_self, if_true, ha1, ha2, hsb, removeCasesLeft,
    IsRed_some, hblk]
  simp

theorem body_eq_casesRight {node : Option Nat} {p b : Nat} {s : Mem}
    (hc : (node = none ∨ IsBlack s node = true) ∧ node ≠ s.rb_node)
    (ha0 : node ≠ (s.node p).left)
    (ha1 : (s.node p).right = node) (ha2 : parentIs s node (some p) = true)
    (hsb : (s.node p).left = some b) (hblk : IsRed s (some b) = false) :
    FixupAfterRemoveBody (node, some p, s) = removeCasesRight node p s := by
  have ha0' : ¬ node = some b := by rw [← hsb]; exact ha0
  simp only [IsRed_some] at hblk
  simp only [FixupAfterRemoveBody, hc.1, hc.2, ne_eq, not_false_eq_true, and_self, if_true, ha0, ha0', ha1, ha2, hsb, removeCasesRight,
    IsRed_some, hblk]
  simp

theorem fallThrough_case1_left {node : Option Nat} {p sb : Nat} {s s1 : Mem}
    (hc : (node = none ∨ IsBlack s node = true) ∧ node ≠ s.rb_node)
    (ha1 : (s.node p).left = node) (ha2 : parentIs s node (some p) = true)
    (hsb : (s.node p).right = some sb) (hred : IsRed s (some sb) = true)
    (hpb : IsBlack s (some p) = true) (e : RotateLeft (some p) s = some s1) :
    FixupAfterRemoveBodyFallThrough (node, some p, s) =
      removeCasesLeft node p ((s1.setColor p Color.kRed).setColor sb Color.kBlack) := by
  simp only [IsRed_some] at hred
  simp only [FixupAfterRemoveBodyFallThrough, hc.1, hc.2, ne_eq, not_false_eq_true, and_self, if_true, ha1, ha2, hsb,
    IsRed_some, hred, hpb, e]
  simp

theorem fallThrough_case1_right {node : Option Nat} {p sb : Nat} {s s1 : Mem}
    (hc : (node = none ∨ IsBlack s node = true) ∧ node ≠ s.rb_node)
    (ha0 : node ≠ (s.node p).left)
    (ha1 : (s.node p).right = node) (ha2 : parentIs s node (some p) = true)
    (hsb : (s.node p).left = some sb) (hred : IsRed s (some sb) = true)
    (hpb : IsBlack s (some p) = true) (e : RotateRight (some p) s = some s1) :
    FixupAfterRemoveBodyFallThrough (node, some p, s) =
      removeCasesRight node p ((s1.setColor p Color.kRed).setColor sb Color.kBlack) := by
  have ha0' : ¬ node = some sb := by rw [← hsb]; exact ha0
  simp only [IsRed_some] at hred
  simp only [FixupAfterRemoveBodyFallThrough, hc.1, hc.2, ne_eq, not_false_eq_true, and_self, if_true, ha0, ha0', ha1, ha2, hsb,
    IsRed_some, hred, hpb, e]
  simp

theorem case1_left {s : Mem} {k : Path} {t sl sr : Tree} {pc : Color} {p y : Nat}
    (hown : Owns s (plug (Frame.L pc p (Tree.node Color.kRed sl y sr) :: k) t))
    (hinv : DelInv (Frame.L pc p (Tree.node Color.kRed sl y sr) :: k) t)
    (ht : t.rootColor ≠ Color.kRed) :
    ∃ s1, RotateLeft (some p) s = some s1 ∧
      FixupAfterRemoveBody (t.ptr, some p, s) = some (LoopStep.next (t.ptr, some p,
        (s1.setColor p Color.kRed).setColor y Color.kBlack)) ∧
      removeLoopCond (t.ptr, some p, (s1.setColor p Color.kRed).setColor y Color.kBlack)
        = true ∧
      (∃ sb, siblingOf (t.ptr, some p, (s1.setColor p Color.kRed).setColor y Color.kBlack)
        = some sb ∧
        IsRed ((s1.setColor p Color.kRed).setColor y Color.kBlack) (some sb) = false) ∧
      t.ptr = (((s1.setColor p Color.kRed).setColor y Color.kBlack).node p).left ∧
      FixupAfterRemoveBody (t.ptr, some p, (s1.setColor p Color.kRed).setColor y Color.kBlack)
        = removeCasesLeft t.ptr p ((s1.setColor p Color.kRed).setColor y Color.kBlack) ∧
      FixupAfterRemoveBodyFallThrough (t.ptr, some p, s) =
        FixupAfterRemoveBody (t.ptr, some p,
          (s1.setColor p Color.kRed).setColor y Color.kBlack) := by
  obtain ⟨h1, h2, h3⟩ := hinv
  simp only [PathOK, rootColor_node, bh_node, noRedRed_node, bal_node, reduceCtorEq,
    if_false, Nat.add_zero] at h3
  have hpc : pc = Color.kBlack := by
    rcases color_cases pc with e | e
    · exact e
    · exact absurd (h3.1 e).2 (by simp)
  subst hpc
  obtain ⟨_, ⟨hsr, hcl, hcr⟩, hb, hbh, _⟩ := h3
  have hcl := (hsr trivial).1
  cases sl with
  | nil => simp at hbh
  | node c2 sll z slr =>
  simp only [rootColor_node] at hcl
  subst hcl
  have hT := rep_focus hown
  have hroot := ptr_ne_root hown
  have hpc0 := parent_check hT
  have hlc := (loop_cond hT).mpr ht
  simp only [cpar_L] at hpc0
  have hP := read_focus (k := k) hown
  have hY := read_focus (k := Frame.R Color.kBlack t p :: k) hown
  obtain ⟨s1, e1, o1⟩ := RotateLeft_plug (k := k) hown
  have o2 := setColor_plug (k := Frame.L Color.kRed y sr :: k) o1 Color.kRed
  have o3 := setColor_plug (k := k) o2 Color.kBlack
  have o3' : Owns ((s1.setColor p Color.kRed).setColor y Color.kBlack)
      (plug (Frame.L Color.kRed p (Tree.node Color.kBlack sll z slr) ::
        Frame.L Color.kBlack y sr :: k) t) := o3
  have hT3 := rep_focus o3'
  have hroot3 := ptr_ne_root o3'
  have hpc3 := parent_check hT3
  have hlc3 := (loop_cond hT3).mpr ht
  simp only [cpar_L] at hpc3
  have hP3 := read_focus (k := Frame.L Color.kBlack y sr :: k) o3'
  have hZ3 := read_focus (k := Frame.R Color.kRed t p :: Frame.L Color.kBlack y sr :: k) o3'
  have hbody := body_eq_casesLeft (b := z) ⟨hlc3, hroot3⟩ (by rw [hP3]) hpc3
    (by rw [hP3]; rfl) (by rw [IsRed_some, hZ3]; simp)
  refine ⟨s1, e1, ?_, ?_, ⟨z, ?_, ?_⟩, ?_, hbody, ?_⟩
  · simp only [FixupAfterRemoveBody, hlc, hroot, ne_eq, not_false_eq_true, and_self, if_true]
    simp [hP, hY, hpc0, e1]
  · simp only [removeLoopCond, hlc3, hroot3, ne_eq, not_false_eq_true, and_self,
      decide_True]
  · simp only [siblingOf, hP3, if_true, ptr_node]
  · rw [IsRed_some, hZ3]; simp
  · rw [hP3]
  · rw [hbody]
    exact fallThrough_case1_left ⟨hlc, hroot⟩ (by rw [hP]) hpc0 (by rw [hP]; rfl)
      (by rw [IsRed_some, hY]; simp) (by rw [IsBlack_some, hP]; simp) e1

theorem case1_right {s : Mem} {k : Path} {t sl sr : Tree} {pc : Color} {p y : Nat}
    (hown : Owns s (plug (Frame.R pc (Tree.node Color.kRed sl y sr) p :: k) t))
    (hinv : DelInv (Frame.R pc (Tree.node Color.kRed sl y sr) p :: k) t)
    (ht : t.rootColor ≠ Color.kRed) :
    ∃ s1, RotateRight (some p) s = some s1 ∧
      t.ptr ≠ (s.node p).left ∧
      FixupAfterRemoveBody (t.ptr, some p, s) = some (LoopStep.next (t.ptr, some p,
        (s1.setColor p Color.kRed).setColor y Color.kBlack)) ∧
      removeLoopCond (t.ptr, some p, (s1.setColor p Color.kRed).setColor y Color.kBlack)
        = true ∧
      (∃ sb, siblingOf (t.ptr, some p, (s1.setColor p Color.kRed).setColor y Color.kBlack)
        = some sb ∧
        IsRed ((s1.setColor p Color.kRed).setColor y Color.kBlack) (some sb) = false) ∧
      t.ptr ≠ (((s1.setColor p Color.kRed).setColor y Color.kBlack).node p).left ∧
      FixupAfterRemoveBody (t.ptr, some p, (s1.setColor p Color.kRed).setColor y Color.kBlack)
        = removeCasesRight t.ptr p ((s1.setColor p Color.kRed).setColor y Color.kBlack) ∧
      FixupAfterRemoveBodyFallThrough (t.ptr, some p, s) =
        FixupAfterRemoveBody (t.ptr, some p,
          (s1.setColor p Color.kRed).setColor y Color.kBlack) := by
  obtain ⟨h1, h2, h3⟩ := hinv
  simp only [PathOK, rootColor_node, bh_node, noRedRed_node, bal_node, reduceCtorEq,
    if_false, Nat.add_zero] at h3
  have hpc : pc = Color.kBlack := by
    rcases color_cases pc with e | e
    · exact e
    · exact absurd (h3.1 e).2 (by simp)
  subst hpc
  obtain ⟨_, ⟨hsr, hcl, hcr⟩, hb, hbh, _⟩ := h3
  have hcr := (hsr trivial).2
  cases sr with
  | nil => simp at hb; omega
  | node c2 srl z srr =>
  simp only [rootColor_node] at hcr
  subst hcr
  have hT := rep_focus hown
  have hroot := ptr_ne_root hown
  have hpc0 := parent_check hT
  have hlc := (loop_cond hT).mpr ht
  simp only [cpar_R] at hpc0
  have hnd := nodup_focus hown
  have hty : t.ptr ≠ some y := by
    intro e
    obtain ⟨c1, c2⟩ := cnt hnd (ptr_mem_ids e)
    simp only [ids_node, before, after, List.count_append, List.count_cons,
      List.count_nil, beq_self_eq_true, if_true] at c1 c2
    omega
  have htz : t.ptr ≠ some z := by
    intro e
    obtain ⟨c1, c2⟩ := cnt hnd (ptr_mem_ids e)
    simp only [ids_node, before, after, List.count_append, List.count_cons,
      List.count_nil, beq_self_eq_true, if_true] at c1 c2
    omega
  have hP := read_focus (k := k) hown
  have hY := read_focus (k := Frame.L Color.kBlack p t :: k) hown
  obtain ⟨s1, e1, o1⟩ := RotateRight_plug (k := k) hown
  have o2 := setColor_plug (k := Frame.R Color.kRed sl y :: k) o1 Color.kRed
  have o3 := setColor_plug (k := k) o2 Color.kBlack
  have o3' : Owns ((s1.setColor p Color.kRed).setColor y Color.kBlack)
      (plug (Frame.R Color.kRed (Tree.node Color.kBlack srl z srr) p ::
        Frame.R Color.kBlack sl y :: k) t) := o3
  have hT3 := rep_focus o3'
  have hroot3 := ptr_ne_root o3'
  have hpc3 := parent_check hT3
  have hlc3 := (loop_cond hT3).mpr ht
  simp only [cpar_R] at hpc3
  have hP3 := read_focus (k := Frame.R Color.kBlack sl y :: k) o3'
  have hZ3 := read_focus (k := Frame.L Color.kRed p t :: Frame.R Color.kBlack sl y :: k) o3'
  have hbody := body_eq_casesRight (b := z) ⟨hlc3, hroot3⟩ (by rw [hP3]; exact htz)
    (by rw [hP3]) hpc3 (by rw [hP3]; rfl) (by rw [IsRed_some, hZ3]; simp)
  refine ⟨s1, e1, by rw [hP]; exact hty, ?_, ?_, ⟨z, ?_, ?_⟩, by rw [hP3]; exact htz,
    hbody, ?_⟩
  · simp only [FixupAfterRemoveBody, hlc, hroot, ne_eq, not_false_eq_true, and_self, if_true]
    simp [hP, hY, hpc0, e1, hty]
  · simp only [removeLoopCond, hlc3, hroot3, ne_eq, not_false_eq_true, and_self,
      decide_True]
  · simp only [siblingOf, hP3, ptr_node, htz, if_false]
  · rw [IsRed_some, hZ3]; simp
  · rw [hbody]
    exact fallThrough_case1_right ⟨hlc, hroot⟩ (by rw [hP]; exact hty) (by rw [hP]) hpc0
      (by rw [hP]; rfl) (by rw [IsRed_some, hY]; simp) (by rw [IsBlack_some, hP]; simp) e1

theorem siblingMem_owns (sc : Color) (lc rc : Option Color) :
    Owns (siblingMem sc lc rc) (siblingTree sc lc rc) := by
  cases lc <;> cases rc <;>
    exact ⟨rfl, by simp [siblingTree, leafTree, siblingMem, Tree.Rep], by
      simp [siblingTree, leafTree]⟩

/-- C15, as the code has it: in Case 1 of `FixupAfterRemove` (the sibling is Red) one
execution of the loop body only rotates at `node_parent` toward the side of `node` and
recolours `node_parent` Red and the old sibling Black; `node` and `node_parent` are kept
and the loop condition, evaluated again, still holds.  The new sibling is Black, and it
is the next execution of the body that applies Case 2, 3 or 4 to it: the Case 1
transformation followed by the applicable Case 2, 3 or 4 transformation is two executions
of the loop body. -/
theorem C15_case1_ends_iteration (s : Mem) (f : Frame) (k : Path) (t : Tree)
    (hown : Owns s (plug (f :: k) t)) (hinv : DelInv (f :: k) t)
    (ht : t.rootColor ≠ Color.kRed)
    (hred : IsRed s (siblingOf (t.ptr, some f.addr, s)) = true) :
    ∃ s1 s3,
      (if t.ptr = (s.node f.addr).left then RotateLeft (some f.addr) s
        else RotateRight (some f.addr) s) = some s1 ∧
      (SetColor (some f.addr) Color.kRed s1).bind
        (SetColor (siblingOf (t.ptr, some f.addr, s)) Color.kBlack) = some s3 ∧
      FixupAfterRemoveBody (t.ptr, some f.addr, s) =
        some (LoopStep.next (t.ptr, some f.addr, s3)) ∧
      removeLoopCond (t.ptr, some f.addr, s3) = true ∧
      (∃ sb, siblingOf (t.ptr, some f.addr, s3) = some sb ∧ IsRed s3 (some sb) = false) ∧
      FixupAfterRemoveBody (t.ptr, some f.addr, s3) =
        (if t.ptr = (s3.node f.addr).left then removeCasesLeft t.ptr f.addr s3
          else removeCasesRight t.ptr f.addr s3) ∧
      FixupAfterRemoveBodyFallThrough (t.ptr, some f.addr, s) =
        FixupAfterRemoveBody (t.ptr, some f.addr, s3) := by
  cases f with
  | L pc p sib =>
    have hP := read_focus (k := k) hown
    have hS := isRed_ptr (rep_focus (k := Frame.R pc t p :: k) (t := sib) hown)
    simp only [Frame.addr, siblingOf, hP, if_true] at hred ⊢
    rw [hS] at hred
    cases sib with
    | nil => simp at hred
    | node sc sl y sr =>
      simp only [rootColor_node, decide_eq_true_eq] at hred
      subst hred
      obtain ⟨s1, e1, e2, e3, e4, e5, e6, e7⟩ := case1_left hown hinv ht
      refine ⟨s1, _, e1, by simp [SetColor], e2, e3, ?_, ?_, e7⟩
      · simpa only [siblingOf] using e4
      · rw [if_pos e5]; exact e6
  | R pc sib p =>
    have hP := read_focus (k := k) hown
    have hS := isRed_ptr (rep_focus (k := Frame.L pc p t :: k) (t := sib) hown)
    cases sib with
    | nil =>
      obtain ⟨_, _, h3⟩ := hinv
      simp [PathOK] at h3
    | node sc sl y sr =>
      have hnd := nodup_focus hown
      have hty : t.ptr ≠ some y := by
        intro e
        obtain ⟨c1, c2⟩ := cnt hnd (ptr_mem_ids e)
        simp only [ids_node, before, after, List.count_append, List.count_cons,
          List.count_nil, beq_self_eq_true, if_true] at c1 c2
        omega
      simp only [Frame.addr, siblingOf, hP, ptr_node, hty, if_false] at hred ⊢
      simp only [ptr_node] at hS
      rw [hS] at hred
      simp only [rootColor_node, decide_eq_true_eq] at hred
      subst hred
      obtain ⟨s1, e1, _, e2, e3, e4, e5, e6, e7⟩ := case1_right hown hinv ht
      refine ⟨s1, _, e1, by simp [SetColor], e2, e3, ?_, ?_, e7⟩
      · simpa only [siblingOf] using e4
      · rw [if_neg e5]; exact e6

theorem C15_case1_ends_iteration_witness :
    Owns (siblingMem Color.kRed (some Color.kBlack) (some Color.kBlack))
      (plug [Frame.L Color.kBlack 0 (Tree.node Color.kRed
        (Tree.node Color.kBlack Tree.nil 2 Tree.nil) 1
        (Tree.node Color.kBlack Tree.nil 3 Tree.nil))] Tree.nil) ∧
    DelInv [Frame.L Color.kBlack 0 (Tree.node Color.kRed
        (Tree.node Color.kBlack Tree.nil 2 Tree.nil) 1
        (Tree.node Color.kBlack Tree.nil 3 Tree.nil))] Tree.nil ∧
    ∃ s1 s3,
      (if Tree.nil.ptr = ((siblingMem Color.kRed (some Color.kBlack)
          (some Color.kBlack)).node 0).left
        then RotateLeft (some 0) (siblingMem Color.kRed (some Color.kBlack) (some Color.kBlack))
        else RotateRight (some 0)
          (siblingMem Color.kRed (some Color.kBlack) (some Color.kBlack))) = some s1 ∧
      (SetColor (some 0) Color.kRed s1).bind
        (SetColor (siblingOf (Tree.nil.ptr, some 0,
          siblingMem Color.kRed (some Color.kBlack) (some Color.kBlack))) Color.kBlack)
        = some s3 ∧
      FixupAfterRemoveBody (Tree.nil.ptr, some 0,
          siblingMem Color.kRed (some Color.kBlack) (some Color.kBlack)) =
        some (LoopStep.next (Tree.nil.ptr, some 0, s3)) ∧
      removeLoopCond (Tree.nil.ptr, some 0, s3) = true ∧
      (∃ sb, siblingOf (Tree.nil.ptr, some 0, s3) = some sb ∧ IsRed s3 (some sb) = false) ∧
      FixupAfterRemoveBody (Tree.nil.ptr, some 0, s3) =
        (if Tree.nil.ptr = (s3.node 0).left then removeCasesLeft Tree.nil.ptr 0 s3
          else removeCasesRight Tree.nil.ptr 0 s3) ∧
      FixupAfterRemoveBodyFallThrough (Tree.nil.ptr, some 0,
          siblingMem Color.kRed (some Color.kBlack) (some Color.kBlack)) =
        FixupAfterRemoveBody (Tree.nil.ptr, some 0, s3) :=
  ⟨siblingMem_owns _ _ _, by simp [DelInv, PathOK],
    C15_case1_ends_iteration (siblingMem Color.kRed (some Color.kBlack) (some Color.kBlack))
      (Frame.L Color.kBlack 0 (Tree.node Color.kRed
        (Tree.node Color.kBlack Tree.nil 2 Tree.nil) 1
        (Tree.node Color.kBlack Tree.nil 3 Tree.nil))) [] Tree.nil
      (siblingMem_owns _ _ _) (by simp [DelInv, PathOK]) (by simp) rfl⟩

/-- C15, refuted as stated: on the state with `node = NULL` below the Black root `0`
whose Red sibling `1` has the Black leaves `2` and `3`, one execution of the loop body
performs Case 1 only and keeps `node`, whereas Case 1 followed by the applicable case
(Case 2) in one iteration would move `node` up to `0`. -/
theorem C15_counterexample :
    Owns (siblingMem Color.kRed (some Color.kBlack) (some Color.kBlack))
      (siblingTree Color.kRed (some Color.kBlack) (some Color.kBlack)) ∧
    IsRed (siblingMem Color.kRed (some Color.kBlack) (some Color.kBlack))
      (siblingOf (none, some 0,
        siblingMem Color.kRed (some Color.kBlack) (some Color.kBlack))) = true ∧
    (∃ s3, FixupAfterRemoveBody (none, some 0,
        siblingMem Color.kRed (some Color.kBlack) (some Color.kBlack)) =
      some (LoopStep.next (none, some 0, s3))) ∧
    (∃ s4, FixupAfterRemoveBodyFallThrough (none, some 0,
        siblingMem Color.kRed (some Color.kBlack) (some Color.kBlack)) =
      some (LoopStep.next (some 0, some 1, s4))) ∧
    FixupAfterRemoveBody (none, some 0,
        siblingMem Color.kRed (some Color.kBlack) (some Color.kBlack)) ≠
      FixupAfterRemoveBodyFallThrough (none, some 0,
        siblingMem Color.kRed (some Color.kBlack) (some Color.kBlack)) := by
  have h1 : ∃ s3, FixupAfterRemoveBody (none, some 0,
        siblingMem Color.kRed (some Color.kBlack) (some Color.kBlack)) =
      some (LoopStep.next (none, some 0, s3)) := ⟨_, rfl⟩
  have h2 : ∃ s4, FixupAfterRemoveBodyFallThrough (none, some 0,
        siblingMem Color.kRed (some Color.kBlack) (some Color.kBlack)) =
      some (LoopStep.next (some 0, some 1, s4)) := ⟨_, rfl⟩
  refine ⟨siblingMem_owns _ _ _, rfl, h1, h2, ?_⟩
  obtain ⟨s3, e3⟩ := h1
  obtain ⟨s4, e4⟩ := h2
  rw [e3, e4]
  intro h
  simp at h

/-- C16, as the code has it: when the sibling is Black, its child nearer to `node` is
Red and its child on the far side is Black or absent, the iteration applies Case 3: the
sibling becomes Red, its near child Black, the tree is rotated at the sibling away from
the side of `node`, and the loop continues with the same `node` and `node_parent`. -/
theorem C16_case3_near_red_far_black (s : Mem) (k : Path) (t : Tree) (pc : Color)
    (p y z : Nat) (a b c : Tree) :
    (Owns s (plug (Frame.L pc p (Tree.node Color.kBlack (Tree.node Color.kRed a z b) y c)
        :: k) t) → t.rootColor ≠ Color.kRed → c.rootColor = Color.kBlack →
      ∃ s', FixupAfterRemoveBody (t.ptr, some p, s) =
          some (LoopStep.next (t.ptr, some p, s')) ∧
        Owns s' (plug (Frame.L pc p (Tree.node Color.kBlack a z
          (Tree.node Color.kRed b y c)) :: k) t)) ∧
    (Owns s (plug (Frame.R pc (Tree.node Color.kBlack a y (Tree.node Color.kRed b z c)) p
        :: k) t) → t.rootColor ≠ Color.kRed → a.rootColor = Color.kBlack →
      ∃ s', FixupAfterRemoveBody (t.ptr, some p, s) =
          some (LoopStep.next (t.ptr, some p, s')) ∧
        Owns s' (plug (Frame.R pc (Tree.node Color.kBlack
          (Tree.node Color.kRed a y b) z c) p :: k) t)) := by
  constructor
  · intro hown ht hc
    have h := delBody_refines hown
    simp only [delBody, ht, hc, if_false, reduceCtorEq, rootColor_node, ne_eq,
      not_true_eq_false, false_and, if_true, cpar_L] at h
    exact h
  · intro hown ht ha
    have h := delBody_refines hown
    simp only [delBody, ht, ha, if_false, reduceCtorEq, rootColor_node, ne_eq,
      not_true_eq_false, and_false, if_true, cpar_R] at h
    exact h

theorem C16_case3_near_red_far_black_witness :
    Owns (siblingMem Color.kBlack (some Color.kRed) none)
      (plug (Frame.L Color.kBlack 0 (Tree.node Color.kBlack
        (Tree.node Color.kRed Tree.nil 2 Tree.nil) 1 Tree.nil) :: []) Tree.nil) ∧
    ∃ s', FixupAfterRemoveBody (Tree.nil.ptr, some 0,
        siblingMem Color.kBlack (some Color.kRed) none) =
        some (LoopStep.next (Tree.nil.ptr, some 0, s')) ∧
      Owns s' (plug (Frame.L Color.kBlack 0 (Tree.node Color.kBlack Tree.nil 2
        (Tree.node Color.kRed Tree.nil 1 Tree.nil)) :: []) Tree.nil) :=
  ⟨siblingMem_owns _ _ _,
    (C16_case3_near_red_far_black (siblingMem Color.kBlack (some Color.kRed) none) []
      Tree.nil Color.kBlack 0 1 2 Tree.nil Tree.nil Tree.nil).1 (siblingMem_owns _ _ _)
      (by simp) rfl⟩

/-- C16, refuted as stated: below the Black root `0`, with `node = NULL` on the left, the
Black sibling `1` has no near (left) child and the Red far (right) child `3`.  The
iteration leaves the loop (Case 4 of the code) and the sibling stays Black; it does not
recolour the sibling Red and continue. -/
theorem C16_counterexample :
    Owns (siblingMem Color.kBlack none (some Color.kRed))
      (siblingTree Color.kBlack none (some Color.kRed)) ∧
    siblingOf (none, some 0, siblingMem Color.kBlack none (some Color.kRed)) = some 1 ∧
    IsBlack (siblingMem Color.kBlack none (some Color.kRed)) (some 1) = true ∧
    IsBlack (siblingMem Color.kBlack none (some Color.kRed))
      ((siblingMem Color.kBlack none (some Color.kRed)).node 1).left = true ∧
    IsRed (siblingMem Color.kBlack none (some Color.kRed))
      ((siblingMem Color.kBlack none (some Color.kRed)).node 1).right = true ∧
    (∃ s', FixupAfterRemoveBody (none, some 0, siblingMem Color.kBlack none (some Color.kRed))
        = some (LoopStep.done (none, some 0, s')) ∧
      (s'.node 1).color = Color.kBlack ∧ s'.rb_node = some 1) ∧
    ¬ ∃ st, FixupAfterRemoveBody (none, some 0, siblingMem Color.kBlack none (some Color.kRed))
        = some (LoopStep.next st) := by
  have h : ∃ s', FixupAfterRemoveBody (none, some 0,
        siblingMem Color.kBlack none (some Color.kRed))
        = some (LoopStep.done (none, some 0, s')) ∧
      (s'.node 1).color = Color.kBlack ∧ s'.rb_node = some 1 := ⟨_, rfl, rfl, rfl⟩
  refine ⟨siblingMem_owns _ _ _, rfl, rfl, rfl, rfl, h, ?_⟩
  obtain ⟨s', e, _⟩ := h
  rw [e]
  simp

/-- C17, as the code has it: when the sibling is Black and its child on the far side from
`node` is Red, the iteration applies Case 4: the sibling takes the former colour of
`node_parent`, `node_parent` and that far child become Black, the tree is rotated at
`node_parent` toward the side of `node`, and the loop is left. -/
theorem C17_case4_far_red (s : Mem) (k : Path) (t : Tree) (pc : Color)
    (p y w : Nat) (a b c : Tree) :
    (Owns s (plug (Frame.L pc p (Tree.node Color.kBlack a y (Tree.node Color.kRed b w c))
        :: k) t) → t.rootColor ≠ Color.kRed →
      ∃ s', FixupAfterRemoveBody (t.ptr, some p, s) =
          some (LoopStep.done (t.ptr, some p, s')) ∧
        Owns s' (plug (Frame.L Color.kBlack p a ::
          Frame.L pc y (Tree.node Color.kBlack b w c) :: k) t)) ∧
    (Owns s (plug (Frame.R pc (Tree.node Color.kBlack (Tree.node Color.kRed a w b) y c) p
        :: k) t) → t.rootColor ≠ Color.kRed →
      ∃ s', FixupAfterRemoveBody (t.ptr, some p, s) =
          some (LoopStep.done (t.ptr, some p, s')) ∧
        Owns s' (plug (Frame.R Color.kBlack c p ::
          Frame.R pc (Tree.node Color.kBlack a w b) y :: k) t)) := by
  constructor
  · intro hown ht
    have h := delBody_refines hown
    simp only [delBody, ht, if_false, reduceCtorEq, rootColor_node, ne_eq,
      not_true_eq_false, and_false, if_true, cpar_L] at h
    exact h
  · intro hown ht
    have h := delBody_refines hown
    simp only [delBody, ht, if_false, reduceCtorEq, rootColor_node, ne_eq,
      not_true_eq_false, false_and, if_true, cpar_R] at h
    exact h

theorem C17_case4_far_red_witness :
    Owns (siblingMem Color.kBlack none (some Color.kRed))
      (plug (Frame.L Color.kBlack 0 (Tree.node Color.kBlack Tree.nil 1
        (Tree.node Color.kRed Tree.nil 3 Tree.nil)) :: []) Tree.nil) ∧
    ∃ s', FixupAfterRemoveBody (Tree.nil.ptr, some 0,
        siblingMem Color.kBlack none (some Color.kRed)) =
        some (LoopStep.done (Tree.nil.ptr, some 0, s')) ∧
      Owns s' (plug (Frame.L Color.kBlack 0 Tree.nil ::
        Frame.L Color.kBlack 1 (Tree.node Color.kBlack Tree.nil 3 Tree.nil) :: []) Tree.nil) :=
  ⟨siblingMem_owns _ _ _,
    (C17_case4_far_red (siblingMem Color.kBlack none (some Color.kRed)) []
      Tree.nil Color.kBlack 0 1 3 Tree.nil Tree.nil Tree.nil).1 (siblingMem_owns _ _ _)
      (by simp)⟩

/-- C17, refuted as stated: below the Black root `0`, with `node = NULL` on the left, the
Black sibling `1` has the Red near (left) child `2` and no far child.  The iteration does
not leave the loop: it applies Case 3 of the code, after which the sibling is Red and `0`
is still the root. -/
theorem C17_counterexample :
    Owns (siblingMem Color.kBlack (some Color.kRed) none)
      (siblingTree Color.kBlack (some Color.kRed) none) ∧
    siblingOf (none, some 0, siblingMem Color.kBlack (some Color.kRed) none) = some 1 ∧
    IsBlack (siblingMem Color.kBlack (some Color.kRed) none) (some 1) = true ∧
    IsRed (siblingMem Color.kBlack (some Color.kRed) none)
      ((siblingMem Color.kBlack (some Color.kRed) none).node 1).left = true ∧
    (∃ s', FixupAfterRemoveBody (none, some 0, siblingMem Color.kBlack (some Color.kRed) none)
        = some (LoopStep.next (none, some 0, s')) ∧
      (s'.node 1).color = Color.kRed ∧ s'.rb_node = some 0 ∧
      (s'.node 0).right = some 2) ∧
    ¬ ∃ st, FixupAfterRemoveBody (none, some 0, siblingMem Color.kBlack (some Color.kRed) none)
        = some (LoopStep.done st) := by
  have h : ∃ s', FixupAfterRemoveBody (none, some 0,
        siblingMem Color.kBlack (some Color.kRed) none)
        = some (LoopStep.next (none, some 0, s')) ∧
      (s'.node 1).color = Color.kRed ∧ s'.rb_node = some 0 ∧
      (s'.node 0).right = some 2 := ⟨_, rfl, rfl, rfl, rfl⟩
  refine ⟨siblingMem_owns _ _ _, rfl, rfl, rfl, h, ?_⟩
  obtain ⟨s', e, _⟩ := h
  rw [e]
  simp

/-- C18, the validator at a tree that is not a red-black tree: the Black root `1` has
the Black left child `0` and no right child, so the paths to the absent children pass
2, 2 and 1 Black nodes; the tree is well-formed and its keys are in order, and
`IsLegalRbTree` returns `true`. -/
theorem C18_legal_on_unbalanced_tree :
    Owns lopsidedMem lopsidedTree ∧
    (lopsidedTree.ids.map Int.ofNat).Sorted (· ≤ ·) ∧
    IsLegalRbTree Int.ofNat 2 lopsidedMem = some true ∧
    lopsidedTree.pathBlacks = [2, 2, 1] ∧
    ¬ lopsidedTree.EqualBlackPaths ∧ ¬ lopsidedTree.IsRB := by
  have h1 : Owns lopsidedMem lopsidedTree :=
    ⟨rfl, by simp [lopsidedTree, lopsidedMem, Tree.Rep], by simp [lopsidedTree]⟩
  have h2 : ¬ lopsidedTree.Bal := by simp [lopsidedTree]
  refine ⟨h1, by decide, by decide, by decide, ?_, ?_⟩
  · rw [equalBlackPaths_iff_bal]; exact h2
  · rw [isRB_iff]; exact fun h => h2 h.2.2

theorem RemoveFromRbTree_eq_splice (fuel : Nat) (node : Option Nat) (s : Mem) :
    RemoveFromRbTree fuel node s = (RemoveSplice fuel node s).bind fun r =>
      rebalanceAfterRemove fuel r.1 r.2.1 r.2.2.1 r.2.2.2 := by
  cases node with
  | none => rfl
  | some n =>
    simp only [RemoveFromRbTree, RemoveSplice]
    split_ifs with h1 h2
    · cases Transplant (some n) (s.node n).right s <;> rfl
    · cases Transplant (some n) (s.node n).left s <;> rfl
    · cases (s.node n).right with
      | none => rfl
      | some r =>
        simp only []
        cases iterate (successorBody s) fuel r with
        | none => rfl
        | some y =>
          simp only [Option.some_bind, Option.bind_assoc]
          congr 1
          funext rs
          congr 1
          funext s4
          cases ((s4.setLeft y (s4.node n).left).node n).left <;> rfl

theorem RemoveSplice_refines {s : Mem} {k : Path} {c : Color} {l r : Tree} {n : Nat}
    {fuel : Nat} (h : Owns s (plug k (Tree.node c l n r))) (hfuel : r.height ≤ fuel) :
    ∃ rc k' t' s7, RemoveSplice fuel (some n) s = some (rc, t'.ptr, cpar k', s7) ∧
      Owns s7 (plug k' t') ∧ (∀ f, removeAt f k c l r = delRebalance f rc k' t') ∧
      ((l = Tree.nil ∧ rc = c ∧ k' = k ∧ t' = r) ∨
       (l ≠ Tree.nil ∧ r = Tree.nil ∧ rc = c ∧ k' = k ∧ t' = l) ∨
       (l ≠ Tree.nil ∧ r ≠ Tree.nil ∧ ∃ kr cy y yr, plug kr (Tree.node cy Tree.nil y yr) = r ∧
          before kr = [] ∧ rc = cy ∧ k' = kr ++ Frame.R c l y :: k ∧ t' = yr)) := by
  have hN := read_focus h
  have hA := (owns_plug _ _ _).mp h
  cases l with
  | nil =>
    obtain ⟨s1, e1, o1, _⟩ := @Transplant_sub _ _ _ _ _ r _ hA (Or.inr rfl)
    exact ⟨c, k, r, s1, by simp [RemoveSplice, hN, e1], (owns_plug _ _ _).mpr o1,
      fun f => rfl, Or.inl ⟨rfl, rfl, rfl, rfl⟩⟩
  | node cl ll l0 lr =>
    cases r with
    | nil =>
      obtain ⟨s1, e1, o1, _⟩ := @Transplant_sub _ _ _ _ _ (Tree.node cl ll l0 lr) _ hA
        (Or.inl rfl)
      simp only [ptr_node] at e1
      exact ⟨c, k, Tree.node cl ll l0 lr, s1, by simp [RemoveSplice, hN, e1],
        (owns_plug _ _ _).mpr o1, fun f => rfl,
        Or.inr (Or.inl ⟨by simp, rfl, rfl, rfl, rfl⟩)⟩
    | node cr rl r0 rr =>
      obtain ⟨⟨kr0, cy, y, yr⟩, hlm⟩ := leftmost_some cr rl r0 rr []
      obtain ⟨kr, e0, hplug, hbk, hlen⟩ := leftmost_spec _ _ _ _ _ _ hlm
      simp only [List.append_nil] at e0
      subst e0
      have hK : Owns s (plug (kr0 ++ Frame.R c (Tree.node cl ll l0 lr) n :: k)
          (Tree.node cy Tree.nil y yr)) := by
        rw [plug_append, hplug]; exact h
      have hloop := successor_loop (s := s) kr0 _ cy y yr fuel hbk (by omega) hK r0
        (by rw [hplug]; rfl)
      have hY := read_focus hK
      have hrem : ∀ f, removeAt f k c (Tree.node cl ll l0 lr) (Tree.node cr rl r0 rr) =
          delRebalance f cy (kr0 ++ Frame.R c (Tree.node cl ll l0 lr) y :: k) yr := by
        intro f
        simp only [removeAt, hlm]
      refine ⟨cy, kr0 ++ Frame.R c (Tree.node cl ll l0 lr) y :: k, yr, ?_⟩
      by_cases hkr : kr0 = []
      · subst hkr
        simp only [plug, Tree.node.injEq] at hplug
        obtain ⟨rfl, rfl, rfl, rfl⟩ := hplug
        obtain ⟨h1, h2, ⟨h3, h4, h5, h6, h7, h8⟩, h9⟩ := hA
        obtain ⟨s4, e4, r5, r6, o7⟩ := @replace_node s k c _ _ _ yr n y _
          (by simpa using h1) (by simpa using h2)
          (by rw [hN]; rfl) h7 h8.2.2.2.2.2 (by rw [hY])
          (by
            rw [List.nodup_iff_count_le_one] at h9 ⊢
            intro a
            have := h9 a
            simp only [ids_node, ids_nil, List.count_append, List.count_cons,
              List.count_nil] at this ⊢
            omega)
        refine ⟨_, ?_, o7, hrem, Or.inr (Or.inr ⟨by simp, by simp, [], cy, y, yr, rfl, rfl,
          rfl, rfl, rfl⟩)⟩
        have hnr : n ≠ y := by
          apply ne_of_nodup h9
          rintro rfl
          simp only [ids_node, List.count_append, List.count_cons, List.count_nil,
            beq_self_eq_true, if_true]
          omega
        have hnl : n ≠ l0 := by
          apply ne_of_nodup h9
          rintro rfl
          simp only [ids_node, List.count_append, List.count_cons, List.count_nil,
            beq_self_eq_true, if_true]
          omega
        have hrl : y ≠ l0 := by
          apply ne_of_nodup h9
          rintro rfl
          simp only [ids_node, List.count_append, List.count_cons, List.count_nil,
            beq_self_eq_true, if_true]
          omega
        simp only [RemoveSplice, iterate]
        simp [hN, hloop, hY, e4, Function.update, hnr, hnl, hrl, Ne.symm hrl, r5, r6]
      · obtain ⟨s1, r1, e1, hp1, hp2, hr1y, hs1n, hs1y, q1, q2, q3, q4, q5, q6, q7, q8⟩ :=
          detach_succ hkr hK
        rw [hplug] at hp2
        simp only [ptr_node, Option.some.injEq] at hp2
        subst hp2
        obtain ⟨s4, e4, r5, r6, o7⟩ := @replace_node _ _ c _ _ _ (plug kr0 yr) n y _ q1 q2
          (by rw [q3, hN]; rfl) q4 q5 q6 q8
        have o7' : Owns (((s4.setLeft y (some l0)).setParent l0 (some y)).setColor y c)
            (plug (kr0 ++ Frame.R c (Tree.node cl ll l0 lr) y :: k) yr) := by
          rw [plug_append]; exact o7
        refine ⟨_, ?_, o7', hrem, Or.inr (Or.inr ⟨by simp, by simp, kr0, cy, y, yr, hplug, hbk,
          rfl, rfl, rfl⟩)⟩
        obtain ⟨f, kr', rfl⟩ := List.exists_cons_of_ne_nil hkr
        have hcp : cpar (f :: kr' ++ Frame.R c (Tree.node cl ll l0 lr) y :: k) =
            cpar (f :: kr' ++ Frame.R c (Tree.node cl ll l0 lr) n :: k) := by
          cases f <;> rfl
        rw [hcp]
        have hny : n ≠ y := by
          apply ne_of_nodup q8
          rintro rfl
          simp only [ids_node, List.count_append, List.count_cons, List.count_nil,
            beq_self_eq_true, if_true]
          omega
        have hnl : n ≠ l0 := by
          apply ne_of_nodup q8
          rintro rfl
          simp only [ids_node, List.count_append, List.count_cons, List.count_nil,
            beq_self_eq_true, if_true]
          omega
        have hyl : y ≠ l0 := by
          apply ne_of_nodup q8
          rintro rfl
          simp only [ids_node, List.count_append, List.count_cons, List.count_nil,
            beq_self_eq_true, if_true]
          omega
        have h4n : s4.node n = s.node n := r5.trans q3
        have h4y : (s4.node y).color = cy := r6.trans q7
        have hsn : (Function.update s1.node y
            { color := (s1.node y).color, parent := (s1.node y).parent,
              left := (s1.node y).left, right := some r0 } n) = s.node n := by
          simp [Function.update, hny, hs1n]
        simp only [RemoveSplice]
        simp [hN, hloop, hY, e1, hs1n, Ne.symm hr1y, hsn, e4, h4n, h4y, Function.update,
          hny, hnl, hyl, Ne.symm hyl, Ne.symm hny]

theorem rep_parent {m : Nat → RbNode} {par : Option Nat} {t : Tree} {a : Nat}
    (h : Tree.Rep m par t) (ha : t.ptr = some a) : (m a).parent = par := by
  cases t with
  | nil => simp at ha
  | node c l x r =>
    simp only [ptr_node, Option.some.injEq] at ha
    subst ha
    exact h.2.1

theorem linkOf_cases (k : Path) :
    (linkOf k = Link.root ∧ cpar k = none) ∨
      ∃ p, cpar k = some p ∧ (linkOf k = Link.left p ∨ linkOf k = Link.right p) := by
  cases k with
  | nil => exact Or.inl ⟨rfl, rfl⟩
  | cons f k =>
    cases f with
    | L c p r => exact Or.inr ⟨p, rfl, Or.inl rfl⟩
    | R c l p => exact Or.inr ⟨p, rfl, Or.inr rfl⟩

/-- C12: on a well-formed tree, for a node `n` with two children whose in-order successor
`y` (the leftmost node below `n->right`) is not `n->right`, the statements of
`RemoveFromRbTree` before the fixup return and leave this memory: the former right child
of `y` is in the former slot of `y` (the `left` field of the former parent of `y`, which
is its parent when it is present), `y` is in the former slot of `n`, has the former
parent, children and colour of `n`, and is the parent of these children.  The fixup is
then called exactly when the former colour of `y` is Black, on the former right child and
the former parent of `y`. -/
theorem C12_splice_with_far_successor (s : Mem) (t : Tree) (n l0 r0 : Nat) (fuel : Nat)
    (hown : Owns s t) (hn : n ∈ t.ids) (hl : (s.node n).left = some l0)
    (hr : (s.node n).right = some r0) (hrl : (s.node r0).left ≠ none)
    (hfuel : t.height ≤ fuel) :
    ∃ y yp s7,
      iterate (successorBody s) fuel r0 = some y ∧ (s.node y).left = none ∧ y ≠ r0 ∧
      (s.node y).parent = some yp ∧ (s.node yp).left = some y ∧
      RemoveSplice fuel (some n) s =
        some ((s.node y).color, (s.node y).right, some yp, s7) ∧
      (s7.node yp).left = (s.node y).right ∧
      (∀ r, (s.node y).right = some r → (s7.node r).parent = some yp) ∧
      (∃ lk, s.load lk = some n ∧ s7.load lk = some y ∧
        (lk = Link.root ∧ (s.node n).parent = none ∨
          ∃ p, (s.node n).parent = some p ∧ (lk = Link.left p ∨ lk = Link.right p))) ∧
      s7.node y = ⟨(s.node n).color, (s.node n).parent, some l0, some r0⟩ ∧
      (s7.node l0).parent = some y ∧ (s7.node r0).parent = some y ∧
      RemoveFromRbTree fuel (some n) s =
        (if (s.node y).color = Color.kBlack then
          FixupAfterRemove fuel (s.node y).right (some yp) s7
        else some s7) := by
  obtain ⟨k, c, l, r, rfl⟩ := mem_ids_plug hn
  have hN := read_focus hown
  rw [hN] at hl hr
  simp only at hl hr
  obtain ⟨cl, ll, lr, rfl⟩ : ∃ cl ll lr, l = Tree.node cl ll l0 lr := by
    cases l with
    | nil => simp at hl
    | node cl ll a lr =>
      simp only [ptr_node, Option.some.injEq] at hl
      subst hl
      exact ⟨_, _, _, rfl⟩
  have hh := height_sub_le k (Tree.node c (Tree.node cl ll l0 lr) n r)
  have hrh : r.height ≤ fuel := by
    simp only [Tree.height] at hh
    have := le_max_right (Tree.node cl ll l0 lr).height r.height
    omega
  obtain ⟨rc, k', t', s7, e, o7, _, hcase⟩ := RemoveSplice_refines hown hrh
  have hlne : Tree.node cl ll l0 lr ≠ Tree.nil := by simp
  have hrne : r ≠ Tree.nil := by rintro rfl; simp at hr
  rcases hcase with ⟨h1, _⟩ | ⟨_, h2, _⟩ | ⟨_, _, kr, cy, y, yr, hplug, hbk, rfl, rfl, rfl⟩
  · exact absurd h1 hlne
  · exact absurd h2 hrne
  subst hplug
  have hK : Owns s (plug (kr ++ Frame.R c (Tree.node cl ll l0 lr) n :: k) (Tree.node rc Tree.nil y t')) := by
    rw [plug_append]; exact hown
  have hY := read_focus hK
  cases kr with
  | nil =>
    exfalso
    simp only [plug, ptr_node, Option.some.injEq] at hr
    subst hr
    apply hrl
    rw [hY]
    rfl
  | cons f kr' =>
    cases f with
    | R cf lf pf => simp [before] at hbk
    | L cyp yp ypr =>
      obtain ⟨s1, r1, _, hp1, hp2, hr1y, _⟩ := detach_succ (List.cons_ne_nil (Frame.L cyp yp ypr) kr') hK
      rw [hr] at hp2
      simp only [Option.some.injEq] at hp2
      subst hp2
      have hloop := successor_loop (s := s) (Frame.L cyp yp ypr :: kr') _ rc y t' fuel hbk
        (by
          have := height_plug (Frame.L cyp yp ypr :: kr') (Tree.node rc Tree.nil y t')
          simp only [Tree.height] at this
          omega) hK r0 hr
      have hYP := read_focus (k := kr' ++ Frame.R c (Tree.node cl ll l0 lr) n :: k) hK
      have hYP7 := read_focus (k := kr' ++ Frame.R c (Tree.node cl ll l0 lr) y :: k) o7
      have hT7 := rep_focus o7
      have o7' : Owns s7 (plug k (Tree.node c (Tree.node cl ll l0 lr) y (plug (Frame.L cyp yp ypr :: kr') t'))) := by
        rw [plug_append] at o7; exact o7
      have hY7 := read_focus o7'
      have hL7 := rep_focus (k := Frame.L c y (plug (Frame.L cyp yp ypr :: kr') t') :: k)
        (t := Tree.node cl ll l0 lr) o7'
      have hR7 := rep_focus (k := Frame.R c (Tree.node cl ll l0 lr) y :: k)
        (t := plug (Frame.L cyp yp ypr :: kr') t') o7'
      have hsl := load_linkOf hown
      have hsl7 := load_linkOf o7'
      refine ⟨y, yp, s7, hloop, by rw [hY]; rfl, Ne.symm hr1y, by rw [hY]; rfl, by rw [hYP]; rfl,
        ?_, ?_, ?_, ⟨linkOf k, hsl, hsl7, ?_⟩, ?_, rep_parent hL7 hl, rep_parent hR7 hp1, ?_⟩
      · rw [e, hY]; rfl
      · rw [hYP7, hY]
      · intro r hr'
        rw [hY] at hr'
        exact rep_parent hT7 hr'
      · rw [hN]
        exact linkOf_cases k
      · rw [hY7, hN, hl, hp1]
      · rw [RemoveFromRbTree_eq_splice, e, hY]
        simp only [Option.some_bind, rebalanceAfterRemove]
        rfl

theorem fourNodeMem_owns : Owns fourNodeMem fourNodeTree := by
  refine ⟨rfl, ?_, by decide⟩
  simp [fourNodeTree, fourNodeMem, Tree.Rep]

theorem C12_splice_with_far_successor_witness :
    Owns fourNodeMem fourNodeTree ∧ 1 ∈ fourNodeTree.ids ∧
    (fourNodeMem.node 1).left = some 0 ∧ (fourNodeMem.node 1).right = some 3 ∧
    (fourNodeMem.node 3).left ≠ none ∧ fourNodeTree.height ≤ 3 ∧
    ∃ y yp s7,
      iterate (successorBody fourNodeMem) 3 3 = some y ∧ (fourNodeMem.node y).left = none ∧
      y ≠ 3 ∧ (fourNodeMem.node y).parent = some yp ∧ (fourNodeMem.node yp).left = some y ∧
      RemoveSplice 3 (some 1) fourNodeMem =
        some ((fourNodeMem.node y).color, (fourNodeMem.node y).right, some yp, s7) ∧
      (s7.node yp).left = (fourNodeMem.node y).right ∧
      (∀ r, (fourNodeMem.node y).right = some r → (s7.node r).parent = some yp) ∧
      (∃ lk, fourNodeMem.load lk = some 1 ∧ s7.load lk = some y ∧
        (lk = Link.root ∧ (fourNodeMem.node 1).parent = none ∨
          ∃ p, (fourNodeMem.node 1).parent = some p ∧
            (lk = Link.left p ∨ lk = Link.right p))) ∧
      s7.node y = ⟨(fourNodeMem.node 1).color, (fourNodeMem.node 1).parent, some 0, some 3⟩ ∧
      (s7.node 0).parent = some y ∧ (s7.node 3).parent = some y ∧
      RemoveFromRbTree 3 (some 1) fourNodeMem =
        (if (fourNodeMem.node y).color = Color.kBlack then
          FixupAfterRemove 3 (fourNodeMem.node y).right (some yp) s7
        else some s7) :=
  ⟨fourNodeMem_owns, by decide, rfl, rfl, by decide, by decide,
    C12_splice_with_far_successor fourNodeMem fourNodeTree 1 0 3 3 fourNodeMem_owns
      (by decide) rfl rfl (by decide) (by decide)⟩

/-- Every state a concrete loop visits is related to a state the abstract loop visits,
provided the abstract body faults nowhere along its run. -/
theorem loopStates_sim {σ τ : Type} {body : σ → Option (LoopStep σ)}
    {abody : τ → Option (LoopStep τ)} (R : σ → τ → Prop)
    (hstep : ∀ x a, R x a → match abody a with
      | none => True
      | some (LoopStep.next a') => ∃ x', body x = some (LoopStep.next x') ∧ R x' a'
      | some (LoopStep.done _) => ∃ x', body x = some (LoopStep.done x')) :
    ∀ (fuel : Nat) (x : σ) (a : τ), R x a →
      (∀ b ∈ loopStates abody fuel a, (abody b).isSome = true) →
      ∀ y ∈ loopStates body fuel x, (body y).isSome = true ∧ ∃ b, R y b := by
  intro fuel
  induction fuel with
  | zero => intro x a _ _ y hy; simp [loopStates] at hy
  | succ fuel ih =>
    intro x a hR hsafe y hy
    have ha := hsafe a (by simp [loopStates])
    have hs := hstep x a hR
    simp only [loopStates, List.mem_cons] at hy
    cases hb : abody a with
    | none => simp [hb] at ha
    | some st =>
      cases st with
      | next a1 =>
        simp only [hb] at hs
        obtain ⟨x1, e1, r1⟩ := hs
        rcases hy with rfl | hy
        · exact ⟨by simp [e1], a, hR⟩
        · simp only [e1] at hy
          refine ih x1 a1 r1 ?_ y hy
          intro b hb'
          apply hsafe
          simp only [loopStates, hb, List.mem_cons]
          exact Or.inr hb'
      | done a1 =>
        simp only [hb] at hs
        obtain ⟨x1, e1⟩ := hs
        rcases hy with rfl | hy
        · exact ⟨by simp [e1], a, hR⟩
        · simp [e1] at hy

theorem delStates_safe : ∀ (fuel : Nat) (k : Path) (t : Tree), DelInv k t →
    ∀ b ∈ loopStates delBody fuel (k, t), (delBody b).isSome = true := by
  intro fuel
  induction fuel with
  | zero => intro k t _ b hb; simp [loopStates] at hb
  | succ fuel ih =>
    intro k t hinv b hb
    simp only [loopStates, List.mem_cons] at hb
    rcases delBody_inv k t hinv with ⟨st, e, _⟩ | ⟨k', t', e, _, st, e', _⟩ |
        ⟨k', t', e, _, hinv', _⟩ | ⟨k', t', e, _, hinv', _⟩
    · rcases hb with rfl | hb
      · simp [e]
      · simp [e] at hb
    · rcases hb with rfl | hb
      · simp [e]
      · simp only [e] at hb
        cases fuel with
        | zero => simp [loopStates] at hb
        | succ fuel =>
          simp only [loopStates, e', List.mem_cons, List.not_mem_nil, or_false] at hb
          subst hb
          simp [e']
    · rcases hb with rfl | hb
      · simp [e]
      · simp only [e] at hb
        exact ih k' t' hinv' b hb
    · rcases hb with rfl | hb
      · simp [e]
      · simp only [e] at hb
        exact ih k' t' hinv' b hb

theorem insStates_safe : ∀ (fuel : Nat) (k : Path) (l r : Tree) (n : Nat),
    l.rootColor = Color.kBlack → r.rootColor = Color.kBlack →
    l.NoRedRed → r.NoRedRed → (Tree.node Color.kRed l n r).Bal →
    PathOK k Color.kBlack (Tree.node Color.kRed l n r).bh →
    ∀ b ∈ loopStates insBody fuel (k, Tree.node Color.kRed l n r),
      (insBody b).isSome = true := by
  intro fuel
  induction fuel with
  | zero => intro k l r n _ _ _ _ _ _ b hb; simp [loopStates] at hb
  | succ fuel ih =>
    intro k l r n hl hr hnl hnr hbal hpath b hb
    simp only [loopStates, List.mem_cons] at hb
    rcases insBody_inv k l r n hl hr hnl hnr hbal hpath with
      ⟨st, e, _⟩ | ⟨k', l', n', r', e, _, _, q1, q2, q3, q4, q5, q6⟩
    · rcases hb with rfl | hb
      · simp [e]
      · simp [e] at hb
    · rcases hb with rfl | hb
      · simp [e]
      · simp only [e] at hb
        exact ih k' l' r' n' q1 q2 q3 q4 q5 q6 b hb

theorem sibling_of_body {st : Option Nat × Option Nat × Mem}
    (h : (FixupAfterRemoveBody st).isSome = true) (hc : removeLoopCond st = true) :
    ∃ sb, siblingOf st = some sb := by
  obtain ⟨node, np, s⟩ := st
  simp only [removeLoopCond, decide_eq_true_eq] at hc
  cases hsb : siblingOf (node, np, s) with
  | some sb => exact ⟨sb, rfl⟩
  | none =>
    exfalso
    have : FixupAfterRemoveBody (node, np, s) = none := by
      simp only [FixupAfterRemoveBody, hc.1, hc.2, ne_eq, not_false_eq_true, and_self,
        if_true]
      cases np with
      | none => rfl
      | some p =>
        simp only [siblingOf] at hsb
        by_cases h3 : node = (s.node p).left
        · rw [if_pos h3] at hsb
          simp [h3, hsb]
        · rw [if_neg h3] at hsb
          rw [hsb] at h3
          simp [h3, hsb]
    rw [this] at h
    simp at h

theorem gparent_of_body {st : Nat × Mem}
    (h : (FixupAfterInsertBody st).isSome = true) (hc : insertLoopCond st = true) :
    (st.2.node st.1).color = Color.kRed ∧ ∃ g, gparentOf st = some g := by
  obtain ⟨node, s⟩ := st
  simp only [insertLoopCond] at hc
  simp only [FixupAfterInsertBody, hc, if_true] at h
  simp only [gparentOf]
  split_ifs at h with h1
  · simp at h
  · refine ⟨by simpa using h1, ?_⟩
    cases hp : (s.node node).parent with
    | none => simp [hp] at h
    | some p =>
      simp only [hp] at h ⊢
      cases hg : (s.node p).parent with
      | none => simp [hg] at h
      | some g => exact ⟨g, rfl⟩

theorem delInv_left {K : Path} {a : Nat} {t0 : Tree}
    (h : (plug K (Tree.node Color.kBlack Tree.nil a t0)).IsRB) : DelInv K t0 := by
  obtain ⟨h1, h2, h3⟩ := (plug_isRB _ _).mp h
  simp only [noRedRed_node, bal_node, bh_node, rootColor_node, bh_nil, rootColor_nil,
    true_and, if_true] at h1 h2 h3
  exact ⟨noRedRed_blacken h1.2.2, h2.2.2, by rw [← h2.1]; exact PathOK_black h3⟩

theorem delInv_right {K : Path} {a : Nat} {t0 : Tree}
    (h : (plug K (Tree.node Color.kBlack t0 a Tree.nil)).IsRB) : DelInv K t0 := by
  obtain ⟨h1, h2, h3⟩ := (plug_isRB _ _).mp h
  simp only [noRedRed_node, bal_node, bh_node, rootColor_node, bh_nil, rootColor_nil,
    and_true, if_true] at h1 h2 h3
  exact ⟨noRedRed_blacken h1.2.1, h2.2.1, PathOK_black h3⟩

theorem removeStates_safe {s : Mem} {k : Path} {t : Tree} (h : Owns s (plug k t))
    (hinv : DelInv k t) (fuel : Nat) :
    ∀ st ∈ loopStates FixupAfterRemoveBody fuel (t.ptr, cpar k, s),
      (FixupAfterRemoveBody st).isSome = true := by
  intro st hst
  refine (loopStates_sim
    (fun (x : Option Nat × Option Nat × Mem) (a : Path × Tree) =>
      Owns x.2.2 (plug a.1 a.2) ∧ x.1 = a.2.ptr ∧ x.2.1 = cpar a.1)
    ?_ fuel (t.ptr, cpar k, s) (k, t) ⟨h, rfl, rfl⟩ (delStates_safe fuel k t hinv) st hst).1
  rintro ⟨x1, x2, x3⟩ a ⟨hR1, hR2, hR3⟩
  simp only at hR1 hR2 hR3
  subst hR2 hR3
  have := delBody_refines hR1
  cases hb : delBody a with
  | none => trivial
  | some st1 =>
    cases st1 with
    | next a1 =>
      simp only [hb] at this ⊢
      obtain ⟨s', e, o⟩ := this
      exact ⟨_, e, o, rfl, rfl⟩
    | done a1 =>
      simp only [hb] at this ⊢
      obtain ⟨s', e, _⟩ := this
      exact ⟨_, e⟩

theorem insertStates_safe {s : Mem} {k : Path} {n : Nat} {l r : Tree}
    (h : Owns s (plug k (Tree.node Color.kRed l n r)))
    (hl : l.rootColor = Color.kBlack) (hr : r.rootColor = Color.kBlack)
    (hnl : l.NoRedRed) (hnr : r.NoRedRed) (hbal : (Tree.node Color.kRed l n r).Bal)
    (hpath : PathOK k Color.kBlack (Tree.node Color.kRed l n r).bh) (fuel : Nat) :
    ∀ st ∈ loopStates FixupAfterInsertBody fuel (n, s),
      (FixupAfterInsertBody st).isSome = true := by
  intro st hst
  refine (loopStates_sim
    (fun (x : Nat × Mem) (a : Path × Tree) => Owns x.2 (plug a.1 a.2) ∧ a.2.ptr = some x.1)
    ?_ fuel (n, s) (k, Tree.node Color.kRed l n r) ⟨h, rfl⟩
    (insStates_safe fuel k l r n hl hr hnl hnr hbal hpath) st hst).1
  intro x a hR
  have := insBody_refines hR.1 hR.2
  cases hb : insBody a with
  | none => trivial
  | some st1 =>
    cases st1 with
    | next a1 =>
      simp only [hb] at this ⊢
      obtain ⟨s', node', e, o, q⟩ := this
      exact ⟨(node', s'), e, o, q⟩
    | done a1 =>
      simp only [hb] at this ⊢
      obtain ⟨s', node', e, _⟩ := this
      exact ⟨(node', s'), e⟩

/-- C19: when `RemoveFromRbTree` is applied to a node of a valid red-black tree, it
returns; and when it calls `FixupAfterRemove` (the removed colour is Black), then in every
state in which the loop of `FixupAfterRemove` evaluates its condition to true, the sibling
of the current node is present and the loop body runs without a fault: neither
`assert(sibling != NULL)` nor any other assertion fails and no `NULL` is dereferenced. -/
theorem C19_sibling_present (s : Mem) (t : Tree) (n : Nat) (fuel : Nat)
    (hown : Owns s t) (hrb : t.IsRB) (hn : n ∈ t.ids) (hfuel : t.height + 3 ≤ fuel) :
    ∃ rc replacement replacement_parent s7 s',
      RemoveSplice fuel (some n) s = some (rc, replacement, replacement_parent, s7) ∧
      RemoveFromRbTree fuel (some n) s = some s' ∧
      (rc = Color.kBlack →
        RemoveFromRbTree fuel (some n) s =
          FixupAfterRemove fuel replacement replacement_parent s7 ∧
        ∀ st ∈ loopStates FixupAfterRemoveBody fuel (replacement, replacement_parent, s7),
          removeLoopCond st = true →
            (∃ sb, siblingOf st = some sb) ∧ (FixupAfterRemoveBody st).isSome = true) := by
  obtain ⟨s', _, e', _⟩ := remove_ok s t n fuel hown hrb hn hfuel
  obtain ⟨k, c, l, r, rfl⟩ := mem_ids_plug hn
  have hh := height_sub_le k (Tree.node c l n r)
  have hrh : r.height ≤ fuel := by
    simp only [Tree.height] at hh
    have := le_max_right l.height r.height
    omega
  obtain ⟨rc, k', t', s7, e, o7, _, hcase⟩ := RemoveSplice_refines hown hrh
  refine ⟨rc, t'.ptr, cpar k', s7, s', e, e', ?_⟩
  rintro rfl
  have hinv : DelInv k' t' := by
    rcases hcase with ⟨rfl, rfl, rfl, rfl⟩ | ⟨_, rfl, rfl, rfl, rfl⟩ |
      ⟨_, _, kr, cy, y, yr, hplug, hbk, rfl, rfl, rfl⟩
    · exact delInv_left hrb
    · exact delInv_right hrb
    · apply delInv_left (a := y)
      have : (plug (kr ++ Frame.R c l n :: k) (Tree.node Color.kBlack Tree.nil y t')).IsRB := by
        rw [plug_append, hplug]; exact hrb
      rw [plug_isRB] at this ⊢
      refine ⟨this.1, this.2.1, ?_⟩
      exact (PathOK_congr_append kr (Frame.R c l n :: k) (Frame.R c l y :: k)
        (fun c m => Iff.rfl) _ _).mp this.2.2
  refine ⟨?_, ?_⟩
  · rw [RemoveFromRbTree_eq_splice, e]
    simp [rebalanceAfterRemove]
  · intro st hst hc
    have hb := removeStates_safe o7 hinv fuel st hst
    exact ⟨sibling_of_body hb hc, hb⟩

theorem C19_sibling_present_witness :
    Owns fourNodeMem fourNodeTree ∧ fourNodeTree.IsRB ∧ 0 ∈ fourNodeTree.ids ∧
    fourNodeTree.height + 3 ≤ 6 ∧
    ∃ rc replacement replacement_parent s7 s',
      RemoveSplice 6 (some 0) fourNodeMem =
        some (rc, replacement, replacement_parent, s7) ∧
      RemoveFromRbTree 6 (some 0) fourNodeMem = some s' ∧
      (rc = Color.kBlack →
        RemoveFromRbTree 6 (some 0) fourNodeMem =
          FixupAfterRemove 6 replacement replacement_parent s7 ∧
        ∀ st ∈ loopStates FixupAfterRemoveBody 6 (replacement, replacement_parent, s7),
          removeLoopCond st = true →
            (∃ sb, siblingOf st = some sb) ∧ (FixupAfterRemoveBody st).isSome = true) :=
  ⟨fourNodeMem_owns, by rw [isRB_iff]; simp [fourNodeTree], by decide, by decide,
    C19_sibling_present fourNodeMem fourNodeTree 0 6 fourNodeMem_owns
      (by rw [isRB_iff]; simp [fourNodeTree]) (by decide) (by decide)⟩

/-- C20: when `InsertIntoRbTree` links a new Red leaf into an empty slot of a valid
red-black tree, it returns, and in every state in which the loop of `FixupAfterInsert`
evaluates its condition to true (the parent of the current node is Red), the current node
is Red, the parent has a parent of its own (`gparent != NULL`), and the loop body runs
without a fault. -/
theorem C20_gparent_present (s : Mem) (t : Tree) (n : Nat) (parent : Option Nat)
    (parent_link : Link) (fuel : Nat) (hown : Owns s t) (hrb : t.IsRB)
    (hslot : EmptySlot s t parent parent_link) (hnew : n ∉ t.ids)
    (hfuel : t.height < fuel) :
    (∃ s', InsertIntoRbTree fuel (some n) parent parent_link s = some s') ∧
    InsertIntoRbTree fuel (some n) parent parent_link s =
      FixupAfterInsert fuel (some n) (linkNode n parent parent_link s) ∧
    ∀ st ∈ loopStates FixupAfterInsertBody fuel (n, linkNode n parent parent_link s),
      insertLoopCond st = true →
        (st.2.node st.1).color = Color.kRed ∧ (∃ g, gparentOf st = some g) ∧
          (FixupAfterInsertBody st).isSome = true := by
  obtain ⟨s', t', e', _⟩ := insert_ok s t n parent parent_link fuel hown hrb hslot hnew hfuel
  obtain ⟨k, e, hp, hl⟩ := emptySlot_path hown hslot
  subst e hp hl
  obtain ⟨hld, ho⟩ := link_refines hown hnew
  have hp := ((plug_isRB k Tree.nil).mp hrb).2.2
  refine ⟨⟨s', e'⟩, ?_, ?_⟩
  · simp only [InsertIntoRbTree, hld, linkBelongsTo_linkOf, ne_eq, not_true_eq_false,
      if_false, linkNode]
    rfl
  · intro st hst hc
    have hb := insertStates_safe (l := Tree.nil) (r := Tree.nil) (k := k) (n := n)
      (s := linkNode n (cpar k) (linkOf k) s) ho rfl rfl trivial trivial (by simp)
      (by simpa using hp) fuel st hst
    obtain ⟨h1, h2⟩ := gparent_of_body hb hc
    exact ⟨h1, h2, hb⟩

theorem C20_gparent_present_witness :
    Owns exampleMem exampleTree ∧ exampleTree.IsRB ∧
    EmptySlot exampleMem exampleTree (some 2) (Link.right 2) ∧ 3 ∉ exampleTree.ids ∧
    exampleTree.height < 3 ∧
    (∃ s', InsertIntoRbTree 3 (some 3) (some 2) (Link.right 2) exampleMem = some s') ∧
    InsertIntoRbTree 3 (some 3) (some 2) (Link.right 2) exampleMem =
      FixupAfterInsert 3 (some 3) (linkNode 3 (some 2) (Link.right 2) exampleMem) ∧
    ∀ st ∈ loopStates FixupAfterInsertBody 3
        (3, linkNode 3 (some 2) (Link.right 2) exampleMem),
      insertLoopCond st = true →
        (st.2.node st.1).color = Color.kRed ∧ (∃ g, gparentOf st = some g) ∧
          (FixupAfterInsertBody st).isSome = true :=
  ⟨exampleMem_owns, exampleTree_isRB,
    Or.inr ⟨2, by decide, rfl, Or.inr ⟨rfl, rfl⟩⟩, by decide, by decide,
    C20_gparent_present exampleMem exampleTree 3 (some 2) (Link.right 2) 3 exampleMem_owns
      exampleTree_isRB (Or.inr ⟨2, by decide, rfl, Or.inr ⟨rfl, rfl⟩⟩) (by decide)
      (by decide)⟩

/-- The states two loops visit correspond one to one, provided the abstract body faults
nowhere along its run. -/
theorem loopStates_forall2 {σ τ : Type} {body : σ → Option (LoopStep σ)}
    {abody : τ → Option (LoopStep τ)} (R : σ → τ → Prop)
    (hstep : ∀ x a, R x a →
      (∀ a', abody a = some (LoopStep.next a') →
        ∃ x', body x = some (LoopStep.next x') ∧ R x' a') ∧
      (∀ a', abody a = some (LoopStep.done a') → ∃ x', body x = some (LoopStep.done x'))) :
    ∀ (fuel : Nat) (x : σ) (a : τ), R x a →
      (∀ b ∈ loopStates abody fuel a, (abody b).isSome = true) →
      List.Forall₂ R (loopStates body fuel x) (loopStates abody fuel a) := by
  intro fuel
  induction fuel with
  | zero => intro x a _ _; simp [loopStates]
  | succ fuel ih =>
    intro x a hR hsafe
    have ha := hsafe a (by simp [loopStates])
    have hs := hstep x a hR
    cases hb : abody a with
    | none => simp [hb] at ha
    | some st =>
      cases st with
      | next a1 =>
        obtain ⟨x1, e1, r1⟩ := hs.1 a1 hb
        simp only [loopStates, hb, e1]
        refine List.Forall₂.cons hR (ih x1 a1 r1 ?_)
        intro b hb'
        apply hsafe
        simp only [loopStates, hb, List.mem_cons]
        exact Or.inr hb'
      | done a1 =>
        obtain ⟨x1, e1⟩ := hs.2 a1 hb
        simp only [loopStates, hb, e1]
        exact List.Forall₂.cons hR List.Forall₂.nil

theorem removeCaseOf_refines {s : Mem} {k : Path} {t : Tree} (h : Owns s (plug k t)) :
    removeCaseOf (t.ptr, cpar k, s) = delCaseOf (k, t) := by
  cases k with
  | nil =>
    have : s.rb_node = t.ptr := h.1
    simp [removeCaseOf, removeLoopCond, delCaseOf, this]
  | cons f k1 =>
    have hT := rep_focus h
    have hroot := ptr_ne_root h
    by_cases ht : t.rootColor = Color.kRed
    · have := (loop_cond hT).not.mpr (by simpa using ht)
      simp [removeCaseOf, removeLoopCond, delCaseOf, ht, this]
    have hlc := (loop_cond hT).mpr ht
    have hcond : removeLoopCond (t.ptr, cpar (f :: k1), s) = true := by
      simp only [removeLoopCond, hlc, hroot, ne_eq, not_false_eq_true, and_self, decide_True]
    simp only [removeCaseOf, hcond, if_true, delCaseOf, ht, if_false]
    have hnd := nodup_focus h
    cases f with
    | L pc p sib =>
      have hP := read_focus (k := k1) h
      cases sib with
      | nil => simp [hP]
      | node sc sl y sr =>
        have hY := read_focus (k := Frame.R pc t p :: k1) h
        have hSl := isRed_ptr (rep_focus (k := Frame.L sc y sr :: Frame.R pc t p :: k1)
          (t := sl) h)
        have hSr := isRed_ptr (rep_focus (k := Frame.R sc sl y :: Frame.R pc t p :: k1)
          (t := sr) h)
        have hBr := isBlack_ptr (rep_focus (k := Frame.R sc sl y :: Frame.R pc t p :: k1)
          (t := sr) h)
        simp only [cpar_L, hP, ptr_node, if_true, IsRed_some, hY, hSl, hSr, hBr]
        rcases color_cases sc with e | e <;> subst e <;> simp
    | R pc sib p =>
      have hP := read_focus (k := k1) h
      cases sib with
      | nil =>
        simp only [cpar_R, hP, ptr_nil]
        split <;> simp_all
      | node sc sl y sr =>
        have hty : t.ptr ≠ some y := by
          intro e
          obtain ⟨c1, c2⟩ := cnt hnd (ptr_mem_ids e)
          simp only [ids_node, before, after, List.count_append, List.count_cons,
            List.count_nil, beq_self_eq_true, if_true] at c1 c2
          omega
        have hY := read_focus (k := Frame.L pc p t :: k1) h
        have hSl := isRed_ptr (rep_focus (k := Frame.L sc y sr :: Frame.L pc p t :: k1)
          (t := sl) h)
        have hSr := isRed_ptr (rep_focus (k := Frame.R sc sl y :: Frame.L pc p t :: k1)
          (t := sr) h)
        have hBl := isBlack_ptr (rep_focus (k := Frame.L sc y sr :: Frame.L pc p t :: k1)
          (t := sl) h)
        simp only [cpar_R, hP, ptr_node, hty, if_false, IsRed_some, hY, hSl, hSr, hBl]
        rcases color_cases sc with e | e <;> subst e <;> simp

theorem del_case1 {k : Path} {t : Tree} (hinv : DelInv k t) (hc : delCaseOf (k, t) = 1) :
    ∃ b, delBody (k, t) = some (LoopStep.next b) ∧ delCaseOf b ≠ 0 ∧ delCaseOf b ≠ 1 := by
  cases k with
  | nil => simp [delCaseOf] at hc
  | cons f k1 =>
    by_cases ht : t.rootColor = Color.kRed
    · simp [delCaseOf, ht] at hc
    obtain ⟨h1, h2, h3⟩ := hinv
    cases f with
    | L pc p sib =>
      cases sib with
      | nil => simp [delCaseOf, ht] at hc
      | node sc sl y sr =>
        have hsc : sc = Color.kRed := by
          by_contra hne
          simp only [delCaseOf, ht, if_false, hne] at hc
          split_ifs at hc <;> omega
        subst hsc
        simp only [PathOK, rootColor_node, bh_node, noRedRed_node, bal_node, reduceCtorEq,
          if_false, Nat.add_zero] at h3
        have hpc : pc = Color.kBlack := by
          rcases color_cases pc with e | e
          · exact e
          · exact absurd (h3.1 e).2 (by simp)
        subst hpc
        obtain ⟨_, ⟨hsr, _, _⟩, hb, hbh, _⟩ := h3
        have hcl := (hsr trivial).1
        cases sl with
        | nil => simp at hbh
        | node c2 sll z slr =>
          simp only [rootColor_node] at hcl
          subst hcl
          refine ⟨(Frame.L Color.kRed p (Tree.node Color.kBlack sll z slr) ::
            Frame.L Color.kBlack y sr :: k1, t), by simp [delBody, ht], ?_, ?_⟩ <;>
            · simp only [delCaseOf, ht, if_false, reduceCtorEq]
              split_ifs <;> simp
    | R pc sib p =>
      cases sib with
      | nil => simp [delCaseOf, ht] at hc
      | node sc sl y sr =>
        have hsc : sc = Color.kRed := by
          by_contra hne
          simp only [delCaseOf, ht, if_false, hne] at hc
          split_ifs at hc <;> omega
        subst hsc
        simp only [PathOK, rootColor_node, bh_node, noRedRed_node, bal_node, reduceCtorEq,
          if_false, Nat.add_zero] at h3
        have hpc : pc = Color.kBlack := by
          rcases color_cases pc with e | e
          · exact e
          · exact absurd (h3.1 e).2 (by simp)
        subst hpc
        obtain ⟨_, ⟨hsr, _, _⟩, hb, hbh, _⟩ := h3
        have hcr := (hsr trivial).2
        cases sr with
        | nil => simp at hb; omega
        | node c2 srl z srr =>
          simp only [rootColor_node] at hcr
          subst hcr
          refine ⟨(Frame.R Color.kRed (Tree.node Color.kBlack srl z srr) p ::
            Frame.R Color.kBlack sl y :: k1, t), by simp [delBody, ht], ?_, ?_⟩ <;>
            · simp only [delCaseOf, ht, if_false, reduceCtorEq]
              split_ifs <;> simp

theorem del_case1_not_done {a b : Path × Tree} (hc : delCaseOf a = 1) :
    delBody a ≠ some (LoopStep.done b) := by
  obtain ⟨k, t⟩ := a
  cases k with
  | nil => simp [delCaseOf] at hc
  | cons f k1 =>
    by_cases ht : t.rootColor = Color.kRed
    · simp [delCaseOf, ht] at hc
    cases f with
    | L pc p sib =>
      cases sib with
      | nil => simp [delBody, ht]
      | node sc sl y sr =>
        have hsc : sc = Color.kRed := by
          by_contra hne
          simp only [delCaseOf, ht, if_false, hne] at hc
          split_ifs at hc <;> omega
        subst hsc
        simp only [delBody, ht, if_false, if_true]
        split_ifs <;> simp
    | R pc sib p =>
      cases sib with
      | nil => simp [delBody, ht]
      | node sc sl y sr =>
        have hsc : sc = Color.kRed := by
          by_contra hne
          simp only [delCaseOf, ht, if_false, hne] at hc
          split_ifs at hc <;> omega
        subst hsc
        simp only [delBody, ht, if_false, if_true]
        split_ifs <;> simp

theorem del_case3 {k : Path} {t : Tree} (hc : delCaseOf (k, t) = 3) :
    ∃ b b', delBody (k, t) = some (LoopStep.next b) ∧ delCaseOf b = 4 ∧
      delBody b = some (LoopStep.done b') := by
  cases k with
  | nil => simp [delCaseOf] at hc
  | cons f k1 =>
    by_cases ht : t.rootColor = Color.kRed
    · simp [delCaseOf, ht] at hc
    cases f with
    | L pc p sib =>
      cases sib with
      | nil => simp [delCaseOf, ht] at hc
      | node sc sl y sr =>
        simp only [delCaseOf, ht, if_false] at hc
        by_cases h1 : sc = Color.kRed
        · simp [h1] at hc
        by_cases h2 : sl.rootColor ≠ Color.kRed ∧ sr.rootColor ≠ Color.kRed
        · simp [h1, h2] at hc
        by_cases h3 : sr.rootColor = Color.kBlack
        swap
        · simp [h1, h2, h3] at hc
        cases sl with
        | nil => exfalso; apply h2; simp [h3]
        | node c2 sll z slr =>
          have hc2 : c2 = Color.kRed := by
            rcases color_cases c2 with e | e
            · exfalso; apply h2; simp [e, h3]
            · exact e
          subst hc2
          refine ⟨(Frame.L pc p (Tree.node Color.kBlack sll z (Tree.node Color.kRed slr y sr))
              :: k1, t),
            (Frame.L Color.kBlack p sll :: Frame.L pc z (Tree.node Color.kBlack slr y sr)
              :: k1, t),
            by simp [delBody, ht, h1, h3], ?_, ?_⟩
          · simp [delCaseOf, ht]
          · simp only [delBody, ht, if_false, reduceCtorEq, rootColor_node, ne_eq,
              not_true_eq_false, and_false]
    | R pc sib p =>
      cases sib with
      | nil => simp [delCaseOf, ht] at hc
      | node sc sl y sr =>
        simp only [delCaseOf, ht, if_false] at hc
        by_cases h1 : sc = Color.kRed
        · simp [h1] at hc
        by_cases h2 : sl.rootColor ≠ Color.kRed ∧ sr.rootColor ≠ Color.kRed
        · simp [h1, h2] at hc
        by_cases h3 : sl.rootColor = Color.kBlack
        swap
        · simp [h1, h2, h3] at hc
        cases sr with
        | nil => exfalso; apply h2; simp [h3]
        | node c2 srl z srr =>
          have hc2 : c2 = Color.kRed := by
            rcases color_cases c2 with e | e
            · exfalso; apply h2; simp [e, h3]
            · exact e
          subst hc2
          refine ⟨(Frame.R pc (Tree.node Color.kBlack (Tree.node Color.kRed sl y srl) z srr) p
              :: k1, t),
            (Frame.R Color.kBlack srr p :: Frame.R pc (Tree.node Color.kBlack sl y srl) z
              :: k1, t),
            by simp [delBody, ht, h1, h3], ?_, ?_⟩
          · simp [delCaseOf, ht]
          · simp only [delBody, ht, if_false, reduceCtorEq, rootColor_node, ne_eq,
              not_true_eq_false, false_and]

theorem del_next_shorter {k k' : Path} {t t' : Tree}
    (h : delBody (k, t) = some (LoopStep.next (k', t'))) (hlen : k'.length < k.length) :
    delRotations (k, t) = 0 := by
  cases k with
  | nil => simp [delBody] at h
  | cons f k1 =>
    by_cases ht : t.rootColor = Color.kRed
    · simp [delBody, ht] at h
    cases f with
    | L pc p sib =>
      cases sib with
      | nil => simp [delBody, ht] at h
      | node sc sl y sr =>
        simp only [delBody, ht, if_false] at h
        simp only [delRotations, delCaseOf, ht, if_false]
        split_ifs at h with h1 h2 h3 h4
        · simp only [Option.some.injEq, LoopStep.next.injEq, Prod.mk.injEq] at h
          obtain ⟨rfl, _⟩ := h
          simp at hlen
        · simp [h1, h3]
        · cases sl with
          | nil => simp at h
          | node c2 sll z slr =>
            simp only [Option.some.injEq, LoopStep.next.injEq, Prod.mk.injEq] at h
            obtain ⟨rfl, _⟩ := h
            simp at hlen
        · cases sr <;> simp at h
    | R pc sib p =>
      cases sib with
      | nil => simp [delBody, ht] at h
      | node sc sl y sr =>
        simp only [delBody, ht, if_false] at h
        simp only [delRotations, delCaseOf, ht, if_false]
        split_ifs at h with h1 h2 h3 h4
        · simp only [Option.some.injEq, LoopStep.next.injEq, Prod.mk.injEq] at h
          obtain ⟨rfl, _⟩ := h
          simp at hlen
        · simp [h1, h3]
        · cases sr with
          | nil => simp at h
          | node c2 srl z srr =>
            simp only [Option.some.injEq, LoopStep.next.injEq, Prod.mk.injEq] at h
            obtain ⟨rfl, _⟩ := h
            simp at hlen
        · cases sl <;> simp at h

theorem delRotations_le_one (a : Path × Tree) : delRotations a ≤ 1 := by
  simp only [delRotations]
  split <;> omega

theorem loopStates_of_done {σ : Type} {body : σ → Option (LoopStep σ)} {x y : σ}
    (h : body x = some (LoopStep.done y)) (fuel : Nat) :
    loopStates body fuel x = [] ∨ loopStates body fuel x = [x] := by
  cases fuel with
  | zero => exact Or.inl rfl
  | succ fuel => exact Or.inr (by simp [loopStates, h])

theorem del_rot_tail {a b : Path × Tree} (h : delBody a = some (LoopStep.done b))
    (fuel : Nat) : ((loopStates delBody fuel a).map delRotations).sum ≤ 1 := by
  rcases loopStates_of_done h fuel with e | e
  · simp [e]
  · simpa [e] using delRotations_le_one a

theorem del_rot_sum : ∀ (fuel : Nat) (k : Path) (t : Tree), DelInv k t →
    ((loopStates delBody fuel (k, t)).map delRotations).sum ≤ 3 := by
  intro fuel
  induction fuel with
  | zero => intro k t _; simp [loopStates]
  | succ fuel ih =>
    intro k t hinv
    have h1 := delRotations_le_one (k, t)
    rcases delBody_inv k t hinv with ⟨st, e, _⟩ | ⟨k', t', e, _, st, e', _⟩ |
        ⟨k', t', e, _, hinv', hlen, _⟩ | ⟨k', t', e, _, hinv', ht', ⟨f, k1, rfl, hf, _⟩, _⟩
    · simp only [loopStates, e, List.map_cons, List.map_nil, List.sum_cons, List.sum_nil]
      omega
    · have := del_rot_tail e' fuel
      simp only [loopStates, e, List.map_cons, List.sum_cons]
      omega
    · have h0 := del_next_shorter e hlen
      have := ih k' t' hinv'
      simp only [loopStates, e, List.map_cons, List.sum_cons]
      omega
    · simp only [loopStates, e, List.map_cons, List.sum_cons]
      have h1' := delRotations_le_one (f :: k1, t')
      cases fuel with
      | zero => simp [loopStates]; omega
      | succ fuel =>
        rcases delBody_inv _ t' hinv' with ⟨st, e', _⟩ | ⟨k2, t2, e', _, st, e2, _⟩ |
          ⟨_, _, _, _, _, _, f', k1', hk, hf'⟩ | ⟨_, _, _, _, _, _, _, f', k1', hk, hf'⟩
        · simp only [loopStates, e', List.map_cons, List.map_nil, List.sum_cons,
            List.sum_nil]
          omega
        · have := del_rot_tail e2 fuel
          simp only [loopStates, e', List.map_cons, List.sum_cons]
          omega
        · simp only [List.cons.injEq] at hk
          rw [hk.1, hf'] at hf
          simp at hf
        · simp only [List.cons.injEq] at hk
          rw [hk.1, hf'] at hf
          simp at hf

theorem del_trace_case1 : ∀ (fuel : Nat) (k : Path) (t : Tree), DelInv k t →
    ∀ b ∈ loopStates delBody fuel (k, t), delCaseOf b = 1 → DelInv b.1 b.2 := by
  intro fuel
  induction fuel with
  | zero => intro k t _ b hb; simp [loopStates] at hb
  | succ fuel ih =>
    intro k t hinv b hb hc
    simp only [loopStates, List.mem_cons] at hb
    rcases hb with rfl | hb
    · exact hinv
    rcases delBody_inv k t hinv with ⟨st, e, _⟩ | ⟨k', t', e, _, st, e', _⟩ |
        ⟨k', t', e, _, hinv', _⟩ | ⟨k', t', e, _, hinv', _⟩
    · simp [e] at hb
    · simp only [e] at hb
      rcases loopStates_of_done e' fuel with e2 | e2
      · simp [e2] at hb
      · simp only [e2, List.mem_singleton] at hb
        subst hb
        exact absurd e' (del_case1_not_done hc)
    · simp only [e] at hb
      exact ih k' t' hinv' b hb hc
    · simp only [e] at hb
      exact ih k' t' hinv' b hb hc

theorem insertBodyRotations_le (st : Nat × Mem) : insertBodyRotations st ≤ 2 := by
  simp only [insertBodyRotations]
  repeat' split
  all_goals omega

theorem insert_next_rot {st st' : Nat × Mem}
    (h : FixupAfterInsertBody st = some (LoopStep.next st')) : insertBodyRotations st = 0 := by
  obtain ⟨node, s⟩ := st
  simp only [FixupAfterInsertBody] at h
  simp only [insertBodyRotations]
  cases h0 : IsRed s (s.node node).parent with
  | false => simp
  | true =>
    simp only [h0, if_true] at h ⊢
    cases hp : (s.node node).parent with
    | none => rfl
    | some p =>
      simp only [hp] at h ⊢
      cases hg : (s.node p).parent with
      | none => rfl
      | some g =>
        simp only [hg] at h ⊢
        by_cases h1 : (s.node node).color ≠ Color.kRed
        · simp [h1] at h
        simp only [h1, if_false] at h
        by_cases h2 : some p = (s.node g).left
        · simp only [h2, if_true] at h ⊢
          cases h3 : IsRed s (s.node g).right with
          | true => simp
          | false =>
            exfalso
            simp only [h3, Bool.false_eq_true, if_false] at h
            by_cases h4 : some node = (s.node p).right
            · simp only [h4, if_true] at h
              simp [Option.bind_eq_some] at h
            · simp only [h4, if_false] at h
              simp [Option.bind_eq_some] at h
        · simp only [h2, if_false] at h ⊢
          cases h3 : IsRed s (s.node g).left with
          | true => simp
          | false =>
            exfalso
            simp only [h3, Bool.false_eq_true, if_false] at h
            by_cases h4 : some node = (s.node p).left
            · simp only [h4, if_true] at h
              simp [Option.bind_eq_some] at h
            · simp only [h4, if_false] at h
              simp [Option.bind_eq_some] at h

theorem insert_rot_sum : ∀ (fuel : Nat) (st : Nat × Mem),
    ((loopStates FixupAfterInsertBody fuel st).map insertBodyRotations).sum ≤ 2 := by
  intro fuel
  induction fuel with
  | zero => intro st; simp [loopStates]
  | succ fuel ih =>
    intro st
    have h1 := insertBodyRotations_le st
    cases hb : FixupAfterInsertBody st with
    | none => simp [loopStates, hb]; exact h1
    | some r =>
      cases r with
      | next st' =>
        have h0 := insert_next_rot hb
        have := ih st'
        simp only [loopStates, hb, List.map_cons, List.sum_cons]
        omega
      | done st' => simp [loopStates, hb]; exact h1

theorem del_step_rel (x : Option Nat × Option Nat × Mem) (a : Path × Tree)
    (hR : Owns x.2.2 (plug a.1 a.2) ∧ x.1 = a.2.ptr ∧ x.2.1 = cpar a.1) :
    (∀ a', delBody a = some (LoopStep.next a') →
      ∃ x', FixupAfterRemoveBody x = some (LoopStep.next x') ∧
        (Owns x'.2.2 (plug a'.1 a'.2) ∧ x'.1 = a'.2.ptr ∧ x'.2.1 = cpar a'.1)) ∧
    (∀ a', delBody a = some (LoopStep.done a') →
      ∃ x', FixupAfterRemoveBody x = some (LoopStep.done x')) := by
  obtain ⟨x1, x2, x3⟩ := x
  obtain ⟨hR1, hR2, hR3⟩ := hR
  simp only at hR1 hR2 hR3
  subst hR2 hR3
  have := delBody_refines hR1
  constructor
  · intro a1 hb
    simp only [hb] at this
    obtain ⟨s', e, o⟩ := this
    exact ⟨_, e, o, rfl, rfl⟩
  · intro a1 hb
    simp only [hb] at this
    obtain ⟨s', e, _⟩ := this
    exact ⟨_, e⟩

theorem forall2_mem_left {α β : Type} {R : α → β → Prop} {l1 : List α} {l2 : List β}
    (h : List.Forall₂ R l1 l2) {x : α} (hx : x ∈ l1) : ∃ a ∈ l2, R x a := by
  induction h with
  | nil => simp at hx
  | cons hr _ ih =>
    rcases List.mem_cons.mp hx with rfl | hx
    · exact ⟨_, by simp, hr⟩
    · obtain ⟨a, ha, r⟩ := ih hx
      exact ⟨a, by simp [ha], r⟩

theorem forall2_map_eq {α β γ : Type} {R : α → β → Prop} {l1 : List α} {l2 : List β}
    (h : List.Forall₂ R l1 l2) (f : α → γ) (g : β → γ) (hfg : ∀ x a, R x a → f x = g a) :
    l1.map f = l2.map g := by
  induction h with
  | nil => rfl
  | cons hr _ ih => simp [hfg _ _ hr, ih]

theorem remove_trace {s : Mem} {k : Path} {t : Tree} (h : Owns s (plug k t))
    (hinv : DelInv k t) (fuel : Nat) :
    List.Forall₂ (fun (x : Option Nat × Option Nat × Mem) (a : Path × Tree) =>
        Owns x.2.2 (plug a.1 a.2) ∧ x.1 = a.2.ptr ∧ x.2.1 = cpar a.1)
      (loopStates FixupAfterRemoveBody fuel (t.ptr, cpar k, s))
      (loopStates delBody fuel (k, t)) :=
  loopStates_forall2 _ del_step_rel fuel (t.ptr, cpar k, s) (k, t) ⟨h, rfl, rfl⟩
    (delStates_safe fuel k t hinv)

theorem remove_setup (s : Mem) (t : Tree) (n : Nat) (fuel : Nat)
    (hown : Owns s t) (hrb : t.IsRB) (hn : n ∈ t.ids) (hfuel : t.height + 3 ≤ fuel) :
    ∃ rc k' t' s7 s',
      RemoveSplice fuel (some n) s = some (rc, t'.ptr, cpar k', s7) ∧
      Owns s7 (plug k' t') ∧ RemoveFromRbTree fuel (some n) s = some s' ∧
      (rc ≠ Color.kBlack → s' = s7) ∧
      (rc = Color.kBlack → DelInv k' t' ∧
        RemoveFromRbTree fuel (some n) s = FixupAfterRemove fuel t'.ptr (cpar k') s7) := by
  obtain ⟨s', _, e', _⟩ := remove_ok s t n fuel hown hrb hn hfuel
  obtain ⟨k, c, l, r, rfl⟩ := mem_ids_plug hn
  have hh := height_sub_le k (Tree.node c l n r)
  have hrh : r.height ≤ fuel := by
    simp only [Tree.height] at hh
    have := le_max_right l.height r.height
    omega
  obtain ⟨rc, k', t', s7, e, o7, _, hcase⟩ := RemoveSplice_refines hown hrh
  refine ⟨rc, k', t', s7, s', e, o7, e', ?_, ?_⟩
  · intro hne
    rw [RemoveFromRbTree_eq_splice, e] at e'
    simpa [rebalanceAfterRemove, hne] using e'.symm
  rintro rfl
  refine ⟨?_, ?_⟩
  · rcases hcase with ⟨rfl, rfl, rfl, rfl⟩ | ⟨_, rfl, rfl, rfl, rfl⟩ |
      ⟨_, _, kr, cy, y, yr, hplug, hbk, rfl, rfl, rfl⟩
    · exact delInv_left hrb
    · exact delInv_right hrb
    · apply delInv_left (a := y)
      have : (plug (kr ++ Frame.R c l n :: k) (Tree.node Color.kBlack Tree.nil y t')).IsRB := by
        rw [plug_append, hplug]; exact hrb
      rw [plug_isRB] at this ⊢
      refine ⟨this.1, this.2.1, ?_⟩
      exact (PathOK_congr_append kr (Frame.R c l n :: k) (Frame.R c l y :: k)
        (fun c m => Iff.rfl) _ _).mp this.2.2
  · rw [RemoveFromRbTree_eq_splice, e]
    simp [rebalanceAfterRemove]

theorem iterate_of_fixupRemove {fuel : Nat} {node np : Option Nat} {s s' : Mem}
    (h : FixupAfterRemove fuel node np s = some s') :
    ∃ st, iterate FixupAfterRemoveBody fuel (node, np, s) = some st := by
  simp only [FixupAfterRemove] at h
  cases hi : iterate FixupAfterRemoveBody fuel (node, np, s) with
  | none => simp [hi] at h
  | some st => exact ⟨st, rfl⟩

theorem iterate_of_fixupInsert {fuel : Nat} {n : Nat} {s s' : Mem}
    (h : FixupAfterInsert fuel (some n) s = some s') :
    ∃ st, iterate FixupAfterInsertBody fuel (n, s) = some st := by
  simp only [FixupAfterInsert] at h
  cases hi : iterate FixupAfterInsertBody fuel (n, s) with
  | none => simp [hi] at h
  | some st => exact ⟨st, rfl⟩

theorem insert_setup (s : Mem) (t : Tree) (n : Nat) (parent : Option Nat)
    (parent_link : Link) (fuel : Nat) (hown : Owns s t) (hrb : t.IsRB)
    (hslot : EmptySlot s t parent parent_link) (hnew : n ∉ t.ids)
    (hfuel : t.height < fuel) :
    (∃ s', InsertIntoRbTree fuel (some n) parent parent_link s = some s') ∧
    InsertIntoRbTree fuel (some n) parent parent_link s =
      FixupAfterInsert fuel (some n) (linkNode n parent parent_link s) := by
  obtain ⟨s', t', e', _⟩ := insert_ok s t n parent parent_link fuel hown hrb hslot hnew hfuel
  obtain ⟨k, e, hp, hl⟩ := emptySlot_path hown hslot
  subst e hp hl
  obtain ⟨hld, ho⟩ := link_refines hown hnew
  refine ⟨⟨s', e'⟩, ?_⟩
  simp only [InsertIntoRbTree, hld, linkBelongsTo_linkOf, ne_eq, not_true_eq_false,
    if_false, linkNode]
  rfl

theorem fourNodeTree_isRB : fourNodeTree.IsRB := by
  rw [isRB_iff]
  simp [fourNodeTree]

/-- C21: on a valid red-black tree the loops of `FixupAfterInsert` (as `InsertIntoRbTree`
calls it) and of `FixupAfterRemove` (as `RemoveFromRbTree` calls it when the removed
colour is Black) leave after at most `height + 3` evaluations of their condition.  In the
loop of `FixupAfterRemove` a state of Case 1 is followed by a state in which the loop goes
on with another case than Case 1, and a state of Case 3 is followed by a state of Case 4,
whose iteration leaves the loop. -/
theorem C21_fixup_loops_terminate (s : Mem) (t : Tree) (fuel : Nat)
    (hown : Owns s t) (hrb : t.IsRB) (hfuel : t.height + 3 ≤ fuel) :
    (∀ n parent parent_link, EmptySlot s t parent parent_link → n ∉ t.ids →
      ∃ st, iterate FixupAfterInsertBody fuel (n, linkNode n parent parent_link s) =
        some st) ∧
    (∀ n, n ∈ t.ids → ∃ rc replacement replacement_parent s7,
      RemoveSplice fuel (some n) s = some (rc, replacement, replacement_parent, s7) ∧
      (rc = Color.kBlack →
        (∃ st, iterate FixupAfterRemoveBody fuel (replacement, replacement_parent, s7) =
          some st) ∧
        ∀ st ∈ loopStates FixupAfterRemoveBody fuel (replacement, replacement_parent, s7),
          (removeCaseOf st = 1 → ∃ st', FixupAfterRemoveBody st = some (LoopStep.next st') ∧
            removeCaseOf st' ≠ 1 ∧ removeCaseOf st' ≠ 0) ∧
          (removeCaseOf st = 3 → ∃ st' st'',
            FixupAfterRemoveBody st = some (LoopStep.next st') ∧ removeCaseOf st' = 4 ∧
            FixupAfterRemoveBody st' = some (LoopStep.done st'')))) := by
  constructor
  · intro n parent parent_link hslot hnew
    obtain ⟨⟨s', e1⟩, e2⟩ := insert_setup s t n parent parent_link fuel hown hrb hslot hnew
      (by omega)
    rw [e2] at e1
    exact iterate_of_fixupInsert e1
  · intro n hn
    obtain ⟨rc, k', t', s7, s', e, o7, e', _, hb⟩ := remove_setup s t n fuel hown hrb hn hfuel
    refine ⟨rc, t'.ptr, cpar k', s7, e, ?_⟩
    intro hrc
    obtain ⟨hinv, e2⟩ := hb hrc
    rw [e2] at e'
    refine ⟨iterate_of_fixupRemove e', ?_⟩
    intro st hst
    obtain ⟨a, ha, hR⟩ := forall2_mem_left (remove_trace o7 hinv fuel) hst
    have hcase : removeCaseOf st = delCaseOf a := by
      obtain ⟨x1, x2, x3⟩ := st
      obtain ⟨r1, r2, r3⟩ := hR
      simp only at r1 r2 r3
      subst r2 r3
      exact removeCaseOf_refines r1
    constructor
    · intro hc
      rw [hcase] at hc
      have hinva := del_trace_case1 fuel k' t' hinv a ha hc
      obtain ⟨b, eb, c0, c1⟩ := del_case1 (k := a.1) (t := a.2) hinva hc
      obtain ⟨x', ex, r1, r2, r3⟩ := (del_step_rel st a hR).1 b eb
      refine ⟨x', ex, ?_⟩
      have : removeCaseOf x' = delCaseOf b := by
        obtain ⟨y1, y2, y3⟩ := x'
        simp only at r1 r2 r3
        subst r2 r3
        exact removeCaseOf_refines r1
      rw [this]
      exact ⟨c1, c0⟩
    · intro hc
      rw [hcase] at hc
      obtain ⟨b, b', eb, c4, eb'⟩ := del_case3 (k := a.1) (t := a.2) hc
      obtain ⟨x', ex, hR'⟩ := (del_step_rel st a hR).1 b eb
      obtain ⟨x'', ex'⟩ := (del_step_rel x' b hR').2 b' eb'
      refine ⟨x', x'', ex, ?_, ex'⟩
      obtain ⟨r1, r2, r3⟩ := hR'
      obtain ⟨y1, y2, y3⟩ := x'
      simp only at r1 r2 r3
      subst r2 r3
      rw [removeCaseOf_refines r1]
      exact c4

theorem C21_fixup_loops_terminate_witness :
    Owns fourNodeMem fourNodeTree ∧
    fourNodeTree.IsRB ∧
    fourNodeTree.height + 3 ≤ 6 ∧
    ((∀ n parent parent_link, EmptySlot fourNodeMem fourNodeTree parent parent_link → n ∉ fourNodeTree.ids →
      ∃ st, iterate FixupAfterInsertBody 6 (n, linkNode n parent parent_link fourNodeMem) =
        some st) ∧
    (∀ n, n ∈ fourNodeTree.ids → ∃ rc replacement replacement_parent s7,
      RemoveSplice 6 (some n) fourNodeMem = some (rc, replacement, replacement_parent, s7) ∧
      (rc = Color.kBlack →
        (∃ st, iterate FixupAfterRemoveBody 6 (replacement, replacement_parent, s7) =
          some st) ∧
        ∀ st ∈ loopStates FixupAfterRemoveBody 6 (replacement, replacement_parent, s7),
          (removeCaseOf st = 1 → ∃ st', FixupAfterRemoveBody st = some (LoopStep.next st') ∧
            removeCaseOf st' ≠ 1 ∧ removeCaseOf st' ≠ 0) ∧
          (removeCaseOf st = 3 → ∃ st' st'',
            FixupAfterRemoveBody st = some (LoopStep.next st') ∧ removeCaseOf st' = 4 ∧
            FixupAfterRemoveBody st' = some (LoopStep.done st''))))) :=
  ⟨fourNodeMem_owns, fourNodeTree_isRB, by decide,
    C21_fixup_loops_terminate fourNodeMem fourNodeTree 6 fourNodeMem_owns fourNodeTree_isRB (by decide)⟩

/-- C22: on a valid red-black tree `InsertIntoRbTree` returns after at most 2 calls of
`RotateLeft` and `RotateRight`, and `RemoveFromRbTree` after at most 3: the rotations are
those of the fixup loops, counted over all the states the loop passes through. -/
theorem C22_rotation_bounds (s : Mem) (t : Tree) (fuel : Nat)
    (hown : Owns s t) (hrb : t.IsRB) (hfuel : t.height + 3 ≤ fuel) :
    (∀ n parent parent_link, EmptySlot s t parent parent_link → n ∉ t.ids →
      (∃ s', InsertIntoRbTree fuel (some n) parent parent_link s = some s') ∧
      InsertIntoRbTree fuel (some n) parent parent_link s =
        FixupAfterInsert fuel (some n) (linkNode n parent parent_link s) ∧
      ((loopStates FixupAfterInsertBody fuel (n, linkNode n parent parent_link s)).map
        insertBodyRotations).sum ≤ 2) ∧
    (∀ n, n ∈ t.ids → ∃ rc replacement replacement_parent s7 s',
      RemoveSplice fuel (some n) s = some (rc, replacement, replacement_parent, s7) ∧
      RemoveFromRbTree fuel (some n) s = some s' ∧
      (rc ≠ Color.kBlack → s' = s7) ∧
      (rc = Color.kBlack →
        RemoveFromRbTree fuel (some n) s =
          FixupAfterRemove fuel replacement replacement_parent s7 ∧
        ((loopStates FixupAfterRemoveBody fuel (replacement, replacement_parent, s7)).map
          removeBodyRotations).sum ≤ 3)) := by
  constructor
  · intro n parent parent_link hslot hnew
    obtain ⟨h1, h2⟩ := insert_setup s t n parent parent_link fuel hown hrb hslot hnew
      (by omega)
    exact ⟨h1, h2, insert_rot_sum fuel _⟩
  · intro n hn
    obtain ⟨rc, k', t', s7, s', e, o7, e', hr, hb⟩ := remove_setup s t n fuel hown hrb hn hfuel
    refine ⟨rc, t'.ptr, cpar k', s7, s', e, e', hr, ?_⟩
    intro hrc
    obtain ⟨hinv, e2⟩ := hb hrc
    refine ⟨e2, ?_⟩
    have hmap := forall2_map_eq (remove_trace o7 hinv fuel) removeBodyRotations delRotations
      (by
        rintro ⟨x1, x2, x3⟩ a ⟨r1, r2, r3⟩
        simp only at r1 r2 r3
        subst r2 r3
        simp only [removeBodyRotations, delRotations, removeCaseOf_refines r1])
    rw [hmap]
    exact del_rot_sum fuel k' t' hinv

theorem C22_rotation_bounds_witness :
    Owns fourNodeMem fourNodeTree ∧
    fourNodeTree.IsRB ∧
    fourNodeTree.height + 3 ≤ 6 ∧
    ((∀ n parent parent_link, EmptySlot fourNodeMem fourNodeTree parent parent_link → n ∉ fourNodeTree.ids →
      (∃ s', InsertIntoRbTree 6 (some n) parent parent_link fourNodeMem = some s') ∧
      InsertIntoRbTree 6 (some n) parent parent_link fourNodeMem =
        FixupAfterInsert 6 (some n) (linkNode n parent parent_link fourNodeMem) ∧
      ((loopStates FixupAfterInsertBody 6 (n, linkNode n parent parent_link fourNodeMem)).map
        insertBodyRotations).sum ≤ 2) ∧
    (∀ n, n ∈ fourNodeTree.ids → ∃ rc replacement replacement_parent s7 s',
      RemoveSplice 6 (some n) fourNodeMem = some (rc, replacement, replacement_parent, s7) ∧
      RemoveFromRbTree 6 (some n) fourNodeMem = some s' ∧
      (rc ≠ Color.kBlack → s' = s7) ∧
      (rc = Color.kBlack →
        RemoveFromRbTree 6 (some n) fourNodeMem =
          FixupAfterRemove 6 replacement replacement_parent s7 ∧
        ((loopStates FixupAfterRemoveBody 6 (replacement, replacement_parent, s7)).map
          removeBodyRotations).sum ≤ 3))) :=
  ⟨fourNodeMem_owns, fourNodeTree_isRB, by decide,
    C22_rotation_bounds fourNodeMem fourNodeTree 6 fourNodeMem_owns fourNodeTree_isRB (by decide)⟩

theorem shape_of_rep {m : Nat → RbNode} : ∀ (t : Tree) (par : Option Nat),
    Tree.Rep m par t → t.Shape m := by
  intro t
  induction t with
  | nil => intro _ _; trivial
  | node c l a r ihl ihr =>
    intro par h
    obtain ⟨h1, _, h3, h4, h5, h6⟩ := h
    exact ⟨h1, h3, h4, ihl _ h5, ihr _ h6⟩

theorem isTree_of_owns {s : Mem} {t : Tree} (h : Owns s t) : IsTree s t :=
  ⟨h.1, shape_of_rep t none h.2.1, h.2.2⟩

theorem rep_of_shape {s : Mem} (hsym : LinkSym s) : ∀ (t : Tree) (par : Option Nat),
    t.Shape s.node → (∀ a, t.ptr = some a → (s.node a).parent = par ∧ Reach s a) →
    Tree.Rep s.node par t := by
  intro t
  induction t with
  | nil => intro _ _ _; trivial
  | node c l a r ihl ihr =>
    intro par h hroot
    obtain ⟨h1, h3, h4, h5, h6⟩ := h
    obtain ⟨hp, hr⟩ := hroot a rfl
    refine ⟨h1, hp, h3, h4, ihl _ h5 ?_, ihr _ h6 ?_⟩
    · intro b hb
      rw [← h3] at hb
      exact ⟨(hsym.2 a hr).1 b hb, Reach.left a b hr hb⟩
    · intro b hb
      rw [← h4] at hb
      exact ⟨(hsym.2 a hr).2 b hb, Reach.right a b hr hb⟩

theorem owns_of_isTree {s : Mem} {t : Tree} (h : IsTree s t) (hsym : LinkSym s) :
    Owns s t := by
  refine ⟨h.1, rep_of_shape hsym t none h.2.1 ?_, h.2.2⟩
  intro a ha
  rw [← h.1] at ha
  exact ⟨hsym.1 a ha, Reach.root a ha⟩

theorem reach_mem {s : Mem} {t : Tree} (h : Owns s t) {p : Nat} (hp : Reach s p) :
    p ∈ t.ids := by
  induction hp with
  | root r hr =>
    rw [h.1] at hr
    exact ptr_mem_ids hr
  | left p c _ hc ih =>
    obtain ⟨k, c0, l, r, rfl⟩ := mem_ids_plug ih
    have hN := read_focus h
    rw [hN] at hc
    have := ptr_mem_ids hc
    simp only [ids_plug, ids_node, List.mem_append, List.mem_cons]
    tauto
  | right p c _ hc ih =>
    obtain ⟨k, c0, l, r, rfl⟩ := mem_ids_plug ih
    have hN := read_focus h
    rw [hN] at hc
    have := ptr_mem_ids hc
    simp only [ids_plug, ids_node, List.mem_append, List.mem_cons]
    tauto

theorem linkSym_of_owns {s : Mem} {t : Tree} (h : Owns s t) : LinkSym s := by
  constructor
  · intro r hr
    rw [h.1] at hr
    exact rep_parent h.2.1 hr
  · intro p hp
    obtain ⟨k, c0, l, r, rfl⟩ := mem_ids_plug (reach_mem h hp)
    have hN := read_focus h
    have hL := rep_focus (k := Frame.L c0 p r :: k) (t := l) h
    have hR := rep_focus (k := Frame.R c0 l p :: k) (t := r) h
    constructor
    · intro c hc
      rw [hN] at hc
      exact rep_parent hL hc
    · intro c hc
      rw [hN] at hc
      exact rep_parent hR hc

/-- C24: when the records reachable from the root form a binary tree in which the root
has no parent and every present child of a record has that record as its parent, the
same holds after `RotateLeft(x)` (with `x->right` present), after `RotateRight(x)` (with
`x->left` present), and, when the tree is a red-black tree, after `InsertIntoRbTree` of a
new node into an empty slot and after `RemoveFromRbTree` of a node of the tree; each of
these calls returns. -/
theorem C24_link_symmetry (s : Mem) (t : Tree) (htree : IsTree s t) (hsym : LinkSym s) :
    (∀ x, x ∈ t.ids → (s.node x).right ≠ none →
      ∃ s' t', RotateLeft (some x) s = some s' ∧ IsTree s' t' ∧ LinkSym s') ∧
    (∀ x, x ∈ t.ids → (s.node x).left ≠ none →
      ∃ s' t', RotateRight (some x) s = some s' ∧ IsTree s' t' ∧ LinkSym s') ∧
    (t.IsRB → ∀ n parent parent_link fuel, EmptySlot s t parent parent_link → n ∉ t.ids →
      t.height < fuel →
      ∃ s' t', InsertIntoRbTree fuel (some n) parent parent_link s = some s' ∧
        IsTree s' t' ∧ LinkSym s') ∧
    (t.IsRB → ∀ n fuel, n ∈ t.ids → t.height + 3 ≤ fuel →
      ∃ s' t', RemoveFromRbTree fuel (some n) s = some s' ∧ IsTree s' t' ∧ LinkSym s') := by
  have hown := owns_of_isTree htree hsym
  refine ⟨?_, ?_, ?_, ?_⟩
  · intro x hx hr
    obtain ⟨k, c, l, r, rfl⟩ := mem_ids_plug hx
    have hN := read_focus hown
    cases r with
    | nil => simp [hN] at hr
    | node cy b y cc =>
      obtain ⟨s', e, o⟩ := RotateLeft_plug hown
      exact ⟨s', _, e, isTree_of_owns o, linkSym_of_owns o⟩
  · intro x hx hl
    obtain ⟨k, c, l, r, rfl⟩ := mem_ids_plug hx
    have hN := read_focus hown
    cases l with
    | nil => simp [hN] at hl
    | node cy a y b =>
      obtain ⟨s', e, o⟩ := RotateRight_plug hown
      exact ⟨s', _, e, isTree_of_owns o, linkSym_of_owns o⟩
  · intro hrb n parent parent_link fuel hslot hnew hfuel
    obtain ⟨s', t', e, o, _⟩ := insert_ok s t n parent parent_link fuel hown hrb hslot hnew
      hfuel
    exact ⟨s', t', e, isTree_of_owns o, linkSym_of_owns o⟩
  · intro hrb n fuel hn hfuel
    obtain ⟨s', t', e, o, _⟩ := remove_ok s t n fuel hown hrb hn hfuel
    exact ⟨s', t', e, isTree_of_owns o, linkSym_of_owns o⟩

theorem C24_link_symmetry_witness :
    IsTree exampleMem exampleTree ∧ LinkSym exampleMem ∧
    ((∀ x, x ∈ exampleTree.ids → (exampleMem.node x).right ≠ none →
      ∃ s' t', RotateLeft (some x) exampleMem = some s' ∧ IsTree s' t' ∧ LinkSym s') ∧
    (∀ x, x ∈ exampleTree.ids → (exampleMem.node x).left ≠ none →
      ∃ s' t', RotateRight (some x) exampleMem = some s' ∧ IsTree s' t' ∧ LinkSym s') ∧
    (exampleTree.IsRB → ∀ n parent parent_link fuel,
      EmptySlot exampleMem exampleTree parent parent_link → n ∉ exampleTree.ids →
      exampleTree.height < fuel →
      ∃ s' t', InsertIntoRbTree fuel (some n) parent parent_link exampleMem = some s' ∧
        IsTree s' t' ∧ LinkSym s') ∧
    (exampleTree.IsRB → ∀ n fuel, n ∈ exampleTree.ids → exampleTree.height + 3 ≤ fuel →
      ∃ s' t', RemoveFromRbTree fuel (some n) exampleMem = some s' ∧ IsTree s' t' ∧
        LinkSym s')) :=
  ⟨isTree_of_owns exampleMem_owns, linkSym_of_owns exampleMem_owns,
    C24_link_symmetry exampleMem exampleTree (isTree_of_owns exampleMem_owns)
      (linkSym_of_owns exampleMem_owns)⟩

theorem mirror_setColor (s : Mem) (a : Nat) (c : Color) :
    (s.setColor a c).mirror = s.mirror.setColor a c := by
  apply mem_ext
  · intro b
    by_cases h : b = a <;> simp [Mem.mirror, Mem.setColor, Function.update_apply, h]
  · rfl

theorem SetColor_mirror (n : Option Nat) (c : Color) (s : Mem) :
    SetColor n c s.mirror = (SetColor n c s).map Mem.mirror := by
  cases n <;> simp [SetColor, mirror_setColor]

theorem IsRed_mirror (s : Mem) (n : Option Nat) : IsRed s.mirror n = IsRed s n := by
  cases n <;> rfl

theorem IsBlack_mirror (s : Mem) (n : Option Nat) : IsBlack s.mirror n = IsBlack s n := by
  cases n <;> rfl

theorem parentIs_mirror (s : Mem) (n q : Option Nat) :
    parentIs s.mirror n q = parentIs s n q := by
  cases n <;> rfl

theorem mirror_node_parent (s : Mem) (a : Nat) :
    (s.mirror.node a).parent = (s.node a).parent := rfl

theorem mirror_node_color (s : Mem) (a : Nat) :
    (s.mirror.node a).color = (s.node a).color := rfl

theorem mirror_rb_node (s : Mem) : s.mirror.rb_node = s.rb_node := rfl

theorem bind_map_mirror {α : Type} (x : Option Mem) (f g : Mem → Option α) (F : α → α)
    (hfg : ∀ s1, x = some s1 → g s1.mirror = (f s1).map F) :
    (x.map Mem.mirror).bind g = (x.bind f).map F := by
  cases x with
  | none => rfl
  | some s1 => simpa using hfg s1 rfl

/-- Recolouring a record keeps the memory well formed, with the same records in the
tree. -/
theorem owns_setColor {s : Mem} {t : Tree} (h : Owns s t) (a : Nat) (c : Color) :
    ∃ t', Owns (s.setColor a c) t' ∧ ∀ x, x ∈ t'.ids ↔ x ∈ t.ids := by
  by_cases ha : a ∈ t.ids
  · obtain ⟨k, c0, l, r, rfl⟩ := mem_ids_plug ha
    exact ⟨_, setColor_plug h c, by intro x; simp [ids_plug]⟩
  · refine ⟨t, ⟨h.1, Rep_congr h.2.1 ?_, h.2.2⟩, fun _ => Iff.rfl⟩
    intro b hb
    have hba : b ≠ a := by rintro rfl; exact ha hb
    simp [Function.update_apply, hba]

theorem owns_SetColor {s s' : Mem} {t : Tree} {n : Option Nat} {c : Color} (h : Owns s t)
    (e : SetColor n c s = some s') : ∃ t', Owns s' t' ∧ ∀ x, x ∈ t'.ids ↔ x ∈ t.ids := by
  cases n with
  | none => simp [SetColor] at e
  | some a =>
    simp only [SetColor, Option.some.injEq] at e
    subst e
    exact owns_setColor h a c

theorem owns_RotateLeft {s s' : Mem} {t : Tree} {x : Nat} (h : Owns s t) (hx : x ∈ t.ids)
    (e : RotateLeft (some x) s = some s') :
    ∃ t', Owns s' t' ∧ ∀ z, z ∈ t'.ids ↔ z ∈ t.ids := by
  obtain ⟨k, c, l, r, rfl⟩ := mem_ids_plug hx
  have hN := read_focus h
  cases r with
  | nil => simp [RotateLeft, hN] at e
  | node cy b y cc =>
    obtain ⟨s'', e', o⟩ := RotateLeft_plug h
    rw [e] at e'
    cases e'
    refine ⟨_, o, ?_⟩
    intro z
    simp only [ids_plug, ids_node, List.mem_append, List.mem_cons]
    tauto

theorem owns_RotateRight {s s' : Mem} {t : Tree} {x : Nat} (h : Owns s t) (hx : x ∈ t.ids)
    (e : RotateRight (some x) s = some s') :
    ∃ t', Owns s' t' ∧ ∀ z, z ∈ t'.ids ↔ z ∈ t.ids := by
  obtain ⟨k, c, l, r, rfl⟩ := mem_ids_plug hx
  have hN := read_focus h
  cases l with
  | nil => simp [RotateRight, hN] at e
  | node cy a y b =>
    obtain ⟨s'', e', o⟩ := RotateRight_plug h
    rw [e] at e'
    cases e'
    refine ⟨_, o, ?_⟩
    intro z
    simp only [ids_plug, ids_node, List.mem_append, List.mem_cons]
    tauto

/-- The parent of a record of a well-formed tree is a record of the tree, and the record
is exactly one of its two children. -/
theorem parent_child {s : Mem} {t : Tree} {x p : Nat} (h : Owns s t) (hx : x ∈ t.ids)
    (hp : (s.node x).parent = some p) :
    p ∈ t.ids ∧ ((s.node p).left = some x ∧ (s.node p).right ≠ some x ∨
      (s.node p).right = some x ∧ (s.node p).left ≠ some x) := by
  obtain ⟨lk, hlk, _⟩ := Transplant_exact none h hx
  obtain ⟨k, c, l, r, rfl⟩ := mem_ids_plug hx
  have hN := read_focus h
  rw [hN] at hp
  simp only at hp
  have hpm : p ∈ (plug k (Tree.node c l x r)).ids := by
    have := cpar_mem hp
    simp only [ids_plug, ids_node, List.mem_append, List.mem_cons] at this ⊢
    tauto
  refine ⟨hpm, ?_⟩
  rcases hlk with ⟨_, _, h2⟩ | ⟨q, _, _, hq, hc⟩
  · rw [hN] at h2
    simp only at h2
    rw [h2] at hp
    cases hp
  · rw [hN] at hq
    simp only at hq
    rw [hq] at hp
    cases hp
    rcases hc with ⟨_, h1, h2⟩ | ⟨_, h1, h2⟩
    · exact Or.inl ⟨h1, h2⟩
    · exact Or.inr ⟨h1, h2⟩

/-- The children of a record of a well-formed tree are records of the tree, and they are
two different records. -/
theorem child_mem {s : Mem} {t : Tree} {p : Nat} (h : Owns s t) (hp : p ∈ t.ids) :
    (∀ c, (s.node p).left = some c → c ∈ t.ids ∧ (s.node p).right ≠ some c) ∧
    (∀ c, (s.node p).right = some c → c ∈ t.ids ∧ (s.node p).left ≠ some c) := by
  obtain ⟨k, c0, l, r, rfl⟩ := mem_ids_plug hp
  have hN := read_focus h
  have hnd := nodup_focus h
  constructor
  · intro c hc
    rw [hN] at hc ⊢
    simp only at hc ⊢
    have hm := ptr_mem_ids hc
    refine ⟨by simp only [ids_plug, ids_node, List.mem_append, List.mem_cons]; tauto, ?_⟩
    intro e
    obtain ⟨c1, c2⟩ := cnt hnd (ptr_mem_ids e)
    have c3 := List.count_pos_iff.mpr hm
    simp only [ids_node, before, after, List.count_append, List.count_cons,
      List.count_nil, beq_self_eq_true, if_true] at c1 c2
    omega
  · intro c hc
    rw [hN] at hc ⊢
    simp only at hc ⊢
    have hm := ptr_mem_ids hc
    refine ⟨by simp only [ids_plug, ids_node, List.mem_append, List.mem_cons]; tauto, ?_⟩
    intro e
    obtain ⟨c1, c2⟩ := cnt hnd (ptr_mem_ids e)
    have c3 := List.count_pos_iff.mpr hm
    simp only [ids_node, before, after, List.count_append, List.count_cons,
      List.count_nil, beq_self_eq_true, if_true] at c1 c2
    omega

theorem insertBody_mirror {s : Mem} {t : Tree} {node : Nat} (h : Owns s t)
    (hn : node ∈ t.ids) :
    FixupAfterInsertBody (node, s.mirror) =
      (FixupAfterInsertBody (node, s)).map (LoopStep.map mirrorInsertState) := by
  unfold FixupAfterInsertBody
  simp only [IsRed_mirror, mirror_node_parent, mirror_node_color, mirror_node_left,
    mirror_node_right]
  cases hpar : (s.node node).parent with
  | none => simp [LoopStep.map, mirrorInsertState]
  | some p =>
    obtain ⟨hp, hpc⟩ := parent_child h hn hpar
    by_cases hred : IsRed s (some p) = true
    swap
    · simp only [hred]
      simp [LoopStep.map, mirrorInsertState]
    simp only [hred, if_true]
    by_cases hcol : (s.node node).color = Color.kRed
    swap
    · simp [hcol]
    simp only [hcol, ne_eq, not_true_eq_false, if_false]
    cases hg : (s.node p).parent with
    | none => simp
    | some g =>
      obtain ⟨hgm, hgc⟩ := parent_child h hp hg
      have el : (some node = (s.node p).left) ↔ ((s.node p).left = some node) := eq_comm
      have er : (some node = (s.node p).right) ↔ ((s.node p).right = some node) := eq_comm
      simp only [el, er]
      rcases hgc with ⟨hgl, hgr⟩ | ⟨hgr, hgl⟩
      · simp only [hgl, Ne.symm hgr, if_true, if_false]
        by_cases hu : IsRed s (s.node g).right = true
        · simp only [hu, if_true, SetColor_mirror]
          cases hur : (s.node g).right with
          | none => simp [hur] at hu
          | some u => simp [SetColor, LoopStep.map, mirrorInsertState, mirror_setColor]
        · simp only [hu, if_false]
          by_cases hin : (s.node p).right = some node
          · simp only [hin, if_true]
            rw [RotateRight_mirror h hp]
            apply bind_map_mirror
            intro s1 e1
            obtain ⟨t1, o1, i1⟩ := owns_RotateLeft h hp e1
            rw [RotateLeft_mirror o1 ((i1 g).mpr hgm)]
            apply bind_map_mirror
            intro s2 e2
            simp [SetColor, LoopStep.map, mirrorInsertState, mirror_setColor]
          · simp only [hin, if_false]
            rw [RotateLeft_mirror h hgm]
            apply bind_map_mirror
            intro s2 e2
            simp [SetColor, LoopStep.map, mirrorInsertState, mirror_setColor]
      · simp only [hgr, Ne.symm hgl, if_true, if_false]
        by_cases hu : IsRed s (s.node g).left = true
        · simp only [hu, if_true, SetColor_mirror]
          cases hur : (s.node g).left with
          | none => simp [hur] at hu
          | some u => simp [SetColor, LoopStep.map, mirrorInsertState, mirror_setColor]
        · simp only [hu, if_false]
          by_cases hin : (s.node p).left = some node
          · simp only [hin, if_true]
            rw [RotateLeft_mirror h hp]
            apply bind_map_mirror
            intro s1 e1
            obtain ⟨t1, o1, i1⟩ := owns_RotateRight h hp e1
            rw [RotateRight_mirror o1 ((i1 g).mpr hgm)]
            apply bind_map_mirror
            intro s2 e2
            simp [SetColor, LoopStep.map, mirrorInsertState, mirror_setColor]
          · simp only [hin, if_false]
            rw [RotateRight_mirror h hgm]
            apply bind_map_mirror
            intro s2 e2
            simp [SetColor, LoopStep.map, mirrorInsertState, mirror_setColor]

theorem insertBody_next_owns {s : Mem} {t : Tree} {node : Nat} (h : Owns s t)
    (hn : node ∈ t.ids) (st' : Nat × Mem)
    (e : FixupAfterInsertBody (node, s) = some (LoopStep.next st')) :
    ∃ t', Owns st'.2 t' ∧ st'.1 ∈ t'.ids := by
  unfold FixupAfterInsertBody at e
  simp only at e
  cases hpar : (s.node node).parent with
  | none => simp [hpar] at e
  | some p =>
    obtain ⟨hp, hpc⟩ := parent_child h hn hpar
    cases hg : (s.node p).parent with
    | none =>
      simp only [hpar, hg] at e
      split_ifs at e
      simp at e
    | some g =>
      obtain ⟨hgm, hgc⟩ := parent_child h hp hg
      obtain ⟨t1, o1, i1⟩ := owns_setColor h g Color.kRed
      obtain ⟨t2, o2, i2⟩ := owns_setColor o1 p Color.kBlack
      simp only [hpar, hg] at e
      split_ifs at e with h1 h2 h3 h4 h5 h6 h7
      all_goals first
        | (simp [Option.bind_eq_some] at e; done)
        | (simp only [Option.bind_eq_some, Option.some.injEq, LoopStep.next.injEq,
            SetColor, exists_eq_left'] at e
           obtain ⟨a, ea, rfl⟩ := e
           obtain ⟨t3, o3, i3⟩ := owns_SetColor o2 ea
           exact ⟨t3, o3, (i3 g).mpr ((i2 g).mpr ((i1 g).mpr hgm))⟩)

theorem iterate_insert_mirror (fuel : Nat) : ∀ (node : Nat) (s : Mem) (t : Tree),
    Owns s t → node ∈ t.ids →
    iterate FixupAfterInsertBody fuel (node, s.mirror) =
      (iterate FixupAfterInsertBody fuel (node, s)).map mirrorInsertState := by
  induction fuel with
  | zero => intro _ _ _ _ _; rfl
  | succ fuel ih =>
    intro node s t h hn
    simp only [iterate]
    rw [insertBody_mirror h hn]
    cases e : FixupAfterInsertBody (node, s) with
    | none => rfl
    | some st =>
      cases st with
      | next y =>
        obtain ⟨t1, o1, i1⟩ := insertBody_next_owns h hn y e
        simp only [Option.map_some', LoopStep.map, mirrorInsertState]
        exact ih y.1 y.2 t1 o1 i1
      | done y => rfl

theorem FixupAfterInsert_mirror (fuel : Nat) (node : Nat) (s : Mem) (t : Tree)
    (h : Owns s t) (hn : node ∈ t.ids) :
    FixupAfterInsert fuel (some node) s.mirror =
      (FixupAfterInsert fuel (some node) s).map Mem.mirror := by
  simp only [FixupAfterInsert]
  rw [iterate_insert_mirror fuel node s t h hn]
  cases iterate FixupAfterInsertBody fuel (node, s) with
  | none => rfl
  | some st =>
    simp only [Option.map_some', mirrorInsertState, mirror_rb_node, SetColor_mirror]

theorem removeBody_mirror {s : Mem} {t : Tree} {node np : Option Nat} (h : Owns s t)
    (hp : ∀ p, np = some p → p ∈ t.ids) :
    FixupAfterRemoveBody (node, np, s.mirror) =
      (FixupAfterRemoveBody (node, np, s)).map (LoopStep.map mirrorRemoveState) := by
  unfold FixupAfterRemoveBody
  simp only [IsRed_mirror, IsBlack_mirror, parentIs_mirror, mirror_rb_node,
    mirror_node_parent, mirror_node_color, mirror_node_left, mirror_node_right]
  by_cases hc : (node = none ∨ IsBlack s node = true) ∧ node ≠ s.rb_node
  swap
  · simp only [if_neg hc]
    rfl
  simp only [if_pos hc]
  cases np with
  | none => rfl
  | some p =>
    have hpm := hp p rfl
    obtain ⟨hL, hR⟩ := child_mem h hpm
    simp only
    by_cases ha : (s.node p).left = node ∨ (s.node p).right = node
    swap
    · have ha' : ¬ ((s.node p).right = node ∨ (s.node p).left = node) := by tauto
      simp only [if_pos ha, if_pos ha']
      rfl
    have ha' : (s.node p).right = node ∨ (s.node p).left = node := by tauto
    simp only [if_neg (not_not.mpr ha), if_neg (not_not.mpr ha')]
    by_cases hpi : parentIs s node (some p) = false
    · simp only [if_pos hpi]
      rfl
    simp only [if_neg hpi]
    have hcases : (node = (s.node p).left ∧ node ≠ (s.node p).right) ∨
        (node = (s.node p).right ∧ node ≠ (s.node p).left) ∨
        (node = (s.node p).left ∧ node = (s.node p).right ∧ node = none) := by
      cases node with
      | none =>
        by_cases e1 : (s.node p).left = none
        · by_cases e2 : (s.node p).right = none
          · exact Or.inr (Or.inr ⟨e1.symm, e2.symm, rfl⟩)
          · exact Or.inl ⟨e1.symm, fun e => e2 e.symm⟩
        · rcases ha with e | e
          · exact absurd e e1
          · exact Or.inr (Or.inl ⟨e.symm, fun e' => e1 e'.symm⟩)
      | some n =>
        rcases ha with e | e
        · exact Or.inl ⟨e.symm, Ne.symm (hL n e).2⟩
        · exact Or.inr (Or.inl ⟨e.symm, Ne.symm (hR n e).2⟩)
    rcases hcases with ⟨hA, hB⟩ | ⟨hA, hB⟩ | ⟨hA, hB, hC⟩
    · simp only [if_pos hA, if_neg hB]
      rcases hsb : (s.node p).right with _ | sb
      · rfl
      have hsbm := (hR sb hsb).1
      simp only
      have ec : (!IsRed s (s.node sb).right && !IsRed s (s.node sb).left) =
          (!IsRed s (s.node sb).left && !IsRed s (s.node sb).right) := Bool.and_comm _ _
      simp only [ec]
      by_cases h1 : IsRed s (some sb) = true
      · simp only [if_pos h1]
        by_cases hb : IsBlack s (some p) = false
        · simp only [if_pos hb]
          rfl
        simp only [if_neg hb]
        rw [RotateRight_mirror h hpm]
        apply bind_map_mirror
        intro s1 e1
        rw [SetColor_mirror]
        apply bind_map_mirror
        intro s2 e2
        rw [SetColor_mirror]
        apply bind_map_mirror
        intro s3 e3
        rfl
      simp only [if_neg h1]
      by_cases h2 : (!IsRed s (s.node sb).left && !IsRed s (s.node sb).right) = true
      · simp only [if_pos h2]
        rw [SetColor_mirror]
        apply bind_map_mirror
        intro s1 e1
        rfl
      simp only [if_neg h2]
      by_cases h3 : IsBlack s (s.node sb).right = true
      · simp only [if_pos h3]
        by_cases h4 : IsRed s (s.node sb).left = false
        · simp only [if_pos h4]
          rfl
        simp only [if_neg h4]
        rw [SetColor_mirror]
        apply bind_map_mirror
        intro s1 e1
        obtain ⟨t1, o1, i1⟩ := owns_SetColor h e1
        simp only [mirror_node_left, mirror_node_right]
        rw [SetColor_mirror]
        apply bind_map_mirror
        intro s2 e2
        obtain ⟨t2, o2, i2⟩ := owns_SetColor o1 e2
        rw [RotateLeft_mirror o2 ((i2 sb).mpr ((i1 sb).mpr hsbm))]
        apply bind_map_mirror
        intro s3 e3
        rfl
      simp only [if_neg h3]
      rw [SetColor_mirror]
      apply bind_map_mirror
      intro s1 e1
      obtain ⟨t1, o1, i1⟩ := owns_SetColor h e1
      rw [SetColor_mirror]
      apply bind_map_mirror
      intro s2 e2
      obtain ⟨t2, o2, i2⟩ := owns_SetColor o1 e2
      simp only [mirror_node_left, mirror_node_right]
      rw [SetColor_mirror]
      apply bind_map_mirror
      intro s3 e3
      obtain ⟨t3, o3, i3⟩ := owns_SetColor o2 e3
      rw [RotateRight_mirror o3 ((i3 p).mpr ((i2 p).mpr ((i1 p).mpr hpm)))]
      apply bind_map_mirror
      intro s4 e4
      rfl
    · simp only [if_pos hA, if_neg hB]
      rcases hsb : (s.node p).left with _ | sb
      · rfl
      have hsbm := (hL sb hsb).1
      simp only
      have ec : (!IsRed s (s.node sb).right && !IsRed s (s.node sb).left) =
          (!IsRed s (s.node sb).left && !IsRed s (s.node sb).right) := Bool.and_comm _ _
      simp only [ec]
      by_cases h1 : IsRed s (some sb) = true
      · simp only [if_pos h1]
        by_cases hb : IsBlack s (some p) = false
        · simp only [if_pos hb]
          rfl
        simp only [if_neg hb]
        rw [RotateLeft_mirror h hpm]
        apply bind_map_mirror
        intro s1 e1
        rw [SetColor_mirror]
        apply bind_map_mirror
        intro s2 e2
        rw [SetColor_mirror]
        apply bind_map_mirror
        intro s3 e3
        rfl
      simp only [if_neg h1]
      by_cases h2 : (!IsRed s (s.node sb).left && !IsRed s (s.node sb).right) = true
      · simp only [if_pos h2]
        rw [SetColor_mirror]
        apply bind_map_mirror
        intro s1 e1
        rfl
      simp only [if_neg h2]
      by_cases h3 : IsBlack s (s.node sb).left = true
      · simp only [if_pos h3]
        by_cases h4 : IsRed s (s.node sb).right = false
        · simp only [if_pos h4]
          rfl
        simp only [if_neg h4]
        rw [SetColor_mirror]
        apply bind_map_mirror
        intro s1 e1
        obtain ⟨t1, o1, i1⟩ := owns_SetColor h e1
        simp only [mirror_node_left, mirror_node_right]
        rw [SetColor_mirror]
        apply bind_map_mirror
        intro s2 e2
        obtain ⟨t2, o2, i2⟩ := owns_SetColor o1 e2
        rw [RotateRight_mirror o2 ((i2 sb).mpr ((i1 sb).mpr hsbm))]
        apply bind_map_mirror
        intro s3 e3
        rfl
      simp only [if_neg h3]
      rw [SetColor_mirror]
      apply bind_map_mirror
      intro s1 e1
      obtain ⟨t1, o1, i1⟩ := owns_SetColor h e1
      rw [SetColor_mirror]
      apply bind_map_mirror
      intro s2 e2
      obtain ⟨t2, o2, i2⟩ := owns_SetColor o1 e2
      simp only [mirror_node_left, mirror_node_right]
      rw [SetColor_mirror]
      apply bind_map_mirror
      intro s3 e3
      obtain ⟨t3, o3, i3⟩ := owns_SetColor o2 e3
      rw [RotateLeft_mirror o3 ((i3 p).mpr ((i2 p).mpr ((i1 p).mpr hpm)))]
      apply bind_map_mirror
      intro s4 e4
      rfl
    · subst hC
      simp only [if_pos hA, if_pos hB]
      rw [← hA, ← hB]
      rfl

theorem removeBody_next_owns {s : Mem} {t : Tree} {node np : Option Nat} (h : Owns s t)
    (hp : ∀ p, np = some p → p ∈ t.ids) (st' : Option Nat × Option Nat × Mem)
    (e : FixupAfterRemoveBody (node, np, s) = some (LoopStep.next st')) :
    ∃ t', Owns st'.2.2 t' ∧ ∀ p, st'.2.1 = some p → p ∈ t'.ids := by
  unfold FixupAfterRemoveBody at e
  simp only at e
  by_cases hc : (node = none ∨ IsBlack s node = true) ∧ node ≠ s.rb_node
  swap
  · simp only [if_neg hc, Option.some.injEq] at e
    cases e
  simp only [if_pos hc] at e
  cases np with
  | none => cases e
  | some p =>
    have hpm := hp p rfl
    obtain ⟨hL, hR⟩ := child_mem h hpm
    simp only at e
    by_cases ha : (s.node p).left = node ∨ (s.node p).right = node
    swap
    · simp only [if_pos ha] at e
      cases e
    simp only [if_neg (not_not.mpr ha)] at e
    by_cases hpi : parentIs s node (some p) = false
    · simp only [if_pos hpi] at e
      cases e
    simp only [if_neg hpi] at e
    by_cases hl : node = (s.node p).left
    · simp only [if_pos hl] at e
      rcases hsb : (s.node p).right with _ | sb
      · rw [hsb] at e
        cases e
      have hsbm := (hR sb hsb).1
      rw [hsb] at e
      simp only at e
      by_cases h1 : IsRed s (some sb) = true
      · simp only [if_pos h1] at e
        by_cases hb : IsBlack s (some p) = false
        · simp only [if_pos hb] at e
          cases e
        simp only [if_neg hb, Option.bind_eq_some, Option.some.injEq,
          LoopStep.next.injEq] at e
        obtain ⟨s1, e1, s2, e2, s3, e3, rfl⟩ := e
        obtain ⟨t1, o1, i1⟩ := owns_RotateLeft h hpm e1
        obtain ⟨t2, o2, i2⟩ := owns_SetColor o1 e2
        obtain ⟨t3, o3, i3⟩ := owns_SetColor o2 e3
        refine ⟨t3, o3, ?_⟩
        intro q hq
        cases hq
        exact (i3 p).mpr ((i2 p).mpr ((i1 p).mpr hpm))
      simp only [if_neg h1] at e
      by_cases h2 : (!IsRed s (s.node sb).left && !IsRed s (s.node sb).right) = true
      · simp only [if_pos h2, Option.bind_eq_some, Option.some.injEq,
          LoopStep.next.injEq] at e
        obtain ⟨s1, e1, rfl⟩ := e
        obtain ⟨t1, o1, i1⟩ := owns_SetColor h e1
        refine ⟨t1, o1, ?_⟩
        intro q hq
        exact (parent_child o1 ((i1 p).mpr hpm) hq).1
      simp only [if_neg h2] at e
      by_cases h3 : IsBlack s (s.node sb).right = true
      · simp only [if_pos h3] at e
        by_cases h4 : IsRed s (s.node sb).left = false
        · simp only [if_pos h4] at e
          cases e
        simp only [if_neg h4, Option.bind_eq_some, Option.some.injEq,
          LoopStep.next.injEq] at e
        obtain ⟨s1, e1, s2, e2, s3, e3, rfl⟩ := e
        obtain ⟨t1, o1, i1⟩ := owns_SetColor h e1
        obtain ⟨t2, o2, i2⟩ := owns_SetColor o1 e2
        obtain ⟨t3, o3, i3⟩ := owns_RotateRight o2 ((i2 sb).mpr ((i1 sb).mpr hsbm)) e3
        refine ⟨t3, o3, ?_⟩
        intro q hq
        cases hq
        exact (i3 p).mpr ((i2 p).mpr ((i1 p).mpr hpm))
      simp only [if_neg h3, Option.bind_eq_some, Option.some.injEq] at e
      obtain ⟨s1, e1, s2, e2, s3, e3, s4, e4, e5⟩ := e
      cases e5
    · simp only [if_neg hl] at e
      rcases hsb : (s.node p).left with _ | sb
      · rw [hsb] at e
        cases e
      have hsbm := (hL sb hsb).1
      rw [hsb] at e
      simp only at e
      by_cases h1 : IsRed s (some sb) = true
      · simp only [if_pos h1] at e
        by_cases hb : IsBlack s (some p) = false
        · simp only [if_pos hb] at e
          cases e
        simp only [if_neg hb, Option.bind_eq_some, Option.some.injEq,
          LoopStep.next.injEq] at e
        obtain ⟨s1, e1, s2, e2, s3, e3, rfl⟩ := e
        obtain ⟨t1, o1, i1⟩ := owns_RotateRight h hpm e1
        obtain ⟨t2, o2, i2⟩ := owns_SetColor o1 e2
        obtain ⟨t3, o3, i3⟩ := owns_SetColor o2 e3
        refine ⟨t3, o3, ?_⟩
        intro q hq
        cases hq
        exact (i3 p).mpr ((i2 p).mpr ((i1 p).mpr hpm))
      simp only [if_neg h1] at e
      by_cases h2 : (!IsRed s (s.node sb).left && !IsRed s (s.node sb).right) = true
      · simp only [if_pos h2, Option.bind_eq_some, Option.some.injEq,
          LoopStep.next.injEq] at e
        obtain ⟨s1, e1, rfl⟩ := e
        obtain ⟨t1, o1, i1⟩ := owns_SetColor h e1
        refine ⟨t1, o1, ?_⟩
        intro q hq
        exact (parent_child o1 ((i1 p).mpr hpm) hq).1
      simp only [if_neg h2] at e
      by_cases h3 : IsBlack s (s.node sb).left = true
      · simp only [if_pos h3] at e
        by_cases h4 : IsRed s (s.node sb).right = false
        · simp only [if_pos h4] at e
          cases e
        simp only [if_neg h4, Option.bind_eq_some, Option.some.injEq,
          LoopStep.next.injEq] at e
        obtain ⟨s1, e1, s2, e2, s3, e3, rfl⟩ := e
        obtain ⟨t1, o1, i1⟩ := owns_SetColor h e1
        obtain ⟨t2, o2, i2⟩ := owns_SetColor o1 e2
        obtain ⟨t3, o3, i3⟩ := owns_RotateLeft o2 ((i2 sb).mpr ((i1 sb).mpr hsbm)) e3
        refine ⟨t3, o3, ?_⟩
        intro q hq
        cases hq
        exact (i3 p).mpr ((i2 p).mpr ((i1 p).mpr hpm))
      simp only [if_neg h3, Option.bind_eq_some, Option.some.injEq] at e
      obtain ⟨s1, e1, s2, e2, s3, e3, s4, e4, e5⟩ := e
      cases e5

theorem iterate_remove_mirror (fuel : Nat) : ∀ (node np : Option Nat) (s : Mem) (t : Tree),
    Owns s t → (∀ p, np = some p → p ∈ t.ids) →
    iterate FixupAfterRemoveBody fuel (node, np, s.mirror) =
      (iterate FixupAfterRemoveBody fuel (node, np, s)).map mirrorRemoveState := by
  induction fuel with
  | zero => intro _ _ _ _ _ _; rfl
  | succ fuel ih =>
    intro node np s t h hp
    simp only [iterate]
    rw [removeBody_mirror h hp]
    cases e : FixupAfterRemoveBody (node, np, s) with
    | none => rfl
    | some st =>
      cases st with
      | next y =>
        obtain ⟨t1, o1, i1⟩ := removeBody_next_owns h hp y e
        simp only [Option.map_some', LoopStep.map, mirrorRemoveState]
        exact ih y.1 y.2.1 y.2.2 t1 o1 i1
      | done y => rfl

theorem FixupAfterRemove_mirror (fuel : Nat) (node np : Option Nat) (s : Mem) (t : Tree)
    (h : Owns s t) (hp : ∀ p, np = some p → p ∈ t.ids) :
    FixupAfterRemove fuel node np s.mirror =
      (FixupAfterRemove fuel node np s).map Mem.mirror := by
  simp only [FixupAfterRemove]
  rw [iterate_remove_mirror fuel node np s t h hp]
  cases iterate FixupAfterRemoveBody fuel (node, np, s) with
  | none => rfl
  | some st =>
    simp only [Option.map_some', mirrorRemoveState]
    cases st.1 with
    | none => rfl
    | some a => simp only [SetColor_mirror]

theorem chainMem_owns : Owns chainMem chainTree := by
  refine ⟨rfl, ?_, by decide⟩
  simp [chainTree, chainMem, Tree.Rep]

/-- C23: on a well-formed tree, `FixupAfterInsert(node)` for a node of the tree gives on
the mirror image of the memory the mirror image of what it gives on the memory itself,
and so does `FixupAfterRemove(node, node_parent)` for any `node` and a `node_parent` that
is `NULL` or a node of the tree: the two calls return or fail together, and when they
return, the memory left by the one is the mirror image of the memory left by the other.
The mirror image exchanges the `left` and `right` fields of every record and keeps the
parents, the colours and the root handle. -/
theorem C23_fixups_commute_with_mirror (s : Mem) (t : Tree) (hown : Owns s t) :
    (∀ node fuel, node ∈ t.ids →
      FixupAfterInsert fuel (some node) s.mirror =
        (FixupAfterInsert fuel (some node) s).map Mem.mirror) ∧
    (∀ node node_parent fuel, (∀ p, node_parent = some p → p ∈ t.ids) →
      FixupAfterRemove fuel node node_parent s.mirror =
        (FixupAfterRemove fuel node node_parent s).map Mem.mirror) :=
  ⟨fun node fuel hn => FixupAfterInsert_mirror fuel node s t hown hn,
    fun node np fuel hp => FixupAfterRemove_mirror fuel node np s t hown hp⟩

theorem C23_fixups_commute_with_mirror_witness :
    Owns chainMem chainTree ∧
    (∃ s', FixupAfterInsert 2 (some 4) chainMem = some s' ∧
      FixupAfterInsert 2 (some 4) chainMem.mirror = some s'.mirror) ∧
    (∃ s', FixupAfterRemove 2 none (some 0) chainMem = some s' ∧
      FixupAfterRemove 2 none (some 0) chainMem.mirror = some s'.mirror) := by
  have h := C23_fixups_commute_with_mirror chainMem chainTree chainMem_owns
  refine ⟨chainMem_owns, ?_, ?_⟩
  · have e : ∃ s', FixupAfterInsert 2 (some 4) chainMem = some s' := ⟨_, rfl⟩
    obtain ⟨s', e⟩ := e
    exact ⟨s', e, by rw [h.1 4 2 (by decide), e]; rfl⟩
  · have e : ∃ s', FixupAfterRemove 2 none (some 0) chainMem = some s' := ⟨_, rfl⟩
    obtain ⟨s', e⟩ := e
    exact ⟨s', e, by rw [h.2 none (some 0) 2 (by intro p hp; cases hp; decide), e]; rfl⟩

theorem sharedChild_reach {p : Nat} (h : Reach sharedChildMem p) : p = 0 ∨ p = 1 := by
  induction h with
  | root r hr =>
    left
    simpa [sharedChildMem] using hr.symm
  | left p c _ hc ih =>
    rcases ih with rfl | rfl
    · right
      simpa [sharedChildMem] using hc.symm
    · simp [sharedChildMem] at hc
  | right p c _ hc ih =>
    rcases ih with rfl | rfl
    · right
      simpa [sharedChildMem] using hc.symm
    · simp [sharedChildMem] at hc

/-- Link symmetry alone does not make a memory a tree, and on a memory that is not a tree
a rotation does not keep it: in `sharedChildMem` the root has no parent and every child
of a reachable record points back to it, yet after `RotateLeft(0)` the record `0` is
reachable and still has the left child `1`, whose parent field is now `NULL`. -/
theorem linkSym_needs_tree :
    LinkSym sharedChildMem ∧
    ∃ s', RotateLeft (some 0) sharedChildMem = some s' ∧ ¬ LinkSym s' := by
  constructor
  · constructor
    · intro r hr
      have : r = 0 := by simpa [sharedChildMem] using hr.symm
      subst this
      rfl
    · intro p hp
      rcases sharedChild_reach hp with rfl | rfl
      · constructor <;>
        · intro c hc
          have : c = 1 := by simpa [sharedChildMem] using hc.symm
          subst this
          rfl
      · constructor <;>
        · intro c hc
          simp [sharedChildMem] at hc
  · have e : ∃ s', RotateLeft (some 0) sharedChildMem = some s' ∧ s'.rb_node = some 1 ∧
        (s'.node 1).left = some 0 ∧ (s'.node 0).left = some 1 ∧
        (s'.node 1).parent = none := ⟨_, rfl, rfl, rfl, rfl, rfl⟩
    obtain ⟨s', e, h1, h2, h3, h4⟩ := e
    refine ⟨s', e, ?_⟩
    intro hl
    have := (hl.2 0 (Reach.left 1 0 (Reach.root 1 h1) h2)).1 1 h3
    rw [h4] at this
    cases this

end MyRbTree
